import Mathlib

/-!
# Wide (SIMD) bounding volume hierarchy of fcpw

A shallow embedding of `src/accelerators/bvh_simd.inl` and
`src/accelerators/bvh_simd_common.h` (the three-dimensional specialisations), followed by
theorems about the wide-tree builder and the closest-point traversal.

Modelling conventions.
* `float` values are exact rationals; `int` values are integers; the template width `W` is a
  natural number.
* Division is the exact division of the rationals, with `x / 0 = 0` where the floating-point
  division gives an infinity or a NaN; in `simdTriPoint2` a divisor is zero only for a triangle
  whose vertices lie on one line.
* A `W`-wide register or a `W`-element lane array is a function from the lane number to its
  content; only the lanes below `W` are meaningful.
* An index into a `std::vector` that is out of range is the fault `Fault.outOfBounds`.
* Loops that are not bounded by their own counters take a fuel argument.
-/

set_option autoImplicit false

namespace Fcpw

/-! ## Scalars and vectors -/

/-- Faults of the embedded code: the two `LOG(FATAL)` exits of `build`, an out-of-range
`std::vector` access, and fuel exhaustion of an embedded loop. -/
inductive Fault where
  | invalidWidth
  | tempCounterOutOfBounds
  | outOfBounds
  | outOfFuel
deriving DecidableEq, Repr

/-- Equality of results is decidable, so that closed runs can be evaluated. -/
instance instDecidableEqResult {ε α : Type} [DecidableEq ε] [DecidableEq α] :
    DecidableEq (Except ε α) := fun a b =>
  match a, b with
  | .ok x, .ok y =>
    if h : x = y then isTrue (by rw [h]) else isFalse (fun h1 => by cases h1; exact h rfl)
  | .error x, .error y =>
    if h : x = y then isTrue (by rw [h]) else isFalse (fun h1 => by cases h1; exact h rfl)
  | .ok _, .error _ => isFalse (fun h1 => by cases h1)
  | .error _, .ok _ => isFalse (fun h1 => by cases h1)

/-- Reads `xs[i]` for a C++ `int` index. -/
def getI? {α : Type} (xs : List α) (i : Int) : Option α :=
  if 0 ≤ i then xs[i.toNat]? else none

/-- Reads `xs[i]`, faulting when `i` is out of range. -/
def readI {α : Type} (xs : List α) (i : Int) : Except Fault α :=
  match getI? xs i with
  | some a => .ok a
  | none => .error .outOfBounds

/-- Writes `xs[i] = a` for an index already known to be readable. -/
def writeI {α : Type} (xs : List α) (i : Int) (a : α) : List α :=
  xs.set i.toNat a

/-- Lane update `v[i] = a` of a lane array. -/
def setLane {α : Type} (v : Nat → α) (i : Nat) (a : α) : Nat → α :=
  fun j => if j = i then a else v j

/-- The type `Vector<3>`. -/
structure Vector3 where
  x : ℚ
  y : ℚ
  z : ℚ
deriving DecidableEq, Repr

namespace Vector3

/-- The zero vector `Vector<3>()`. -/
def zero : Vector3 := ⟨0, 0, 0⟩

/-- Component access `v(j)`. -/
def get (v : Vector3) (j : Fin 3) : ℚ :=
  match j with
  | 0 => v.x
  | 1 => v.y
  | 2 => v.z

/-- Squared Euclidean distance between two points. -/
def dist2 (p q : Vector3) : ℚ :=
  (p.x - q.x) * (p.x - q.x) + (p.y - q.y) * (p.y - q.y) + (p.z - q.z) * (p.z - q.z)

end Vector3

/-- The type `BoundingBox<3>`: the two corners. -/
structure BoundingBox where
  pMin : Vector3
  pMax : Vector3
deriving DecidableEq, Repr

/-- Modelled from the spec: `BoundingBox::centroid` is declared outside the given sources; the
centroid of a box is the midpoint of its corners. -/
def BoundingBox.centroid (b : BoundingBox) : Vector3 :=
  ⟨(b.pMin.x + b.pMax.x) / 2, (b.pMin.y + b.pMax.y) / 2, (b.pMin.z + b.pMax.z) / 2⟩

/-- Modelled from the spec: the sentinel `maxFloat` (the max-float distance used as "no result")
is declared outside the given sources; it is the largest finite single-precision value. -/
def maxFloat : ℚ := 340282346638528859811704183484516925440

/-- Modelled from the spec: `minFloat`, the lower bound a root work item is seeded with, is
declared outside the given sources; it is the lowest finite single-precision value. -/
def minFloat : ℚ := -340282346638528859811704183484516925440

/-! ## SIMD values -/

/-- The type `simdFloat<W>`: one scalar per lane. -/
abbrev SimdFloat := Nat → ℚ

/-- The type `simdBool<W>`: one flag per lane. -/
abbrev SimdBool := Nat → Bool

/-- The type `embree::Vec3<simdFloat<W>>`: three registers, one per axis. -/
structure SimdVec3 where
  x : SimdFloat
  y : SimdFloat
  z : SimdFloat

namespace SimdVec3

/-- Three zero registers `Vec3(vecZero, vecZero, vecZero)`. -/
def zero : SimdVec3 := ⟨fun _ => 0, fun _ => 0, fun _ => 0⟩

/-- The broadcast of one point to all lanes. -/
def broadcast (p : Vector3) : SimdVec3 := ⟨fun _ => p.x, fun _ => p.y, fun _ => p.z⟩

/-- The content of one lane. -/
def lane (v : SimdVec3) (j : Nat) : Vector3 := ⟨v.x j, v.y j, v.z j⟩

/-- Stores the point `p` in lane `i`, axis by axis. -/
def setLane (v : SimdVec3) (i : Nat) (p : Vector3) : SimdVec3 :=
  ⟨Fcpw.setLane v.x i p.x, Fcpw.setLane v.y i p.y, Fcpw.setLane v.z i p.z⟩

/-- Lane-wise `a + b`. -/
def add (a b : SimdVec3) : SimdVec3 :=
  ⟨fun j => a.x j + b.x j, fun j => a.y j + b.y j, fun j => a.z j + b.z j⟩

/-- Lane-wise `a - b`. -/
def sub (a b : SimdVec3) : SimdVec3 :=
  ⟨fun j => a.x j - b.x j, fun j => a.y j - b.y j, fun j => a.z j - b.z j⟩

/-- Lane-wise `s * v` for a scalar register `s`. -/
def smul (s : SimdFloat) (v : SimdVec3) : SimdVec3 :=
  ⟨fun j => s j * v.x j, fun j => s j * v.y j, fun j => s j * v.z j⟩

/-- Lane-wise component maximum `max(a, b)`. -/
def max (a b : SimdVec3) : SimdVec3 :=
  ⟨fun j => Max.max (a.x j) (b.x j), fun j => Max.max (a.y j) (b.y j),
    fun j => Max.max (a.z j) (b.z j)⟩

/-- Lane-wise `dot(a, b)`. -/
def dot (a b : SimdVec3) : SimdFloat :=
  fun j => a.x j * b.x j + a.y j * b.y j + a.z j * b.z j

/-- Lane-wise `length2(a)`. -/
def length2 (a : SimdVec3) : SimdFloat := dot a a

/-- Lane-wise `select(m, a, b)`: lane of `a` where the mask is set, else lane of `b`. -/
def select (m : SimdBool) (a b : SimdVec3) : SimdVec3 :=
  ⟨fun j => if m j then a.x j else b.x j, fun j => if m j then a.y j else b.y j,
    fun j => if m j then a.z j else b.z j⟩

end SimdVec3

/-- The reduction `all(m)` over the `W` lanes of a mask. -/
def simdAll (W : Nat) (m : SimdBool) : Bool := (List.range W).all m

/-! ## Data model -/

/-- Binary flat node `BvhFlatNode<3>`: box, reference range, offset of the right child. -/
structure BvhFlatNode where
  bbox : BoundingBox
  start : Int
  nPrimitives : Int
  rightOffset : Int
deriving DecidableEq, Repr

/-- Entry of the reference table `ReferenceWrapper<3>`; `build` reads only the primitive index. -/
structure ReferenceWrapper where
  index : Int
deriving DecidableEq, Repr

/-- Triangle primitive: its three vertex positions, as `Triangle::getVertices` reports them. -/
structure Triangle where
  a : Vector3
  b : Vector3
  c : Vector3
deriving DecidableEq, Repr

/-- The vertex list filled by `getVertices`. -/
def Triangle.getVertices (t : Triangle) (k : Fin 3) : Vector3 :=
  match k with
  | 0 => t.a
  | 1 => t.b
  | 2 => t.c

/-- Wide node `BvhSimdFlatNode<3, W>`. `boxes 0` holds the minimum corners and `boxes 1` the
maximum corners of the children, one child per lane. -/
structure BvhSimdFlatNode where
  boxes : Fin 2 → SimdVec3
  indices : Nat → Int
  centroid : Vector3
  sortOrder : Fin 3 → Nat → Nat
  isLeaf : Nat → Bool

/-- The constructor `BvhSimdFlatNode()`: zero boxes, every lane padding, identity order. -/
def BvhSimdFlatNode.new : BvhSimdFlatNode where
  boxes := fun _ => SimdVec3.zero
  indices := fun _ => -1
  centroid := Vector3.zero
  sortOrder := fun _ j => j
  isLeaf := fun _ => false

/-- The method `addBounds`: stores a box in lane `index`. -/
def BvhSimdFlatNode.addBounds (node : BvhSimdFlatNode) (pMin pMax : Vector3) (index : Nat) :
    BvhSimdFlatNode :=
  { node with
    boxes := fun s => if s = 0 then (node.boxes 0).setLane index pMin
                      else (node.boxes 1).setLane index pMax }

/-- Wide leaf `BvhSimdLeafNode<3, W>`: `triangles k` holds vertex `k` of every lane. -/
structure BvhSimdLeafNode where
  triangles : Fin 3 → SimdVec3
  indices : Nat → Int

/-- The method `initPoints`: `pointCoords[k][axis][lane]` becomes `triangles[k]`. -/
def BvhSimdLeafNode.initPoints (leaf : BvhSimdLeafNode) (pointCoords : Fin 3 → Fin 3 → Nat → ℚ) :
    BvhSimdLeafNode :=
  { leaf with
    triangles := fun k => ⟨pointCoords k 0, pointCoords k 1, pointCoords k 2⟩ }

/-- Outer work item `BvhSimdBuildNode`. -/
structure BvhSimdBuildNode where
  nodeIndex : Int
  parentIndex : Int
  depth : Int
deriving DecidableEq, Repr

/-- Inner work item `BvhTraversalDepth`: a binary node and its depth below the job's node. -/
structure BvhTraversalDepth where
  i : Int
  depth : Int
deriving DecidableEq, Repr

/-! ## The builder `BvhSimd::build` -/

/-- The ternary at the head of `build`: levels of the binary tree folded into one wide node. -/
def maxDepthOf (W : Nat) : Int :=
  if W = 4 then 2 else if W = 8 then 3 else if W = 16 then 4 else 0

/-- The locals and members `build` works on, apart from the two worklists. -/
structure BuildState where
  buildNodes : List BvhSimdFlatNode
  buildLeaves : List BvhSimdLeafNode
  nNodes : Int
  nLeaves : Int
  depth : Int
  averageLeafSize : ℚ

/-- The free-slot search `while(parentNode.indices[tempCounter] != -1)`. The first argument is
`W - 1 - tempCounter`: when it is `0` an increment makes `tempCounter >= W` and the fatal branch
is taken. -/
def slotSearch (indices : Nat → Int) : Nat → Nat → Except Fault Nat
  | 0, tempCounter =>
    if indices tempCounter ≠ -1 then .error .tempCounterOutOfBounds else .ok tempCounter
  | r + 1, tempCounter =>
    if indices tempCounter ≠ -1 then slotSearch indices r (tempCounter + 1) else .ok tempCounter

/-- The locals of the leaf packing loop: the lane indices of the new leaf and `tripoints`. -/
structure LeafFill where
  indices : Nat → Int
  tripoints : Fin 3 → Fin 3 → Nat → ℚ

/-- One iteration `i` of the leaf packing loop `for(int i = 0; i < W; i++)`. -/
def packLane (curNode : BvhFlatNode) (references : List ReferenceWrapper)
    (primitives : List Triangle) (i : Nat) (acc : LeafFill) : Except Fault LeafFill :=
  -- if in node with less than vector width amount of primitives, fill rest with null info
  if (i : Int) ≥ curNode.nPrimitives then
    .ok { indices := setLane acc.indices i (-1)
          tripoints := fun k j => setLane (acc.tripoints k j) i 0 }
  else
    match readI references (curNode.start + i) with
    | .error e => .error e
    | .ok ref =>
      match readI primitives ref.index with
      | .error e => .error e
      | .ok primitive =>
        .ok { indices := setLane acc.indices i ref.index
              tripoints := fun k j =>
                setLane (acc.tripoints k j) i ((primitive.getVertices k).get j) }

/-- The leaf packing loop from lane `i` on; the first argument is `W - i`. -/
def packLanes (curNode : BvhFlatNode) (references : List ReferenceWrapper)
    (primitives : List Triangle) : Nat → Nat → LeafFill → Except Fault LeafFill
  | 0, _, acc => .ok acc
  | r + 1, i, acc =>
    match packLane curNode references primitives i acc with
    | .error e => .error e
    | .ok acc => packLanes curNode references primitives r (i + 1) acc

/-- The new wide leaf of a binary leaf: the packing loop followed by `initPoints`. The locals
`leafNode.indices` and `tripoints` start out unset; every lane below `W` is written. -/
def packLeaf (W : Nat) (curNode : BvhFlatNode) (references : List ReferenceWrapper)
    (primitives : List Triangle) : Except Fault BvhSimdLeafNode :=
  match packLanes curNode references primitives W 0
      { indices := fun _ => 0, tripoints := fun _ _ _ => 0 } with
  | .error e => .error e
  | .ok acc =>
    .ok (BvhSimdLeafNode.initPoints
      { triangles := fun _ => SimdVec3.zero, indices := acc.indices } acc.tripoints)

/-- The inner worklist loop `while(!nodeWorkingSet.empty())`: it expands the binary subtree of
the job and pushes the enumerated nodes on `todo`. Stacks are lists with the top in front. -/
def expand (maxDepth : Int) (nodes : List BvhFlatNode) (simdTreeIndex toBuildDepth : Int) :
    Nat → List BvhTraversalDepth → List BvhSimdBuildNode → Except Fault (List BvhSimdBuildNode)
  | _, [], todo => .ok todo
  | 0, _ :: _, _ => .error .outOfFuel
  | fuel + 1, traversal :: nodeWorkingSet, todo =>
    let ni := traversal.i
    let d := traversal.depth
    if d < maxDepth then
      match readI nodes ni with
      | .error e => .error e
      | .ok n =>
        if n.rightOffset ≠ 0 then
          expand maxDepth nodes simdTreeIndex toBuildDepth fuel
            (⟨ni + n.rightOffset, d + 1⟩ :: ⟨ni + 1, d + 1⟩ :: nodeWorkingSet) todo
        else
          expand maxDepth nodes simdTreeIndex toBuildDepth fuel nodeWorkingSet
            (⟨ni, simdTreeIndex, toBuildDepth + 1⟩ :: todo)
    else
      expand maxDepth nodes simdTreeIndex toBuildDepth fuel nodeWorkingSet
        (⟨ni, simdTreeIndex, toBuildDepth + 1⟩ :: todo)

/-- The first half of one iteration of the outer loop, for the popped job `toBuild`: node
allocation, slot search, `addBounds`, leaf packing and linking. It returns the new state and
`simdTreeIndex`, or `none` for the index when the iteration ends with `continue`. -/
def processJob (W : Nat) (nodes : List BvhFlatNode) (references : List ReferenceWrapper)
    (primitives : List Triangle) (toBuild : BvhSimdBuildNode) (st : BuildState) :
    Except Fault (BuildState × Option Int) :=
  let nodeIndex := toBuild.nodeIndex
  let parentIndex := toBuild.parentIndex
  let st := { st with depth := if st.depth < toBuild.depth then toBuild.depth else st.depth }
  match readI nodes nodeIndex with
  | .error e => .error e
  | .ok curNode =>
    -- construct a new flattened tree node
    let st :=
      if parentIndex = -1 ∨ curNode.rightOffset ≠ 0 then
        { st with
          buildNodes :=
            st.buildNodes ++ [{ BvhSimdFlatNode.new with centroid := curNode.bbox.centroid }]
          nNodes := st.nNodes + 1 }
      else st
    let simdTreeIndex : Int := (st.buildNodes.length : Int) - 1
    -- fill node with data (if not root node)
    if parentIndex ≠ -1 then
      match readI st.buildNodes parentIndex with
      | .error e => .error e
      | .ok parentNode =>
        match slotSearch parentNode.indices (W - 1) 0 with
        | .error e => .error e
        | .ok tempCounter =>
          let bbox := curNode.bbox
          -- fill bbox data in node
          let parentNode := parentNode.addBounds bbox.pMin bbox.pMax tempCounter
          -- connect popped off node to associated build node
          if curNode.rightOffset = 0 then
            -- if node is leaf, construct the parallel leaf, link and move on
            match packLeaf W curNode references primitives with
            | .error e => .error e
            | .ok leafNode =>
              let buildLeaves := st.buildLeaves ++ [leafNode]
              let parentNode :=
                { parentNode with
                  indices :=
                    setLane parentNode.indices tempCounter ((buildLeaves.length : Int) - 1)
                  isLeaf := setLane parentNode.isLeaf tempCounter true }
              .ok ({ st with
                      buildNodes := writeI st.buildNodes parentIndex parentNode
                      buildLeaves := buildLeaves
                      nLeaves := st.nLeaves + 1
                      averageLeafSize := st.averageLeafSize + (curNode.nPrimitives : ℚ) }, none)
          else
            -- link interior node to parent node
            let parentNode :=
              { parentNode with
                indices := setLane parentNode.indices tempCounter simdTreeIndex
                isLeaf := setLane parentNode.isLeaf tempCounter false }
            .ok ({ st with buildNodes := writeI st.buildNodes parentIndex parentNode },
                 some simdTreeIndex)
    else
      .ok (st, some simdTreeIndex)

/-- Fuel of the inner worklist loop: it pops at most `2 ^ (maxDepth + 1) - 1` items. -/
def expandFuel (maxDepth : Int) : Nat := 2 ^ (maxDepth.toNat + 1)

/-- One iteration of the outer loop `while(!todo.empty())` for the popped job `toBuild`; `todo`
is the stack after the pop. -/
def buildStep (W : Nat) (maxDepth : Int) (nodes : List BvhFlatNode)
    (references : List ReferenceWrapper) (primitives : List Triangle)
    (toBuild : BvhSimdBuildNode) (todo : List BvhSimdBuildNode) (st : BuildState) :
    Except Fault (List BvhSimdBuildNode × BuildState) :=
  match processJob W nodes references primitives toBuild st with
  | .error e => .error e
  | .ok (st, none) => .ok (todo, st)
  | .ok (st, some simdTreeIndex) =>
    match expand maxDepth nodes simdTreeIndex toBuild.depth (expandFuel maxDepth)
        [⟨toBuild.nodeIndex, 0⟩] todo with
    | .error e => .error e
    | .ok todo => .ok (todo, st)

/-- The outer loop `while(!todo.empty())`. -/
def buildLoop (W : Nat) (maxDepth : Int) (nodes : List BvhFlatNode)
    (references : List ReferenceWrapper) (primitives : List Triangle) :
    Nat → List BvhSimdBuildNode → BuildState → Except Fault BuildState
  | _, [], st => .ok st
  | 0, _ :: _, _ => .error .outOfFuel
  | fuel + 1, toBuild :: todo, st =>
    match buildStep W maxDepth nodes references primitives toBuild todo st with
    | .error e => .error e
    | .ok (todo, st) => buildLoop W maxDepth nodes references primitives fuel todo st

/-- The members of `BvhSimd<3, W>` that `build` sets. -/
structure BvhSimd where
  nNodes : Int
  nLeaves : Int
  depth : Int
  averageLeafSize : ℚ
  flatTree : List BvhSimdFlatNode
  leaves : List BvhSimdLeafNode

/-- The method `BvhSimd::build`, run on the members as the constructor initialises them. -/
def build (W : Nat) (fuel : Nat) (nodes : List BvhFlatNode) (references : List ReferenceWrapper)
    (primitives : List Triangle) : Except Fault BvhSimd :=
  let maxDepth := maxDepthOf W
  if maxDepth = 0 then .error .invalidWidth
  else
    match buildLoop W maxDepth nodes references primitives fuel [⟨0, -1, 0⟩]
        { buildNodes := [], buildLeaves := [],
          nNodes := 0, nLeaves := 0, depth := 0, averageLeafSize := 0 } with
    | .error e => .error e
    | .ok st =>
      .ok { nNodes := st.nNodes, nLeaves := st.nLeaves, depth := st.depth,
            averageLeafSize := st.averageLeafSize,
            flatTree := st.buildNodes, leaves := st.buildLeaves }

/-- The constructor `BvhSimd::BvhSimd`: the member initialiser `bbox(nodes_[0].bbox)`, the call
of `build`, and `averageLeafSize /= nLeaves`. It returns the member `bbox` with the members that
`build` sets. -/
def BvhSimd.new (W : Nat) (fuel : Nat) (nodes : List BvhFlatNode)
    (references : List ReferenceWrapper) (primitives : List Triangle) :
    Except Fault (BoundingBox × BvhSimd) :=
  match readI nodes 0 with
  | .error e => .error e
  | .ok root =>
    -- build and time build of mbvh
    match build W fuel nodes references primitives with
    | .error e => .error e
    | .ok bvh =>
      -- output mbvh data
      .ok (root.bbox, { bvh with averageLeafSize := bvh.averageLeafSize / (bvh.nLeaves : ℚ) })

/-! ## The closest-point query -/

/-- The type `BoundingSphere<3>`: centre and squared radius of the query. -/
structure BoundingSphere where
  c : Vector3
  r2 : ℚ
deriving DecidableEq, Repr

/-- The type `Interaction<3>`. The pointer `primitive` is `some k` when it points to
`primitives[k]` and `none` when it is null. -/
structure Interaction where
  p : Vector3
  n : Vector3
  d : ℚ
  primitive : Option Int
deriving DecidableEq, Repr

/-- Work item `BvhTraversal` of the query: a wide node and the bound it was enqueued with. -/
structure BvhTraversal where
  i : Int
  d : ℚ
deriving DecidableEq, Repr

/-- The type `SimdBoundingSphere<3, W>`: the query sphere broadcast to all lanes. -/
structure SimdBoundingSphere where
  c : SimdVec3
  r2 : SimdFloat

/-- The constructor `SimdBoundingSphere(BoundingSphere<3>& s)`. -/
def SimdBoundingSphere.ofSphere (s : BoundingSphere) : SimdBoundingSphere where
  c := SimdVec3.broadcast s.c
  r2 := fun _ => s.r2

/-- The type `ParallelOverlapResult<W>`. -/
structure ParallelOverlapResult where
  d2Min : SimdFloat
  d2Max : SimdFloat

/-- The type `ParallelInteraction<3, W>`. -/
structure ParallelInteraction where
  distances : SimdFloat
  points : SimdVec3
  indices : Nat → Int

/-- The function `simdBoxOverlap`: per lane, the squared distances from the point to the nearest
and to the farthest point of the lane's box. -/
def simdBoxOverlap (iPoint : SimdVec3) (iBoxes : Fin 2 → SimdVec3) : SimdFloat × SimdFloat :=
  let closestDistances :=
    SimdVec3.length2
      (SimdVec3.max (SimdVec3.max ((iBoxes 0).sub iPoint) (iPoint.sub (iBoxes 1))) SimdVec3.zero)
  let furthestDistances :=
    SimdVec3.length2 (SimdVec3.max (iPoint.sub (iBoxes 0)) ((iBoxes 1).sub iPoint))
  (closestDistances, furthestDistances)

/-- The three-dimensional overload of `parallelOverlap`. -/
def parallelOverlap (node : BvhSimdFlatNode) (sbs : SimdBoundingSphere) : ParallelOverlapResult :=
  let r := simdBoxOverlap sbs.c node.boxes
  { d2Min := r.1, d2Max := r.2 }

/-- The kernel `simdTriPoint2`: for the triangles of all lanes at once, the closest point to
`iPoint` (second component) and its squared distance (first component). -/
def simdTriPoint2 (W : Nat) (iTri : Fin 3 → SimdVec3) (iPoint : SimdVec3) : SimdFloat × SimdVec3 :=
  -- Check if P in vertex region outside A
  let ab := (iTri 1).sub (iTri 0)
  let ac := (iTri 2).sub (iTri 0)
  let ap := iPoint.sub (iTri 0)
  let d1 := SimdVec3.dot ab ap
  let d2 := SimdVec3.dot ac ap
  let mask1 : SimdBool := fun j => decide (d1 j ≤ 0) && decide (d2 j ≤ 0)
  let oTriPoint := iTri 0
  let exit := mask1
  if simdAll W exit then (SimdVec3.length2 (oTriPoint.sub iPoint), oTriPoint) else
  -- Check if P in vertex region outside B
  let bp := iPoint.sub (iTri 1)
  let d3 := SimdVec3.dot ab bp
  let d4 := SimdVec3.dot ac bp
  let mask2 : SimdBool := fun j => decide (d3 j ≥ 0) && decide (d4 j ≤ d3 j)
  let exit : SimdBool := fun j => exit j || mask2 j
  let oTriPoint := SimdVec3.select mask2 (iTri 1) oTriPoint
  if simdAll W exit then (SimdVec3.length2 (oTriPoint.sub iPoint), oTriPoint) else
  -- Check if P in vertex region outside C
  let cp := iPoint.sub (iTri 2)
  let d5 := SimdVec3.dot ab cp
  let d6 := SimdVec3.dot ac cp
  let mask3 : SimdBool := fun j => decide (d6 j ≥ 0) && decide (d5 j ≤ d6 j)
  let exit : SimdBool := fun j => exit j || mask3 j
  let oTriPoint := SimdVec3.select mask3 (iTri 2) oTriPoint
  if simdAll W exit then (SimdVec3.length2 (oTriPoint.sub iPoint), oTriPoint) else
  -- Check if P in edge region of AB, if so return projection of P onto AB
  let vc : SimdFloat := fun j => d1 j * d4 j - d3 j * d2 j
  let mask4 : SimdBool := fun j => decide (vc j ≤ 0) && decide (d1 j ≥ 0) && decide (d3 j ≤ 0)
  let exit : SimdBool := fun j => exit j || mask4 j
  let v1 : SimdFloat := fun j => d1 j / (d1 j - d3 j)
  let answer1 := (iTri 0).add (SimdVec3.smul v1 ab)
  let oTriPoint := SimdVec3.select mask4 answer1 oTriPoint
  if simdAll W exit then (SimdVec3.length2 (oTriPoint.sub iPoint), oTriPoint) else
  -- Check if P in edge region of AC, if so return projection of P onto AC
  let vb : SimdFloat := fun j => d5 j * d2 j - d1 j * d6 j
  let mask5 : SimdBool := fun j => decide (vb j ≤ 0) && decide (d2 j ≥ 0) && decide (d6 j ≤ 0)
  let exit : SimdBool := fun j => exit j || mask5 j
  let w1 : SimdFloat := fun j => d2 j / (d2 j - d6 j)
  let answer2 := (iTri 0).add (SimdVec3.smul w1 ac)
  let oTriPoint := SimdVec3.select mask5 answer2 oTriPoint
  if simdAll W exit then (SimdVec3.length2 (oTriPoint.sub iPoint), oTriPoint) else
  -- Check if P in edge region of BC, if so return projection of P onto BC
  let va : SimdFloat := fun j => d3 j * d6 j - d5 j * d4 j
  let mask6 : SimdBool := fun j =>
    decide (va j ≤ 0) && decide (d4 j - d3 j ≥ 0) && decide (d5 j - d6 j ≥ 0)
  let exit : SimdBool := fun j => exit j || mask6 j
  let w2 : SimdFloat := fun j => (d4 j - d3 j) / ((d4 j - d3 j) + (d5 j - d6 j))
  let answer3 := (iTri 1).add (SimdVec3.smul w2 ((iTri 2).sub (iTri 1)))
  let oTriPoint := SimdVec3.select mask6 answer3 oTriPoint
  if simdAll W exit then (SimdVec3.length2 (oTriPoint.sub iPoint), oTriPoint) else
  -- P inside face region. Compute Q through its barycentric coordinates (u,v,w)
  let denom : SimdFloat := fun j => 1 / (va j + vb j + vc j)
  let v2 : SimdFloat := fun j => vb j * denom j
  let w3 : SimdFloat := fun j => vc j * denom j
  let answer4 := ((iTri 0).add (SimdVec3.smul v2 ab)).add (SimdVec3.smul w3 ac)
  let mask7 : SimdBool := fun j =>
    !exit j && decide (SimdVec3.length2 (answer4.sub iPoint) j
      < SimdVec3.length2 (oTriPoint.sub iPoint) j)
  let oTriPoint := SimdVec3.select mask7 answer4 oTriPoint
  (SimdVec3.length2 (oTriPoint.sub iPoint), oTriPoint)

/-- The three-dimensional overload of `parallelTriangleClosestPoint`: it fills `distances` and
`points` of the parallel interaction. -/
def parallelTriangleClosestPoint (W : Nat) (node : BvhSimdLeafNode) (s : SimdBoundingSphere)
    (pi : ParallelInteraction) : ParallelInteraction :=
  let r := simdTriPoint2 W node.triangles s.c
  { pi with distances := r.1, points := r.2 }

/-- The loop of `getBest` from lane `i` on; the first argument is `W - i`. The guard
`indices[i] != -1 && i < W` is false at `i = W` whatever is read there. -/
def getBestLoop (pi : ParallelInteraction) : Nat → Nat → ℚ × Vector3 × Int → ℚ × Vector3 × Int
  | 0, _, best => best
  | r + 1, i, best =>
    if pi.indices i ≠ -1 then
      if best.1 > pi.distances i then
        getBestLoop pi r (i + 1) (pi.distances i, pi.points.lane i, pi.indices i)
      else getBestLoop pi r (i + 1) best
    else best

/-- The method `ParallelInteraction<3, W>::getBest`: distance, point and index of the best lane. -/
def getBest (W : Nat) (pi : ParallelInteraction) : ℚ × Vector3 × Int :=
  getBestLoop pi (W - 1) 1 (pi.distances 0, pi.points.lane 0, pi.indices 0)

/-- The function `processLeafNode`. The argument `sqrtF` stands for `std::sqrt`. -/
def processLeafNode (sqrtF : ℚ → ℚ) (W : Nat) (node : BvhSimdFlatNode)
    (leaves : List BvhSimdLeafNode) (sbs : SimdBoundingSphere) (s : BoundingSphere)
    (i : Interaction) (primitives : List Triangle) (index : Nat) :
    Except Fault (BoundingSphere × Interaction) :=
  -- if mbvh leaf, process triangles in parallel
  match readI leaves (node.indices index) with
  | .error e => .error e
  | .ok leafNode =>
    let pi : ParallelInteraction :=
      { distances := fun _ => 0, points := SimdVec3.zero, indices := leafNode.indices }
    -- get closest point to all children in parallel
    let pi := parallelTriangleClosestPoint W leafNode sbs pi
    -- get info of closest point from parallel interaction
    let best := getBest W pi
    let bestDistance := best.1
    let bestPoint := best.2.1
    let bestIndex := best.2.2
    -- if found best closest point beats out previous, update interaction
    if bestIndex ≠ -1 ∧ bestDistance < s.r2 then
      match readI primitives bestIndex with
      | .error e => .error e
      | .ok _ =>
        .ok ({ s with r2 := bestDistance },
             { p := bestPoint, n := Vector3.zero, d := sqrtF bestDistance,
               primitive := some bestIndex })
    else .ok (s, i)

/-- The function `parseOverlap`: the bounds of lane `index` and the shrunk sphere. -/
def parseOverlap (overlap : ParallelOverlapResult) (index : Nat) (s : BoundingSphere) :
    ℚ × ℚ × BoundingSphere :=
  let dMax := overlap.d2Max index
  let dMin := overlap.d2Min index
  -- shorten if box is fully contained in query
  (dMax, dMin, if s.r2 > dMax then { s with r2 := dMax } else s)

/-- The state of one query: the FIFO queue (front first), the sphere and the interaction. -/
structure QueryState where
  todo : List BvhTraversal
  s : BoundingSphere
  i : Interaction
deriving DecidableEq, Repr

/-- The body of the lane loop of `findClosestPoint` for lane `j`: `parseOverlap`, then
`processInteriorNode` or `processLeafNode` when the box is in bounds of the query. -/
def laneStep (sqrtF : ℚ → ℚ) (W : Nat) (node : BvhSimdFlatNode) (leaves : List BvhSimdLeafNode)
    (primitives : List Triangle) (sbs : SimdBoundingSphere) (overlap : ParallelOverlapResult)
    (j : Nat) (q : QueryState) : Except Fault QueryState :=
  let parsed := parseOverlap overlap j q.s
  let dMin := parsed.2.1
  let s := parsed.2.2
  -- only process if box is in bounds of query
  if s.r2 > dMin then
    if !node.isLeaf j then
      -- processInteriorNode: enqueue traversal to this node
      .ok { q with todo := q.todo ++ [⟨node.indices j, dMin⟩], s := s }
    else
      match processLeafNode sqrtF W node leaves sbs s q.i primitives j with
      | .error e => .error e
      | .ok si => .ok { q with s := si.1, i := si.2 }
  else .ok { q with s := s }

/-- The lane loop `for(int j = 0; node.indices[j] != -1 && j < W; j++)` from lane `j` on; the
first argument is `W - j`. The guard is false at `j = W` whatever is read there. -/
def laneLoop (sqrtF : ℚ → ℚ) (W : Nat) (node : BvhSimdFlatNode) (leaves : List BvhSimdLeafNode)
    (primitives : List Triangle) (sbs : SimdBoundingSphere) (overlap : ParallelOverlapResult) :
    Nat → Nat → QueryState → Except Fault QueryState
  | 0, _, q => .ok q
  | r + 1, j, q =>
    if node.indices j ≠ -1 then
      match laneStep sqrtF W node leaves primitives sbs overlap j q with
      | .error e => .error e
      | .ok q => laneLoop sqrtF W node leaves primitives sbs overlap r (j + 1) q
    else .ok q

/-- The body of the loop `while(!todo.empty())` of `findClosestPoint` for the popped work item
`traversal`; `q.todo` is the queue after the pop. -/
def nodeStep (sqrtF : ℚ → ℚ) (W : Nat) (flatTree : List BvhSimdFlatNode)
    (leaves : List BvhSimdLeafNode) (primitives : List Triangle) (sbs : SimdBoundingSphere)
    (traversal : BvhTraversal) (q : QueryState) : Except Fault QueryState :=
  -- parseFlatNode
  let ni := traversal.i
  let near := traversal.d
  match readI flatTree ni with
  | .error e => .error e
  | .ok node =>
    -- skip node if it is outside query radius
    if near > q.s.r2 then .ok q
    else
      -- do overlap test, then process overlapped nodes
      laneLoop sqrtF W node leaves primitives sbs (parallelOverlap node sbs) W 0 q

/-- The loop `while(!todo.empty())` of `findClosestPoint`. -/
def traverse (sqrtF : ℚ → ℚ) (W : Nat) (flatTree : List BvhSimdFlatNode)
    (leaves : List BvhSimdLeafNode) (primitives : List Triangle) (sbs : SimdBoundingSphere) :
    Nat → QueryState → Except Fault QueryState
  | fuel, q =>
    match q.todo with
    | [] => .ok q
    | traversal :: rest =>
      match fuel with
      | 0 => .error .outOfFuel
      | fuel + 1 =>
        match nodeStep sqrtF W flatTree leaves primitives sbs traversal { q with todo := rest } with
        | .error e => .error e
        | .ok q => traverse sqrtF W flatTree leaves primitives sbs fuel q

/-- The method `BvhSimd::findClosestPoint`: the returned flag, the sphere and the interaction
as the call leaves them. -/
def findClosestPoint (sqrtF : ℚ → ℚ) (W : Nat) (fuel : Nat) (bvh : BvhSimd)
    (primitives : List Triangle) (s : BoundingSphere) (i : Interaction) :
    Except Fault (Bool × BoundingSphere × Interaction) :=
  let sbs := SimdBoundingSphere.ofSphere s
  -- enqueue root node
  match traverse sqrtF W bvh.flatTree bvh.leaves primitives sbs fuel
      { todo := [⟨0, minFloat⟩], s := s, i := i } with
  | .error e => .error e
  | .ok q =>
    -- return if we got a closest point
    .ok (decide (q.s.r2 ≠ maxFloat), q.s, q.i)


/-- The body of the inner worklist loop `while(!nodeWorkingSet.empty())` of `build` for the
popped item `traversal`: the inner worklist (top in front) and `todo` after the pass;
`nodeWorkingSet` is the worklist after the pop. -/
def expandStep (maxDepth : Int) (nodes : List BvhFlatNode) (simdTreeIndex toBuildDepth : Int)
    (traversal : BvhTraversalDepth) (nodeWorkingSet : List BvhTraversalDepth)
    (todo : List BvhSimdBuildNode) :
    Except Fault (List BvhTraversalDepth × List BvhSimdBuildNode) :=
  let ni := traversal.i
  let d := traversal.depth
  if d < maxDepth then
    match readI nodes ni with
    | .error e => .error e
    | .ok n =>
      if n.rightOffset ≠ 0 then
        -- node is not leaf and not grandchild, continue down tree
        .ok (⟨ni + n.rightOffset, d + 1⟩ :: ⟨ni + 1, d + 1⟩ :: nodeWorkingSet, todo)
      else
        .ok (nodeWorkingSet, ⟨ni, simdTreeIndex, toBuildDepth + 1⟩ :: todo)
  else
    -- node is grandchild or leaf node (but not grandchild), push onto todo set
    .ok (nodeWorkingSet, ⟨ni, simdTreeIndex, toBuildDepth + 1⟩ :: todo)

/-- The positions at which the guard `node.indices[j] != -1 && j < W` of the lane loop of
`findClosestPoint` reads `node.indices`, in order, from lane `j` on; the first argument is
`W - j`. The guard reads `indices[j]` before it tests `j < W`, also when `j = W`. -/
def laneLoopReads (sqrtF : ℚ → ℚ) (W : Nat) (node : BvhSimdFlatNode)
    (leaves : List BvhSimdLeafNode) (primitives : List Triangle) (sbs : SimdBoundingSphere)
    (overlap : ParallelOverlapResult) : Nat → Nat → QueryState → List Nat
  | 0, j, _ => [j]
  | r + 1, j, q =>
    j :: (if node.indices j ≠ -1 then
      match laneStep sqrtF W node leaves primitives sbs overlap j q with
      | .error _ => []
      | .ok q => laneLoopReads sqrtF W node leaves primitives sbs overlap r (j + 1) q
    else [])

/-- The positions at which the guard `indices[i] != -1 && i < W` of the loop of `getBest` reads
`indices`, in order, from lane `i` on; the first argument is `W - i`. -/
def getBestLoopReads (pi : ParallelInteraction) : Nat → Nat → List Nat
  | 0, i => [i]
  | r + 1, i => i :: (if pi.indices i ≠ -1 then getBestLoopReads pi r (i + 1) else [])

/-- The positions at which `getBest` reads `indices`: position `0` for the initial best, then
the reads of the loop guard. -/
def getBestReads (W : Nat) (pi : ParallelInteraction) : List Nat :=
  0 :: getBestLoopReads pi (W - 1) 1

/-! ## The presorted order of a wide node -/

/-- The method `getOrdering`: the lane at position `x` of the order on the axis `dim`. -/
def BvhSimdFlatNode.getOrdering (node : BvhSimdFlatNode) (dim : Fin 3) (x : Nat) : Nat :=
  node.sortOrder dim x

/-- What `setSortOrder` works on: the local array `midpoints`, the member `sortOrder` and the
flag `isSorted`. -/
structure SortState where
  midpoints : Nat → ℚ
  sortOrder : Fin 3 → Nat → Nat
  isSorted : Bool

/-- The loop `for(int j = 0; indices[j] != -1 && j < W; j++)` of `setSortOrder` that stores the
box midpoints on the axis `i`, from lane `j` on; the first argument is `W - j`. -/
def fillMidpoints (node : BvhSimdFlatNode) (i : Fin 3) : Nat → Nat → (Nat → ℚ) → (Nat → ℚ)
  | 0, _, midpoints => midpoints
  | r + 1, j, midpoints =>
    if node.indices j ≠ -1 then
      fillMidpoints node i r (j + 1)
        (setLane midpoints j
          ((((node.boxes 0).lane j).get i + ((node.boxes 1).lane j).get i) * (1 / 2)))
    else midpoints

/-- One pass `for(int j = 0; indices[j] != -1 && j < W - 1; j++)` of the sort of `setSortOrder`
on the axis `i`, from lane `j` on; the first argument is `W - 1 - j`. -/
def sortPass (node : BvhSimdFlatNode) (i : Fin 3) : Nat → Nat → SortState → SortState
  | 0, _, st => st
  | r + 1, j, st =>
    if node.indices j ≠ -1 then
      if st.midpoints j > st.midpoints (j + 1) then
        sortPass node i r (j + 1)
          { isSorted := false
            midpoints :=
              setLane (setLane st.midpoints j (st.midpoints (j + 1))) (j + 1) (st.midpoints j)
            sortOrder := fun a =>
              if a = i then
                setLane (setLane (st.sortOrder i) j (st.sortOrder i (j + 1))) (j + 1)
                  (st.sortOrder i j)
              else st.sortOrder a }
      else sortPass node i r (j + 1) st
    else st

/-- The loop `while(!isSorted)` of `setSortOrder` on the axis `i`. -/
def sortLoop (W : Nat) (node : BvhSimdFlatNode) (i : Fin 3) :
    Nat → SortState → Except Fault SortState
  | 0, _ => .error .outOfFuel
  | fuel + 1, st =>
    let st := sortPass node i (W - 1) 0 { st with isSorted := true }
    if st.isSorted then .ok st else sortLoop W node i fuel st

/-- The body of the loop `for(int i = 0; i < 3; i++)` of `setSortOrder`; the array `midpoints`
keeps its content from one axis to the next. -/
def sortAxis (W fuel : Nat) (node : BvhSimdFlatNode) (i : Fin 3) (st : SortState) :
    Except Fault SortState :=
  sortLoop W node i fuel
    { st with midpoints := fillMidpoints node i W 0 st.midpoints, isSorted := false }

/-- The method `setSortOrder`. The argument `midpoints` is the content that the local array
`midpoints`, which is not initialised, has at the call; `fuel` bounds each loop
`while(!isSorted)`. -/
def BvhSimdFlatNode.setSortOrder (W fuel : Nat) (midpoints : Nat → ℚ) (node : BvhSimdFlatNode) :
    Except Fault BvhSimdFlatNode :=
  match sortAxis W fuel node 0 ⟨midpoints, node.sortOrder, false⟩ with
  | .error e => .error e
  | .ok st =>
    match sortAxis W fuel node 1 st with
    | .error e => .error e
    | .ok st =>
      match sortAxis W fuel node 2 st with
      | .error e => .error e
      | .ok st => .ok { node with sortOrder := st.sortOrder }

/-! ## Well-formed binary trees

The binary flat tree `build` consumes is the pre-order layout of a binary tree: a leaf has
`rightOffset = 0`, an interior node at index `i` has its left child at `i + 1` and its right
child at `i + rightOffset`, right after the left child's whole subtree. -/

/-- Binary tree whose pre-order layout is a well-formed binary flat tree. -/
inductive BTree where
  | leaf (bbox : BoundingBox) (start nPrimitives : Int)
  | node (bbox : BoundingBox) (start nPrimitives : Int) (left right : BTree)

namespace BTree

/-- Number of nodes of the tree. -/
def size : BTree → Nat
  | leaf _ _ _ => 1
  | node _ _ _ l r => 1 + l.size + r.size

/-- Bounding box of the root. -/
def bbox : BTree → BoundingBox
  | leaf b _ _ => b
  | node b _ _ _ _ => b

/-- Whether the root is a leaf. -/
def isLeaf : BTree → Bool
  | leaf _ _ _ => true
  | node _ _ _ _ _ => false

/-- The flat node of the root. -/
def rootNode : BTree → BvhFlatNode
  | leaf b s n => ⟨b, s, n, 0⟩
  | node b s n l _ => ⟨b, s, n, 1 + l.size⟩

/-- The pre-order layout of the tree. -/
def flatten : BTree → List BvhFlatNode
  | leaf b s n => [⟨b, s, n, 0⟩]
  | node b s n l r => ⟨b, s, n, 1 + l.size⟩ :: (l.flatten ++ r.flatten)

/-- The flat nodes of the leaves, from left to right. -/
def leafNodes : BTree → List BvhFlatNode
  | leaf b s n => [⟨b, s, n, 0⟩]
  | node _ _ _ l r => l.leafNodes ++ r.leafNodes

end BTree

/-- The array `nodes` holds the layout of `t` from index `i` on. -/
def HasSubtree (nodes : List BvhFlatNode) (i : Nat) (t : BTree) : Prop :=
  ∃ pre post, nodes = pre ++ t.flatten ++ post ∧ pre.length = i

/-- The frontier of the subtree `t` (rooted at index `i`) cut `d` levels below its root, from
left to right: the leaves at relative depth at most `d` and the interior nodes at relative depth
exactly `d`, each with its index in the flat tree. -/
def frontier : Nat → Nat → BTree → List (Nat × BTree)
  | _, i, .leaf b s n => [(i, .leaf b s n)]
  | 0, i, .node b s n l r => [(i, .node b s n l r)]
  | d + 1, i, .node _ _ _ l r => frontier d (i + 1) l ++ frontier d (i + 1 + l.size) r

/-- The outer jobs pushed for a list of frontier nodes, all with the same parent and depth. -/
def jobsOf (parentIndex depth : Int) (fr : List (Nat × BTree)) : List BvhSimdBuildNode :=
  fr.map fun c => ⟨(c.1 : Int), parentIndex, depth⟩

/-- Number of items the inner worklist pops while it enumerates `frontier d i t`. -/
def expandCost : Nat → BTree → Nat
  | _, .leaf _ _ _ => 1
  | 0, .node _ _ _ _ _ => 1
  | d + 1, .node _ _ _ l r => 1 + expandCost d r + expandCost d l

/-- Number of outer jobs run for the nodes of `frontier d i t` and everything below them. -/
def jobCount (md : Nat) : Nat → BTree → Nat
  | _, .leaf _ _ _ => 1
  | 0, .node _ _ _ l r => 1 + jobCount md (md - 1) l + jobCount md (md - 1) r
  | d + 1, .node _ _ _ l r => jobCount md d l + jobCount md d r

/-- Big-step form of the outer loop: the effect on the build state of running, from left to
right, the jobs of `frontier d i t` (parent `k`, job depth `dep`) and all jobs below them. -/
def lay (W md : Nat) (nodes : List BvhFlatNode) (references : List ReferenceWrapper)
    (primitives : List Triangle) :
    Int → Int → Nat → Nat → BTree → BuildState → Except Fault BuildState
  | k, dep, _, i, .leaf _ _ _, st =>
    match processJob W nodes references primitives ⟨i, k, dep⟩ st with
    | .error e => .error e
    | .ok (st, _) => .ok st
  | k, dep, 0, i, .node _ _ _ l r, st =>
    match processJob W nodes references primitives ⟨i, k, dep⟩ st with
    | .error e => .error e
    | .ok (st, none) => .ok st
    | .ok (st, some k1) =>
      match lay W md nodes references primitives k1 (dep + 1) (md - 1) (i + 1) l st with
      | .error e => .error e
      | .ok st => lay W md nodes references primitives k1 (dep + 1) (md - 1) (i + 1 + l.size) r st
  | k, dep, d + 1, i, .node _ _ _ l r, st =>
    match lay W md nodes references primitives k dep d (i + 1) l st with
    | .error e => .error e
    | .ok st => lay W md nodes references primitives k dep d (i + 1 + l.size) r st

/-- What a slot fill stores in one lane of the parent: box, target index and leaf flag. -/
structure LaneSpec where
  bbox : BoundingBox
  index : Int
  isLeaf : Bool

/-- The slot fill of `build`: `addBounds` followed by the two assignments that link the child. -/
def fillLane (node : BvhSimdFlatNode) (j : Nat) (l : LaneSpec) : BvhSimdFlatNode :=
  let node := node.addBounds l.bbox.pMin l.bbox.pMax j
  { node with
    indices := setLane node.indices j l.index
    isLeaf := setLane node.isLeaf j l.isLeaf }

/-- The wide node `build` appends for the binary node `cur`. -/
def newNodeFor (cur : BvhFlatNode) : BvhSimdFlatNode :=
  { BvhSimdFlatNode.new with centroid := cur.bbox.centroid }

/-- Successive slot fills from lane `j` on. -/
def fillLanes (node : BvhSimdFlatNode) : Nat → List LaneSpec → BvhSimdFlatNode
  | _, [] => node
  | j, l :: ls => fillLanes (fillLane node j l) (j + 1) ls

/-- The lanes of a wide node are filled exactly up to lane `j`. -/
def Filled (node : BvhSimdFlatNode) (j : Nat) : Prop :=
  (∀ x, x < j → node.indices x ≠ -1) ∧ (∀ x, j ≤ x → node.indices x = -1)

/-- Number of wide nodes allocated for the nodes of `frontier d i t` and everything below. -/
def numNodes (md : Nat) : Nat → BTree → Nat
  | _, .leaf _ _ _ => 0
  | 0, .node _ _ _ l r => 1 + numNodes md (md - 1) l + numNodes md (md - 1) r
  | d + 1, .node _ _ _ l r => numNodes md d l + numNodes md d r

/-- The lanes the nodes of `frontier d i t` get in their parent, when the first free wide-node
index is `N` and the first free wide-leaf index is `L`. -/
def lanesOf (md : Nat) : Nat → BTree → Nat → Nat → List LaneSpec
  | _, .leaf b _ _, _, L => [⟨b, (L : Int), true⟩]
  | 0, .node b _ _ _ _, N, _ => [⟨b, (N : Int), false⟩]
  | d + 1, .node _ _ _ l r, N, L =>
    lanesOf md d l N L ++ lanesOf md d r (N + numNodes md d l) (L + l.leafNodes.length)

/-- The wide nodes allocated for the nodes of `frontier d i t` and everything below, in
allocation order, when the first free indices are `N` and `L`. -/
def nodesOf (md : Nat) : Nat → BTree → Nat → Nat → List BvhSimdFlatNode
  | _, .leaf _ _ _, _, _ => []
  | 0, .node b s n l r, N, L =>
    fillLanes (newNodeFor (BTree.node b s n l r).rootNode) 0
        (lanesOf md (md - 1) l (N + 1) L
          ++ lanesOf md (md - 1) r (N + 1 + numNodes md (md - 1) l) (L + l.leafNodes.length))
      :: (nodesOf md (md - 1) l (N + 1) L
          ++ nodesOf md (md - 1) r (N + 1 + numNodes md (md - 1) l) (L + l.leafNodes.length))
  | d + 1, .node _ _ _ l r, N, L =>
    nodesOf md d l N L ++ nodesOf md d r (N + numNodes md d l) (L + l.leafNodes.length)

/-- The member `depth` after the jobs of `frontier d i t` (job depth `dep`) and all below. -/
def depthAfter (md : Nat) : Nat → BTree → Int → Int → Int
  | _, .leaf _ _ _, dep, cur => if cur < dep then dep else cur
  | 0, .node _ _ _ l r, dep, cur =>
    depthAfter md (md - 1) r (dep + 1)
      (depthAfter md (md - 1) l (dep + 1) (if cur < dep then dep else cur))
  | d + 1, .node _ _ _ l r, dep, cur => depthAfter md d r dep (depthAfter md d l dep cur)

/-- Sum of the reference counts of the leaves. -/
def BTree.sumPrimitives : BTree → ℚ
  | .leaf _ _ n => (n : ℚ)
  | .node _ _ _ l r => l.sumPrimitives + r.sumPrimitives

/-- The wide leaf `packLeaf` returns for a binary leaf, or an all-padding leaf on a fault. -/
def packLeafD (W : Nat) (references : List ReferenceWrapper) (primitives : List Triangle)
    (curNode : BvhFlatNode) : BvhSimdLeafNode :=
  match packLeaf W curNode references primitives with
  | .ok leaf => leaf
  | .error _ => { triangles := fun _ => SimdVec3.zero, indices := fun _ => -1 }

/-- Every read of the leaf packing loop is in range: lane `i` of a leaf with more than `i`
references reads `references[start + i]` and the primitive it names. -/
def RefsValid (W : Nat) (references : List ReferenceWrapper) (primitives : List Triangle)
    (t : BTree) : Prop :=
  ∀ cur ∈ t.leafNodes, ∀ i : Nat, i < W → (i : Int) < cur.nPrimitives →
    ∃ ref prim, getI? references (cur.start + i) = some ref
      ∧ getI? primitives ref.index = some prim

/-- Lane `x` of a wide leaf holds what the packing loop stores for the binary leaf `cur`: the
primitive index and the three vertices of reference `start + x` when `x < nPrimitives`, and the
invalid index `-1` with zero coordinates otherwise. -/
def LanePacked (references : List ReferenceWrapper) (primitives : List Triangle)
    (cur : BvhFlatNode) (leaf : BvhSimdLeafNode) (x : Nat) : Prop :=
  ((x : Int) < cur.nPrimitives →
      ∃ ref prim, getI? references (cur.start + x) = some ref
        ∧ getI? primitives ref.index = some prim
        ∧ leaf.indices x = ref.index
        ∧ ∀ k, (leaf.triangles k).lane x = prim.getVertices k)
  ∧ (cur.nPrimitives ≤ (x : Int) →
      leaf.indices x = -1 ∧ ∀ k, (leaf.triangles k).lane x = Vector3.zero)

/-- The structure `build` returns for the well-formed tree `t`, in closed form. -/
def wideTreeOf (W md : Nat) (references : List ReferenceWrapper) (primitives : List Triangle)
    (t : BTree) : BvhSimd where
  nNodes := 1 + (numNodes md md t : Int)
  nLeaves := (t.leafNodes.length : Int)
  depth := depthAfter md md t 1 0
  averageLeafSize := t.sumPrimitives
  flatTree := fillLanes (newNodeFor t.rootNode) 0 (lanesOf md md t 1 0) :: nodesOf md md t 1 0
  leaves := t.leafNodes.map (packLeafD W references primitives)

/-- Walks down from the binary node `i` (subtree `t`) along a path, `false` for the left child
and `true` for the right child; the result is the node reached, with its index. -/
def descend : Nat → BTree → List Bool → Option (Nat × BTree)
  | i, t, [] => some (i, t)
  | _, .leaf _ _ _, _ :: _ => none
  | i, .node _ _ _ l _, false :: p => descend (i + 1) l p
  | i, .node _ _ _ l r, true :: p => descend (i + 1 + l.size) r p

/-- The binary node `i` of the tree `root` exists and its subtree is `t`. -/
def InTree (root : BTree) (i : Nat) (t : BTree) : Prop :=
  ∃ p, descend 0 root p = some (i, t)

/-- Lane `x` of a wide node stores the box, target index and leaf flag `l`. -/
def HasLane (node : BvhSimdFlatNode) (x : Nat) (l : LaneSpec) : Prop :=
  node.indices x = l.index ∧ node.isLeaf x = l.isLeaf
    ∧ (node.boxes 0).lane x = l.bbox.pMin ∧ (node.boxes 1).lane x = l.bbox.pMax

/-- `IsWideNodeFor W md root refs prims ns lv k i t`: in the wide tree with nodes `ns` and leaves
`lv`, the wide node `k` is the one created for the binary node `i` of the tree `root`, whose
subtree is `t`. Its children are exactly the frontier of `t` cut `md` levels below `i`: lane `x` holds the
box of the `x`-th frontier node and targets the wide leaf packed from it, when it is a binary
leaf, or the wide node created for it, when it is interior; all further lanes are padding. -/
inductive IsWideNodeFor (W md : Nat) (root : BTree)
    (references : List ReferenceWrapper) (primitives : List Triangle)
    (ns : List BvhSimdFlatNode) (lv : List BvhSimdLeafNode) : Nat → Nat → BTree → Prop where
  | intro (k i : Nat) (t : BTree) (node : BvhSimdFlatNode) (target : Nat → Nat)
      (hsub : InTree root i t)
      (hnode : ns[k]? = some node)
      (hlen : (frontier md i t).length ≤ W)
      (hpad : ∀ x, (frontier md i t).length ≤ x → node.indices x = -1 ∧ node.isLeaf x = false)
      (hlane : ∀ x c, (frontier md i t)[x]? = some c →
        HasLane node x ⟨c.2.bbox, (target x : Int), c.2.isLeaf⟩)
      (hleaf : ∀ x c, (frontier md i t)[x]? = some c → c.2.isLeaf = true →
        lv[target x]? = some (packLeafD W references primitives c.2.rootNode))
      (hgt : ∀ x c, (frontier md i t)[x]? = some c → c.2.isLeaf = false → k < target x)
      (hrec : ∀ x c, (frontier md i t)[x]? = some c → c.2.isLeaf = false →
        IsWideNodeFor W md root references primitives ns lv (target x) c.1 c.2) :
      IsWideNodeFor W md root references primitives ns lv k i t

/-- The list `xs` holds the segment `seg` from index `off` on. -/
def HasSeg {α : Type} (xs : List α) (off : Nat) (seg : List α) : Prop :=
  ∀ x, x < seg.length → xs[off + x]? = seg[x]?

/-- The lane specifications `lanes` describe, in order, the frontier nodes `fr`: same box and
leaf flag, and a target that is the packed wide leaf or the wide node created for the node. -/
def LanesMatch (W md : Nat) (root : BTree) (references : List ReferenceWrapper)
    (primitives : List Triangle) (ns : List BvhSimdFlatNode) (lv : List BvhSimdLeafNode)
    (lo : Nat) (fr : List (Nat × BTree)) (lanes : List LaneSpec) : Prop :=
  ∀ (x : Nat) (c : Nat × BTree), fr[x]? = some c →
    ∃ l : LaneSpec, lanes[x]? = some l ∧ l.bbox = c.2.bbox ∧ l.isLeaf = c.2.isLeaf
      ∧ ∃ m : Nat, l.index = (m : Int)
        ∧ (c.2.isLeaf = true → lv[m]? = some (packLeafD W references primitives c.2.rootNode))
        ∧ (c.2.isLeaf = false →
            lo ≤ m ∧ IsWideNodeFor W md root references primitives ns lv m c.1 c.2)

/-- The box stored in lane `x` of a wide node. -/
def laneBox (node : BvhSimdFlatNode) (x : Nat) : BoundingBox :=
  ⟨(node.boxes 0).lane x, (node.boxes 1).lane x⟩

/-- The box `inner` lies within the box `outer`. -/
def BoxWithin (inner outer : BoundingBox) : Prop :=
  outer.pMin.x ≤ inner.pMin.x ∧ outer.pMin.y ≤ inner.pMin.y ∧ outer.pMin.z ≤ inner.pMin.z
    ∧ inner.pMax.x ≤ outer.pMax.x ∧ inner.pMax.y ≤ outer.pMax.y ∧ inner.pMax.z ≤ outer.pMax.z

/-- In the binary tree every child's box lies within its parent's box. -/
def Contained : BTree → Prop
  | .leaf _ _ _ => True
  | .node b _ _ l r => BoxWithin l.bbox b ∧ BoxWithin r.bbox b ∧ Contained l ∧ Contained r

/-- The lane invariant of a wide node in a structure with `nNodes` wide nodes and `nLeaves` wide
leaves: the lanes with `indices != -1` are the first `k` lanes, a leaf lane among them holds an
index below `nLeaves` and an interior lane an index below `nNodes`, and every other lane has
`indices = -1` and `isLeaf = false`. -/
def LaneInvariant (W : Nat) (nNodes nLeaves : Nat) (node : BvhSimdFlatNode) : Prop :=
  ∃ k, k ≤ W
    ∧ (∀ x, x < k → node.indices x ≠ -1 ∧ 0 ≤ node.indices x
        ∧ (node.isLeaf x = true → node.indices x < (nLeaves : Int))
        ∧ (node.isLeaf x = false → node.indices x < (nNodes : Int)))
    ∧ (∀ x, k ≤ x → x < W → node.indices x = -1 ∧ node.isLeaf x = false)

/-! ## Example data

Two unit triangles far apart, one at the origin and one offset by `(100, 0, 0)`, and a third one
next to the second; a binary tree over them with one reference per leaf. -/

/-- The unit triangle at the origin. -/
def exTri0 : Triangle := ⟨⟨0, 0, 0⟩, ⟨1, 0, 0⟩, ⟨0, 1, 0⟩⟩

/-- The unit triangle offset by `(100, 0, 0)`. -/
def exTri1 : Triangle := ⟨⟨100, 0, 0⟩, ⟨101, 0, 0⟩, ⟨100, 1, 0⟩⟩

/-- The unit triangle offset by `(100, 2, 0)`. -/
def exTri2 : Triangle := ⟨⟨100, 2, 0⟩, ⟨101, 2, 0⟩, ⟨100, 3, 0⟩⟩

/-- The primitive table of the example. -/
def exPrims : List Triangle := [exTri0, exTri1, exTri2]

/-- The reference table of the example. -/
def exRefs : List ReferenceWrapper := [⟨0⟩, ⟨1⟩, ⟨2⟩]

/-- The binary tree of the example: a root with a leaf and an interior node with two leaves. -/
def exTree : BTree :=
  .node ⟨⟨0, 0, 0⟩, ⟨101, 3, 0⟩⟩ 0 3
    (.leaf ⟨⟨0, 0, 0⟩, ⟨1, 1, 0⟩⟩ 0 1)
    (.node ⟨⟨100, 0, 0⟩, ⟨101, 3, 0⟩⟩ 1 2
      (.leaf ⟨⟨100, 0, 0⟩, ⟨101, 1, 0⟩⟩ 1 1)
      (.leaf ⟨⟨100, 2, 0⟩, ⟨101, 3, 0⟩⟩ 2 1))

/-- Five unit triangles in a row, triangle `k` offset by `(2 k, 0, 0)`. -/
def fivePrims : List Triangle :=
  [⟨⟨0, 0, 0⟩, ⟨1, 0, 0⟩, ⟨0, 1, 0⟩⟩, ⟨⟨2, 0, 0⟩, ⟨3, 0, 0⟩, ⟨2, 1, 0⟩⟩,
   ⟨⟨4, 0, 0⟩, ⟨5, 0, 0⟩, ⟨4, 1, 0⟩⟩, ⟨⟨6, 0, 0⟩, ⟨7, 0, 0⟩, ⟨6, 1, 0⟩⟩,
   ⟨⟨8, 0, 0⟩, ⟨9, 0, 0⟩, ⟨8, 1, 0⟩⟩]

/-- The reference table of the five triangles, in order. -/
def fiveRefs : List ReferenceWrapper := [⟨0⟩, ⟨1⟩, ⟨2⟩, ⟨3⟩, ⟨4⟩]

/-- A binary tree that is a single leaf holding all five references. -/
def fiveTree : BTree := .leaf ⟨⟨0, 0, 0⟩, ⟨9, 1, 0⟩⟩ 0 5

/-- The wide tree of the example, for `W = 4`. -/
def exBvh : BvhSimd := wideTreeOf 4 2 exRefs exPrims exTree

/-- An interaction as a caller initialises it: no primitive, distance `maxFloat`. -/
def initInteraction : Interaction := ⟨Vector3.zero, Vector3.zero, maxFloat, none⟩

/-! ## Ghost state of the closest-point query -/

/-- The work item `e` names the wide node created for the binary node `g.1`, with subtree `g.2`. -/
def EntryFor (W md : Nat) (root : BTree) (references : List ReferenceWrapper)
    (primitives : List Triangle) (ns : List BvhSimdFlatNode) (lv : List BvhSimdLeafNode)
    (e : BvhTraversal) (g : Nat × BTree) : Prop :=
  ∃ k : Nat, e.i = (k : Int) ∧ IsWideNodeFor W md root references primitives ns lv k g.1 g.2

/-- Number of wide nodes in the wide subtree rooted at the wide node of the subtree `t`. -/
def wideWeight (md : Nat) (g : Nat × BTree) : Nat := 1 + numNodes md md g.2

/-- Total number of wide nodes below the work items of a queue. -/
def totalWeight (md : Nat) (gs : List (Nat × BTree)) : Nat := (gs.map (wideWeight md)).sum

/-! ## Distances to a box, lane by lane -/

/-- What `simdBoxOverlap` computes as `closestDistances` in a lane holding the box `b`, for the
query point `p`. -/
def boxNear2 (b : BoundingBox) (p : Vector3) : ℚ :=
  max (max (b.pMin.x - p.x) (p.x - b.pMax.x)) 0 * max (max (b.pMin.x - p.x) (p.x - b.pMax.x)) 0
    + max (max (b.pMin.y - p.y) (p.y - b.pMax.y)) 0 * max (max (b.pMin.y - p.y) (p.y - b.pMax.y)) 0
    + max (max (b.pMin.z - p.z) (p.z - b.pMax.z)) 0 * max (max (b.pMin.z - p.z) (p.z - b.pMax.z)) 0

/-- What `simdBoxOverlap` computes as `furthestDistances` in a lane holding the box `b`, for
the query point `p`. -/
def boxFar2 (b : BoundingBox) (p : Vector3) : ℚ :=
  max (p.x - b.pMin.x) (b.pMax.x - p.x) * max (p.x - b.pMin.x) (b.pMax.x - p.x)
    + max (p.y - b.pMin.y) (b.pMax.y - p.y) * max (p.y - b.pMin.y) (b.pMax.y - p.y)
    + max (p.z - b.pMin.z) (b.pMax.z - p.z) * max (p.z - b.pMin.z) (b.pMax.z - p.z)

/-- A unit triangle so far from the origin that its squared distance exceeds `maxFloat`. -/
def farTri : Triangle :=
  ⟨⟨20000000000000000000, 0, 0⟩, ⟨20000000000000000001, 0, 0⟩, ⟨20000000000000000000, 1, 0⟩⟩

/-- A binary tree that is a single leaf holding the far triangle. -/
def farTree : BTree := .leaf ⟨⟨20000000000000000000, 0, 0⟩, ⟨20000000000000000001, 1, 0⟩⟩ 0 1

/-- The wide tree of the far triangle, for `W = 4`. -/
def farBvh : BvhSimd := wideTreeOf 4 2 [⟨0⟩] [farTri] farTree

/-! ## Closest points of triangles, lane by lane -/

namespace Vector3

/-- What `SimdVec3.add` computes in one lane. -/
def add (a b : Vector3) : Vector3 := ⟨a.x + b.x, a.y + b.y, a.z + b.z⟩

/-- What `SimdVec3.sub` computes in one lane. -/
def sub (a b : Vector3) : Vector3 := ⟨a.x - b.x, a.y - b.y, a.z - b.z⟩

/-- What `SimdVec3.smul` computes in one lane. -/
def smul (s : ℚ) (v : Vector3) : Vector3 := ⟨s * v.x, s * v.y, s * v.z⟩

/-- What `SimdVec3.dot` computes in one lane. -/
def dot (a b : Vector3) : ℚ := a.x * b.x + a.y * b.y + a.z * b.z

/-- What `SimdVec3.select` computes in one lane. -/
def select (m : Bool) (a b : Vector3) : Vector3 :=
  ⟨if m then a.x else b.x, if m then a.y else b.y, if m then a.z else b.z⟩

end Vector3

/-- The `k`-th region test of `simdTriPoint2` in one lane, for the triangle `a b c` and the
query point `p` of that lane: the vertex regions of `a`, `b`, `c` (1 to 3) and the edge regions
of `ab`, `ac`, `bc` (4 to 6). -/
def triMask (a b c p : Vector3) (k : Nat) : Bool :=
  let ab := b.sub a
  let ac := c.sub a
  let d1 := ab.dot (p.sub a)
  let d2 := ac.dot (p.sub a)
  let d3 := ab.dot (p.sub b)
  let d4 := ac.dot (p.sub b)
  let d5 := ab.dot (p.sub c)
  let d6 := ac.dot (p.sub c)
  match k with
  | 1 => decide (d1 ≤ 0) && decide (d2 ≤ 0)
  | 2 => decide (d3 ≥ 0) && decide (d4 ≤ d3)
  | 3 => decide (d6 ≥ 0) && decide (d5 ≤ d6)
  | 4 => decide (d1 * d4 - d3 * d2 ≤ 0) && decide (d1 ≥ 0) && decide (d3 ≤ 0)
  | 5 => decide (d5 * d2 - d1 * d6 ≤ 0) && decide (d2 ≥ 0) && decide (d6 ≤ 0)
  | 6 => decide (d3 * d6 - d5 * d4 ≤ 0) && decide (d4 - d3 ≥ 0) && decide (d5 - d6 ≥ 0)
  | _ => false

/-- The point `simdTriPoint2` stores in one lane when the `k`-th region test holds there; for
`k = 7` the point `answer4` of the face region. -/
def triAnswer (a b c p : Vector3) (k : Nat) : Vector3 :=
  let ab := b.sub a
  let ac := c.sub a
  let d1 := ab.dot (p.sub a)
  let d2 := ac.dot (p.sub a)
  let d3 := ab.dot (p.sub b)
  let d4 := ac.dot (p.sub b)
  let d5 := ab.dot (p.sub c)
  let d6 := ac.dot (p.sub c)
  let vc := d1 * d4 - d3 * d2
  let vb := d5 * d2 - d1 * d6
  let va := d3 * d6 - d5 * d4
  let denom := 1 / (va + vb + vc)
  match k with
  | 2 => b
  | 3 => c
  | 4 => a.add (Vector3.smul (d1 / (d1 - d3)) ab)
  | 5 => a.add (Vector3.smul (d2 / (d2 - d6)) ac)
  | 6 => b.add (Vector3.smul ((d4 - d3) / ((d4 - d3) + (d5 - d6))) (c.sub b))
  | 7 => (a.add (Vector3.smul (vb * denom) ab)).add (Vector3.smul (vc * denom) ac)
  | _ => a

/-- What `simdTriPoint2` holds in one lane after its first `k` region tests, `k` from 1 to 6:
the flag `exit` and the point `oTriPoint`. -/
def triStage (a b c p : Vector3) : Nat → Bool × Vector3
  | 0 => (false, a)
  | 1 => (triMask a b c p 1, a)
  | k + 2 =>
    ((triStage a b c p (k + 1)).1 || triMask a b c p (k + 2),
     Vector3.select (triMask a b c p (k + 2)) (triAnswer a b c p (k + 2))
       (triStage a b c p (k + 1)).2)

/-- What `simdTriPoint2` returns in one lane when it runs to its end: the face point where no
region test held and the face point is nearer than the point stored so far, else that point. -/
def triResult (a b c p : Vector3) : Vector3 :=
  Vector3.select
    (!(triStage a b c p 6).1
      && decide (Vector3.dist2 (triAnswer a b c p 7) p < Vector3.dist2 (triStage a b c p 6).2 p))
    (triAnswer a b c p 7) (triStage a b c p 6).2

/-- The point of the triangle with barycentric coordinates `(1 - u - w, u, w)`. -/
def Triangle.point (tri : Triangle) (u w : ℚ) : Vector3 :=
  (tri.a.add (Vector3.smul u (tri.b.sub tri.a))).add (Vector3.smul w (tri.c.sub tri.a))

/-- The point `y` lies on the triangle: it is a convex combination of the three vertices. -/
def OnTriangle (tri : Triangle) (y : Vector3) : Prop :=
  ∃ u w : ℚ, 0 ≤ u ∧ 0 ≤ w ∧ u + w ≤ 1 ∧ y = tri.point u w

/-- The triangle is not degenerate: the Gram determinant of its edges `ab` and `ac` is
positive, so the three vertices are not on one line. -/
def NonDegenerate (tri : Triangle) : Prop :=
  0 < (tri.b.sub tri.a).dot (tri.b.sub tri.a) * (tri.c.sub tri.a).dot (tri.c.sub tri.a)
        - (tri.b.sub tri.a).dot (tri.c.sub tri.a) * (tri.b.sub tri.a).dot (tri.c.sub tri.a)

/-- The point `y` is a point of the triangle nearest to `p`. -/
def IsClosest (tri : Triangle) (p y : Vector3) : Prop :=
  OnTriangle tri y ∧ ∀ z, OnTriangle tri z → Vector3.dist2 y p ≤ Vector3.dist2 z p

/-- The squared distance from `p` to the point `(u, w)` of a triangle, less the squared
distance to the vertex `a`, in terms of the edge products `E = ab.ab`, `F = ab.ac`, `G = ac.ac`
and `d1 = ab.ap`, `d2 = ac.ap`. -/
def triQ (E F G d1 d2 u w : ℚ) : ℚ :=
  E * u * u + 2 * F * u * w + G * w * w - 2 * d1 * u - 2 * d2 * w

/-! ## The primitives of a subtree -/

/-- The binary leaf `cur` references the primitive with index `p`, the triangle `tri`. -/
def LeafPrim (references : List ReferenceWrapper) (primitives : List Triangle)
    (cur : BvhFlatNode) (p : Int) (tri : Triangle) : Prop :=
  ∃ x : Nat, (x : Int) < cur.nPrimitives
    ∧ ∃ ref, getI? references (cur.start + x) = some ref ∧ ref.index = p
      ∧ getI? primitives p = some tri

/-- A leaf of the subtree `t` references the primitive with index `p`, the triangle `tri`. -/
def PrimUnder (references : List ReferenceWrapper) (primitives : List Triangle)
    (t : BTree) (p : Int) (tri : Triangle) : Prop :=
  ∃ cur ∈ t.leafNodes, LeafPrim references primitives cur p tri

/-- The point `y` lies on a primitive referenced by a leaf of the subtree `t`. -/
def PointUnder (references : List ReferenceWrapper) (primitives : List Triangle)
    (t : BTree) (y : Vector3) : Prop :=
  ∃ p tri, PrimUnder references primitives t p tri ∧ OnTriangle tri y

/-- The point `y` lies in the box `b`. -/
def InBox (b : BoundingBox) (y : Vector3) : Prop :=
  b.pMin.x ≤ y.x ∧ y.x ≤ b.pMax.x ∧ b.pMin.y ≤ y.y ∧ y.y ≤ b.pMax.y
    ∧ b.pMin.z ≤ y.z ∧ y.z ≤ b.pMax.z

/-- The box of every node of the tree encloses the primitives referenced below the node: their
three vertices lie in the box. -/
def Encloses (references : List ReferenceWrapper) (primitives : List Triangle) : BTree → Prop
  | .leaf b s n => ∀ p tri, PrimUnder references primitives (.leaf b s n) p tri →
      InBox b tri.a ∧ InBox b tri.b ∧ InBox b tri.c
  | .node b s n l r =>
    (∀ p tri, PrimUnder references primitives (.node b s n l r) p tri →
        InBox b tri.a ∧ InBox b tri.b ∧ InBox b tri.c)
      ∧ Encloses references primitives l ∧ Encloses references primitives r

/-- Every leaf of the tree references at least one and at most `W` primitives. -/
def LeafSized (W : Nat) (t : BTree) : Prop :=
  ∀ cur ∈ t.leafNodes, 1 ≤ cur.nPrimitives ∧ cur.nPrimitives ≤ (W : Int)

/-! ## Ghost state of a closest-point query that finds the nearest point -/

/-- The answer of a query centred at `c0` is on its way: a point of a primitive lies strictly
inside the sphere, or the interaction holds a point of the primitive it names, at squared
distance `r2` exactly, with `d` the square root of `r2`. -/
def QueryGood (sqrtF : ℚ → ℚ) (references : List ReferenceWrapper)
    (primitives : List Triangle) (root : BTree) (c0 : Vector3) (s : BoundingSphere)
    (i : Interaction) : Prop :=
  (∃ y, PointUnder references primitives root y ∧ Vector3.dist2 y c0 < s.r2)
    ∨ (∃ p tri, i.primitive = some p ∧ PrimUnder references primitives root p tri
        ∧ OnTriangle tri i.p ∧ Vector3.dist2 i.p c0 = s.r2 ∧ i.d = sqrtF s.r2)

/-- The point `y` lies below a work item of the queue whose bound is at most the squared
distance from `y` to the centre `c0`. -/
def QueueCovers (references : List ReferenceWrapper) (primitives : List Triangle)
    (c0 : Vector3) (todo : List BvhTraversal) (gs : List (Nat × BTree)) (y : Vector3) : Prop :=
  ∃ eg ∈ todo.zip gs, PointUnder references primitives eg.2.2 y ∧ eg.1.d ≤ Vector3.dist2 y c0

/-! ## The linear scan of the reference aggregate -/

/-- Modelled from the spec: one step of the linear scan of the reference aggregate, whose code
is not under `src/`. The primitive `tri`, with index `k`, reports its own closest point to the
centre of the sphere, here the point of the Voronoi-region algorithm for a lone triangle; the
scan keeps it when it is nearer than the squared radius. The spec does not say which of two
equally near primitives a scan keeps: with `keepLater` the later one replaces the earlier. -/
def scanStep (sqrtF : ℚ → ℚ) (keepLater : Bool) (acc : BoundingSphere × Interaction) (k : Nat)
    (tri : Triangle) : BoundingSphere × Interaction :=
  let y := triResult tri.a tri.b tri.c acc.1.c
  let d2 := Vector3.dist2 y acc.1.c
  if d2 < acc.1.r2 ∨ (keepLater = true ∧ d2 = acc.1.r2) then
    ({ acc.1 with r2 := d2 }, { p := y, n := Vector3.zero, d := sqrtF d2, primitive := some k })
  else acc

/-- Modelled from the spec: the linear scan over the primitives from index `k` on. -/
def linearScanFrom (sqrtF : ℚ → ℚ) (keepLater : Bool) :
    Nat → List Triangle → BoundingSphere × Interaction → BoundingSphere × Interaction
  | _, [], acc => acc
  | k, tri :: rest, acc =>
    linearScanFrom sqrtF keepLater (k + 1) rest (scanStep sqrtF keepLater acc k tri)

/-- Modelled from the spec: "a linear scan over all primitives", the closest-point query of the
reference aggregate: the sphere and the interaction it ends with. -/
def linearScan (sqrtF : ℚ → ℚ) (keepLater : Bool) (primitives : List Triangle)
    (s : BoundingSphere) (i : Interaction) : BoundingSphere × Interaction :=
  linearScanFrom sqrtF keepLater 0 primitives (s, i)

/-! ## Example data for the nearest primitive

Three triangles in the plane `z = 0` that share the vertex at the origin, referenced by one leaf
in the order 1, 0, 2; and a triangle whose three vertices are the point `(1, 0, 0)`. -/

/-- Three triangles with the common vertex `(0, 0, 0)`. -/
def tiePrims : List Triangle :=
  [⟨⟨0, 0, 0⟩, ⟨1, 0, 0⟩, ⟨0, 1, 0⟩⟩, ⟨⟨0, 0, 0⟩, ⟨-1, 0, 0⟩, ⟨0, 1, 0⟩⟩,
   ⟨⟨0, 0, 0⟩, ⟨-1, 0, 0⟩, ⟨0, -1, 0⟩⟩]

/-- The references to the three triangles, in the order 1, 0, 2. -/
def tieRefs : List ReferenceWrapper := [⟨1⟩, ⟨0⟩, ⟨2⟩]

/-- A binary tree that is one leaf with the three references. -/
def tieTree : BTree := .leaf ⟨⟨-1, -1, 0⟩, ⟨1, 1, 0⟩⟩ 0 3

/-- The wide tree of the three triangles, for `W = 4`. -/
def tieBvh : BvhSimd := wideTreeOf 4 2 tieRefs tiePrims tieTree

/-- A triangle whose three vertices coincide. -/
def pointTri : Triangle := ⟨⟨1, 0, 0⟩, ⟨1, 0, 0⟩, ⟨1, 0, 0⟩⟩

/-- A binary tree that is one leaf holding the point triangle; its box is that point. -/
def pointTree : BTree := .leaf ⟨⟨1, 0, 0⟩, ⟨1, 0, 0⟩⟩ 0 1

/-- The wide tree of the point triangle, for `W = 4`. -/
def pointBvh : BvhSimd := wideTreeOf 4 2 [⟨0⟩] [pointTri] pointTree

/-! ## Distances to a box, axis by axis -/

/-- The gap between the coordinate `p` and the span `[lo, hi]` of a box on one axis: zero when
`p` lies within the span. -/
def axisGap (lo hi p : ℚ) : ℚ := if p < lo then lo - p else if hi < p then p - hi else 0

/-- The box has `min ≤ max` on every axis. -/
def BoxOrdered (b : BoundingBox) : Prop :=
  b.pMin.x ≤ b.pMax.x ∧ b.pMin.y ≤ b.pMax.y ∧ b.pMin.z ≤ b.pMax.z

/-- The point `x` is a corner of the box `b`. -/
def IsCorner (b : BoundingBox) (x : Vector3) : Prop :=
  (x.x = b.pMin.x ∨ x.x = b.pMax.x) ∧ (x.y = b.pMin.y ∨ x.y = b.pMax.y)
    ∧ (x.z = b.pMin.z ∨ x.z = b.pMax.z)

/-- Example registers: the box from `(0, 0, 0)` to `(1, 2, 3)` in every lane. -/
def exBoxes : Fin 2 → SimdVec3 := fun k =>
  if k = 0 then SimdVec3.broadcast ⟨0, 0, 0⟩ else SimdVec3.broadcast ⟨1, 2, 3⟩

/-- Example register: the point `(2, 1, -1)` in every lane. -/
def exPoint : SimdVec3 := SimdVec3.broadcast ⟨2, 1, -1⟩

/-- Example result of the triangle kernel for a leaf with two valid lanes and two padding lanes;
the padding lanes carry the distance `0`. -/
def exInteraction : ParallelInteraction where
  distances := fun x => if x = 0 then 5 else if x = 1 then 3 else 0
  points := SimdVec3.broadcast ⟨1, 1, 1⟩
  indices := fun x => if x = 0 then 7 else if x = 1 then 9 else -1

/-- Example registers: the unit triangle at the origin in every lane. -/
def exTriangles : Fin 3 → SimdVec3 := fun k => SimdVec3.broadcast (exTri0.getVertices k)

/-- A structure with no nodes and no leaves. -/
def emptyBvh : BvhSimd :=
  { nNodes := 0, nLeaves := 0, depth := 0, averageLeafSize := 0, flatTree := [], leaves := [] }

/-- The wide tree of the five triangles, for `W = 4`. -/
def fiveBvh : BvhSimd := wideTreeOf 4 2 fiveRefs fivePrims fiveTree

/-- Two triangles, all of whose vertices are the point `(1, 0, 0)`. -/
def coincidentPrims : List Triangle := [pointTri, pointTri]

/-- The references to the two coincident triangles. -/
def coincidentRefs : List ReferenceWrapper := [⟨0⟩, ⟨1⟩]

/-- A binary tree that is one leaf holding the two coincident triangles; its box is the point
`(1, 0, 0)`. -/
def coincidentTree : BTree := .leaf ⟨⟨1, 0, 0⟩, ⟨1, 0, 0⟩⟩ 0 2

/-- The wide tree of the two coincident triangles, for `W = 4`. -/
def coincidentBvh : BvhSimd := wideTreeOf 4 2 coincidentRefs coincidentPrims coincidentTree

/-- Every leaf of the tree references at least one primitive. -/
def LeafNonEmpty (t : BTree) : Prop := ∀ cur ∈ t.leafNodes, 1 ≤ cur.nPrimitives

/-! ## Invariants of the lane loop, and the states a query passes through -/

/-- The rules a lane invariant `LInv` obeys at the three outcomes of a lane of the wide node
created for the binary node `g`: the box is out of bounds of the query, the lane is interior and
is enqueued, the lane is a leaf and is processed. -/
def LaneRules (sqrtF : ℚ → ℚ) (W md : Nat) (root : BTree) (refs : List ReferenceWrapper)
    (prims : List Triangle) (ns : List BvhSimdFlatNode) (lv : List BvhSimdLeafNode)
    (sbs : SimdBoundingSphere)
    (LInv : Nat × BTree → Nat → List BvhTraversal → List (Nat × BTree) → BoundingSphere →
      Interaction → Prop) : Prop :=
  (∀ (k : Nat) (g : Nat × BTree) (node : BvhSimdFlatNode) (j : Nat) (c : Nat × BTree)
      (todo : List BvhTraversal) (gs : List (Nat × BTree)) (s : BoundingSphere)
      (i : Interaction),
      IsWideNodeFor W md root refs prims ns lv k g.1 g.2 → ns[k]? = some node →
      (frontier md g.1 g.2)[j]? = some c → LInv g j todo gs s i →
      ¬ ((parseOverlap (parallelOverlap node sbs) j s).2.2.r2
          > (parallelOverlap node sbs).d2Min j) →
      LInv g (j + 1) todo gs (parseOverlap (parallelOverlap node sbs) j s).2.2 i)
  ∧ (∀ (k : Nat) (g : Nat × BTree) (node : BvhSimdFlatNode) (j : Nat) (c : Nat × BTree)
      (todo : List BvhTraversal) (gs : List (Nat × BTree)) (s : BoundingSphere)
      (i : Interaction) (k1 : Nat),
      IsWideNodeFor W md root refs prims ns lv k g.1 g.2 → ns[k]? = some node →
      (frontier md g.1 g.2)[j]? = some c → c.2.isLeaf = false → node.indices j = (k1 : Int) →
      IsWideNodeFor W md root refs prims ns lv k1 c.1 c.2 → LInv g j todo gs s i →
      (parseOverlap (parallelOverlap node sbs) j s).2.2.r2 > (parallelOverlap node sbs).d2Min j →
      LInv g (j + 1) (todo ++ [⟨(k1 : Int), (parallelOverlap node sbs).d2Min j⟩]) (gs ++ [c])
        (parseOverlap (parallelOverlap node sbs) j s).2.2 i)
  ∧ (∀ (k : Nat) (g : Nat × BTree) (node : BvhSimdFlatNode) (j : Nat) (c : Nat × BTree)
      (todo : List BvhTraversal) (gs : List (Nat × BTree)) (s : BoundingSphere)
      (i : Interaction) (s2 : BoundingSphere) (i2 : Interaction),
      IsWideNodeFor W md root refs prims ns lv k g.1 g.2 → ns[k]? = some node →
      (frontier md g.1 g.2)[j]? = some c → c.2.isLeaf = true → LInv g j todo gs s i →
      (parseOverlap (parallelOverlap node sbs) j s).2.2.r2 > (parallelOverlap node sbs).d2Min j →
      processLeafNode sqrtF W node lv sbs (parseOverlap (parallelOverlap node sbs) j s).2.2 i
        prims j = .ok (s2, i2) →
      LInv g (j + 1) todo gs s2 i2)

/-- The ghost state of the lane loop over the wide node created for the binary node `g`, before
lane `j`: the queue `q.todo` holds the work items of the subtrees `gs1`, which were there when
the node was popped, followed by those of the subtrees `gs2` enqueued by the lanes below `j`, and
the lane invariant holds. -/
def LaneReached (W md : Nat) (root : BTree) (refs : List ReferenceWrapper)
    (prims : List Triangle) (ns : List BvhSimdFlatNode) (lv : List BvhSimdLeafNode)
    (LInv : Nat × BTree → Nat → List BvhTraversal → List (Nat × BTree) → BoundingSphere →
      Interaction → Prop)
    (g : Nat × BTree) (gs1 : List (Nat × BTree)) (j : Nat) (q : QueryState) : Prop :=
  ∃ gs2, List.Forall₂ (EntryFor W md root refs prims ns lv) q.todo (gs1 ++ gs2)
    ∧ LInv g j q.todo (gs1 ++ gs2) q.s q.i
    ∧ totalWeight md gs2
        ≤ (((frontier md g.1 g.2).map (fun c => numNodes md 0 c.2)).take j).sum

/-- The state of the loop `while(!todo.empty())` of `findClosestPoint` after `n` passes, or at
its end when the queue empties sooner: `traverse` stopped after `n` work items. -/
def traversePrefix (sqrtF : ℚ → ℚ) (W : Nat) (flatTree : List BvhSimdFlatNode)
    (leaves : List BvhSimdLeafNode) (primitives : List Triangle) (sbs : SimdBoundingSphere) :
    Nat → QueryState → Except Fault QueryState
  | 0, q => .ok q
  | n + 1, q =>
    match q.todo with
    | [] => .ok q
    | traversal :: rest =>
      match nodeStep sqrtF W flatTree leaves primitives sbs traversal { q with todo := rest } with
      | .error e => .error e
      | .ok q => traversePrefix sqrtF W flatTree leaves primitives sbs n q

/-- The squared radius of the sphere `s1` is sound for a query that started with the sphere `s`
on the tree `t`: it is still the squared radius of `s`, or a point of a primitive of the tree
lies within it of the centre of `s`. -/
def RadiusSound (refs : List ReferenceWrapper) (prims : List Triangle) (t : BTree)
    (s s1 : BoundingSphere) : Prop :=
  s1.r2 = s.r2 ∨ ∃ y, PointUnder refs prims t y ∧ Vector3.dist2 y s.c ≤ s1.r2

/-! ## Example data: full lanes -/

/-- Four unit triangles in a row, triangle `k` offset by `(2 k, 0, 0)`. -/
def quadPrims : List Triangle :=
  [⟨⟨0, 0, 0⟩, ⟨1, 0, 0⟩, ⟨0, 1, 0⟩⟩, ⟨⟨2, 0, 0⟩, ⟨3, 0, 0⟩, ⟨2, 1, 0⟩⟩,
   ⟨⟨4, 0, 0⟩, ⟨5, 0, 0⟩, ⟨4, 1, 0⟩⟩, ⟨⟨6, 0, 0⟩, ⟨7, 0, 0⟩, ⟨6, 1, 0⟩⟩]

/-- The reference table of the four triangles, in order. -/
def quadRefs : List ReferenceWrapper := [⟨0⟩, ⟨1⟩, ⟨2⟩, ⟨3⟩]

/-- A binary tree that is a single leaf holding the four references: for `W = 4` its wide leaf
has no padding lane. -/
def quadLeafTree : BTree := .leaf ⟨⟨0, 0, 0⟩, ⟨7, 1, 0⟩⟩ 0 4

/-- The complete binary tree of depth two over the four triangles, one reference per leaf: for
`W = 4` its wide root has no padding lane. -/
def quadTree : BTree :=
  .node ⟨⟨0, 0, 0⟩, ⟨7, 1, 0⟩⟩ 0 4
    (.node ⟨⟨0, 0, 0⟩, ⟨3, 1, 0⟩⟩ 0 2
      (.leaf ⟨⟨0, 0, 0⟩, ⟨1, 1, 0⟩⟩ 0 1)
      (.leaf ⟨⟨2, 0, 0⟩, ⟨3, 1, 0⟩⟩ 1 1))
    (.node ⟨⟨4, 0, 0⟩, ⟨7, 1, 0⟩⟩ 2 2
      (.leaf ⟨⟨4, 0, 0⟩, ⟨5, 1, 0⟩⟩ 2 1)
      (.leaf ⟨⟨6, 0, 0⟩, ⟨7, 1, 0⟩⟩ 3 1))

/-- The wide tree of the single full leaf, for `W = 4`. -/
def quadLeafBvh : BvhSimd := wideTreeOf 4 2 quadRefs quadPrims quadLeafTree

/-- The wide tree of the complete tree, for `W = 4`. -/
def quadBvh : BvhSimd := wideTreeOf 4 2 quadRefs quadPrims quadTree

/-! ## Example data: a triangle and a nearer point triangle -/

/-- A unit triangle at `(1, 0, 0)` and a triangle all of whose vertices are `(1/2, 0, 0)`. -/
def stalePrims : List Triangle :=
  [⟨⟨1, 0, 0⟩, ⟨2, 0, 0⟩, ⟨1, 1, 0⟩⟩, ⟨⟨1 / 2, 0, 0⟩, ⟨1 / 2, 0, 0⟩, ⟨1 / 2, 0, 0⟩⟩]

/-- The references to the two triangles, in order. -/
def staleRefs : List ReferenceWrapper := [⟨0⟩, ⟨1⟩]

/-- A root with two leaves: the unit triangle on the left and the point triangle, whose box is
a point, on the right. -/
def staleTree : BTree :=
  .node ⟨⟨1 / 2, 0, 0⟩, ⟨2, 1, 0⟩⟩ 0 2
    (.leaf ⟨⟨1, 0, 0⟩, ⟨2, 1, 0⟩⟩ 0 1)
    (.leaf ⟨⟨1 / 2, 0, 0⟩, ⟨1 / 2, 0, 0⟩⟩ 1 1)

/-- The wide tree of the two triangles, for `W = 4`. -/
def staleBvh : BvhSimd := wideTreeOf 4 2 staleRefs stalePrims staleTree

/-! ## The wide tree as a tree -/

/-- The targets of the valid lanes of a wide node whose flag `isLeaf` is `leafFlag`, in lane
order: the wide nodes (`leafFlag = false`) or the wide leaves (`leafFlag = true`) the node points
to. -/
def laneTargets (W : Nat) (leafFlag : Bool) (node : BvhSimdFlatNode) : List Int :=
  ((List.range W).filter fun x =>
    decide (node.indices x ≠ -1) && (node.isLeaf x == leafFlag)).map node.indices

/-- The targets of the valid lanes with flag `leafFlag` of all wide nodes, node by node. -/
def allLaneTargets (W : Nat) (leafFlag : Bool) (ns : List BvhSimdFlatNode) : List Int :=
  (ns.map (laneTargets W leafFlag)).flatten

/-- The wide nodes met in a depth-first walk in pre-order from the node `k`: the node, then the
walks from the targets of its interior lanes, in lane order. -/
def preorderFrom (W : Nat) (ns : List BvhSimdFlatNode) : Nat → Int → List Int
  | 0, _ => []
  | fuel + 1, k =>
    match getI? ns k with
    | none => [k]
    | some node =>
      k :: ((laneTargets W false node).map fun q => preorderFrom W ns fuel q).flatten

/-- The work items the loop `while(!todo.empty())` of `findClosestPoint` pops in its first `n`
passes, in order. -/
def dequeued (sqrtF : ℚ → ℚ) (W : Nat) (flatTree : List BvhSimdFlatNode)
    (leaves : List BvhSimdLeafNode) (primitives : List Triangle) (sbs : SimdBoundingSphere) :
    Nat → QueryState → List BvhTraversal
  | 0, _ => []
  | n + 1, q =>
    match q.todo with
    | [] => []
    | traversal :: rest =>
      traversal ::
        match nodeStep sqrtF W flatTree leaves primitives sbs traversal { q with todo := rest } with
        | .error _ => []
        | .ok q => dequeued sqrtF W flatTree leaves primitives sbs n q

/-- Ghost invariant of the queue: the work items popped so far, `done`, and those in the queue,
`todo`, name pairwise different wide nodes, and each of them names node `0` or the target of an
interior lane of a node that was popped. -/
def QueueOnce (W : Nat) (ns : List BvhSimdFlatNode) (done todo : List BvhTraversal) : Prop :=
  ((done ++ todo).map fun e => e.i).Nodup
    ∧ ∀ e ∈ done ++ todo, e.i = 0
        ∨ ∃ d ∈ done, ∃ node, getI? ns d.i = some node ∧ e.i ∈ laneTargets W false node

/-! ## The jobs of the build -/

/-- The jobs the outer loop `while(!todo.empty())` of `build` pops, in order. -/
def buildJobs (W : Nat) (maxDepth : Int) (nodes : List BvhFlatNode)
    (references : List ReferenceWrapper) (primitives : List Triangle) :
    Nat → List BvhSimdBuildNode → BuildState → List BvhSimdBuildNode
  | _, [], _ => []
  | 0, _ :: _, _ => []
  | fuel + 1, toBuild :: todo, st =>
    toBuild ::
      match buildStep W maxDepth nodes references primitives toBuild todo st with
      | .error _ => []
      | .ok (todo, st) => buildJobs W maxDepth nodes references primitives fuel todo st

/-- The binary nodes of the jobs run for the nodes of `frontier d i t` and everything below
them, in the order in which the jobs are popped. -/
def jobNodes (md : Nat) : Nat → Nat → BTree → List Nat
  | _, i, .leaf _ _ _ => [i]
  | 0, i, .node _ _ _ l r =>
    i :: (jobNodes md (md - 1) (i + 1) l ++ jobNodes md (md - 1) (i + 1 + l.size) r)
  | d + 1, i, .node _ _ _ l r => jobNodes md d (i + 1) l ++ jobNodes md d (i + 1 + l.size) r

/-! ## Theorems -/

/-! ### Reading and writing vectors -/

@[simp] theorem getI?_natCast {α : Type} (xs : List α) (n : Nat) : getI? xs (n : Int) = xs[n]? := by
  simp [getI?]

theorem getI?_neg {α : Type} (xs : List α) (i : Int) (h : i < 0) : getI? xs i = none := by
  simp [getI?, Int.not_le.mpr h]

theorem readI_natCast {α : Type} (xs : List α) (n : Nat) (a : α) (h : xs[n]? = some a) :
    readI xs (n : Int) = .ok a := by
  simp [readI, h]

theorem readI_eq_ok {α : Type} {xs : List α} {i : Int} {a : α} (h : readI xs i = .ok a) :
    ∃ n : Nat, i = n ∧ xs[n]? = some a := by
  unfold readI at h
  by_cases hi : 0 ≤ i
  · obtain ⟨n, rfl⟩ := Int.eq_ofNat_of_zero_le hi
    refine ⟨n, rfl, ?_⟩
    rw [getI?_natCast] at h
    cases hx : xs[n]? with
    | none => rw [hx] at h; cases h
    | some b => rw [hx] at h; cases h; rfl
  · rw [getI?_neg xs i (by omega)] at h
    cases h

/-! ### Layout of a binary tree -/

theorem BTree.size_pos (t : BTree) : 0 < t.size := by
  cases t <;> simp [BTree.size]

theorem BTree.length_flatten (t : BTree) : t.flatten.length = t.size := by
  induction t with
  | leaf b s n => simp [BTree.flatten, BTree.size]
  | node b s n l r ihl ihr => simp [BTree.flatten, BTree.size, ihl, ihr]; omega

theorem BTree.flatten_head (t : BTree) : t.flatten[0]? = some t.rootNode := by
  cases t <;> simp [BTree.flatten, BTree.rootNode]

theorem HasSubtree.root {nodes : List BvhFlatNode} {i : Nat} {t : BTree}
    (h : HasSubtree nodes i t) : nodes[i]? = some t.rootNode := by
  obtain ⟨pre, post, rfl, rfl⟩ := h
  have hpos := t.size_pos
  have hlen := t.length_flatten
  rw [List.append_assoc, List.getElem?_append_right (le_refl _)]
  simp only [Nat.sub_self]
  rw [List.getElem?_append_left (by omega)]
  exact t.flatten_head

theorem HasSubtree.left {nodes : List BvhFlatNode} {i : Nat} {b : BoundingBox} {s n : Int}
    {l r : BTree} (h : HasSubtree nodes i (.node b s n l r)) : HasSubtree nodes (i + 1) l := by
  obtain ⟨pre, post, rfl, rfl⟩ := h
  refine ⟨pre ++ [⟨b, s, n, 1 + l.size⟩], r.flatten ++ post, ?_, by simp⟩
  simp [BTree.flatten]

theorem HasSubtree.right {nodes : List BvhFlatNode} {i : Nat} {b : BoundingBox} {s n : Int}
    {l r : BTree} (h : HasSubtree nodes i (.node b s n l r)) :
    HasSubtree nodes (i + 1 + l.size) r := by
  obtain ⟨pre, post, rfl, rfl⟩ := h
  refine ⟨pre ++ [⟨b, s, n, 1 + l.size⟩] ++ l.flatten, post, ?_,
    by simp [BTree.length_flatten]; omega⟩
  simp [BTree.flatten]

theorem HasSubtree.self (t : BTree) : HasSubtree t.flatten 0 t :=
  ⟨[], [], by simp, rfl⟩

/-! ### The inner worklist enumerates the frontier -/

theorem expand_nil (maxDepth : Int) (nodes : List BvhFlatNode) (k dep : Int) (f : Nat)
    (todo : List BvhSimdBuildNode) : expand maxDepth nodes k dep f [] todo = .ok todo := by
  cases f <;> simp [expand]

theorem expand_frontier (md : Nat) (nodes : List BvhFlatNode) (k dep : Int) :
    ∀ (t : BTree) (d c i : Nat) (ws : List BvhTraversalDepth) (todo : List BvhSimdBuildNode)
      (f : Nat), c + d = md → HasSubtree nodes i t →
      expand (md : Int) nodes k dep (f + expandCost d t) (⟨(i : Int), (c : Int)⟩ :: ws) todo
        = expand (md : Int) nodes k dep f ws (jobsOf k (dep + 1) (frontier d i t) ++ todo) := by
  intro t
  induction t with
  | leaf b s n =>
    intro d c i ws todo f hcd hsub
    have hroot := hsub.root
    simp only [expandCost, frontier, jobsOf, List.map_cons, List.map_nil, List.singleton_append]
    rw [expand]
    by_cases hc : (c : Int) < (md : Int)
    · simp [hc, readI, hroot, BTree.rootNode]
    · simp [hc]
  | node b s n l r ihl ihr =>
    intro d c i ws todo f hcd hsub
    have hroot := hsub.root
    cases d with
    | zero =>
      simp only [expandCost, frontier, jobsOf, List.map_cons, List.map_nil, List.singleton_append]
      rw [expand]
      have hc : ¬ ((c : Int) < (md : Int)) := by omega
      simp [hc]
    | succ d =>
      have hc : (c : Int) < (md : Int) := by omega
      have hro : (1 + (l.size : Int)) ≠ 0 := by omega
      simp only [expandCost, frontier]
      rw [show f + (1 + expandCost d r + expandCost d l)
        = (f + expandCost d l + expandCost d r) + 1 by omega, expand]
      simp only [hc, if_true, readI, getI?_natCast, hroot, BTree.rootNode, ne_eq, hro,
        not_false_eq_true]
      have e1 : (i : Int) + (1 + (l.size : Int)) = ((i + 1 + l.size : Nat) : Int) := by
        push_cast; ring
      have e2 : (i : Int) + 1 = ((i + 1 : Nat) : Int) := by push_cast; ring
      have e3 : (c : Int) + 1 = ((c + 1 : Nat) : Int) := by push_cast; ring
      rw [e1, e2, e3, ihr d (c + 1) (i + 1 + l.size) _ _ _ (by omega) hsub.right,
        ihl d (c + 1) (i + 1) _ _ _ (by omega) hsub.left]
      simp [jobsOf]

/-! ### One outer job -/

theorem processJob_leaf_none (W : Nat) (nodes : List BvhFlatNode) (refs : List ReferenceWrapper)
    (prims : List Triangle) (i : Nat) (k dep : Int) (st : BuildState) (cur : BvhFlatNode)
    (hcur : nodes[i]? = some cur) (hleaf : cur.rightOffset = 0) (hk : k ≠ -1)
    (r : BuildState × Option Int)
    (h : processJob W nodes refs prims ⟨i, k, dep⟩ st = .ok r) : r.2 = none := by
  simp only [processJob, readI, getI?_natCast, hcur, hleaf, hk, ne_eq, not_true_eq_false,
    or_self, if_false, not_false_eq_true, if_true] at h
  repeat' split at h
  all_goals first | (cases h; rfl) | cases h

theorem processJob_node_some (W : Nat) (nodes : List BvhFlatNode) (refs : List ReferenceWrapper)
    (prims : List Triangle) (i : Nat) (k dep : Int) (st : BuildState) (cur : BvhFlatNode)
    (hcur : nodes[i]? = some cur) (hnode : cur.rightOffset ≠ 0)
    (r : BuildState × Option Int)
    (h : processJob W nodes refs prims ⟨i, k, dep⟩ st = .ok r) :
    ∃ k1 : Int, r.2 = some k1 ∧ k1 ≠ -1 := by
  simp only [processJob, readI, getI?_natCast, hcur, hnode, ne_eq, not_false_eq_true, or_true,
    if_true, if_false] at h
  repeat' split at h
  all_goals first
    | (cases h; exact ⟨_, rfl, by simp only [List.length_append, List.length_singleton]; omega⟩)
    | cases h

theorem processJob_root (W : Nat) (nodes : List BvhFlatNode) (refs : List ReferenceWrapper)
    (prims : List Triangle) (i : Nat) (dep : Int) (st : BuildState) (cur : BvhFlatNode)
    (hcur : nodes[i]? = some cur) :
    processJob W nodes refs prims ⟨i, -1, dep⟩ st
      = .ok ({ st with
                depth := if st.depth < dep then dep else st.depth
                buildNodes := st.buildNodes ++ [newNodeFor cur]
                nNodes := st.nNodes + 1 }, some (st.buildNodes.length : Int)) := by
  simp [processJob, readI, hcur, newNodeFor]

theorem processJob_leaf (W : Nat) (nodes : List BvhFlatNode) (refs : List ReferenceWrapper)
    (prims : List Triangle) (i k : Nat) (dep : Int) (st : BuildState) (cur : BvhFlatNode)
    (P : BvhSimdFlatNode) (j : Nat) (leaf : BvhSimdLeafNode)
    (hcur : nodes[i]? = some cur) (hleaf : cur.rightOffset = 0)
    (hP : st.buildNodes[k]? = some P) (hslot : slotSearch P.indices (W - 1) 0 = .ok j)
    (hpack : packLeaf W cur refs prims = .ok leaf) :
    processJob W nodes refs prims ⟨i, k, dep⟩ st
      = .ok ({ buildNodes :=
                st.buildNodes.set k (fillLane P j ⟨cur.bbox, st.buildLeaves.length, true⟩)
               buildLeaves := st.buildLeaves ++ [leaf]
               nNodes := st.nNodes
               nLeaves := st.nLeaves + 1
               depth := if st.depth < dep then dep else st.depth
               averageLeafSize := st.averageLeafSize + (cur.nPrimitives : ℚ) }, none) := by
  have hk : (k : Int) ≠ -1 := by omega
  simp [processJob, readI, hcur, hleaf, hk, hP, hslot, hpack, fillLane, writeI]

theorem processJob_node (W : Nat) (nodes : List BvhFlatNode) (refs : List ReferenceWrapper)
    (prims : List Triangle) (i k : Nat) (dep : Int) (st : BuildState) (cur : BvhFlatNode)
    (P : BvhSimdFlatNode) (j : Nat)
    (hcur : nodes[i]? = some cur) (hnode : cur.rightOffset ≠ 0)
    (hP : st.buildNodes[k]? = some P) (hslot : slotSearch P.indices (W - 1) 0 = .ok j) :
    processJob W nodes refs prims ⟨i, k, dep⟩ st
      = .ok ({ buildNodes :=
                st.buildNodes.set k (fillLane P j ⟨cur.bbox, st.buildNodes.length, false⟩)
                  ++ [newNodeFor cur]
               buildLeaves := st.buildLeaves
               nNodes := st.nNodes + 1
               nLeaves := st.nLeaves
               depth := if st.depth < dep then dep else st.depth
               averageLeafSize := st.averageLeafSize }, some (st.buildNodes.length : Int)) := by
  have hk : (k : Int) ≠ -1 := by omega
  have hlt : k < st.buildNodes.length := by
    by_contra hge
    rw [List.getElem?_eq_none (by omega)] at hP
    cases hP
  have hP2 : (st.buildNodes ++ [newNodeFor cur])[k]? = some P := by
    rw [List.getElem?_append_left hlt]; exact hP
  simp only [processJob, readI, getI?_natCast, hcur, hnode, ne_eq, not_false_eq_true, or_true,
    if_true, if_false, hk, newNodeFor] at hP2 ⊢
  simp only [hP2, hslot, fillLane, writeI, Int.toNat_ofNat, List.length_append,
    List.length_singleton, Nat.cast_add, Nat.cast_one, add_sub_cancel_right,
    List.set_append_left _ _ hlt]

/-! ### The outer loop runs the jobs in frontier order -/

theorem expandCost_lt (t : BTree) : ∀ d : Nat, expandCost d t < 2 ^ (d + 1) := by
  induction t with
  | leaf b s n =>
    intro d
    have : 0 < 2 ^ d := Nat.pow_pos (by decide)
    simp only [expandCost, pow_succ]
    omega
  | node b s n l r ihl ihr =>
    intro d
    cases d with
    | zero => simp [expandCost]
    | succ d =>
      have h1 := ihl d
      have h2 := ihr d
      simp only [expandCost, pow_succ] at h1 h2 ⊢
      omega

theorem expand_root (md : Nat) (nodes : List BvhFlatNode) (k dep : Int) (i : Nat) (t : BTree)
    (todo : List BvhSimdBuildNode) (hsub : HasSubtree nodes i t) :
    expand (md : Int) nodes k dep (expandFuel (md : Int)) [⟨(i : Int), 0⟩] todo
      = .ok (jobsOf k (dep + 1) (frontier md i t) ++ todo) := by
  have hlt := expandCost_lt t md
  have hf : expandFuel (md : Int) = (2 ^ (md + 1) - expandCost md t) + expandCost md t := by
    simp only [expandFuel, Int.toNat_ofNat]
    omega
  have h := expand_frontier md nodes k dep t md 0 i [] todo (2 ^ (md + 1) - expandCost md t)
    (by omega) hsub
  rw [hf]
  simp only [Nat.cast_zero] at h
  rw [h, expand_nil]

theorem jobsOf_append (k dep : Int) (a b : List (Nat × BTree)) :
    jobsOf k dep (a ++ b) = jobsOf k dep a ++ jobsOf k dep b := by
  simp [jobsOf]

theorem buildLoop_lay (W md : Nat) (hmd : 1 ≤ md) (nodes : List BvhFlatNode)
    (refs : List ReferenceWrapper) (prims : List Triangle) :
    ∀ (t : BTree) (d i : Nat) (k dep : Int) (rest : List BvhSimdBuildNode) (st : BuildState)
      (n : Nat), k ≠ -1 → HasSubtree nodes i t →
      buildLoop W (md : Int) nodes refs prims (n + jobCount md d t)
          (jobsOf k dep (frontier d i t) ++ rest) st
        = match lay W md nodes refs prims k dep d i t st with
          | .error e => .error e
          | .ok st1 => buildLoop W (md : Int) nodes refs prims n rest st1 := by
  intro t
  induction t with
  | leaf b s n0 =>
    intro d i k dep rest st n hk hsub
    have hroot := hsub.root
    simp only [frontier, jobsOf, List.map_cons, List.map_nil, List.singleton_append, jobCount,
      lay]
    rw [buildLoop, buildStep]
    cases hp : processJob W nodes refs prims ⟨i, k, dep⟩ st with
    | error e => rfl
    | ok r =>
      obtain ⟨st1, o⟩ := r
      have hnone := processJob_leaf_none W nodes refs prims i k dep st _ hroot rfl hk _ hp
      simp only at hnone
      subst hnone
      rfl
  | node b s n0 l r ihl ihr =>
    intro d i k dep rest st n hk hsub
    have hroot := hsub.root
    cases d with
    | zero =>
      simp only [frontier, jobsOf, List.map_cons, List.map_nil, List.singleton_append, jobCount,
        lay]
      rw [show n + (1 + jobCount md (md - 1) l + jobCount md (md - 1) r)
        = (n + jobCount md (md - 1) r + jobCount md (md - 1) l) + 1 by omega, buildLoop, buildStep]
      cases hp : processJob W nodes refs prims ⟨i, k, dep⟩ st with
      | error e => rfl
      | ok res =>
        obtain ⟨st1, o⟩ := res
        obtain ⟨k1, ho, hk1⟩ := processJob_node_some W nodes refs prims i k dep st _ hroot
          (by simp only [BTree.rootNode]; omega) _ hp
        simp only at ho
        subst ho
        simp only
        rw [expand_root md nodes k1 dep i _ rest hsub]
        simp only
        obtain ⟨m, rfl⟩ : ∃ m, md = m + 1 := ⟨md - 1, by omega⟩
        simp only [frontier, jobsOf_append, List.append_assoc, Nat.add_sub_cancel]
        rw [ihl m (i + 1) k1 (dep + 1) _ st1 _ hk1 hsub.left]
        cases hl : lay W (m + 1) nodes refs prims k1 (dep + 1) m (i + 1) l st1 with
        | error e => rfl
        | ok st2 =>
          simp only
          rw [ihr m (i + 1 + l.size) k1 (dep + 1) _ st2 _ hk1 hsub.right]
    | succ d =>
      simp only [frontier, jobsOf_append, List.append_assoc, jobCount, lay]
      rw [show n + (jobCount md d l + jobCount md d r)
        = (n + jobCount md d r) + jobCount md d l by omega,
        ihl d (i + 1) k dep _ st _ hk hsub.left]
      cases hl : lay W md nodes refs prims k dep d (i + 1) l st with
      | error e => rfl
      | ok st2 =>
        simp only
        rw [ihr d (i + 1 + l.size) k dep _ st2 _ hk hsub.right]

/-! ### Slot search and slot fills -/

theorem slotSearch_filled (indices : Nat → Int) (j : Nat)
    (hlt : ∀ x, x < j → indices x ≠ -1) (hj : indices j = -1) :
    ∀ (r tc : Nat), tc ≤ j → j ≤ tc + r → slotSearch indices r tc = .ok j := by
  intro r
  induction r with
  | zero =>
    intro tc h1 h2
    have : tc = j := by omega
    subst this
    simp [slotSearch, hj]
  | succ r ih =>
    intro tc h1 h2
    by_cases htc : tc = j
    · subst htc
      simp [slotSearch, hj]
    · have hne := hlt tc (by omega)
      simp only [slotSearch, ne_eq, hne, not_false_eq_true, if_true]
      exact ih (tc + 1) (by omega) (by omega)

theorem slotSearch_of_filled (W : Nat) (P : BvhSimdFlatNode) (j : Nat) (hf : Filled P j)
    (hj : j < W) : slotSearch P.indices (W - 1) 0 = .ok j :=
  slotSearch_filled P.indices j hf.1 (hf.2 j (le_refl _)) (W - 1) 0 (Nat.zero_le _) (by omega)

@[simp] theorem fillLane_indices (P : BvhSimdFlatNode) (j : Nat) (l : LaneSpec) (x : Nat) :
    (fillLane P j l).indices x = if x = j then l.index else P.indices x := by
  simp [fillLane, setLane, BvhSimdFlatNode.addBounds]

@[simp] theorem fillLane_isLeaf (P : BvhSimdFlatNode) (j : Nat) (l : LaneSpec) (x : Nat) :
    (fillLane P j l).isLeaf x = if x = j then l.isLeaf else P.isLeaf x := by
  simp [fillLane, setLane, BvhSimdFlatNode.addBounds]

@[simp] theorem fillLane_boxMin (P : BvhSimdFlatNode) (j : Nat) (l : LaneSpec) (x : Nat) :
    ((fillLane P j l).boxes 0).lane x = if x = j then l.bbox.pMin else (P.boxes 0).lane x := by
  by_cases h : x = j <;>
    simp [fillLane, setLane, BvhSimdFlatNode.addBounds, SimdVec3.setLane, SimdVec3.lane, h]

@[simp] theorem fillLane_boxMax (P : BvhSimdFlatNode) (j : Nat) (l : LaneSpec) (x : Nat) :
    ((fillLane P j l).boxes 1).lane x = if x = j then l.bbox.pMax else (P.boxes 1).lane x := by
  by_cases h : x = j <;>
    simp [fillLane, setLane, BvhSimdFlatNode.addBounds, SimdVec3.setLane, SimdVec3.lane, h]

theorem fillLanes_append (P : BvhSimdFlatNode) (j : Nat) (a b : List LaneSpec) :
    fillLanes P j (a ++ b) = fillLanes (fillLanes P j a) (j + a.length) b := by
  induction a generalizing P j with
  | nil => simp [fillLanes]
  | cons l ls ih =>
    rw [List.cons_append]
    simp only [fillLanes, List.length_cons]
    rw [ih]
    congr 1
    omega

theorem fillLane_filled (P : BvhSimdFlatNode) (j : Nat) (l : LaneSpec) (hf : Filled P j)
    (hl : l.index ≠ -1) : Filled (fillLane P j l) (j + 1) := by
  constructor
  · intro x hx
    by_cases h : x = j
    · simp [h, hl]
    · simp only [fillLane_indices, h, if_false]
      exact hf.1 x (by omega)
  · intro x hx
    have h : x ≠ j := by omega
    simp only [fillLane_indices, h, if_false]
    exact hf.2 x (by omega)

theorem fillLanes_filled (ls : List LaneSpec) :
    ∀ (P : BvhSimdFlatNode) (j : Nat), Filled P j → (∀ l ∈ ls, l.index ≠ -1) →
      Filled (fillLanes P j ls) (j + ls.length) := by
  induction ls with
  | nil => intro P j hf _; simpa [fillLanes] using hf
  | cons l ls ih =>
    intro P j hf hl
    simp only [fillLanes, List.length_cons]
    have := ih (fillLane P j l) (j + 1)
      (fillLane_filled P j l hf (hl l (List.mem_cons_self _ _)))
      (fun l' hl' => hl l' (List.mem_cons_of_mem _ hl'))
    rw [show j + (ls.length + 1) = j + 1 + ls.length by omega]
    exact this

theorem newNodeFor_filled (cur : BvhFlatNode) : Filled (newNodeFor cur) 0 := by
  constructor
  · intro x hx; omega
  · intro x _; rfl

/-! ### Sizes of the regrouped tree -/

theorem length_frontier_le (t : BTree) : ∀ (d i : Nat), (frontier d i t).length ≤ 2 ^ d := by
  induction t with
  | leaf b s n =>
    intro d i
    simp only [frontier, List.length_singleton]
    exact Nat.one_le_two_pow
  | node b s n l r ihl ihr =>
    intro d i
    cases d with
    | zero => simp [frontier]
    | succ d =>
      have h1 := ihl d (i + 1)
      have h2 := ihr d (i + 1 + l.size)
      simp only [frontier, List.length_append, pow_succ]
      omega

theorem length_lanesOf (md : Nat) (t : BTree) :
    ∀ (d i N L : Nat), (lanesOf md d t N L).length = (frontier d i t).length := by
  induction t with
  | leaf b s n => intro d i N L; simp [lanesOf, frontier]
  | node b s n l r ihl ihr =>
    intro d i N L
    cases d with
    | zero => simp [lanesOf, frontier]
    | succ d =>
      simp only [lanesOf, frontier, List.length_append]
      rw [ihl d (i + 1), ihr d (i + 1 + l.size)]

theorem length_nodesOf (md : Nat) (t : BTree) :
    ∀ (d N L : Nat), (nodesOf md d t N L).length = numNodes md d t := by
  induction t with
  | leaf b s n => intro d N L; simp [nodesOf, numNodes]
  | node b s n l r ihl ihr =>
    intro d N L
    cases d with
    | zero =>
      simp only [nodesOf, numNodes, List.length_cons, List.length_append, ihl, ihr]
      omega
    | succ d => simp only [nodesOf, numNodes, List.length_append, ihl, ihr]

theorem lanesOf_index_ne (md : Nat) (t : BTree) :
    ∀ (d N L : Nat), ∀ l ∈ lanesOf md d t N L, l.index ≠ -1 := by
  induction t with
  | leaf b s n =>
    intro d N L l hl
    simp only [lanesOf, List.mem_singleton] at hl
    subst hl
    simp only [ne_eq]
    omega
  | node b s n l r ihl ihr =>
    intro d N L x hx
    cases d with
    | zero =>
      simp only [lanesOf, List.mem_singleton] at hx
      subst hx
      simp only [ne_eq]
      omega
    | succ d =>
      simp only [lanesOf, List.mem_append] at hx
      rcases hx with hx | hx
      · exact ihl d _ _ x hx
      · exact ihr d _ _ x hx

/-! ### The big-step form computes the layout functions -/

theorem set_concat_length {α : Type} (A : List α) (x y : α) :
    (A ++ [x]).set A.length y = A ++ [y] := by
  induction A with
  | nil => rfl
  | cons a A ih => simp [ih]

theorem getElem?_set_append {α : Type} (A B : List α) (k : Nat) (x : α) (hk : k < A.length) :
    (A.set k x ++ B)[k]? = some x := by
  rw [List.getElem?_append_left (by simpa using hk)]
  simp [List.getElem?_set, hk]

theorem set_set_append {α : Type} (A B : List α) (k : Nat) (x y : α) (hk : k < A.length) :
    (A.set k x ++ B).set k y = A.set k y ++ B := by
  rw [List.set_append_left _ _ (by simpa using hk), List.set_set]

theorem set_mid {α : Type} (A B : List α) (x y : α) (n : Nat) (hn : n = A.length) :
    (A ++ [x] ++ B).set n y = A ++ [y] ++ B := by
  subst hn
  rw [List.set_append_left _ _ (by simp), set_concat_length]

theorem lt_length_of_getElem? {α : Type} {A : List α} {k : Nat} {x : α} (h : A[k]? = some x) :
    k < A.length := by
  by_contra hge
  rw [List.getElem?_eq_none (by omega)] at h
  cases h

theorem lay_eq (W md : Nat) (hmd : 1 ≤ md) (hW : 2 ^ md ≤ W) (nodes : List BvhFlatNode)
    (refs : List ReferenceWrapper) (prims : List Triangle) :
    ∀ (t : BTree) (d i k : Nat) (dep : Int) (st : BuildState) (P : BvhSimdFlatNode) (j : Nat),
      HasSubtree nodes i t →
      (∀ cur ∈ t.leafNodes, packLeaf W cur refs prims = .ok (packLeafD W refs prims cur)) →
      st.buildNodes[k]? = some P → Filled P j → j + (frontier d i t).length ≤ W →
      lay W md nodes refs prims (k : Int) dep d i t st
        = .ok { buildNodes :=
                  st.buildNodes.set k
                      (fillLanes P j (lanesOf md d t st.buildNodes.length st.buildLeaves.length))
                    ++ nodesOf md d t st.buildNodes.length st.buildLeaves.length
                buildLeaves := st.buildLeaves ++ t.leafNodes.map (packLeafD W refs prims)
                nNodes := st.nNodes + (numNodes md d t : Int)
                nLeaves := st.nLeaves + (t.leafNodes.length : Int)
                depth := depthAfter md d t dep st.depth
                averageLeafSize := st.averageLeafSize + t.sumPrimitives } := by
  intro t
  induction t with
  | leaf b s n =>
    intro d i k dep st P j hsub hpack hP hf hlen
    have hroot := hsub.root
    simp only [frontier, List.length_singleton] at hlen
    have hslot := slotSearch_of_filled W P j hf (by omega)
    have hpk := hpack ⟨b, s, n, 0⟩ (by simp [BTree.leafNodes])
    simp only [lay]
    rw [processJob_leaf W nodes refs prims i k dep st _ P j _ hroot rfl hP hslot hpk]
    simp [lanesOf, nodesOf, fillLanes, numNodes, BTree.leafNodes, depthAfter,
      BTree.sumPrimitives, BTree.rootNode]
  | node b s n l r ihl ihr =>
    intro d i k dep st P j hsub hpack hP hf hlen
    have hroot := hsub.root
    have hkl := lt_length_of_getElem? hP
    have hpackl : ∀ cur ∈ l.leafNodes, packLeaf W cur refs prims
        = .ok (packLeafD W refs prims cur) :=
      fun cur h => hpack cur (by simp [BTree.leafNodes, h])
    have hpackr : ∀ cur ∈ r.leafNodes, packLeaf W cur refs prims
        = .ok (packLeafD W refs prims cur) :=
      fun cur h => hpack cur (by simp [BTree.leafNodes, h])
    cases d with
    | zero =>
      simp only [frontier, List.length_singleton] at hlen
      have hslot := slotSearch_of_filled W P j hf (by omega)
      obtain ⟨m, rfl⟩ : ∃ m, md = m + 1 := ⟨md - 1, by omega⟩
      simp only [lay, Nat.add_sub_cancel]
      rw [processJob_node W nodes refs prims i k dep st _ P j hroot
        (by simp only [BTree.rootNode]; omega) hP hslot]
      simp only
      -- the left part of the new node
      have hnew : (st.buildNodes.set k
            (fillLane P j ⟨(BTree.node b s n l r).rootNode.bbox, st.buildNodes.length, false⟩)
          ++ [newNodeFor (BTree.node b s n l r).rootNode])[st.buildNodes.length]?
          = some (newNodeFor (BTree.node b s n l r).rootNode) := by
        rw [List.getElem?_append_right (by simp)]
        simp
      have hl1 := length_frontier_le l m (i + 1)
      have hr1 := length_frontier_le r m (i + 1 + l.size)
      have h2 : 2 ^ (m + 1) = 2 ^ m + 2 ^ m := by rw [pow_succ]; omega
      rw [ihl m (i + 1) st.buildNodes.length (dep + 1) _ _ 0 hsub.left hpackl hnew
        (newNodeFor_filled _) (by omega)]
      simp only
      have hmid : ((st.buildNodes.set k
            (fillLane P j ⟨(BTree.node b s n l r).rootNode.bbox, st.buildNodes.length, false⟩)
          ++ [newNodeFor (BTree.node b s n l r).rootNode]).set st.buildNodes.length
            (fillLanes (newNodeFor (BTree.node b s n l r).rootNode) 0
              (lanesOf (m + 1) m l (st.buildNodes.length + 1) st.buildLeaves.length))
          ++ nodesOf (m + 1) m l (st.buildNodes.length + 1) st.buildLeaves.length)[
            st.buildNodes.length]?
          = some (fillLanes (newNodeFor (BTree.node b s n l r).rootNode) 0
              (lanesOf (m + 1) m l (st.buildNodes.length + 1) st.buildLeaves.length)) := by
        rw [List.getElem?_append_left (by simp)]
        simp [List.getElem?_set]
      have hfill := fillLanes_filled
        (lanesOf (m + 1) m l (st.buildNodes.length + 1) st.buildLeaves.length)
        (newNodeFor (BTree.node b s n l r).rootNode) 0 (newNodeFor_filled _)
        (lanesOf_index_ne (m + 1) l m _ _)
      rw [length_lanesOf (m + 1) l m (i + 1)] at hfill
      have hlen2 : ∀ (A : List BvhSimdFlatNode) (x y : BvhSimdFlatNode),
          (A ++ [x]).length = A.length + 1 := by intros; simp
      simp only [List.length_append, List.length_set, List.length_singleton, List.length_map,
        length_nodesOf] at hmid ⊢
      rw [ihr m (i + 1 + l.size) st.buildNodes.length (dep + 1) _ _ _ hsub.right hpackr hmid
        hfill (by omega)]
      simp only [List.length_append, List.length_set, List.length_singleton, List.length_map,
        length_nodesOf]
      have e1 : (st.buildNodes.set k
            (fillLane P j ⟨(BTree.node b s n l r).rootNode.bbox, st.buildNodes.length, false⟩)
          ++ [newNodeFor (BTree.node b s n l r).rootNode]).set st.buildNodes.length
            (fillLanes (newNodeFor (BTree.node b s n l r).rootNode) 0
              (lanesOf (m + 1) m l (st.buildNodes.length + 1) st.buildLeaves.length))
          = st.buildNodes.set k
            (fillLane P j ⟨(BTree.node b s n l r).rootNode.bbox, st.buildNodes.length, false⟩)
            ++ [fillLanes (newNodeFor (BTree.node b s n l r).rootNode) 0
              (lanesOf (m + 1) m l (st.buildNodes.length + 1) st.buildLeaves.length)] := by
        simp
      rw [e1]
      congr 1
      simp only [BuildState.mk.injEq]
      refine ⟨?_, ?_, ?_, ?_, ?_, ?_⟩
      · rw [set_mid _ _ _ _ _ (by simp)]
        simp only [lanesOf, nodesOf, fillLanes, Nat.add_sub_cancel, BTree.rootNode]
        rw [fillLanes_append, length_lanesOf (m + 1) l m (i + 1)]
        simp
      · simp [BTree.leafNodes]
      · simp [numNodes]; ring
      · simp [BTree.leafNodes]; ring
      · simp [depthAfter]
      · simp [BTree.sumPrimitives]; ring
    | succ d =>
      simp only [frontier, List.length_append] at hlen
      simp only [lay]
      rw [ihl d (i + 1) k dep st P j hsub.left hpackl hP hf (by omega)]
      simp only
      have hmid := getElem?_set_append st.buildNodes
        (nodesOf md d l st.buildNodes.length st.buildLeaves.length) k
        (fillLanes P j (lanesOf md d l st.buildNodes.length st.buildLeaves.length)) hkl
      have hfill := fillLanes_filled
        (lanesOf md d l st.buildNodes.length st.buildLeaves.length) P j hf
        (lanesOf_index_ne md l d _ _)
      rw [length_lanesOf md l d (i + 1)] at hfill
      rw [ihr d (i + 1 + l.size) k dep _ _ _ hsub.right hpackr hmid hfill (by omega)]
      simp only [List.length_append, List.length_set, List.length_map, length_nodesOf]
      congr 1
      simp only [BuildState.mk.injEq]
      refine ⟨?_, ?_, ?_, ?_, ?_, ?_⟩
      · rw [set_set_append _ _ _ _ _ hkl]
        simp only [lanesOf, nodesOf]
        rw [fillLanes_append, length_lanesOf md l d (i + 1)]
        simp
      · simp [BTree.leafNodes]
      · simp [numNodes]; ring
      · simp [BTree.leafNodes]; ring
      · simp [depthAfter]
      · simp [BTree.sumPrimitives]; ring

/-! ### Leaf packing -/

theorem packLanes_spec (cur : BvhFlatNode) (refs : List ReferenceWrapper)
    (prims : List Triangle) :
    ∀ (r i : Nat) (acc : LeafFill),
      (∀ x : Nat, i ≤ x → x < i + r → (x : Int) < cur.nPrimitives →
        ∃ ref prim, getI? refs (cur.start + x) = some ref ∧ getI? prims ref.index = some prim) →
      ∃ acc1, packLanes cur refs prims r i acc = .ok acc1
        ∧ (∀ x, (x < i ∨ i + r ≤ x) →
            acc1.indices x = acc.indices x ∧ ∀ k j, acc1.tripoints k j x = acc.tripoints k j x)
        ∧ (∀ x, i ≤ x → x < i + r →
            ((x : Int) < cur.nPrimitives →
              ∃ ref prim, getI? refs (cur.start + x) = some ref
                ∧ getI? prims ref.index = some prim
                ∧ acc1.indices x = ref.index
                ∧ ∀ k j, acc1.tripoints k j x = (prim.getVertices k).get j)
            ∧ (cur.nPrimitives ≤ (x : Int) →
              acc1.indices x = -1 ∧ ∀ k j, acc1.tripoints k j x = 0)) := by
  intro r
  induction r with
  | zero =>
    intro i acc _
    exact ⟨acc, rfl, fun x _ => ⟨rfl, fun _ _ => rfl⟩, fun x h1 h2 => by omega⟩
  | succ r ih =>
    intro i acc hv
    -- the iteration for lane `i`
    have hstep : ∃ acc0, packLane cur refs prims i acc = .ok acc0
        ∧ (∀ x, x ≠ i →
            acc0.indices x = acc.indices x ∧ ∀ k j, acc0.tripoints k j x = acc.tripoints k j x)
        ∧ ((i : Int) < cur.nPrimitives →
              ∃ ref prim, getI? refs (cur.start + i) = some ref
                ∧ getI? prims ref.index = some prim
                ∧ acc0.indices i = ref.index
                ∧ ∀ k j, acc0.tripoints k j i = (prim.getVertices k).get j)
        ∧ (cur.nPrimitives ≤ (i : Int) →
              acc0.indices i = -1 ∧ ∀ k j, acc0.tripoints k j i = 0) := by
      by_cases hn : (i : Int) ≥ cur.nPrimitives
      · refine ⟨_, by simp only [packLane, hn, if_true]; rfl, ?_, ?_, ?_⟩
        · intro x hx
          simp [setLane, hx]
        · intro h; omega
        · intro _
          simp [setLane]
      · obtain ⟨ref, prim, h1, h2⟩ := hv i (le_refl _) (by omega) (by omega)
        refine ⟨_, by simp only [packLane, hn, if_false, readI, h1, h2]; rfl, ?_, ?_, ?_⟩
        · intro x hx
          simp [setLane, hx]
        · intro _
          exact ⟨ref, prim, h1, h2, by simp [setLane], by simp [setLane]⟩
        · intro h; omega
    obtain ⟨acc0, h0, hother, hlt, hge⟩ := hstep
    obtain ⟨acc1, h1, hout, hin⟩ := ih (i + 1) acc0
      (fun x hx1 hx2 hx3 => hv x (by omega) (by omega) hx3)
    refine ⟨acc1, by simp only [packLanes, h0, h1], ?_, ?_⟩
    · intro x hx
      have ha := hout x (by omega)
      have hb := hother x (by omega)
      exact ⟨ha.1.trans hb.1, fun k j => (ha.2 k j).trans (hb.2 k j)⟩
    · intro x hx1 hx2
      by_cases hxi : x = i
      · subst hxi
        have ha := hout x (by omega)
        constructor
        · intro hlt'
          obtain ⟨ref, prim, e1, e2, e3, e4⟩ := hlt hlt'
          exact ⟨ref, prim, e1, e2, ha.1.trans e3, fun k j => (ha.2 k j).trans (e4 k j)⟩
        · intro hge'
          obtain ⟨e3, e4⟩ := hge hge'
          exact ⟨ha.1.trans e3, fun k j => (ha.2 k j).trans (e4 k j)⟩
      · exact hin x (by omega) (by omega)

theorem vector3_eta (v : Vector3) : (⟨v.get 0, v.get 1, v.get 2⟩ : Vector3) = v := by
  cases v; rfl

theorem packLeaf_spec (W : Nat) (cur : BvhFlatNode) (refs : List ReferenceWrapper)
    (prims : List Triangle)
    (hv : ∀ x : Nat, x < W → (x : Int) < cur.nPrimitives →
      ∃ ref prim, getI? refs (cur.start + x) = some ref ∧ getI? prims ref.index = some prim) :
    ∃ leaf, packLeaf W cur refs prims = .ok leaf
      ∧ ∀ x, x < W → LanePacked refs prims cur leaf x := by
  obtain ⟨acc1, h1, _, hin⟩ := packLanes_spec cur refs prims W 0
    { indices := fun _ => 0, tripoints := fun _ _ _ => 0 }
    (fun x _ hx2 hx3 => hv x (by omega) hx3)
  refine ⟨_, by simp only [packLeaf, h1]; rfl, ?_⟩
  intro x hx
  obtain ⟨ha, hb⟩ := hin x (Nat.zero_le _) (by omega)
  constructor
  · intro hlt
    obtain ⟨ref, prim, e1, e2, e3, e4⟩ := ha hlt
    refine ⟨ref, prim, e1, e2, e3, ?_⟩
    intro k
    simp only [BvhSimdLeafNode.initPoints, SimdVec3.lane, e4]
    exact vector3_eta _
  · intro hge
    obtain ⟨e3, e4⟩ := hb hge
    refine ⟨e3, ?_⟩
    intro k
    simp [BvhSimdLeafNode.initPoints, SimdVec3.lane, e4, Vector3.zero]

theorem packLeaf_eq_packLeafD (W : Nat) (cur : BvhFlatNode) (refs : List ReferenceWrapper)
    (prims : List Triangle) (leaf : BvhSimdLeafNode) (h : packLeaf W cur refs prims = .ok leaf) :
    packLeaf W cur refs prims = .ok (packLeafD W refs prims cur) := by
  simp [packLeafD, h]

theorem packLeafD_spec (W : Nat) (refs : List ReferenceWrapper) (prims : List Triangle)
    (t : BTree) (hv : RefsValid W refs prims t) (cur : BvhFlatNode) (hcur : cur ∈ t.leafNodes) :
    packLeaf W cur refs prims = .ok (packLeafD W refs prims cur)
      ∧ ∀ x, x < W → LanePacked refs prims cur (packLeafD W refs prims cur) x := by
  obtain ⟨leaf, h1, h2⟩ := packLeaf_spec W cur refs prims (hv cur hcur)
  have h3 : packLeafD W refs prims cur = leaf := by simp [packLeafD, h1]
  rw [h3]
  exact ⟨h1, h2⟩

/-! ### The result of `build` in closed form -/

theorem jobCount_le_size (md : Nat) (t : BTree) : ∀ d, jobCount md d t ≤ t.size := by
  induction t with
  | leaf b s n => intro d; simp [jobCount, BTree.size]
  | node b s n l r ihl ihr =>
    intro d
    cases d with
    | zero =>
      have h1 := ihl (md - 1)
      have h2 := ihr (md - 1)
      simp only [jobCount, BTree.size]
      omega
    | succ d =>
      have h1 := ihl d
      have h2 := ihr d
      simp only [jobCount, BTree.size]
      omega

theorem buildLoop_nil (W : Nat) (maxDepth : Int) (nodes : List BvhFlatNode)
    (refs : List ReferenceWrapper) (prims : List Triangle) (fuel : Nat) (st : BuildState) :
    buildLoop W maxDepth nodes refs prims fuel [] st = .ok st := by
  cases fuel <;> simp [buildLoop]

theorem buildLoop_root (W md : Nat) (hmd : 1 ≤ md) (hW : 2 ^ md ≤ W)
    (refs : List ReferenceWrapper) (prims : List Triangle) (t : BTree)
    (hv : RefsValid W refs prims t) (extra : Nat) :
    buildLoop W (md : Int) t.flatten refs prims (t.size + 1 + extra) [⟨0, -1, 0⟩]
        { buildNodes := [], buildLeaves := [], nNodes := 0, nLeaves := 0, depth := 0,
          averageLeafSize := 0 }
      = .ok { buildNodes := (wideTreeOf W md refs prims t).flatTree
              buildLeaves := (wideTreeOf W md refs prims t).leaves
              nNodes := (wideTreeOf W md refs prims t).nNodes
              nLeaves := (wideTreeOf W md refs prims t).nLeaves
              depth := (wideTreeOf W md refs prims t).depth
              averageLeafSize := (wideTreeOf W md refs prims t).averageLeafSize } := by
  have hsub := HasSubtree.self t
  have hroot := hsub.root
  have hjc := jobCount_le_size md t md
  rw [show t.size + 1 + extra = ((t.size - jobCount md md t + extra) + jobCount md md t) + 1 by
    omega, buildLoop, buildStep]
  have hp := processJob_root W t.flatten refs prims 0 0
    { buildNodes := [], buildLeaves := [], nNodes := 0, nLeaves := 0, depth := 0,
      averageLeafSize := 0 } _ hroot
  simp only [Nat.cast_zero] at hp
  rw [hp]
  simp only
  have he := expand_root md t.flatten ((0 : Nat) : Int) 0 0 t [] hsub
  simp only [Nat.cast_zero, List.length_nil] at he ⊢
  rw [he]
  simp only
  have hl := buildLoop_lay W md hmd t.flatten refs prims t md 0 ((0 : Nat) : Int) (0 + 1) []
    { buildNodes := [newNodeFor t.rootNode], buildLeaves := [], nNodes := 0 + 1, nLeaves := 0,
      depth := 0, averageLeafSize := 0 } (t.size - jobCount md md t + extra) (by simp) hsub
  simp only [Nat.cast_zero, lt_self_iff_false, if_false, List.nil_append] at hl ⊢
  rw [hl]
  have hq := lay_eq W md hmd hW t.flatten refs prims t md 0 0 (0 + 1)
    { buildNodes := [newNodeFor t.rootNode], buildLeaves := [], nNodes := 0 + 1, nLeaves := 0,
      depth := 0, averageLeafSize := 0 } (newNodeFor t.rootNode) 0 hsub
    (fun cur hcur => (packLeafD_spec W refs prims t hv cur hcur).1) rfl (newNodeFor_filled _)
    (by have := length_frontier_le t md 0; omega)
  simp only [Nat.cast_zero] at hq
  rw [hq]
  simp only [buildLoop_nil, wideTreeOf]
  simp

/-! ### Nodes of a binary tree -/

theorem descend_append (t : BTree) :
    ∀ (i : Nat) (p q : List Bool) (c : Nat × BTree), descend i t p = some c →
      descend i t (p ++ q) = descend c.1 c.2 q := by
  induction t with
  | leaf b s n =>
    intro i p q c h
    cases p with
    | nil => simp only [descend, Option.some.injEq] at h; subst h; rfl
    | cons a p => simp [descend] at h
  | node b s n l r ihl ihr =>
    intro i p q c h
    cases p with
    | nil => simp only [descend, Option.some.injEq] at h; subst h; rfl
    | cons a p =>
      cases a with
      | false =>
        simp only [descend, List.cons_append] at h ⊢
        exact ihl _ p q c h
      | true =>
        simp only [descend, List.cons_append] at h ⊢
        exact ihr _ p q c h

theorem descend_nil (i : Nat) (t : BTree) : descend i t [] = some (i, t) := by
  cases t <;> rfl

theorem InTree.inSelf (t : BTree) : InTree t 0 t := ⟨[], descend_nil 0 t⟩

theorem InTree.inLeft {root : BTree} {i : Nat} {b : BoundingBox} {s n : Int} {l r : BTree}
    (h : InTree root i (.node b s n l r)) : InTree root (i + 1) l := by
  obtain ⟨p, hp⟩ := h
  exact ⟨p ++ [false], by rw [descend_append root 0 p [false] _ hp]; simp [descend, descend_nil]⟩

theorem InTree.inRight {root : BTree} {i : Nat} {b : BoundingBox} {s n : Int} {l r : BTree}
    (h : InTree root i (.node b s n l r)) : InTree root (i + 1 + l.size) r := by
  obtain ⟨p, hp⟩ := h
  exact ⟨p ++ [true], by rw [descend_append root 0 p [true] _ hp]; simp [descend, descend_nil]⟩

theorem descend_hasSubtree (nodes : List BvhFlatNode) (t : BTree) :
    ∀ (i : Nat) (p : List Bool) (c : Nat × BTree), HasSubtree nodes i t →
      descend i t p = some c → HasSubtree nodes c.1 c.2 := by
  induction t with
  | leaf b s n =>
    intro i p c hsub h
    cases p with
    | nil => simp only [descend, Option.some.injEq] at h; subst h; exact hsub
    | cons a p => simp [descend] at h
  | node b s n l r ihl ihr =>
    intro i p c hsub h
    cases p with
    | nil => simp only [descend, Option.some.injEq] at h; subst h; exact hsub
    | cons a p =>
      cases a with
      | false => exact ihl _ p c hsub.left (by simpa [descend] using h)
      | true => exact ihr _ p c hsub.right (by simpa [descend] using h)

theorem InTree.hasSubtree {root : BTree} {i : Nat} {t : BTree} (h : InTree root i t) :
    HasSubtree root.flatten i t := by
  obtain ⟨p, hp⟩ := h
  exact descend_hasSubtree root.flatten root 0 p _ (HasSubtree.self root) hp

theorem descend_in_frontier (t : BTree) :
    ∀ (d i : Nat) (c : Nat × BTree), c ∈ frontier d i t → ∃ p, descend i t p = some c := by
  induction t with
  | leaf b s n =>
    intro d i c hc
    simp only [frontier, List.mem_singleton] at hc
    exact ⟨[], by rw [hc]; rfl⟩
  | node b s n l r ihl ihr =>
    intro d i c hc
    cases d with
    | zero =>
      simp only [frontier, List.mem_singleton] at hc
      exact ⟨[], by rw [hc]; rfl⟩
    | succ d =>
      simp only [frontier, List.mem_append] at hc
      rcases hc with hc | hc
      · obtain ⟨p, hp⟩ := ihl d (i + 1) c hc
        exact ⟨false :: p, by simpa [descend] using hp⟩
      · obtain ⟨p, hp⟩ := ihr d (i + 1 + l.size) c hc
        exact ⟨true :: p, by simpa [descend] using hp⟩

/-! ### The wide tree regroups the binary tree -/

theorem HasSeg.append_left {α : Type} {xs : List α} {off : Nat} {a b : List α}
    (h : HasSeg xs off (a ++ b)) : HasSeg xs off a := by
  intro x hx
  rw [h x (by simp; omega), List.getElem?_append_left hx]

theorem HasSeg.append_right {α : Type} {xs : List α} {off : Nat} {a b : List α}
    (h : HasSeg xs off (a ++ b)) : HasSeg xs (off + a.length) b := by
  intro x hx
  have := h (a.length + x) (by simp; omega)
  rw [List.getElem?_append_right (by omega)] at this
  rw [show off + a.length + x = off + (a.length + x) by omega, this]
  congr 1
  omega

theorem HasSeg.head {α : Type} {xs : List α} {off : Nat} {a : α} {b : List α}
    (h : HasSeg xs off (a :: b)) : xs[off]? = some a := by
  have := h 0 (by simp)
  simpa using this

theorem HasSeg.tail {α : Type} {xs : List α} {off : Nat} {a : α} {b : List α}
    (h : HasSeg xs off (a :: b)) : HasSeg xs (off + 1) b := by
  intro x hx
  have := h (x + 1) (by simp; omega)
  rw [show off + 1 + x = off + (x + 1) by omega, this]
  simp

theorem HasSeg.segSelf {α : Type} (xs : List α) : HasSeg xs 0 xs := by
  intro x _
  simp

theorem LanesMatch.append {W md : Nat} {root : BTree} {refs : List ReferenceWrapper}
    {prims : List Triangle} {ns : List BvhSimdFlatNode} {lv : List BvhSimdLeafNode}
    {lo1 lo2 lo : Nat} {fr1 fr2 : List (Nat × BTree)} {la1 la2 : List LaneSpec}
    (h1 : LanesMatch W md root refs prims ns lv lo1 fr1 la1)
    (h2 : LanesMatch W md root refs prims ns lv lo2 fr2 la2)
    (hlen : la1.length = fr1.length) (hlo1 : lo ≤ lo1) (hlo2 : lo ≤ lo2) :
    LanesMatch W md root refs prims ns lv lo (fr1 ++ fr2) (la1 ++ la2) := by
  unfold LanesMatch at h1 h2 ⊢
  intro x c hx
  by_cases hlt : x < fr1.length
  · rw [List.getElem?_append_left hlt] at hx
    obtain ⟨l, e1, e2, e3, m, e4, e5, e6⟩ := h1 x c hx
    refine ⟨l, ?_, e2, e3, m, e4, e5, fun h => ⟨by have := (e6 h).1; omega, (e6 h).2⟩⟩
    rw [List.getElem?_append_left (by omega)]
    exact e1
  · rw [List.getElem?_append_right (by omega)] at hx
    obtain ⟨l, e1, e2, e3, m, e4, e5, e6⟩ := h2 _ c hx
    refine ⟨l, ?_, e2, e3, m, e4, e5, fun h => ⟨by have := (e6 h).1; omega, (e6 h).2⟩⟩
    rw [List.getElem?_append_right (by omega), hlen]
    exact e1

theorem fillLanes_outside (ls : List LaneSpec) :
    ∀ (P : BvhSimdFlatNode) (j x : Nat), (x < j ∨ j + ls.length ≤ x) →
      (fillLanes P j ls).indices x = P.indices x ∧ (fillLanes P j ls).isLeaf x = P.isLeaf x
        ∧ ((fillLanes P j ls).boxes 0).lane x = (P.boxes 0).lane x
        ∧ ((fillLanes P j ls).boxes 1).lane x = (P.boxes 1).lane x := by
  induction ls with
  | nil => intro P j x _; simp [fillLanes]
  | cons l ls ih =>
    intro P j x hx
    simp only [List.length_cons] at hx
    have hne : x ≠ j := by omega
    have := ih (fillLane P j l) (j + 1) x (by omega)
    simp only [fillLanes]
    simpa [hne] using this

theorem fillLanes_inside (ls : List LaneSpec) :
    ∀ (P : BvhSimdFlatNode) (j x : Nat) (l : LaneSpec), ls[x]? = some l →
      HasLane (fillLanes P j ls) (j + x) l := by
  induction ls with
  | nil => intro P j x l h; simp at h
  | cons l0 ls ih =>
    intro P j x l h
    cases x with
    | zero =>
      simp only [List.getElem?_cons_zero, Option.some.injEq] at h
      subst h
      have := fillLanes_outside ls (fillLane P j l0) (j + 1) j (by omega)
      simp only [fillLanes, Nat.add_zero, HasLane]
      simpa using this
    | succ x =>
      simp only [List.getElem?_cons_succ] at h
      have := ih (fillLane P j l0) (j + 1) x l h
      simp only [fillLanes]
      rw [show j + (x + 1) = j + 1 + x by omega]
      exact this

theorem isWideNodeFor_of_lanes (W md : Nat) (root : BTree)
    (refs : List ReferenceWrapper) (prims : List Triangle) (ns : List BvhSimdFlatNode)
    (lv : List BvhSimdLeafNode) (k i : Nat) (t : BTree) (cur : BvhFlatNode)
    (lanes : List LaneSpec) (hsub : InTree root i t)
    (hnode : ns[k]? = some (fillLanes (newNodeFor cur) 0 lanes))
    (hlenW : (frontier md i t).length ≤ W)
    (hlen : lanes.length = (frontier md i t).length)
    (hm : LanesMatch W md root refs prims ns lv (k + 1) (frontier md i t) lanes) :
    IsWideNodeFor W md root refs prims ns lv k i t := by
  unfold LanesMatch at hm
  refine IsWideNodeFor.intro k i t _ (fun x => ((lanes[x]?.map fun l => l.index.toNat).getD 0))
    hsub hnode hlenW ?_ ?_ ?_ ?_ ?_
  · intro x hx
    have := fillLanes_outside lanes (newNodeFor cur) 0 x (by omega)
    exact ⟨this.1, this.2.1⟩
  · intro x c hc
    obtain ⟨l, e1, e2, e3, m, e4, _, _⟩ := hm x c hc
    have := fillLanes_inside lanes (newNodeFor cur) 0 x l e1
    simp only [Nat.zero_add] at this
    simp only [e1, Option.map_some', Option.getD_some, e4, Int.toNat_ofNat]
    rw [← e4, ← e2, ← e3]
    exact this
  · intro x c hc hleaf
    obtain ⟨l, e1, e2, e3, m, e4, e5, _⟩ := hm x c hc
    simp only [e1, Option.map_some', Option.getD_some, e4, Int.toNat_ofNat]
    exact e5 hleaf
  · intro x c hc hnl
    obtain ⟨l, e1, e2, e3, m, e4, _, e6⟩ := hm x c hc
    simp only [e1, Option.map_some', Option.getD_some, e4, Int.toNat_ofNat]
    have := (e6 hnl).1
    omega
  · intro x c hc hnl
    obtain ⟨l, e1, e2, e3, m, e4, _, e6⟩ := hm x c hc
    simp only [e1, Option.map_some', Option.getD_some, e4, Int.toNat_ofNat]
    exact (e6 hnl).2

theorem lanesMatch_of_segments (W md : Nat) (hmd : 1 ≤ md) (hW : 2 ^ md ≤ W)
    (root : BTree) (refs : List ReferenceWrapper) (prims : List Triangle)
    (ns : List BvhSimdFlatNode) (lv : List BvhSimdLeafNode) :
    ∀ (t : BTree) (d i N L : Nat), InTree root i t →
      HasSeg ns N (nodesOf md d t N L) →
      HasSeg lv L (t.leafNodes.map (packLeafD W refs prims)) →
      LanesMatch W md root refs prims ns lv N (frontier d i t) (lanesOf md d t N L)
        ∧ ∀ q, N ≤ q → q < N + numNodes md d t →
            ∃ ci ct, IsWideNodeFor W md root refs prims ns lv q ci ct := by
  intro t
  induction t with
  | leaf b s n =>
    intro d i N L hsub hns hlv
    constructor
    · intro x c hx
      simp only [frontier] at hx
      have hx0 : x = 0 := by
        by_contra hne
        rw [List.getElem?_eq_none (by simp; omega)] at hx
        cases hx
      subst hx0
      simp only [List.getElem?_cons_zero, Option.some.injEq] at hx
      subst hx
      refine ⟨⟨b, (L : Int), true⟩, by simp [lanesOf], rfl, rfl, L, rfl, ?_, ?_⟩
      · intro _
        have := hlv 0 (by simp [BTree.leafNodes])
        simpa [BTree.leafNodes, BTree.rootNode] using this
      · intro h
        simp [BTree.isLeaf] at h
    · intro q h1 h2
      simp only [numNodes] at h2
      omega
  | node b s n l r ihl ihr =>
    intro d i N L hsub hns hlv
    have hlvl : HasSeg lv L (l.leafNodes.map (packLeafD W refs prims)) := by
      simp only [BTree.leafNodes, List.map_append] at hlv
      exact hlv.append_left
    have hlvr : HasSeg lv (L + l.leafNodes.length) (r.leafNodes.map (packLeafD W refs prims)) := by
      simp only [BTree.leafNodes, List.map_append] at hlv
      simpa using hlv.append_right
    cases d with
    | zero =>
      obtain ⟨m, rfl⟩ : ∃ m, md = m + 1 := ⟨md - 1, by omega⟩
      simp only [nodesOf, Nat.add_sub_cancel] at hns
      have hnsl : HasSeg ns (N + 1) (nodesOf (m + 1) m l (N + 1) L) := hns.tail.append_left
      have hnsr : HasSeg ns (N + 1 + numNodes (m + 1) m l)
          (nodesOf (m + 1) m r (N + 1 + numNodes (m + 1) m l) (L + l.leafNodes.length)) := by
        have := hns.tail.append_right
        rwa [length_nodesOf] at this
      obtain ⟨hl1, hl2⟩ := ihl m (i + 1) (N + 1) L hsub.inLeft hnsl hlvl
      obtain ⟨hr1, hr2⟩ := ihr m (i + 1 + l.size) (N + 1 + numNodes (m + 1) m l)
        (L + l.leafNodes.length) hsub.inRight hnsr hlvr
      have hwide : IsWideNodeFor W (m + 1) root refs prims ns lv N i (BTree.node b s n l r) := by
        refine isWideNodeFor_of_lanes W (m + 1) root refs prims ns lv N i _ _ _ hsub hns.head
          ?_ ?_ ?_
        · have := length_frontier_le (BTree.node b s n l r) (m + 1) i
          omega
        · simp only [frontier, List.length_append, length_lanesOf (m + 1) l m (i + 1),
            length_lanesOf (m + 1) r m (i + 1 + l.size)]
        · simp only [frontier]
          exact LanesMatch.append hl1 hr1 (length_lanesOf (m + 1) l m (i + 1) _ _)
            (le_refl _) (by omega)
      constructor
      · intro x c hx
        simp only [frontier] at hx
        have hx0 : x = 0 := by
          by_contra hne
          rw [List.getElem?_eq_none (by simp; omega)] at hx
          cases hx
        subst hx0
        simp only [List.getElem?_cons_zero, Option.some.injEq] at hx
        subst hx
        refine ⟨⟨b, (N : Int), false⟩, by simp [lanesOf], rfl, rfl, N, rfl, ?_, ?_⟩
        · intro h
          simp [BTree.isLeaf] at h
        · intro _
          exact ⟨le_refl _, hwide⟩
      · intro q h1 h2
        simp only [numNodes, Nat.add_sub_cancel] at h2
        by_cases hq : q = N
        · subst hq
          exact ⟨i, _, hwide⟩
        · by_cases hq2 : q < N + 1 + numNodes (m + 1) m l
          · exact hl2 q (by omega) hq2
          · exact hr2 q (by omega) (by omega)
    | succ d =>
      simp only [nodesOf] at hns
      have hnsl : HasSeg ns N (nodesOf md d l N L) := hns.append_left
      have hnsr : HasSeg ns (N + numNodes md d l)
          (nodesOf md d r (N + numNodes md d l) (L + l.leafNodes.length)) := by
        have := hns.append_right
        rwa [length_nodesOf] at this
      obtain ⟨hl1, hl2⟩ := ihl d (i + 1) N L hsub.inLeft hnsl hlvl
      obtain ⟨hr1, hr2⟩ := ihr d (i + 1 + l.size) (N + numNodes md d l)
        (L + l.leafNodes.length) hsub.inRight hnsr hlvr
      constructor
      · simp only [frontier, lanesOf]
        exact LanesMatch.append hl1 hr1 (length_lanesOf md l d (i + 1) _ _)
          (le_refl _) (by omega)
      · intro q h1 h2
        simp only [numNodes] at h2
        by_cases hq2 : q < N + numNodes md d l
        · exact hl2 q h1 hq2
        · exact hr2 q (by omega) (by omega)

theorem wideTreeOf_isWideNodeFor (W md : Nat) (hmd : 1 ≤ md) (hW : 2 ^ md ≤ W)
    (refs : List ReferenceWrapper) (prims : List Triangle) (t : BTree) :
    IsWideNodeFor W md t refs prims (wideTreeOf W md refs prims t).flatTree
        (wideTreeOf W md refs prims t).leaves 0 0 t
      ∧ ∀ q, q < (wideTreeOf W md refs prims t).flatTree.length →
          ∃ ci ct, IsWideNodeFor W md t refs prims
            (wideTreeOf W md refs prims t).flatTree (wideTreeOf W md refs prims t).leaves q ci ct := by
  have hsub := InTree.inSelf t
  have hseg : HasSeg (wideTreeOf W md refs prims t).flatTree 1 (nodesOf md md t 1 0) := by
    have := (HasSeg.segSelf (wideTreeOf W md refs prims t).flatTree).tail
    simpa [wideTreeOf] using this
  obtain ⟨h1, h2⟩ := lanesMatch_of_segments W md hmd hW t refs prims
    (wideTreeOf W md refs prims t).flatTree (wideTreeOf W md refs prims t).leaves t md 0 1 0 hsub
    hseg (HasSeg.segSelf _)
  have hroot : IsWideNodeFor W md t refs prims (wideTreeOf W md refs prims t).flatTree
      (wideTreeOf W md refs prims t).leaves 0 0 t := by
    refine isWideNodeFor_of_lanes W md t refs prims _ _ 0 0 t t.rootNode
      (lanesOf md md t 1 0) hsub (by simp [wideTreeOf]) ?_ (length_lanesOf md t md 0 1 0) h1
    have := length_frontier_le t md 0
    omega
  refine ⟨hroot, ?_⟩
  intro q hq
  by_cases hq0 : q = 0
  · subst hq0
    exact ⟨0, t, hroot⟩
  · refine h2 q (by omega) ?_
    simp only [wideTreeOf, List.length_cons, length_nodesOf] at hq
    omega

theorem maxDepthOf_cases (W : Nat) (hW : W = 4 ∨ W = 8 ∨ W = 16) :
    maxDepthOf W = (((maxDepthOf W).toNat : Nat) : Int) ∧ 1 ≤ (maxDepthOf W).toNat
      ∧ 2 ^ (maxDepthOf W).toNat = W ∧ maxDepthOf W ≠ 0 := by
  rcases hW with rfl | rfl | rfl <;> simp [maxDepthOf]

theorem build_eq (W : Nat) (hW : W = 4 ∨ W = 8 ∨ W = 16) (refs : List ReferenceWrapper)
    (prims : List Triangle) (t : BTree) (hv : RefsValid W refs prims t) (extra : Nat) :
    build W (t.size + 1 + extra) t.flatten refs prims
      = .ok (wideTreeOf W (maxDepthOf W).toNat refs prims t) := by
  obtain ⟨h1, h2, h3, h4⟩ := maxDepthOf_cases W hW
  have := buildLoop_root W (maxDepthOf W).toNat h2 (le_of_eq h3) refs prims t hv extra
  rw [← h1] at this
  simp only [build, h4, if_false, this]

/-! ### Facts about the frontier -/

theorem frontier_bounds (t : BTree) :
    ∀ (d i : Nat) (c : Nat × BTree), c ∈ frontier d i t → i ≤ c.1 ∧ c.1 < i + t.size := by
  induction t with
  | leaf b s n =>
    intro d i c hc
    simp only [frontier, List.mem_singleton] at hc
    subst hc
    simp [BTree.size]
  | node b s n l r ihl ihr =>
    intro d i c hc
    cases d with
    | zero =>
      simp only [frontier, List.mem_singleton] at hc
      subst hc
      simp [BTree.size]
    | succ d =>
      simp only [frontier, List.mem_append] at hc
      simp only [BTree.size]
      rcases hc with hc | hc
      · have := ihl d (i + 1) c hc
        omega
      · have := ihr d (i + 1 + l.size) c hc
        omega

theorem frontier_pairwise (t : BTree) :
    ∀ (d i : Nat), (frontier d i t).Pairwise (fun a b => a.1 < b.1) := by
  induction t with
  | leaf b s n => intro d i; simp [frontier]
  | node b s n l r ihl ihr =>
    intro d i
    cases d with
    | zero => simp [frontier]
    | succ d =>
      simp only [frontier]
      rw [List.pairwise_append]
      refine ⟨ihl d (i + 1), ihr d (i + 1 + l.size), ?_⟩
      intro a ha c hc
      have h1 := frontier_bounds l d (i + 1) a ha
      have h2 := frontier_bounds r d (i + 1 + l.size) c hc
      omega

theorem frontier_increasing (t : BTree) (d i x y : Nat) (cx cy : Nat × BTree) (hxy : x < y)
    (hx : (frontier d i t)[x]? = some cx) (hy : (frontier d i t)[y]? = some cy) :
    cx.1 < cy.1 := by
  have hp := frontier_pairwise t d i
  rw [List.pairwise_iff_getElem] at hp
  have hxl := lt_length_of_getElem? hx
  have hyl := lt_length_of_getElem? hy
  have := hp x y hxl hyl hxy
  rw [List.getElem?_eq_getElem hxl] at hx
  rw [List.getElem?_eq_getElem hyl] at hy
  cases hx
  cases hy
  exact this

theorem mem_frontier_iff (t : BTree) :
    ∀ (d i : Nat) (c : Nat × BTree), c ∈ frontier d i t ↔
      ∃ p, descend i t p = some c
        ∧ ((c.2.isLeaf = true ∧ p.length ≤ d) ∨ (c.2.isLeaf = false ∧ p.length = d)) := by
  induction t with
  | leaf b s n =>
    intro d i c
    simp only [frontier, List.mem_singleton]
    constructor
    · rintro rfl
      exact ⟨[], rfl, Or.inl ⟨rfl, Nat.zero_le _⟩⟩
    · rintro ⟨p, hp, _⟩
      cases p with
      | nil => simp only [descend, Option.some.injEq] at hp; exact hp.symm
      | cons a p => simp [descend] at hp
  | node b s n l r ihl ihr =>
    intro d i c
    cases d with
    | zero =>
      simp only [frontier, List.mem_singleton]
      constructor
      · rintro rfl
        exact ⟨[], rfl, Or.inr ⟨rfl, rfl⟩⟩
      · rintro ⟨p, hp, hcase⟩
        have hnil : p = [] := by
          rcases hcase with ⟨_, h⟩ | ⟨_, h⟩
          · exact List.length_eq_zero.mp (by omega)
          · exact List.length_eq_zero.mp h
        subst hnil
        simp only [descend, Option.some.injEq] at hp
        exact hp.symm
    | succ d =>
      simp only [frontier, List.mem_append, ihl d (i + 1) c, ihr d (i + 1 + l.size) c]
      constructor
      · rintro (⟨p, hp, hcase⟩ | ⟨p, hp, hcase⟩)
        · refine ⟨false :: p, by simpa [descend] using hp, ?_⟩
          rcases hcase with ⟨h1, h2⟩ | ⟨h1, h2⟩
          · exact Or.inl ⟨h1, by simp; omega⟩
          · exact Or.inr ⟨h1, by simp; omega⟩
        · refine ⟨true :: p, by simpa [descend] using hp, ?_⟩
          rcases hcase with ⟨h1, h2⟩ | ⟨h1, h2⟩
          · exact Or.inl ⟨h1, by simp; omega⟩
          · exact Or.inr ⟨h1, by simp; omega⟩
      · rintro ⟨p, hp, hcase⟩
        cases p with
        | nil =>
          simp only [descend, Option.some.injEq] at hp
          subst hp
          rcases hcase with ⟨h1, _⟩ | ⟨_, h2⟩
          · simp [BTree.isLeaf] at h1
          · simp at h2
        | cons a p =>
          have hcase2 : (c.2.isLeaf = true ∧ p.length ≤ d) ∨ (c.2.isLeaf = false ∧ p.length = d) := by
            rcases hcase with ⟨h1, h2⟩ | ⟨h1, h2⟩
            · exact Or.inl ⟨h1, by simp at h2; omega⟩
            · exact Or.inr ⟨h1, by simp at h2; omega⟩
          cases a with
          | false => exact Or.inl ⟨p, by simpa [descend] using hp, hcase2⟩
          | true => exact Or.inr ⟨p, by simpa [descend] using hp, hcase2⟩

/-! ### Consequences of the regrouping relation -/

theorem IsWideNodeFor.lane_lt {W md : Nat} {root : BTree}
    {refs : List ReferenceWrapper} {prims : List Triangle} {ns : List BvhSimdFlatNode}
    {lv : List BvhSimdLeafNode} {k i : Nat} {t : BTree}
    (h : IsWideNodeFor W md root refs prims ns lv k i t) (node : BvhSimdFlatNode)
    (hnode : ns[k]? = some node) (x : Nat) (hx : node.indices x ≠ -1) :
    x < (frontier md i t).length := by
  cases h with
  | intro _ _ _ node1 target hsub hnode1 hlen hpad hlane hleaf hgt hrec =>
    rw [hnode] at hnode1
    cases hnode1
    by_contra hge
    exact hx (hpad x (by omega)).1

theorem IsWideNodeFor.laneInvariant {W md : Nat} {root : BTree}
    {refs : List ReferenceWrapper} {prims : List Triangle} {ns : List BvhSimdFlatNode}
    {lv : List BvhSimdLeafNode} {k i : Nat} {t : BTree}
    (h : IsWideNodeFor W md root refs prims ns lv k i t) (node : BvhSimdFlatNode)
    (hnode : ns[k]? = some node) : LaneInvariant W ns.length lv.length node := by
  cases h with
  | intro _ _ _ node1 target hsub hnode1 hlen hpad hlane hleaf hgt hrec =>
    rw [hnode] at hnode1
    cases hnode1
    refine ⟨(frontier md i t).length, hlen, ?_, fun x hx _ => hpad x hx⟩
    intro x hx
    have hc : (frontier md i t)[x]? = some (frontier md i t)[x] := List.getElem?_eq_getElem hx
    obtain ⟨e1, e2, _, _⟩ := hlane x _ hc
    simp only at e1 e2
    refine ⟨by rw [e1]; omega, by rw [e1]; omega, ?_, ?_⟩
    · intro hl
      have := lt_length_of_getElem? (hleaf x _ hc (by rw [← e2]; exact hl))
      rw [e1]
      exact_mod_cast this
    · intro hl
      have hw := hrec x _ hc (by rw [← e2]; exact hl)
      cases hw with
      | intro _ _ _ node2 _ _ hnode2 _ _ _ _ _ _ =>
        have := lt_length_of_getElem? hnode2
        rw [e1]
        exact_mod_cast this

theorem slotSearch_ok (indices : Nat → Int) :
    ∀ (r tc j : Nat), slotSearch indices r tc = .ok j →
      tc ≤ j ∧ j ≤ tc + r ∧ indices j = -1 ∧ ∀ x, tc ≤ x → x < j → indices x ≠ -1 := by
  intro r
  induction r with
  | zero =>
    intro tc j h
    by_cases hne : indices tc ≠ -1
    · simp [slotSearch, hne] at h
    · simp only [slotSearch, hne, if_false, Except.ok.injEq] at h
      subst h
      exact ⟨le_refl _, by omega, by simpa using hne, fun x h1 h2 => by omega⟩
  | succ r ih =>
    intro tc j h
    by_cases hne : indices tc ≠ -1
    · rw [slotSearch, if_pos hne] at h
      obtain ⟨h1, h2, h3, h4⟩ := ih (tc + 1) j h
      refine ⟨by omega, by omega, h3, ?_⟩
      intro x hx1 hx2
      by_cases hx : x = tc
      · subst hx; exact hne
      · exact h4 x (by omega) hx2
    · simp only [slotSearch, hne, if_false, Except.ok.injEq] at h
      subst h
      exact ⟨le_refl _, by omega, by simpa using hne, fun x h1 h2 => by omega⟩

theorem laneInvariant_new (W nNodes nLeaves : Nat) (cur : BvhFlatNode) :
    LaneInvariant W nNodes nLeaves BvhSimdFlatNode.new
      ∧ LaneInvariant W nNodes nLeaves (newNodeFor cur) :=
  ⟨⟨0, Nat.zero_le _, fun x hx => by omega, fun x _ _ => ⟨rfl, rfl⟩⟩,
   ⟨0, Nat.zero_le _, fun x hx => by omega, fun x _ _ => ⟨rfl, rfl⟩⟩⟩

theorem laneInvariant_fillLane (W nNodes nLeaves : Nat) (hW : 0 < W) (node : BvhSimdFlatNode)
    (j : Nat) (l : LaneSpec) (hinv : LaneInvariant W nNodes nLeaves node)
    (hslot : slotSearch node.indices (W - 1) 0 = .ok j) (h0 : 0 ≤ l.index)
    (hleaf : l.isLeaf = true → l.index < (nLeaves : Int))
    (hnode : l.isLeaf = false → l.index < (nNodes : Int)) :
    LaneInvariant W nNodes nLeaves (fillLane node j l) := by
  obtain ⟨k, hk, hvalid, hpad⟩ := hinv
  obtain ⟨_, hj2, hj3, hj4⟩ := slotSearch_ok node.indices (W - 1) 0 j hslot
  have hjk : j = k := by
    by_contra hne
    rcases Nat.lt_or_gt_of_ne hne with hlt | hgt
    · exact (hvalid j hlt).1 hj3
    · exact hj4 k (Nat.zero_le _) hgt (hpad k (le_refl _) (by omega)).1
  subst hjk
  refine ⟨j + 1, by omega, ?_, ?_⟩
  · intro x hx
    by_cases hxj : x = j
    · subst hxj
      simp only [fillLane_indices, fillLane_isLeaf, if_true]
      exact ⟨by omega, h0, hleaf, hnode⟩
    · simp only [fillLane_indices, fillLane_isLeaf, hxj, if_false]
      exact hvalid x (by omega)
  · intro x hx1 hx2
    have hxj : x ≠ j := by omega
    simp only [fillLane_indices, fillLane_isLeaf, hxj, if_false]
    exact hpad x (by omega) hx2

theorem BoxWithin.refl (b : BoundingBox) : BoxWithin b b :=
  ⟨le_refl _, le_refl _, le_refl _, le_refl _, le_refl _, le_refl _⟩

theorem BoxWithin.trans {a b c : BoundingBox} (h1 : BoxWithin a b) (h2 : BoxWithin b c) :
    BoxWithin a c := by
  obtain ⟨a1, a2, a3, a4, a5, a6⟩ := h1
  obtain ⟨b1, b2, b3, b4, b5, b6⟩ := h2
  exact ⟨le_trans b1 a1, le_trans b2 a2, le_trans b3 a3, le_trans a4 b4, le_trans a5 b5,
    le_trans a6 b6⟩

theorem frontier_within (t : BTree) :
    ∀ (d i : Nat) (c : Nat × BTree), Contained t → c ∈ frontier d i t →
      BoxWithin c.2.bbox t.bbox ∧ Contained c.2 := by
  induction t with
  | leaf b s n =>
    intro d i c hcont hc
    simp only [frontier, List.mem_singleton] at hc
    subst hc
    exact ⟨BoxWithin.refl _, hcont⟩
  | node b s n l r ihl ihr =>
    intro d i c hcont hc
    cases d with
    | zero =>
      simp only [frontier, List.mem_singleton] at hc
      subst hc
      exact ⟨BoxWithin.refl _, hcont⟩
    | succ d =>
      simp only [frontier, List.mem_append] at hc
      obtain ⟨hl, hr, hcl, hcr⟩ := hcont
      rcases hc with hc | hc
      · obtain ⟨h1, h2⟩ := ihl d (i + 1) c hcl hc
        exact ⟨h1.trans hl, h2⟩
      · obtain ⟨h1, h2⟩ := ihr d (i + 1 + l.size) c hcr hc
        exact ⟨h1.trans hr, h2⟩

theorem IsWideNodeFor.lane_box {W md : Nat} {root : BTree}
    {refs : List ReferenceWrapper} {prims : List Triangle} {ns : List BvhSimdFlatNode}
    {lv : List BvhSimdLeafNode} {k i : Nat} {t : BTree}
    (h : IsWideNodeFor W md root refs prims ns lv k i t) (node : BvhSimdFlatNode)
    (hnode : ns[k]? = some node) (x : Nat) (c : Nat × BTree)
    (hc : (frontier md i t)[x]? = some c) :
    laneBox node x = c.2.bbox ∧ node.isLeaf x = c.2.isLeaf ∧ node.indices x ≠ -1 := by
  cases h with
  | intro _ _ _ node1 target hsub hnode1 hlen hpad hlane hleaf hgt hrec =>
    rw [hnode] at hnode1
    cases hnode1
    obtain ⟨e1, e2, e3, e4⟩ := hlane x c hc
    simp only at e1 e2 e3 e4
    refine ⟨?_, e2, by rw [e1]; omega⟩
    simp only [laneBox, e3, e4]

theorem IsWideNodeFor.child {W md : Nat} {root : BTree}
    {refs : List ReferenceWrapper} {prims : List Triangle} {ns : List BvhSimdFlatNode}
    {lv : List BvhSimdLeafNode} {k i : Nat} {t : BTree}
    (h : IsWideNodeFor W md root refs prims ns lv k i t) (node : BvhSimdFlatNode)
    (hnode : ns[k]? = some node) (x : Nat) (c : Nat × BTree)
    (hc : (frontier md i t)[x]? = some c) (hint : c.2.isLeaf = false) :
    ∃ m : Nat, node.indices x = (m : Int) ∧ k < m
      ∧ IsWideNodeFor W md root refs prims ns lv m c.1 c.2 := by
  cases h with
  | intro _ _ _ node1 target hsub hnode1 hlen hpad hlane hleaf hgt hrec =>
    rw [hnode] at hnode1
    cases hnode1
    exact ⟨target x, (hlane x c hc).1, hgt x c hc hint, hrec x c hc hint⟩

theorem IsWideNodeFor.leaf {W md : Nat} {root : BTree}
    {refs : List ReferenceWrapper} {prims : List Triangle} {ns : List BvhSimdFlatNode}
    {lv : List BvhSimdLeafNode} {k i : Nat} {t : BTree}
    (h : IsWideNodeFor W md root refs prims ns lv k i t) (node : BvhSimdFlatNode)
    (hnode : ns[k]? = some node) (x : Nat) (c : Nat × BTree)
    (hc : (frontier md i t)[x]? = some c) (hleaf : c.2.isLeaf = true) :
    ∃ m : Nat, node.indices x = (m : Int)
      ∧ lv[m]? = some (packLeafD W refs prims c.2.rootNode) := by
  cases h with
  | intro _ _ _ node1 target hsub hnode1 hlen hpad hlane hleaf1 hgt hrec =>
    rw [hnode] at hnode1
    cases hnode1
    exact ⟨target x, (hlane x c hc).1, hleaf1 x c hc hleaf⟩

theorem IsWideNodeFor.node_exists {W md : Nat} {root : BTree}
    {refs : List ReferenceWrapper} {prims : List Triangle} {ns : List BvhSimdFlatNode}
    {lv : List BvhSimdLeafNode} {k i : Nat} {t : BTree}
    (h : IsWideNodeFor W md root refs prims ns lv k i t) :
    ∃ node, ns[k]? = some node ∧ InTree root i t ∧ (frontier md i t).length ≤ W := by
  cases h with
  | intro _ _ _ node1 target hsub hnode1 hlen hpad hlane hleaf1 hgt hrec =>
    exact ⟨node1, hnode1, hsub, hlen⟩

theorem descend_contained (t : BTree) :
    ∀ (i : Nat) (p : List Bool) (c : Nat × BTree), Contained t → descend i t p = some c →
      Contained c.2 := by
  induction t with
  | leaf b s n =>
    intro i p c hcont h
    cases p with
    | nil => simp only [descend, Option.some.injEq] at h; subst h; exact hcont
    | cons a p => simp [descend] at h
  | node b s n l r ihl ihr =>
    intro i p c hcont h
    cases p with
    | nil => simp only [descend, Option.some.injEq] at h; subst h; exact hcont
    | cons a p =>
      cases a with
      | false => exact ihl _ p c hcont.2.2.1 (by simpa [descend] using h)
      | true => exact ihr _ p c hcont.2.2.2 (by simpa [descend] using h)

theorem InTree.contained {root : BTree} {i : Nat} {t : BTree} (h : InTree root i t)
    (hcont : Contained root) : Contained t := by
  obtain ⟨p, hp⟩ := h
  exact descend_contained root 0 p _ hcont hp

/-! ### The example tree -/

theorem exTree_refsValid : RefsValid 4 exRefs exPrims exTree := by
  intro cur hcur i _ hlt
  simp only [exTree, BTree.leafNodes, List.cons_append, List.nil_append, List.mem_cons,
    List.mem_singleton, List.not_mem_nil, or_false] at hcur
  rcases hcur with rfl | rfl | rfl
  all_goals
    have hi0 : i = 0 := by simp only at hlt; omega
    subst hi0
  · exact ⟨⟨0⟩, exTri0, rfl, rfl⟩
  · exact ⟨⟨1⟩, exTri1, rfl, rfl⟩
  · exact ⟨⟨2⟩, exTri2, rfl, rfl⟩

theorem exTree_contained : Contained exTree := by
  simp only [exTree, Contained, BoxWithin, BTree.bbox]
  norm_num

/-! ### The squared radius only shrinks -/

theorem parseOverlap_r2 (overlap : ParallelOverlapResult) (index : Nat) (s : BoundingSphere) :
    ((parseOverlap overlap index s).2.2.r2 = s.r2 ∨ (parseOverlap overlap index s).2.2.r2 < s.r2)
      ∧ (parseOverlap overlap index s).2.2.c = s.c := by
  by_cases h : s.r2 > overlap.d2Max index
  · have e : (parseOverlap overlap index s).2.2 = { s with r2 := overlap.d2Max index } := by
      simp only [parseOverlap, h, if_true]
    rw [e]
    exact ⟨Or.inr h, rfl⟩
  · have e : (parseOverlap overlap index s).2.2 = s := by
      simp only [parseOverlap, h, if_false]
    rw [e]
    exact ⟨Or.inl rfl, rfl⟩

theorem parseOverlap_r2_le (overlap : ParallelOverlapResult) (index : Nat) (s : BoundingSphere) :
    (parseOverlap overlap index s).2.2.r2 ≤ s.r2 := by
  rcases (parseOverlap_r2 overlap index s).1 with h | h
  · exact le_of_eq h
  · exact le_of_lt h

theorem processLeafNode_r2 (sqrtF : ℚ → ℚ) (W : Nat) (node : BvhSimdFlatNode)
    (leaves : List BvhSimdLeafNode) (sbs : SimdBoundingSphere) (s : BoundingSphere)
    (i : Interaction) (prims : List Triangle) (index : Nat) (s1 : BoundingSphere)
    (i1 : Interaction)
    (h : processLeafNode sqrtF W node leaves sbs s i prims index = .ok (s1, i1)) :
    (s1.r2 = s.r2 ∨ s1.r2 < s.r2) ∧ s1.c = s.c := by
  unfold processLeafNode at h
  split at h
  · cases h
  · simp only at h
    split at h
    · rename_i hcond
      split at h
      · cases h
      · cases h
        exact ⟨Or.inr hcond.2, rfl⟩
    · cases h
      exact ⟨Or.inl rfl, rfl⟩

theorem laneStep_r2_le (sqrtF : ℚ → ℚ) (W : Nat) (node : BvhSimdFlatNode)
    (leaves : List BvhSimdLeafNode) (prims : List Triangle) (sbs : SimdBoundingSphere)
    (overlap : ParallelOverlapResult) (j : Nat) (q q1 : QueryState)
    (h : laneStep sqrtF W node leaves prims sbs overlap j q = .ok q1) :
    q1.s.r2 ≤ (parseOverlap overlap j q.s).2.2.r2 ∧ q1.s.r2 ≤ q.s.r2 ∧ q1.s.c = q.s.c := by
  have hp := parseOverlap_r2 overlap j q.s
  have hp1 := parseOverlap_r2_le overlap j q.s
  unfold laneStep at h
  simp only at h
  split at h
  · split at h
    · cases h
      exact ⟨le_refl _, hp1, hp.2⟩
    · split at h
      · cases h
      · rename_i si hsi
        cases h
        have hl := processLeafNode_r2 sqrtF W node leaves sbs _ _ prims j si.1 si.2 hsi
        have h3 : si.1.r2 ≤ (parseOverlap overlap j q.s).2.2.r2 := by
          rcases hl.1 with h3 | h3
          · exact le_of_eq h3
          · exact le_of_lt h3
        exact ⟨h3, le_trans h3 hp1, hl.2.trans hp.2⟩
  · cases h
    exact ⟨le_refl _, hp1, hp.2⟩

theorem laneLoop_r2_le (sqrtF : ℚ → ℚ) (W : Nat) (node : BvhSimdFlatNode)
    (leaves : List BvhSimdLeafNode) (prims : List Triangle) (sbs : SimdBoundingSphere)
    (overlap : ParallelOverlapResult) :
    ∀ (r j : Nat) (q q1 : QueryState),
      laneLoop sqrtF W node leaves prims sbs overlap r j q = .ok q1 →
      q1.s.r2 ≤ q.s.r2 ∧ q1.s.c = q.s.c := by
  intro r
  induction r with
  | zero =>
    intro j q q1 h
    simp only [laneLoop, Except.ok.injEq] at h
    subst h
    exact ⟨le_refl _, rfl⟩
  | succ r ih =>
    intro j q q1 h
    rw [laneLoop] at h
    split at h
    · split at h
      · cases h
      · rename_i q2 hq2
        obtain ⟨_, h1, h2⟩ := laneStep_r2_le sqrtF W node leaves prims sbs overlap j q q2 hq2
        obtain ⟨h3, h4⟩ := ih _ _ _ h
        exact ⟨le_trans h3 h1, h4.trans h2⟩
    · cases h
      exact ⟨le_refl _, rfl⟩

theorem nodeStep_r2_le (sqrtF : ℚ → ℚ) (W : Nat) (flatTree : List BvhSimdFlatNode)
    (leaves : List BvhSimdLeafNode) (prims : List Triangle) (sbs : SimdBoundingSphere)
    (e : BvhTraversal) (q q1 : QueryState)
    (h : nodeStep sqrtF W flatTree leaves prims sbs e q = .ok q1) :
    q1.s.r2 ≤ q.s.r2 ∧ q1.s.c = q.s.c := by
  unfold nodeStep at h
  simp only at h
  split at h
  · cases h
  · split at h
    · cases h
      exact ⟨le_refl _, rfl⟩
    · exact laneLoop_r2_le sqrtF W _ leaves prims sbs _ _ _ _ _ h

theorem traverse_r2_le (sqrtF : ℚ → ℚ) (W : Nat) (flatTree : List BvhSimdFlatNode)
    (leaves : List BvhSimdLeafNode) (prims : List Triangle) (sbs : SimdBoundingSphere) :
    ∀ (fuel : Nat) (q q1 : QueryState),
      traverse sqrtF W flatTree leaves prims sbs fuel q = .ok q1 →
      q1.s.r2 ≤ q.s.r2 ∧ q1.s.c = q.s.c := by
  intro fuel
  induction fuel with
  | zero =>
    intro q q1 h
    rw [traverse] at h
    split at h
    · cases h; exact ⟨le_refl _, rfl⟩
    · cases h
  | succ fuel ih =>
    intro q q1 h
    rw [traverse] at h
    split at h
    · cases h; exact ⟨le_refl _, rfl⟩
    · simp only at h
      split at h
      · cases h
      · rename_i q2 hq2
        obtain ⟨h1, h2⟩ := ih _ _ h
        obtain ⟨h3, h4⟩ := nodeStep_r2_le sqrtF W _ leaves prims sbs _ _ _ hq2
        exact ⟨le_trans h1 h3, h2.trans h4⟩

theorem findClosestPoint_r2_le (sqrtF : ℚ → ℚ) (W fuel : Nat) (bvh : BvhSimd)
    (prims : List Triangle) (s : BoundingSphere) (i : Interaction) (b : Bool)
    (s1 : BoundingSphere) (i1 : Interaction)
    (h : findClosestPoint sqrtF W fuel bvh prims s i = .ok (b, s1, i1)) :
    s1.r2 ≤ s.r2 ∧ s1.c = s.c ∧ b = decide (s1.r2 ≠ maxFloat) := by
  unfold findClosestPoint at h
  simp only at h
  split at h
  · cases h
  · rename_i q hq
    cases h
    obtain ⟨h1, h2⟩ := traverse_r2_le sqrtF W _ _ prims _ _ _ _ hq
    exact ⟨h1, h2, rfl⟩

theorem exBvh_eq_build : build 4 (exTree.size + 1 + 0) exTree.flatten exRefs exPrims = .ok exBvh :=
  build_eq 4 (Or.inl rfl) exRefs exPrims exTree exTree_refsValid 0

theorem exBvh_query :
    findClosestPoint id 4 3 exBvh exPrims ⟨⟨1 / 4, 1 / 4, 1⟩, maxFloat⟩ initInteraction
      = .ok (true, ⟨⟨1 / 4, 1 / 4, 1⟩, 1⟩, ⟨⟨1 / 4, 1 / 4, 0⟩, Vector3.zero, 1, some 0⟩) := by
  decide!

/-! ### Loop rules for the closest-point query -/

theorem laneLoop_rule (sqrtF : ℚ → ℚ) (W : Nat) (node : BvhSimdFlatNode)
    (leaves : List BvhSimdLeafNode) (prims : List Triangle) (sbs : SimdBoundingSphere)
    (overlap : ParallelOverlapResult) (P : Nat → QueryState → Prop) (m : Nat) (hm : m ≤ W)
    (hvalid : ∀ x, x < m → node.indices x ≠ -1) (hpad : ∀ x, m ≤ x → node.indices x = -1)
    (hstep : ∀ j q, j < m → P j q →
      ∃ q1, laneStep sqrtF W node leaves prims sbs overlap j q = .ok q1 ∧ P (j + 1) q1) :
    ∀ (r j : Nat) (q : QueryState), j + r = W → j ≤ m → P j q →
      ∃ q1, laneLoop sqrtF W node leaves prims sbs overlap r j q = .ok q1 ∧ P m q1 := by
  intro r
  induction r with
  | zero =>
    intro j q h1 h2 hP
    have : j = m := by omega
    subst this
    exact ⟨q, rfl, hP⟩
  | succ r ih =>
    intro j q h1 h2 hP
    by_cases hj : j < m
    · obtain ⟨q1, hq1, hP1⟩ := hstep j q hj hP
      obtain ⟨q2, hq2, hP2⟩ := ih (j + 1) q1 (by omega) (by omega) hP1
      refine ⟨q2, ?_, hP2⟩
      rw [laneLoop, if_pos (hvalid j hj), hq1]
      exact hq2
    · have : j = m := by omega
      subst this
      refine ⟨q, ?_, hP⟩
      rw [laneLoop, if_neg (by simp [hpad j (le_refl _)])]

theorem traverse_rule (sqrtF : ℚ → ℚ) (W : Nat) (flatTree : List BvhSimdFlatNode)
    (leaves : List BvhSimdLeafNode) (prims : List Triangle) (sbs : SimdBoundingSphere)
    (P : QueryState → Nat → Prop)
    (hstep : ∀ (e : BvhTraversal) (rest : List BvhTraversal) (s : BoundingSphere)
      (i : Interaction) (n : Nat), P ⟨e :: rest, s, i⟩ n →
      ∃ q1 n1, nodeStep sqrtF W flatTree leaves prims sbs e ⟨rest, s, i⟩ = .ok q1
        ∧ P q1 n1 ∧ n1 < n) :
    ∀ (fuel : Nat) (q : QueryState) (n : Nat), P q n → n ≤ fuel →
      ∃ q1 n1, traverse sqrtF W flatTree leaves prims sbs fuel q = .ok q1 ∧ q1.todo = []
        ∧ P q1 n1 := by
  intro fuel
  induction fuel with
  | zero =>
    intro q n hP hn
    obtain ⟨todo, s, i⟩ := q
    cases todo with
    | nil => exact ⟨_, n, by rw [traverse], rfl, hP⟩
    | cons e rest =>
      obtain ⟨_, n1, _, _, hlt⟩ := hstep e rest s i n hP
      omega
  | succ fuel ih =>
    intro q n hP hn
    obtain ⟨todo, s, i⟩ := q
    cases todo with
    | nil => exact ⟨_, n, by rw [traverse], rfl, hP⟩
    | cons e rest =>
      obtain ⟨q1, n1, hq1, hP1, hlt⟩ := hstep e rest s i n hP
      obtain ⟨q2, n2, hq2, hnil, hP2⟩ := ih q1 n1 hP1 (by omega)
      refine ⟨q2, n2, ?_, hnil, hP2⟩
      rw [traverse]
      simp only [hq1]
      exact hq2

/-! ### The query never faults on a built tree -/

theorem numNodes_frontier_sum (md : Nat) (t : BTree) :
    ∀ (d i : Nat), numNodes md d t = ((frontier d i t).map (fun c => numNodes md 0 c.2)).sum := by
  induction t with
  | leaf b s n => intro d i; simp [numNodes, frontier]
  | node b s n l r ihl ihr =>
    intro d i
    cases d with
    | zero => simp [frontier]
    | succ d =>
      simp only [numNodes, frontier, List.map_append, List.sum_append]
      rw [← ihl d (i + 1), ← ihr d (i + 1 + l.size)]

theorem numNodes_zero_eq_wideWeight (md : Nat) (hmd : 1 ≤ md) (c : Nat × BTree)
    (hc : c.2.isLeaf = false) : numNodes md 0 c.2 = wideWeight md c := by
  obtain ⟨i, t⟩ := c
  cases t with
  | leaf b s n => simp [BTree.isLeaf] at hc
  | node b s n l r =>
    obtain ⟨m, rfl⟩ : ∃ m, md = m + 1 := ⟨md - 1, by omega⟩
    simp only [wideWeight, numNodes, Nat.add_sub_cancel]
    omega

theorem sum_take_succ (xs : List Nat) (j : Nat) (hj : j < xs.length) :
    (xs.take (j + 1)).sum = (xs.take j).sum + xs[j] := by
  rw [List.take_succ, List.sum_append, List.getElem?_eq_getElem hj]
  simp

theorem descend_leaf_mem (t : BTree) :
    ∀ (i : Nat) (p : List Bool) (c : Nat × BTree), descend i t p = some c →
      c.2.isLeaf = true → c.2.rootNode ∈ t.leafNodes := by
  induction t with
  | leaf b s n =>
    intro i p c h hl
    cases p with
    | nil =>
      simp only [descend, Option.some.injEq] at h
      subst h
      simp [BTree.rootNode, BTree.leafNodes]
    | cons a p => simp [descend] at h
  | node b s n l r ihl ihr =>
    intro i p c h hl
    cases p with
    | nil =>
      simp only [descend, Option.some.injEq] at h
      subst h
      simp [BTree.isLeaf] at hl
    | cons a p =>
      simp only [BTree.leafNodes, List.mem_append]
      cases a with
      | false => exact Or.inl (ihl _ p c (by simpa [descend] using h) hl)
      | true => exact Or.inr (ihr _ p c (by simpa [descend] using h) hl)

theorem InTree.frontier_mem {root : BTree} {i : Nat} {t : BTree} (h : InTree root i t)
    (d : Nat) (c : Nat × BTree) (hc : c ∈ frontier d i t) : InTree root c.1 c.2 := by
  obtain ⟨p, hp⟩ := h
  obtain ⟨p2, hp2⟩ := descend_in_frontier t d i c hc
  exact ⟨p ++ p2, by rw [descend_append root 0 p p2 _ hp]; exact hp2⟩

theorem InTree.leaf_mem {root : BTree} {i : Nat} {t : BTree} (h : InTree root i t)
    (hl : t.isLeaf = true) : t.rootNode ∈ root.leafNodes := by
  obtain ⟨p, hp⟩ := h
  exact descend_leaf_mem root 0 p _ hp hl

theorem getBestLoop_index (pi : ParallelInteraction) (W : Nat) :
    ∀ (r i : Nat) (best : ℚ × Vector3 × Int), i + r = W →
      (getBestLoop pi r i best).2.2 = best.2.2
        ∨ ∃ x, x < W ∧ pi.indices x ≠ -1 ∧ (getBestLoop pi r i best).2.2 = pi.indices x := by
  intro r
  induction r with
  | zero => intro i best _; exact Or.inl rfl
  | succ r ih =>
    intro i best hi
    rw [getBestLoop]
    by_cases h1 : pi.indices i ≠ -1
    · rw [if_pos h1]
      by_cases h2 : best.1 > pi.distances i
      · rw [if_pos h2]
        rcases ih (i + 1) (pi.distances i, pi.points.lane i, pi.indices i) (by omega) with h | h
        · exact Or.inr ⟨i, by omega, h1, h⟩
        · exact Or.inr h
      · rw [if_neg h2]
        exact ih (i + 1) best (by omega)
    · rw [if_neg h1]
      exact Or.inl rfl

theorem getBest_index (W : Nat) (hW : 0 < W) (pi : ParallelInteraction) :
    (getBest W pi).2.2 = -1
      ∨ ∃ x, x < W ∧ pi.indices x ≠ -1 ∧ (getBest W pi).2.2 = pi.indices x := by
  unfold getBest
  rcases getBestLoop_index pi W (W - 1) 1 (pi.distances 0, pi.points.lane 0, pi.indices 0)
    (by omega) with h | h
  · by_cases h0 : pi.indices 0 = -1
    · exact Or.inl (h.trans h0)
    · exact Or.inr ⟨0, hW, h0, h⟩
  · exact Or.inr h

theorem processLeafNode_ok (sqrtF : ℚ → ℚ) (W : Nat) (hW : 0 < W) (node : BvhSimdFlatNode)
    (leaves : List BvhSimdLeafNode) (sbs : SimdBoundingSphere) (s : BoundingSphere)
    (i : Interaction) (refs : List ReferenceWrapper) (prims : List Triangle) (index m : Nat)
    (leaf : BvhSimdLeafNode) (cur : BvhFlatNode)
    (hidx : node.indices index = (m : Int)) (hleaf : leaves[m]? = some leaf)
    (hpacked : ∀ x, x < W → LanePacked refs prims cur leaf x) :
    ∃ si, processLeafNode sqrtF W node leaves sbs s i prims index = .ok si := by
  unfold processLeafNode
  simp only [hidx, readI, getI?_natCast, hleaf]
  split
  · rename_i hcond
    rcases getBest_index W hW (parallelTriangleClosestPoint W leaf sbs
      { distances := fun _ => 0, points := SimdVec3.zero, indices := leaf.indices }) with h | h
    · exact absurd h hcond.1
    · obtain ⟨x, hx, hne, hbest⟩ := h
      simp only [parallelTriangleClosestPoint] at hne hbest
      obtain ⟨h1, h2⟩ := hpacked x hx
      by_cases hlt : (x : Int) < cur.nPrimitives
      · obtain ⟨ref, prim, _, e2, e3, _⟩ := h1 hlt
        simp only [parallelTriangleClosestPoint, hbest, e3, e2]
        exact ⟨_, rfl⟩
      · exact absurd (h2 (by omega)).1 hne
  · exact ⟨_, rfl⟩

theorem IsWideNodeFor.pad {W md : Nat} {root : BTree}
    {refs : List ReferenceWrapper} {prims : List Triangle} {ns : List BvhSimdFlatNode}
    {lv : List BvhSimdLeafNode} {k i : Nat} {t : BTree}
    (h : IsWideNodeFor W md root refs prims ns lv k i t) (node : BvhSimdFlatNode)
    (hnode : ns[k]? = some node) (x : Nat) (hx : (frontier md i t).length ≤ x) :
    node.indices x = -1 := by
  cases h with
  | intro _ _ _ node1 target hsub hnode1 hlen hpad hlane hleaf hgt hrec =>
    rw [hnode] at hnode1
    cases hnode1
    exact (hpad x hx).1

theorem totalWeight_append (md : Nat) (a b : List (Nat × BTree)) :
    totalWeight md (a ++ b) = totalWeight md a + totalWeight md b := by
  simp [totalWeight]


/-- One lane of a wide node keeps the ghost state of the lane loop. -/
theorem laneStep_framework (sqrtF : ℚ → ℚ) (W md : Nat) (hmd : 1 ≤ md) (hW : 0 < W)
    (root : BTree) (refs : List ReferenceWrapper) (prims : List Triangle)
    (ns : List BvhSimdFlatNode) (lv : List BvhSimdLeafNode) (sbs : SimdBoundingSphere)
    (hv : RefsValid W refs prims root)
    (LInv : Nat × BTree → Nat → List BvhTraversal → List (Nat × BTree) → BoundingSphere →
      Interaction → Prop)
    (hrules : LaneRules sqrtF W md root refs prims ns lv sbs LInv)
    (k : Nat) (g : Nat × BTree) (node : BvhSimdFlatNode)
    (hwide : IsWideNodeFor W md root refs prims ns lv k g.1 g.2) (hnode : ns[k]? = some node)
    (gs1 : List (Nat × BTree)) (j : Nat) (q : QueryState)
    (hj : j < (frontier md g.1 g.2).length)
    (hPj : LaneReached W md root refs prims ns lv LInv g gs1 j q) :
    ∃ q1, laneStep sqrtF W node lv prims sbs (parallelOverlap node sbs) j q = .ok q1
      ∧ LaneReached W md root refs prims ns lv LInv g gs1 (j + 1) q1 := by
  obtain ⟨hout, hint, hleaf⟩ := hrules
  obtain ⟨_, _, hsub, _⟩ := hwide.node_exists
  obtain ⟨gs2, hent2, hinv2, hw2⟩ := hPj
  have hc : (frontier md g.1 g.2)[j]? = some (frontier md g.1 g.2)[j] :=
    List.getElem?_eq_getElem hj
  obtain ⟨_, hisLeaf, _⟩ := hwide.lane_box node hnode j _ hc
  have hsum := sum_take_succ ((frontier md g.1 g.2).map (fun c => numNodes md 0 c.2)) j
    (by simpa using hj)
  simp only [List.getElem_map] at hsum
  by_cases hin : (parseOverlap (parallelOverlap node sbs) j q.s).2.2.r2
      > (parallelOverlap node sbs).d2Min j
  · by_cases hl : node.isLeaf j = true
    · -- a leaf lane
      have hcl : (frontier md g.1 g.2)[j].2.isLeaf = true := by rw [← hisLeaf]; exact hl
      obtain ⟨m, hm, hlvm⟩ := hwide.leaf node hnode j _ hc hcl
      have hmem := (hsub.frontier_mem md _ (List.getElem?_mem hc)).leaf_mem hcl
      obtain ⟨si, hsi⟩ := processLeafNode_ok sqrtF W hW node lv sbs
        (parseOverlap (parallelOverlap node sbs) j q.s).2.2 q.i refs prims j m _ _ hm hlvm
        (packLeafD_spec W refs prims root hv _ hmem).2
      refine ⟨{ q with s := si.1, i := si.2 }, ?_, gs2, hent2, ?_, by omega⟩
      · simp only [laneStep, parseOverlap, parallelOverlap] at hin hsi ⊢
        simp only [hin, if_true, hl, Bool.not_true, Bool.false_eq_true, if_false, hsi]
      · exact hleaf k g node j _ q.todo (gs1 ++ gs2) q.s q.i si.1 si.2 hwide hnode hc hcl
          hinv2 hin hsi
    · -- an interior lane
      have hl2 : node.isLeaf j = false := by simpa using hl
      have hcl : (frontier md g.1 g.2)[j].2.isLeaf = false := by rw [← hisLeaf]; exact hl2
      obtain ⟨k1, hk1, _, hwide1⟩ := hwide.child node hnode j _ hc hcl
      refine ⟨{ q with
          todo := q.todo ++ [⟨node.indices j, (parallelOverlap node sbs).d2Min j⟩]
          s := (parseOverlap (parallelOverlap node sbs) j q.s).2.2 }, ?_,
        gs2 ++ [(frontier md g.1 g.2)[j]], ?_, ?_, ?_⟩
      · simp only [laneStep, parseOverlap, parallelOverlap] at hin ⊢
        simp only [hin, if_true, hl2, Bool.not_false]
      · rw [← List.append_assoc]
        exact List.rel_append hent2 (List.Forall₂.cons ⟨k1, hk1, hwide1⟩ List.Forall₂.nil)
      · rw [← List.append_assoc, hk1]
        exact hint k g node j _ q.todo (gs1 ++ gs2) q.s q.i k1 hwide hnode hc hcl hk1
          hwide1 hinv2 hin
      · have e1 : totalWeight md [(frontier md g.1 g.2)[j]]
            = wideWeight md (frontier md g.1 g.2)[j] := by simp [totalWeight]
        have := numNodes_zero_eq_wideWeight md hmd _ hcl
        rw [totalWeight_append, hsum, e1]
        omega
  · refine ⟨{ q with s := (parseOverlap (parallelOverlap node sbs) j q.s).2.2 }, ?_,
      gs2, hent2, ?_, by omega⟩
    · simp only [laneStep, parseOverlap, parallelOverlap] at hin ⊢
      simp only [hin, if_false]
    · exact hout k g node j _ q.todo (gs1 ++ gs2) q.s q.i hwide hnode hc hinv2 hin

/-- The lane loop run for `r` lanes from lane `j` on: it returns, and an invariant that every
lane step keeps holds at lane `j + r`, or at the first padding lane `m` when that comes
sooner. -/
theorem laneLoop_prefix_rule (sqrtF : ℚ → ℚ) (W : Nat) (node : BvhSimdFlatNode)
    (leaves : List BvhSimdLeafNode) (prims : List Triangle) (sbs : SimdBoundingSphere)
    (overlap : ParallelOverlapResult) (P : Nat → QueryState → Prop) (m : Nat)
    (hvalid : ∀ x, x < m → node.indices x ≠ -1) (hpad : ∀ x, m ≤ x → node.indices x = -1)
    (hstep : ∀ j q, j < m → P j q →
      ∃ q1, laneStep sqrtF W node leaves prims sbs overlap j q = .ok q1 ∧ P (j + 1) q1) :
    ∀ (r j : Nat) (q : QueryState), j ≤ m → P j q →
      ∃ q1, laneLoop sqrtF W node leaves prims sbs overlap r j q = .ok q1
        ∧ P (min (j + r) m) q1 := by
  intro r
  induction r with
  | zero =>
    intro j q h2 hP
    refine ⟨q, rfl, ?_⟩
    rw [Nat.add_zero, Nat.min_eq_left h2]
    exact hP
  | succ r ih =>
    intro j q h2 hP
    by_cases hj : j < m
    · obtain ⟨q1, hq1, hP1⟩ := hstep j q hj hP
      obtain ⟨q2, hq2, hP2⟩ := ih (j + 1) q1 (by omega) hP1
      refine ⟨q2, ?_, ?_⟩
      · rw [laneLoop, if_pos (hvalid j hj), hq1]
        exact hq2
      · have : j + (r + 1) = j + 1 + r := by omega
        rw [this]
        exact hP2
    · have : j = m := by omega
      subst this
      refine ⟨q, ?_, ?_⟩
      · rw [laneLoop, if_neg (by simp [hpad j (le_refl _)])]
      · rw [Nat.min_eq_right (by omega)]
        exact hP

/-- The first `r` lanes of the lane loop over a wide node keep the ghost state. -/
theorem lanes_framework (sqrtF : ℚ → ℚ) (W md : Nat) (hmd : 1 ≤ md) (hW : 0 < W)
    (root : BTree) (refs : List ReferenceWrapper) (prims : List Triangle)
    (ns : List BvhSimdFlatNode) (lv : List BvhSimdLeafNode) (sbs : SimdBoundingSphere)
    (hv : RefsValid W refs prims root)
    (LInv : Nat × BTree → Nat → List BvhTraversal → List (Nat × BTree) → BoundingSphere →
      Interaction → Prop)
    (hrules : LaneRules sqrtF W md root refs prims ns lv sbs LInv)
    (k : Nat) (g : Nat × BTree) (node : BvhSimdFlatNode)
    (hwide : IsWideNodeFor W md root refs prims ns lv k g.1 g.2) (hnode : ns[k]? = some node)
    (gs1 : List (Nat × BTree)) (r : Nat) (q : QueryState)
    (hP : LaneReached W md root refs prims ns lv LInv g gs1 0 q) :
    ∃ q1, laneLoop sqrtF W node lv prims sbs (parallelOverlap node sbs) r 0 q = .ok q1
      ∧ LaneReached W md root refs prims ns lv LInv g gs1
          (min r (frontier md g.1 g.2).length) q1 := by
  have h := laneLoop_prefix_rule sqrtF W node lv prims sbs (parallelOverlap node sbs)
    (fun j q => LaneReached W md root refs prims ns lv LInv g gs1 j q)
    (frontier md g.1 g.2).length
    (fun x hx => (hwide.lane_box node hnode x _ (List.getElem?_eq_getElem hx)).2.2)
    (fun x hx => hwide.pad node hnode x hx)
    (fun j q hj hPj => laneStep_framework sqrtF W md hmd hW root refs prims ns lv sbs hv LInv
      hrules k g node hwide hnode gs1 j q hj hPj)
    r 0 q (Nat.zero_le _) hP
  rw [Nat.zero_add] at h
  exact h

/-- One pass of the loop `while(!todo.empty())` keeps the queue invariant and takes weight off
the queue. -/
theorem nodeStep_framework (sqrtF : ℚ → ℚ) (W md : Nat) (hmd : 1 ≤ md) (hW : 0 < W)
    (root : BTree) (refs : List ReferenceWrapper) (prims : List Triangle)
    (ns : List BvhSimdFlatNode) (lv : List BvhSimdLeafNode) (sbs : SimdBoundingSphere)
    (hv : RefsValid W refs prims root)
    (Inv : List BvhTraversal → List (Nat × BTree) → BoundingSphere → Interaction → Prop)
    (LInv : Nat × BTree → Nat → List BvhTraversal → List (Nat × BTree) → BoundingSphere →
      Interaction → Prop)
    (hskip : ∀ (e : BvhTraversal) (rest : List BvhTraversal) (g : Nat × BTree)
      (gs : List (Nat × BTree)) (s : BoundingSphere) (i : Interaction),
      EntryFor W md root refs prims ns lv e g → Inv (e :: rest) (g :: gs) s i → e.d > s.r2 →
      Inv rest gs s i)
    (henter : ∀ (e : BvhTraversal) (rest : List BvhTraversal) (g : Nat × BTree)
      (gs : List (Nat × BTree)) (s : BoundingSphere) (i : Interaction),
      EntryFor W md root refs prims ns lv e g → Inv (e :: rest) (g :: gs) s i → ¬ e.d > s.r2 →
      LInv g 0 rest gs s i)
    (hrules : LaneRules sqrtF W md root refs prims ns lv sbs LInv)
    (hexit : ∀ (k : Nat) (g : Nat × BTree) (todo : List BvhTraversal)
      (gs : List (Nat × BTree)) (s : BoundingSphere) (i : Interaction),
      IsWideNodeFor W md root refs prims ns lv k g.1 g.2 →
      LInv g (frontier md g.1 g.2).length todo gs s i → Inv todo gs s i)
    (e : BvhTraversal) (rest : List BvhTraversal) (s : BoundingSphere) (i : Interaction)
    (g : Nat × BTree) (gs1 : List (Nat × BTree))
    (he : EntryFor W md root refs prims ns lv e g)
    (hrest : List.Forall₂ (EntryFor W md root refs prims ns lv) rest gs1)
    (hinv0 : Inv (e :: rest) (g :: gs1) s i) :
    ∃ q1 gs, nodeStep sqrtF W ns lv prims sbs e ⟨rest, s, i⟩ = .ok q1
      ∧ List.Forall₂ (EntryFor W md root refs prims ns lv) q1.todo gs
      ∧ Inv q1.todo gs q1.s q1.i ∧ totalWeight md gs < totalWeight md (g :: gs1) := by
  obtain ⟨k, hk, hwide⟩ := he
  obtain ⟨node, hnode, hsub, hlen⟩ := hwide.node_exists
  have hread : readI ns e.i = .ok node := by rw [hk]; exact readI_natCast ns k node hnode
  have hw1 : totalWeight md (g :: gs1) = wideWeight md g + totalWeight md gs1 := by
    simp [totalWeight]
  by_cases hfar : e.d > s.r2
  · refine ⟨⟨rest, s, i⟩, gs1, ?_, hrest, ?_, ?_⟩
    · simp only [nodeStep, hread, hfar, if_true]
    · exact hskip e rest g gs1 s i ⟨k, hk, hwide⟩ hinv0 hfar
    · simp only [wideWeight] at hw1
      omega
  · -- the lane loop over the children of the node
    obtain ⟨q1, hq1, gs2, hent2, hinv2, hw2⟩ := lanes_framework sqrtF W md hmd hW root refs
      prims ns lv sbs hv LInv hrules k g node hwide hnode gs1 W ⟨rest, s, i⟩
      ⟨[], by simpa using hrest,
        by simpa using henter e rest g gs1 s i ⟨k, hk, hwide⟩ hinv0 hfar,
        by simp [totalWeight]⟩
    rw [Nat.min_eq_right hlen] at hinv2 hw2
    refine ⟨q1, gs1 ++ gs2, ?_, hent2, ?_, ?_⟩
    · simp only [nodeStep, hread, hfar, if_false]
      exact hq1
    · exact hexit k g q1.todo (gs1 ++ gs2) q1.s q1.i hwide hinv2
    · rw [List.take_of_length_le (by simp)] at hw2
      rw [← numNodes_frontier_sum md g.2 md g.1] at hw2
      rw [totalWeight_append]
      simp only [wideWeight] at hw1
      omega

theorem traverse_framework (sqrtF : ℚ → ℚ) (W md : Nat) (hmd : 1 ≤ md) (hW : 0 < W)
    (root : BTree) (refs : List ReferenceWrapper) (prims : List Triangle)
    (ns : List BvhSimdFlatNode) (lv : List BvhSimdLeafNode) (sbs : SimdBoundingSphere)
    (hv : RefsValid W refs prims root)
    (Inv : List BvhTraversal → List (Nat × BTree) → BoundingSphere → Interaction → Prop)
    (LInv : Nat × BTree → Nat → List BvhTraversal → List (Nat × BTree) → BoundingSphere →
      Interaction → Prop)
    (hskip : ∀ (e : BvhTraversal) (rest : List BvhTraversal) (g : Nat × BTree)
      (gs : List (Nat × BTree)) (s : BoundingSphere) (i : Interaction),
      EntryFor W md root refs prims ns lv e g → Inv (e :: rest) (g :: gs) s i → e.d > s.r2 →
      Inv rest gs s i)
    (henter : ∀ (e : BvhTraversal) (rest : List BvhTraversal) (g : Nat × BTree)
      (gs : List (Nat × BTree)) (s : BoundingSphere) (i : Interaction),
      EntryFor W md root refs prims ns lv e g → Inv (e :: rest) (g :: gs) s i → ¬ e.d > s.r2 →
      LInv g 0 rest gs s i)
    (hout : ∀ (k : Nat) (g : Nat × BTree) (node : BvhSimdFlatNode) (j : Nat) (c : Nat × BTree)
      (todo : List BvhTraversal) (gs : List (Nat × BTree)) (s : BoundingSphere)
      (i : Interaction),
      IsWideNodeFor W md root refs prims ns lv k g.1 g.2 → ns[k]? = some node →
      (frontier md g.1 g.2)[j]? = some c → LInv g j todo gs s i →
      ¬ ((parseOverlap (parallelOverlap node sbs) j s).2.2.r2
          > (parallelOverlap node sbs).d2Min j) →
      LInv g (j + 1) todo gs (parseOverlap (parallelOverlap node sbs) j s).2.2 i)
    (hint : ∀ (k : Nat) (g : Nat × BTree) (node : BvhSimdFlatNode) (j : Nat) (c : Nat × BTree)
      (todo : List BvhTraversal) (gs : List (Nat × BTree)) (s : BoundingSphere)
      (i : Interaction) (k1 : Nat),
      IsWideNodeFor W md root refs prims ns lv k g.1 g.2 → ns[k]? = some node →
      (frontier md g.1 g.2)[j]? = some c → c.2.isLeaf = false → node.indices j = (k1 : Int) →
      IsWideNodeFor W md root refs prims ns lv k1 c.1 c.2 → LInv g j todo gs s i →
      (parseOverlap (parallelOverlap node sbs) j s).2.2.r2 > (parallelOverlap node sbs).d2Min j →
      LInv g (j + 1) (todo ++ [⟨(k1 : Int), (parallelOverlap node sbs).d2Min j⟩]) (gs ++ [c])
        (parseOverlap (parallelOverlap node sbs) j s).2.2 i)
    (hleaf : ∀ (k : Nat) (g : Nat × BTree) (node : BvhSimdFlatNode) (j : Nat) (c : Nat × BTree)
      (todo : List BvhTraversal) (gs : List (Nat × BTree)) (s : BoundingSphere)
      (i : Interaction) (s2 : BoundingSphere) (i2 : Interaction),
      IsWideNodeFor W md root refs prims ns lv k g.1 g.2 → ns[k]? = some node →
      (frontier md g.1 g.2)[j]? = some c → c.2.isLeaf = true → LInv g j todo gs s i →
      (parseOverlap (parallelOverlap node sbs) j s).2.2.r2 > (parallelOverlap node sbs).d2Min j →
      processLeafNode sqrtF W node lv sbs (parseOverlap (parallelOverlap node sbs) j s).2.2 i
        prims j = .ok (s2, i2) →
      LInv g (j + 1) todo gs s2 i2)
    (hexit : ∀ (k : Nat) (g : Nat × BTree) (todo : List BvhTraversal)
      (gs : List (Nat × BTree)) (s : BoundingSphere) (i : Interaction),
      IsWideNodeFor W md root refs prims ns lv k g.1 g.2 →
      LInv g (frontier md g.1 g.2).length todo gs s i → Inv todo gs s i) :
    ∀ (fuel : Nat) (q : QueryState) (gs : List (Nat × BTree)),
      List.Forall₂ (EntryFor W md root refs prims ns lv) q.todo gs → Inv q.todo gs q.s q.i →
      totalWeight md gs ≤ fuel →
      ∃ q1, traverse sqrtF W ns lv prims sbs fuel q = .ok q1 ∧ q1.todo = []
        ∧ Inv [] [] q1.s q1.i := by
  intro fuel q gs hent hinv hfuel
  have hrule := traverse_rule sqrtF W ns lv prims sbs
    (fun q n => ∃ gs, List.Forall₂ (EntryFor W md root refs prims ns lv) q.todo gs
      ∧ Inv q.todo gs q.s q.i ∧ totalWeight md gs ≤ n) ?_ fuel q fuel ⟨gs, hent, hinv, hfuel⟩
    (le_refl _)
  · obtain ⟨q1, n1, h1, h2, gs1, h3, h4, _⟩ := hrule
    refine ⟨q1, h1, h2, ?_⟩
    rw [h2] at h3 h4
    cases h3
    exact h4
  · intro e rest s i n hP
    obtain ⟨gs0, hent0, hinv0, hw0⟩ := hP
    simp only at hent0 hinv0
    cases hent0 with
    | cons he hrest =>
      rename_i g gs1
      obtain ⟨q1, gs2, h1, h2, h3, h4⟩ := nodeStep_framework sqrtF W md hmd hW root refs prims
        ns lv sbs hv Inv LInv hskip henter ⟨hout, hint, hleaf⟩ hexit e rest s i g gs1 he hrest
        hinv0
      exact ⟨q1, totalWeight md gs2, h1, ⟨gs2, h2, h3, le_refl _⟩, by omega⟩

/-- The states at the head of the loop `while(!todo.empty())`: after any number of passes the
loop has not faulted and the queue invariant holds. -/
theorem traversePrefix_framework (sqrtF : ℚ → ℚ) (W md : Nat) (hmd : 1 ≤ md) (hW : 0 < W)
    (root : BTree) (refs : List ReferenceWrapper) (prims : List Triangle)
    (ns : List BvhSimdFlatNode) (lv : List BvhSimdLeafNode) (sbs : SimdBoundingSphere)
    (hv : RefsValid W refs prims root)
    (Inv : List BvhTraversal → List (Nat × BTree) → BoundingSphere → Interaction → Prop)
    (LInv : Nat × BTree → Nat → List BvhTraversal → List (Nat × BTree) → BoundingSphere →
      Interaction → Prop)
    (hskip : ∀ (e : BvhTraversal) (rest : List BvhTraversal) (g : Nat × BTree)
      (gs : List (Nat × BTree)) (s : BoundingSphere) (i : Interaction),
      EntryFor W md root refs prims ns lv e g → Inv (e :: rest) (g :: gs) s i → e.d > s.r2 →
      Inv rest gs s i)
    (henter : ∀ (e : BvhTraversal) (rest : List BvhTraversal) (g : Nat × BTree)
      (gs : List (Nat × BTree)) (s : BoundingSphere) (i : Interaction),
      EntryFor W md root refs prims ns lv e g → Inv (e :: rest) (g :: gs) s i → ¬ e.d > s.r2 →
      LInv g 0 rest gs s i)
    (hrules : LaneRules sqrtF W md root refs prims ns lv sbs LInv)
    (hexit : ∀ (k : Nat) (g : Nat × BTree) (todo : List BvhTraversal)
      (gs : List (Nat × BTree)) (s : BoundingSphere) (i : Interaction),
      IsWideNodeFor W md root refs prims ns lv k g.1 g.2 →
      LInv g (frontier md g.1 g.2).length todo gs s i → Inv todo gs s i) :
    ∀ (n : Nat) (q : QueryState) (gs : List (Nat × BTree)),
      List.Forall₂ (EntryFor W md root refs prims ns lv) q.todo gs → Inv q.todo gs q.s q.i →
      ∃ q1 gs1, traversePrefix sqrtF W ns lv prims sbs n q = .ok q1
        ∧ List.Forall₂ (EntryFor W md root refs prims ns lv) q1.todo gs1
        ∧ Inv q1.todo gs1 q1.s q1.i := by
  intro n
  induction n with
  | zero =>
    intro q gs hent hinv
    exact ⟨q, gs, rfl, hent, hinv⟩
  | succ n ih =>
    intro q gs hent hinv
    obtain ⟨todo, s, i⟩ := q
    cases hent with
    | nil => exact ⟨_, [], rfl, List.Forall₂.nil, hinv⟩
    | cons he hrest =>
      rename_i e g rest gs1
      obtain ⟨q1, gs2, h1, h2, h3, _⟩ := nodeStep_framework sqrtF W md hmd hW root refs prims
        ns lv sbs hv Inv LInv hskip henter hrules hexit e rest s i g gs1 he hrest hinv
      obtain ⟨q2, gs3, h4, h5, h6⟩ := ih q1 gs2 h2 h3
      refine ⟨q2, gs3, ?_, h5, h6⟩
      rw [traversePrefix]
      simp only [h1]
      exact h4

/-! ### Box distances in one lane -/

theorem parallelOverlap_lane (node : BvhSimdFlatNode) (sbs : SimdBoundingSphere) (c : Vector3)
    (hc : sbs.c = SimdVec3.broadcast c) (j : Nat) :
    (parallelOverlap node sbs).d2Min j = boxNear2 (laneBox node j) c
      ∧ (parallelOverlap node sbs).d2Max j = boxFar2 (laneBox node j) c := by
  simp [parallelOverlap, simdBoxOverlap, hc, SimdVec3.length2, SimdVec3.dot, SimdVec3.max,
    SimdVec3.sub, SimdVec3.broadcast, SimdVec3.zero, boxNear2, boxFar2, laneBox, SimdVec3.lane]

theorem parseOverlap_le_d2Max (overlap : ParallelOverlapResult) (index : Nat)
    (s : BoundingSphere) : (parseOverlap overlap index s).2.2.r2 ≤ overlap.d2Max index := by
  by_cases h : s.r2 > overlap.d2Max index
  · simp [parseOverlap, h]
  · simp only [parseOverlap, h, if_false]
    exact le_of_not_gt h

theorem frontier_ne_nil (t : BTree) : ∀ (d i : Nat), 0 < (frontier d i t).length := by
  induction t with
  | leaf b s n => intro d i; simp [frontier]
  | node b s n l r ihl ihr =>
    intro d i
    cases d with
    | zero => simp [frontier]
    | succ d =>
      have := ihl d (i + 1)
      simp only [frontier, List.length_append]
      omega

theorem InTree.rootNode_mem {root : BTree} {i : Nat} {t : BTree} (h : InTree root i t) :
    t.rootNode ∈ root.flatten :=
  List.getElem?_mem h.hasSubtree.root

theorem BTree.rootNode_bbox (t : BTree) : t.rootNode.bbox = t.bbox := by
  cases t <;> rfl

/-! ### The query returns on every built tree -/

theorem traverse_total (sqrtF : ℚ → ℚ) (W md : Nat) (hmd : 1 ≤ md) (hW : 0 < W)
    (root : BTree) (refs : List ReferenceWrapper) (prims : List Triangle)
    (ns : List BvhSimdFlatNode) (lv : List BvhSimdLeafNode) (sbs : SimdBoundingSphere)
    (hv : RefsValid W refs prims root)
    (hroot : IsWideNodeFor W md root refs prims ns lv 0 0 root)
    (c : Vector3) (hc : sbs.c = SimdVec3.broadcast c)
    (hfar : ∀ nd ∈ root.flatten, boxFar2 nd.bbox c < maxFloat)
    (s : BoundingSphere) (i : Interaction) (hs : s.r2 ≤ maxFloat) (extra : Nat) :
    ∃ q1, traverse sqrtF W ns lv prims sbs (wideWeight md (0, root) + extra)
        { todo := [⟨0, minFloat⟩], s := s, i := i } = .ok q1
      ∧ q1.todo = [] ∧ (minFloat ≤ s.r2 → q1.s.r2 < maxFloat) := by
  have h := traverse_framework sqrtF W md hmd hW root refs prims ns lv sbs hv
    (fun todo gs s1 _ => minFloat ≤ s.r2 →
      (∃ e0, todo = [e0] ∧ gs = [(0, root)] ∧ e0.d ≤ s1.r2 ∧ s1.r2 ≤ maxFloat)
        ∨ s1.r2 < maxFloat)
    (fun g j _ _ s1 _ => minFloat ≤ s.r2 →
      (g = (0, root) ∧ j = 0 ∧ s1.r2 ≤ maxFloat) ∨ s1.r2 < maxFloat)
    ?_ ?_ ?_ ?_ ?_ ?_ (wideWeight md (0, root) + extra)
    { todo := [⟨0, minFloat⟩], s := s, i := i } [(0, root)]
    (List.Forall₂.cons ⟨0, rfl, hroot⟩ List.Forall₂.nil)
    (fun hmin => Or.inl ⟨_, rfl, rfl, hmin, hs⟩) (by simp [totalWeight])
  · obtain ⟨q1, h1, h2, h3⟩ := h
    refine ⟨q1, h1, h2, ?_⟩
    intro hmin
    rcases h3 hmin with ⟨e0, h4, _⟩ | h4
    · cases h4
    · exact h4
  · -- a skipped work item
    intro e rest g gs s1 i1 _ hinv hskip hmin
    rcases hinv hmin with ⟨e0, h4, _, h5, _⟩ | h4
    · cases h4
      exact absurd hskip (not_lt.mpr h5)
    · exact Or.inr h4
  · -- entering the lane loop
    intro e rest g gs s1 i1 _ hinv _ hmin
    rcases hinv hmin with ⟨e0, _, h4, _, h5⟩ | h4
    · cases h4
      exact Or.inl ⟨rfl, rfl, h5⟩
    · exact Or.inr h4
  · -- a lane out of bounds
    intro k g node j c0 todo gs s1 i1 hwide hnode hc0 hinv _ hmin
    refine Or.inr ?_
    rcases hinv hmin with ⟨hg, hj, _⟩ | h4
    · subst hg hj
      have hbox := (hwide.lane_box node hnode 0 c0 hc0).1
      have hmem := (hwide.node_exists.choose_spec.2.1.frontier_mem md c0
        (List.getElem?_mem hc0)).rootNode_mem
      have := hfar _ hmem
      rw [BTree.rootNode_bbox, ← hbox, ← (parallelOverlap_lane node sbs c hc 0).2] at this
      exact lt_of_le_of_lt (parseOverlap_le_d2Max _ _ _) this
    · exact lt_of_le_of_lt (parseOverlap_r2_le _ _ _) h4
  · -- an interior lane
    intro k g node j c0 todo gs s1 i1 k1 hwide hnode hc0 _ _ _ hinv _ hmin
    refine Or.inr ?_
    rcases hinv hmin with ⟨hg, hj, _⟩ | h4
    · subst hg hj
      have hbox := (hwide.lane_box node hnode 0 c0 hc0).1
      have hmem := (hwide.node_exists.choose_spec.2.1.frontier_mem md c0
        (List.getElem?_mem hc0)).rootNode_mem
      have := hfar _ hmem
      rw [BTree.rootNode_bbox, ← hbox, ← (parallelOverlap_lane node sbs c hc 0).2] at this
      exact lt_of_le_of_lt (parseOverlap_le_d2Max _ _ _) this
    · exact lt_of_le_of_lt (parseOverlap_r2_le _ _ _) h4
  · -- a leaf lane
    intro k g node j c0 todo gs s1 i1 s2 i2 hwide hnode hc0 _ hinv _ hproc hmin
    refine Or.inr ?_
    have hle : s2.r2 ≤ (parseOverlap (parallelOverlap node sbs) j s1).2.2.r2 := by
      rcases (processLeafNode_r2 sqrtF W node lv sbs _ _ prims j s2 i2 hproc).1 with h5 | h5
      · exact le_of_eq h5
      · exact le_of_lt h5
    rcases hinv hmin with ⟨hg, hj, _⟩ | h4
    · subst hg hj
      have hbox := (hwide.lane_box node hnode 0 c0 hc0).1
      have hmem := (hwide.node_exists.choose_spec.2.1.frontier_mem md c0
        (List.getElem?_mem hc0)).rootNode_mem
      have := hfar _ hmem
      rw [BTree.rootNode_bbox, ← hbox, ← (parallelOverlap_lane node sbs c hc 0).2] at this
      exact lt_of_le_of_lt (le_trans hle (parseOverlap_le_d2Max _ _ _)) this
    · exact lt_of_le_of_lt (le_trans hle (parseOverlap_r2_le _ _ _)) h4
  · -- leaving the lane loop
    intro k g todo gs s1 i1 _ hinv hmin
    rcases hinv hmin with ⟨_, hj, _⟩ | h4
    · have := frontier_ne_nil g.2 md g.1
      omega
    · exact Or.inr h4

theorem farTree_refsValid : RefsValid 4 [⟨0⟩] [farTri] farTree := by
  intro cur hcur i _ hlt
  simp only [farTree, BTree.leafNodes, List.mem_singleton] at hcur
  subst hcur
  have hi0 : i = 0 := by simp only at hlt; omega
  subst hi0
  exact ⟨⟨0⟩, farTri, rfl, rfl⟩

theorem farBvh_eq_build : build 4 (farTree.size + 1 + 0) farTree.flatten [⟨0⟩] [farTri] = .ok farBvh :=
  build_eq 4 (Or.inl rfl) [⟨0⟩] [farTri] farTree farTree_refsValid 0

theorem length_wideTreeOf (W md : Nat) (refs : List ReferenceWrapper) (prims : List Triangle)
    (t : BTree) : (wideTreeOf W md refs prims t).flatTree.length = wideWeight md (0, t) := by
  simp only [wideTreeOf, List.length_cons, length_nodesOf, wideWeight]
  omega

theorem findClosestPoint_total (sqrtF : ℚ → ℚ) (W : Nat) (hW : W = 4 ∨ W = 8 ∨ W = 16)
    (refs : List ReferenceWrapper) (prims : List Triangle) (t : BTree)
    (hv : RefsValid W refs prims t) (s : BoundingSphere) (i : Interaction) (extra : Nat)
    (hfar : ∀ nd ∈ t.flatten, boxFar2 nd.bbox s.c < maxFloat) (hs : s.r2 = maxFloat) :
    ∃ s1 i1, findClosestPoint sqrtF W
        ((wideTreeOf W (maxDepthOf W).toNat refs prims t).flatTree.length + extra)
        (wideTreeOf W (maxDepthOf W).toNat refs prims t) prims s i = .ok (true, s1, i1)
      ∧ s1.r2 < maxFloat := by
  obtain ⟨_, h2, h3, _⟩ := maxDepthOf_cases W hW
  have hWpos : 0 < W := by rcases hW with rfl | rfl | rfl <;> decide
  obtain ⟨q1, hq1, _, hlt⟩ := traverse_total sqrtF W _ h2 hWpos t refs prims _ _
    (SimdBoundingSphere.ofSphere s) hv
    (wideTreeOf_isWideNodeFor W _ h2 (le_of_eq h3) refs prims t).1 s.c rfl hfar s i
    (le_of_eq hs) extra
  have hlt1 := hlt (by rw [hs]; norm_num [minFloat, maxFloat])
  refine ⟨q1.s, q1.i, ?_, hlt1⟩
  rw [length_wideTreeOf]
  simp only [findClosestPoint, hq1]
  simp [ne_of_lt hlt1]

/-! ### The triangle kernel, lane by lane -/

set_option maxHeartbeats 1000000

theorem simdAll_lane (W : Nat) (m : SimdBool) (h : simdAll W m = true) (j : Nat) (hj : j < W) :
    m j = true := by
  simp only [simdAll, List.all_eq_true, List.mem_range] at h
  exact h j hj

theorem ite_chain {α : Type} (P : α → Prop) (c1 c2 c3 c4 c5 c6 : Prop)
    [Decidable c1] [Decidable c2] [Decidable c3] [Decidable c4] [Decidable c5] [Decidable c6]
    (r1 r2 r3 r4 r5 r6 r7 : α)
    (h1 : c1 → P r1) (h2 : c2 → P r2) (h3 : c3 → P r3) (h4 : c4 → P r4) (h5 : c5 → P r5)
    (h6 : c6 → P r6) (h7 : P r7) :
    P (if c1 then r1 else if c2 then r2 else if c3 then r3 else if c4 then r4
        else if c5 then r5 else if c6 then r6 else r7) := by
  by_cases g1 : c1
  · rw [if_pos g1]; exact h1 g1
  rw [if_neg g1]
  by_cases g2 : c2
  · rw [if_pos g2]; exact h2 g2
  rw [if_neg g2]
  by_cases g3 : c3
  · rw [if_pos g3]; exact h3 g3
  rw [if_neg g3]
  by_cases g4 : c4
  · rw [if_pos g4]; exact h4 g4
  rw [if_neg g4]
  by_cases g5 : c5
  · rw [if_pos g5]; exact h5 g5
  rw [if_neg g5]
  by_cases g6 : c6
  · rw [if_pos g6]; exact h6 g6
  rw [if_neg g6]
  exact h7

/-- In every lane below `W` the kernel returns the point of a stage at which that lane has
left, or the point it holds after the face region. -/
theorem simdTriPoint2_lane (W : Nat) (iTri : Fin 3 → SimdVec3) (iPoint : SimdVec3) (j : Nat)
    (hj : j < W) :
    ((∃ k, 1 ≤ k ∧ k ≤ 6
        ∧ (triStage ((iTri 0).lane j) ((iTri 1).lane j) ((iTri 2).lane j) (iPoint.lane j) k).1
            = true
        ∧ (simdTriPoint2 W iTri iPoint).2.lane j
          = (triStage ((iTri 0).lane j) ((iTri 1).lane j) ((iTri 2).lane j) (iPoint.lane j) k).2)
      ∨ (simdTriPoint2 W iTri iPoint).2.lane j
          = triResult ((iTri 0).lane j) ((iTri 1).lane j) ((iTri 2).lane j) (iPoint.lane j))
      ∧ (simdTriPoint2 W iTri iPoint).1 j
          = Vector3.dist2 ((simdTriPoint2 W iTri iPoint).2.lane j) (iPoint.lane j) := by
  refine ite_chain (fun r : SimdFloat × SimdVec3 =>
    ((∃ k, 1 ≤ k ∧ k ≤ 6
        ∧ (triStage ((iTri 0).lane j) ((iTri 1).lane j) ((iTri 2).lane j) (iPoint.lane j) k).1
            = true
        ∧ r.2.lane j
          = (triStage ((iTri 0).lane j) ((iTri 1).lane j) ((iTri 2).lane j) (iPoint.lane j) k).2)
      ∨ r.2.lane j
          = triResult ((iTri 0).lane j) ((iTri 1).lane j) ((iTri 2).lane j) (iPoint.lane j))
      ∧ r.1 j = Vector3.dist2 (r.2.lane j) (iPoint.lane j))
    _ _ _ _ _ _ _ _ _ _ _ _ _ ?_ ?_ ?_ ?_ ?_ ?_ ?_
  · intro h
    exact ⟨Or.inl ⟨1, by decide, by decide, simdAll_lane W _ h j hj, rfl⟩, rfl⟩
  · intro h
    exact ⟨Or.inl ⟨2, by decide, by decide, simdAll_lane W _ h j hj, rfl⟩, rfl⟩
  · intro h
    exact ⟨Or.inl ⟨3, by decide, by decide, simdAll_lane W _ h j hj, rfl⟩, rfl⟩
  · intro h
    exact ⟨Or.inl ⟨4, by decide, by decide, simdAll_lane W _ h j hj, rfl⟩, rfl⟩
  · intro h
    exact ⟨Or.inl ⟨5, by decide, by decide, simdAll_lane W _ h j hj, rfl⟩, rfl⟩
  · intro h
    exact ⟨Or.inl ⟨6, by decide, by decide, simdAll_lane W _ h j hj, rfl⟩, rfl⟩
  · exact ⟨Or.inr rfl, rfl⟩

/-! ### Closest point of one triangle -/

theorem quad_nonneg (E F G x y : ℚ) (hE : 0 < E) (hD : 0 < E * G - F * F) :
    0 ≤ E * x * x + 2 * F * x * y + G * y * y := by
  have h1 : 0 ≤ (E * x + F * y) ^ 2 + (E * G - F * F) * y ^ 2 := by positivity
  have h2 : E * (E * x * x + 2 * F * x * y + G * y * y)
      = (E * x + F * y) ^ 2 + (E * G - F * F) * y ^ 2 := by ring
  rw [← h2] at h1
  exact nonneg_of_mul_nonneg_right h1 hE

/-- First-order condition: a point at which the directional derivative of `triQ` towards
`(u, w)` is not negative has a value of at most that of `(u, w)`. -/
theorem triQ_min (E F G d1 d2 u0 w0 u w : ℚ) (hE : 0 < E) (hD : 0 < E * G - F * F)
    (hgrad : 0 ≤ (E * u0 + F * w0 - d1) * (u - u0) + (F * u0 + G * w0 - d2) * (w - w0)) :
    triQ E F G d1 d2 u0 w0 ≤ triQ E F G d1 d2 u w := by
  have hq := quad_nonneg E F G (u - u0) (w - w0) hE hD
  have : triQ E F G d1 d2 u w - triQ E F G d1 d2 u0 w0
      = (E * (u - u0) * (u - u0) + 2 * F * (u - u0) * (w - w0) + G * (w - w0) * (w - w0))
        + 2 * ((E * u0 + F * w0 - d1) * (u - u0) + (F * u0 + G * w0 - d2) * (w - w0)) := by
    unfold triQ; ring
  linarith

theorem cover_vc (E F G d1 d2 : ℚ) (hE : 0 < E) (hD : 0 < E * G - F * F)
    (hvc : E * d2 - F * d1 ≤ 0)
    (n1 : ¬ (d1 ≤ 0 ∧ d2 ≤ 0))
    (n2 : ¬ (d1 - E ≥ 0 ∧ d2 - F ≤ d1 - E))
    (n3 : ¬ (d2 - G ≥ 0 ∧ d1 - F ≤ d2 - G))
    (n4 : ¬ (E * d2 - F * d1 ≤ 0 ∧ d1 ≥ 0 ∧ d1 - E ≤ 0))
    (n5 : ¬ (G * d1 - F * d2 ≤ 0 ∧ d2 ≥ 0 ∧ d2 - G ≤ 0))
    (n6 : ¬ ((E * G - F * F) - (G * d1 - F * d2) - (E * d2 - F * d1) ≤ 0
          ∧ (d2 - F) - (d1 - E) ≥ 0 ∧ (d1 - F) - (d2 - G) ≥ 0)) : False := by
  simp only [not_and_or, not_le, ge_iff_le] at n1 n2 n3 n4 n5 n6
  rcases n4 with h | h | h
  · linarith
  · -- d1 < 0
    rcases n1 with h1 | h1
    · linarith
    · have hF : F < 0 := by nlinarith
      have hvb : G * d1 - F * d2 ≤ 0 := by nlinarith
      rcases n5 with h5 | h5 | h5
      · linarith
      · linarith
      · rcases n3 with h3 | h3
        · linarith
        · nlinarith
  · -- d1 > E
    rcases n2 with h2 | h2
    · linarith
    · rcases n6 with h6 | h6 | h6
      · have hFE : E < F := by
          by_contra hc
          have hc2 : F ≤ E := not_lt.mp hc
          nlinarith [mul_nonneg (sub_nonneg.mpr hc2) (le_of_lt h)]
        nlinarith [mul_pos h hD, mul_nonneg (le_of_lt (sub_pos.mpr hFE)) (sub_nonneg.mpr hvc)]
      · linarith
      · rcases n3 with h3 | h3
        · nlinarith
        · linarith

theorem cover_vb (E F G d1 d2 : ℚ) (hG : 0 < G) (hD : 0 < E * G - F * F)
    (hvb : G * d1 - F * d2 ≤ 0)
    (n1 : ¬ (d1 ≤ 0 ∧ d2 ≤ 0))
    (n2 : ¬ (d1 - E ≥ 0 ∧ d2 - F ≤ d1 - E))
    (n3 : ¬ (d2 - G ≥ 0 ∧ d1 - F ≤ d2 - G))
    (n4 : ¬ (E * d2 - F * d1 ≤ 0 ∧ d1 ≥ 0 ∧ d1 - E ≤ 0))
    (n5 : ¬ (G * d1 - F * d2 ≤ 0 ∧ d2 ≥ 0 ∧ d2 - G ≤ 0))
    (n6 : ¬ ((E * G - F * F) - (G * d1 - F * d2) - (E * d2 - F * d1) ≤ 0
          ∧ (d2 - F) - (d1 - E) ≥ 0 ∧ (d1 - F) - (d2 - G) ≥ 0)) : False := by
  refine cover_vc G F E d2 d1 hG (by linarith) hvb (fun h => n1 ⟨h.2, h.1⟩) n3 n2 n5 n4 ?_
  intro h
  exact n6 ⟨by linarith [h.1], h.2.2, h.2.1⟩

theorem cover_va (E F G d1 d2 : ℚ) (hE : 0 < E) (hD : 0 < E * G - F * F)
    (hva : (E * G - F * F) - (G * d1 - F * d2) - (E * d2 - F * d1) ≤ 0)
    (n1 : ¬ (d1 ≤ 0 ∧ d2 ≤ 0))
    (n2 : ¬ (d1 - E ≥ 0 ∧ d2 - F ≤ d1 - E))
    (n3 : ¬ (d2 - G ≥ 0 ∧ d1 - F ≤ d2 - G))
    (n4 : ¬ (E * d2 - F * d1 ≤ 0 ∧ d1 ≥ 0 ∧ d1 - E ≤ 0))
    (n5 : ¬ (G * d1 - F * d2 ≤ 0 ∧ d2 ≥ 0 ∧ d2 - G ≤ 0))
    (n6 : ¬ ((E * G - F * F) - (G * d1 - F * d2) - (E * d2 - F * d1) ≤ 0
          ∧ (d2 - F) - (d1 - E) ≥ 0 ∧ (d1 - F) - (d2 - G) ≥ 0)) : False := by
  -- the same triangle with its vertices named b, c, a
  have hH : 0 < E - 2 * F + G := by nlinarith [sq_nonneg (E - F), sq_nonneg (F - G)]
  refine cover_vc (E - 2 * F + G) (E - F) E (E - F + d2 - d1) (E - d1) hH ?_ ?_ ?_ ?_ ?_ ?_ ?_ ?_
  · nlinarith
  · nlinarith
  · intro h; exact n2 ⟨by linarith [h.2], by linarith [h.1]⟩
  · intro h; exact n3 ⟨by linarith [h.2], by linarith [h.1]⟩
  · intro h; exact n1 ⟨by linarith [h.2], by linarith [h.1]⟩
  · intro h; exact n6 ⟨by nlinarith [h.1], by linarith [h.2.1], by linarith [h.2.2]⟩
  · intro h; exact n4 ⟨by nlinarith [h.1], by linarith [h.2.2], by linarith [h.2.1]⟩
  · intro h; exact n5 ⟨by nlinarith [h.1], by linarith [h.2.2], by linarith [h.2.1]⟩

/-! Products of the edges, and the points the kernel stores, in barycentric coordinates. -/

theorem dot_d3 (a b p : Vector3) :
    (b.sub a).dot (p.sub b) = (b.sub a).dot (p.sub a) - (b.sub a).dot (b.sub a) := by
  simp only [Vector3.dot, Vector3.sub]; ring

theorem dot_d4 (a b c p : Vector3) :
    (c.sub a).dot (p.sub b) = (c.sub a).dot (p.sub a) - (b.sub a).dot (c.sub a) := by
  simp only [Vector3.dot, Vector3.sub]; ring

theorem dot_d5 (a b c p : Vector3) :
    (b.sub a).dot (p.sub c) = (b.sub a).dot (p.sub a) - (b.sub a).dot (c.sub a) := by
  simp only [Vector3.dot, Vector3.sub]; ring

theorem dot_d6 (a c p : Vector3) :
    (c.sub a).dot (p.sub c) = (c.sub a).dot (p.sub a) - (c.sub a).dot (c.sub a) := by
  simp only [Vector3.dot, Vector3.sub]; ring

theorem gram_pos (tri : Triangle) (hnd : NonDegenerate tri) :
    0 < (tri.b.sub tri.a).dot (tri.b.sub tri.a) ∧ 0 < (tri.c.sub tri.a).dot (tri.c.sub tri.a) := by
  unfold NonDegenerate at hnd
  have hE : 0 ≤ (tri.b.sub tri.a).dot (tri.b.sub tri.a) := by
    exact add_nonneg (add_nonneg (mul_self_nonneg _) (mul_self_nonneg _)) (mul_self_nonneg _)
  have hG : 0 ≤ (tri.c.sub tri.a).dot (tri.c.sub tri.a) := by
    exact add_nonneg (add_nonneg (mul_self_nonneg _) (mul_self_nonneg _)) (mul_self_nonneg _)
  constructor
  · rcases eq_or_lt_of_le hE with h | h
    · rw [← h] at hnd; nlinarith [mul_self_nonneg ((tri.b.sub tri.a).dot (tri.c.sub tri.a))]
    · exact h
  · rcases eq_or_lt_of_le hG with h | h
    · rw [← h] at hnd; nlinarith [mul_self_nonneg ((tri.b.sub tri.a).dot (tri.c.sub tri.a))]
    · exact h

theorem dist2_point (tri : Triangle) (p : Vector3) (u w : ℚ) :
    Vector3.dist2 (tri.point u w) p
      = Vector3.dist2 tri.a p
        + triQ ((tri.b.sub tri.a).dot (tri.b.sub tri.a)) ((tri.b.sub tri.a).dot (tri.c.sub tri.a))
            ((tri.c.sub tri.a).dot (tri.c.sub tri.a)) ((tri.b.sub tri.a).dot (p.sub tri.a))
            ((tri.c.sub tri.a).dot (p.sub tri.a)) u w := by
  simp only [Vector3.dist2, Triangle.point, Vector3.add, Vector3.smul, Vector3.sub, Vector3.dot,
    triQ]
  ring

theorem point_a (tri : Triangle) : tri.a = tri.point 0 0 := by
  simp [Triangle.point, Vector3.add, Vector3.smul]

theorem point_b (tri : Triangle) : tri.b = tri.point 1 0 := by
  simp [Triangle.point, Vector3.add, Vector3.smul, Vector3.sub]

theorem point_c (tri : Triangle) : tri.c = tri.point 0 1 := by
  simp [Triangle.point, Vector3.add, Vector3.smul, Vector3.sub]

theorem point_ab (tri : Triangle) (v : ℚ) :
    tri.a.add (Vector3.smul v (tri.b.sub tri.a)) = tri.point v 0 := by
  simp [Triangle.point, Vector3.add, Vector3.smul]

theorem point_ac (tri : Triangle) (v : ℚ) :
    tri.a.add (Vector3.smul v (tri.c.sub tri.a)) = tri.point 0 v := by
  simp [Triangle.point, Vector3.add, Vector3.smul]

theorem point_bc (tri : Triangle) (v : ℚ) :
    tri.b.add (Vector3.smul v (tri.c.sub tri.b)) = tri.point (1 - v) v := by
  simp only [Triangle.point, Vector3.add, Vector3.smul, Vector3.sub, Vector3.mk.injEq]
  refine ⟨?_, ?_, ?_⟩ <;> ring

/-- A point of the triangle at which the first-order condition holds towards every point of
the triangle is a nearest point. -/
theorem isClosest_of_grad (tri : Triangle) (p y : Vector3) (u0 w0 : ℚ)
    (hnd : NonDegenerate tri) (hy : y = tri.point u0 w0)
    (h0 : 0 ≤ u0) (h1 : 0 ≤ w0) (h2 : u0 + w0 ≤ 1)
    (hgrad : ∀ u w : ℚ, 0 ≤ u → 0 ≤ w → u + w ≤ 1 →
      0 ≤ ((tri.b.sub tri.a).dot (tri.b.sub tri.a) * u0
            + (tri.b.sub tri.a).dot (tri.c.sub tri.a) * w0
            - (tri.b.sub tri.a).dot (p.sub tri.a)) * (u - u0)
          + ((tri.b.sub tri.a).dot (tri.c.sub tri.a) * u0
            + (tri.c.sub tri.a).dot (tri.c.sub tri.a) * w0
            - (tri.c.sub tri.a).dot (p.sub tri.a)) * (w - w0)) :
    IsClosest tri p y := by
  refine ⟨⟨u0, w0, h0, h1, h2, hy⟩, ?_⟩
  rintro z ⟨u, w, hu, hw, huw, rfl⟩
  rw [hy, dist2_point, dist2_point]
  have := triQ_min _ _ _ _ _ u0 w0 u w (gram_pos tri hnd).1 hnd (hgrad u w hu hw huw)
  linarith

/-- The six region tests of the kernel in terms of the edge products. -/
theorem triMask_spec (a b c p : Vector3) :
    (triMask a b c p 1 = true
        ↔ (b.sub a).dot (p.sub a) ≤ 0 ∧ (c.sub a).dot (p.sub a) ≤ 0)
      ∧ (triMask a b c p 2 = true
        ↔ (b.sub a).dot (p.sub a) - (b.sub a).dot (b.sub a) ≥ 0
          ∧ (c.sub a).dot (p.sub a) - (b.sub a).dot (c.sub a)
              ≤ (b.sub a).dot (p.sub a) - (b.sub a).dot (b.sub a))
      ∧ (triMask a b c p 3 = true
        ↔ (c.sub a).dot (p.sub a) - (c.sub a).dot (c.sub a) ≥ 0
          ∧ (b.sub a).dot (p.sub a) - (b.sub a).dot (c.sub a)
              ≤ (c.sub a).dot (p.sub a) - (c.sub a).dot (c.sub a))
      ∧ (triMask a b c p 4 = true
        ↔ (b.sub a).dot (b.sub a) * (c.sub a).dot (p.sub a)
              - (b.sub a).dot (c.sub a) * (b.sub a).dot (p.sub a) ≤ 0
          ∧ (b.sub a).dot (p.sub a) ≥ 0
          ∧ (b.sub a).dot (p.sub a) - (b.sub a).dot (b.sub a) ≤ 0)
      ∧ (triMask a b c p 5 = true
        ↔ (c.sub a).dot (c.sub a) * (b.sub a).dot (p.sub a)
              - (b.sub a).dot (c.sub a) * (c.sub a).dot (p.sub a) ≤ 0
          ∧ (c.sub a).dot (p.sub a) ≥ 0
          ∧ (c.sub a).dot (p.sub a) - (c.sub a).dot (c.sub a) ≤ 0)
      ∧ (triMask a b c p 6 = true
        ↔ ((b.sub a).dot (b.sub a) * (c.sub a).dot (c.sub a)
              - (b.sub a).dot (c.sub a) * (b.sub a).dot (c.sub a))
            - ((c.sub a).dot (c.sub a) * (b.sub a).dot (p.sub a)
              - (b.sub a).dot (c.sub a) * (c.sub a).dot (p.sub a))
            - ((b.sub a).dot (b.sub a) * (c.sub a).dot (p.sub a)
              - (b.sub a).dot (c.sub a) * (b.sub a).dot (p.sub a)) ≤ 0
          ∧ ((c.sub a).dot (p.sub a) - (b.sub a).dot (c.sub a))
              - ((b.sub a).dot (p.sub a) - (b.sub a).dot (b.sub a)) ≥ 0
          ∧ ((b.sub a).dot (p.sub a) - (b.sub a).dot (c.sub a))
              - ((c.sub a).dot (p.sub a) - (c.sub a).dot (c.sub a)) ≥ 0) := by
  simp only [triMask, Bool.and_eq_true, decide_eq_true_eq, dot_d3 a b p, dot_d4 a b c p,
    dot_d5 a b c p, dot_d6 a c p]
  generalize (b.sub a).dot (b.sub a) = E
  generalize (b.sub a).dot (c.sub a) = F
  generalize (c.sub a).dot (c.sub a) = G
  generalize (b.sub a).dot (p.sub a) = d1
  generalize (c.sub a).dot (p.sub a) = d2
  refine ⟨trivial, trivial, trivial, ?_, ?_, ?_⟩
  · constructor
    · rintro ⟨⟨h1, h2⟩, h3⟩
      exact ⟨by linarith, h2, h3⟩
    · rintro ⟨h1, h2, h3⟩
      exact ⟨⟨by linarith, h2⟩, h3⟩
  · constructor
    · rintro ⟨⟨h1, h2⟩, h3⟩
      exact ⟨by linarith, h2, h3⟩
    · rintro ⟨h1, h2, h3⟩
      exact ⟨⟨by linarith, h2⟩, h3⟩
  · constructor
    · rintro ⟨⟨h1, h2⟩, h3⟩
      exact ⟨by linarith, h2, h3⟩
    · rintro ⟨h1, h2, h3⟩
      exact ⟨⟨by linarith, h2⟩, h3⟩

/-- A lane in which a region test holds stores a nearest point of its triangle. -/
theorem triMask_closest (tri : Triangle) (p : Vector3) (hnd : NonDegenerate tri) :
    ∀ k, triMask tri.a tri.b tri.c p k = true →
      IsClosest tri p (if k = 1 then tri.a else triAnswer tri.a tri.b tri.c p k)
  | 0, hk => by simp [triMask] at hk
  | 1, hk => by
    rw [(triMask_spec tri.a tri.b tri.c p).1] at hk
    rw [if_pos rfl]
    refine isClosest_of_grad tri p _ 0 0 hnd (point_a tri) (le_refl _) (le_refl _)
      (by norm_num) ?_
    intro u w hu hw _
    nlinarith [mul_nonneg hu (neg_nonneg.mpr hk.1), mul_nonneg hw (neg_nonneg.mpr hk.2)]
  | 2, hk => by
    rw [(triMask_spec tri.a tri.b tri.c p).2.1] at hk
    rw [if_neg (by decide)]
    refine isClosest_of_grad tri p _ 1 0 hnd (point_b tri) (by norm_num) (le_refl _)
      (by norm_num) ?_
    intro u w _ hw huw
    nlinarith [mul_nonneg hw (sub_nonneg.mpr hk.2), mul_nonneg hk.1 (sub_nonneg.mpr huw)]
  | 3, hk => by
    rw [(triMask_spec tri.a tri.b tri.c p).2.2.1] at hk
    rw [if_neg (by decide)]
    refine isClosest_of_grad tri p _ 0 1 hnd (point_c tri) (le_refl _) (by norm_num)
      (by norm_num) ?_
    intro u w hu _ huw
    nlinarith [mul_nonneg hu (sub_nonneg.mpr hk.2), mul_nonneg hk.1 (sub_nonneg.mpr huw)]
  | 4, hk => by
    rw [(triMask_spec tri.a tri.b tri.c p).2.2.2.1] at hk
    rw [if_neg (by decide)]
    obtain ⟨hE, _⟩ := gram_pos tri hnd
    simp only [triAnswer, dot_d3 tri.a tri.b p, sub_sub_cancel]
    refine isClosest_of_grad tri p _ _ _ hnd (point_ab tri _) ?_ (le_refl _) ?_ ?_
    · exact div_nonneg hk.2.1 (le_of_lt hE)
    · rw [add_zero, div_le_one hE]
      linarith [hk.2.2]
    · intro u w _ hw _
      have hv : (tri.b.sub tri.a).dot (tri.b.sub tri.a)
          * ((tri.b.sub tri.a).dot (p.sub tri.a) / (tri.b.sub tri.a).dot (tri.b.sub tri.a))
          = (tri.b.sub tri.a).dot (p.sub tri.a) := by
        field_simp
      revert hv
      generalize (tri.b.sub tri.a).dot (p.sub tri.a)
        / (tri.b.sub tri.a).dot (tri.b.sub tri.a) = v
      intro hv
      have hFv : (tri.b.sub tri.a).dot (tri.c.sub tri.a)
          * ((tri.b.sub tri.a).dot (tri.b.sub tri.a) * v)
          = (tri.b.sub tri.a).dot (tri.c.sub tri.a) * (tri.b.sub tri.a).dot (p.sub tri.a) := by
        rw [hv]
      have h3 : 0 ≤ (tri.b.sub tri.a).dot (tri.c.sub tri.a) * v
          - (tri.c.sub tri.a).dot (p.sub tri.a) := by
        by_contra hc
        push_neg at hc
        linarith [mul_neg_of_pos_of_neg hE hc, hk.1]
      have h0 : (tri.b.sub tri.a).dot (tri.b.sub tri.a) * v
          + (tri.b.sub tri.a).dot (tri.c.sub tri.a) * 0
          - (tri.b.sub tri.a).dot (p.sub tri.a) = 0 := by linarith
      rw [h0]
      linarith [mul_nonneg h3 hw]
  | 5, hk => by
    rw [(triMask_spec tri.a tri.b tri.c p).2.2.2.2.1] at hk
    rw [if_neg (by decide)]
    obtain ⟨_, hG⟩ := gram_pos tri hnd
    simp only [triAnswer, dot_d6 tri.a tri.c p, sub_sub_cancel]
    refine isClosest_of_grad tri p _ _ _ hnd (point_ac tri _) (le_refl _) ?_ ?_ ?_
    · exact div_nonneg hk.2.1 (le_of_lt hG)
    · rw [zero_add, div_le_one hG]
      linarith [hk.2.2]
    · intro u w hu _ _
      have hv : (tri.c.sub tri.a).dot (tri.c.sub tri.a)
          * ((tri.c.sub tri.a).dot (p.sub tri.a) / (tri.c.sub tri.a).dot (tri.c.sub tri.a))
          = (tri.c.sub tri.a).dot (p.sub tri.a) := by
        field_simp
      revert hv
      generalize (tri.c.sub tri.a).dot (p.sub tri.a)
        / (tri.c.sub tri.a).dot (tri.c.sub tri.a) = v
      intro hv
      have hFv : (tri.b.sub tri.a).dot (tri.c.sub tri.a)
          * ((tri.c.sub tri.a).dot (tri.c.sub tri.a) * v)
          = (tri.b.sub tri.a).dot (tri.c.sub tri.a) * (tri.c.sub tri.a).dot (p.sub tri.a) := by
        rw [hv]
      have h3 : 0 ≤ (tri.b.sub tri.a).dot (tri.c.sub tri.a) * v
          - (tri.b.sub tri.a).dot (p.sub tri.a) := by
        by_contra hc
        push_neg at hc
        linarith [mul_neg_of_pos_of_neg hG hc, hk.1]
      have h0 : (tri.b.sub tri.a).dot (tri.c.sub tri.a) * 0
          + (tri.c.sub tri.a).dot (tri.c.sub tri.a) * v
          - (tri.c.sub tri.a).dot (p.sub tri.a) = 0 := by linarith
      rw [h0]
      linarith [mul_nonneg h3 hu]
  | 6, hk => by
    rw [(triMask_spec tri.a tri.b tri.c p).2.2.2.2.2] at hk
    rw [if_neg (by decide)]
    obtain ⟨hE, hG⟩ := gram_pos tri hnd
    have hD := hnd
    unfold NonDegenerate at hD
    simp only [triAnswer, dot_d3 tri.a tri.b p, dot_d4 tri.a tri.b tri.c p,
      dot_d5 tri.a tri.b tri.c p, dot_d6 tri.a tri.c p]
    refine isClosest_of_grad tri p _ _ _ hnd (point_bc tri _) ?_ ?_ ?_ ?_
    all_goals
      revert hE hG hD hk
      generalize (tri.b.sub tri.a).dot (tri.b.sub tri.a) = E
      generalize (tri.b.sub tri.a).dot (tri.c.sub tri.a) = F
      generalize (tri.c.sub tri.a).dot (tri.c.sub tri.a) = G
      generalize (tri.b.sub tri.a).dot (p.sub tri.a) = d1
      generalize (tri.c.sub tri.a).dot (p.sub tri.a) = d2
      intro hk hE hG hD
      have hH : 0 < d2 - F - (d1 - E) + (d1 - F - (d2 - G)) := by
        nlinarith [sq_nonneg (E - F), sq_nonneg (F - G)]
      have ht : (d2 - F - (d1 - E)) / (d2 - F - (d1 - E) + (d1 - F - (d2 - G)))
          * (d2 - F - (d1 - E) + (d1 - F - (d2 - G))) = d2 - F - (d1 - E) := by
        field_simp
      have ht0 : 0 ≤ (d2 - F - (d1 - E)) / (d2 - F - (d1 - E) + (d1 - F - (d2 - G))) :=
        div_nonneg hk.2.1 (le_of_lt hH)
      revert ht ht0
      generalize (d2 - F - (d1 - E)) / (d2 - F - (d1 - E) + (d1 - F - (d2 - G))) = t
      intro ht ht0
      have ht1 : t ≤ 1 := by
        by_contra hc
        push_neg at hc
        nlinarith [mul_pos (sub_pos.mpr hc) hH, hk.2.2]
    · linarith
    · exact ht0
    · linarith
    · intro u w _ _ huw
      have hg1 : (E * (1 - t) + F * t - d1) * (d2 - F - (d1 - E) + (d1 - F - (d2 - G)))
          = E * G - F * F - (G * d1 - F * d2) - (E * d2 - F * d1) := by
        linear_combination (F - E) * ht
      have hg2 : (F * (1 - t) + G * t - d2) * (d2 - F - (d1 - E) + (d1 - F - (d2 - G)))
          = E * G - F * F - (G * d1 - F * d2) - (E * d2 - F * d1) := by
        linear_combination (G - F) * ht
      have hneg : E * (1 - t) + F * t - d1 ≤ 0 := by
        by_contra hc
        push_neg at hc
        nlinarith [mul_pos hc hH, hk.1]
      have heq : F * (1 - t) + G * t - d2 = E * (1 - t) + F * t - d1 :=
        mul_right_cancel₀ (ne_of_gt hH) (hg2.trans hg1.symm)
      rw [heq]
      nlinarith [mul_nonneg (neg_nonneg.mpr hneg) (sub_nonneg.mpr huw)]
  | k + 7, hk => by simp [triMask] at hk

theorem not_of_false {b : Bool} {P : Prop} (h : b = true ↔ P) (hb : b = false) : ¬ P := by
  intro hp
  rw [h.mpr hp] at hb
  cases hb

/-- A lane in which no region test holds has the face point as the nearest point. -/
theorem triFace_closest (tri : Triangle) (p : Vector3) (hnd : NonDegenerate tri)
    (hno : ∀ k, triMask tri.a tri.b tri.c p k = false) :
    IsClosest tri p (triAnswer tri.a tri.b tri.c p 7) := by
  obtain ⟨s1, s2, s3, s4, s5, s6⟩ := triMask_spec tri.a tri.b tri.c p
  have n1 := not_of_false s1 (hno 1)
  have n2 := not_of_false s2 (hno 2)
  have n3 := not_of_false s3 (hno 3)
  have n4 := not_of_false s4 (hno 4)
  have n5 := not_of_false s5 (hno 5)
  have n6 := not_of_false s6 (hno 6)
  clear s1 s2 s3 s4 s5 s6
  obtain ⟨hE, hG⟩ := gram_pos tri hnd
  have hD := hnd
  unfold NonDegenerate at hD
  simp only [triAnswer, dot_d3 tri.a tri.b p, dot_d4 tri.a tri.b tri.c p,
    dot_d5 tri.a tri.b tri.c p, dot_d6 tri.a tri.c p]
  refine isClosest_of_grad tri p _ _ _ hnd rfl ?_ ?_ ?_ ?_
  all_goals
    revert n1 n2 n3 n4 n5 n6 hE hG hD
    generalize (tri.b.sub tri.a).dot (tri.b.sub tri.a) = E
    generalize (tri.b.sub tri.a).dot (tri.c.sub tri.a) = F
    generalize (tri.c.sub tri.a).dot (tri.c.sub tri.a) = G
    generalize (tri.b.sub tri.a).dot (p.sub tri.a) = d1
    generalize (tri.c.sub tri.a).dot (p.sub tri.a) = d2
    intro n1 n2 n3 n4 n5 n6 hE hG hD
    have hvc : 0 < d1 * (d2 - F) - (d1 - E) * d2 := by
      by_contra hc
      push_neg at hc
      exact cover_vc E F G d1 d2 hE hD (by linarith) n1 n2 n3 n4 n5 n6
    have hvb : 0 < (d1 - F) * d2 - d1 * (d2 - G) := by
      by_contra hc
      push_neg at hc
      exact cover_vb E F G d1 d2 hG hD (by linarith) n1 n2 n3 n4 n5 n6
    have hva : 0 < (d1 - E) * (d2 - G) - (d1 - F) * (d2 - F) := by
      by_contra hc
      push_neg at hc
      exact cover_va E F G d1 d2 hE hD (by linarith) n1 n2 n3 n4 n5 n6
    have hS : 0 < (d1 - E) * (d2 - G) - (d1 - F) * (d2 - F) + ((d1 - F) * d2 - d1 * (d2 - G))
        + (d1 * (d2 - F) - (d1 - E) * d2) := by linarith
    have hu : ((d1 - F) * d2 - d1 * (d2 - G))
        * (1 / ((d1 - E) * (d2 - G) - (d1 - F) * (d2 - F) + ((d1 - F) * d2 - d1 * (d2 - G))
          + (d1 * (d2 - F) - (d1 - E) * d2)))
        * ((d1 - E) * (d2 - G) - (d1 - F) * (d2 - F) + ((d1 - F) * d2 - d1 * (d2 - G))
          + (d1 * (d2 - F) - (d1 - E) * d2)) = (d1 - F) * d2 - d1 * (d2 - G) := by
      field_simp
    have hw : (d1 * (d2 - F) - (d1 - E) * d2)
        * (1 / ((d1 - E) * (d2 - G) - (d1 - F) * (d2 - F) + ((d1 - F) * d2 - d1 * (d2 - G))
          + (d1 * (d2 - F) - (d1 - E) * d2)))
        * ((d1 - E) * (d2 - G) - (d1 - F) * (d2 - F) + ((d1 - F) * d2 - d1 * (d2 - G))
          + (d1 * (d2 - F) - (d1 - E) * d2)) = d1 * (d2 - F) - (d1 - E) * d2 := by
      field_simp
    revert hu hw
    generalize ((d1 - F) * d2 - d1 * (d2 - G))
        * (1 / ((d1 - E) * (d2 - G) - (d1 - F) * (d2 - F) + ((d1 - F) * d2 - d1 * (d2 - G))
          + (d1 * (d2 - F) - (d1 - E) * d2))) = u0
    generalize (d1 * (d2 - F) - (d1 - E) * d2)
        * (1 / ((d1 - E) * (d2 - G) - (d1 - F) * (d2 - F) + ((d1 - F) * d2 - d1 * (d2 - G))
          + (d1 * (d2 - F) - (d1 - E) * d2))) = w0
    intro hu hw
  · by_contra hc
    push_neg at hc
    nlinarith [mul_neg_of_neg_of_pos hc hS]
  · by_contra hc
    push_neg at hc
    nlinarith [mul_neg_of_neg_of_pos hc hS]
  · by_contra hc
    push_neg at hc
    nlinarith [mul_pos (sub_pos.mpr hc) hS]
  · intro u w _ _ _
    have hg1 : (E * u0 + F * w0 - d1)
        * ((d1 - E) * (d2 - G) - (d1 - F) * (d2 - F) + ((d1 - F) * d2 - d1 * (d2 - G))
          + (d1 * (d2 - F) - (d1 - E) * d2)) = 0 := by
      linear_combination E * hu + F * hw
    have hg2 : (F * u0 + G * w0 - d2)
        * ((d1 - E) * (d2 - G) - (d1 - F) * (d2 - F) + ((d1 - F) * d2 - d1 * (d2 - G))
          + (d1 * (d2 - F) - (d1 - E) * d2)) = 0 := by
      linear_combination F * hu + G * hw
    rw [(mul_eq_zero.mp hg1).resolve_right (ne_of_gt hS),
      (mul_eq_zero.mp hg2).resolve_right (ne_of_gt hS)]
    simp

theorem Vector3.select_true (a b : Vector3) : Vector3.select true a b = a := by
  simp [Vector3.select]

theorem Vector3.select_false (a b : Vector3) : Vector3.select false a b = b := by
  simp [Vector3.select]

/-- A lane that has left by stage `k` holds a nearest point of its triangle. -/
theorem triStage_closest (tri : Triangle) (p : Vector3) (hnd : NonDegenerate tri) :
    ∀ k, 1 ≤ k → (triStage tri.a tri.b tri.c p k).1 = true →
      IsClosest tri p (triStage tri.a tri.b tri.c p k).2
  | 0, h, _ => absurd h (by decide)
  | 1, _, he => by
    have := triMask_closest tri p hnd 1 he
    rwa [if_pos rfl] at this
  | k + 2, _, he => by
    simp only [triStage, Bool.or_eq_true] at he ⊢
    by_cases hm : triMask tri.a tri.b tri.c p (k + 2) = true
    · rw [hm, Vector3.select_true]
      have := triMask_closest tri p hnd (k + 2) hm
      rwa [if_neg (by omega)] at this
    · have hm2 : triMask tri.a tri.b tri.c p (k + 2) = false := by simpa using hm
      rw [hm2, Vector3.select_false]
      rcases he with he | he
      · exact triStage_closest tri p hnd (k + 1) (by omega) he
      · exact absurd he hm

/-- A lane that has not left by stage `k` still holds the vertex `a`, and none of the first `k`
region tests holds in it. -/
theorem triStage_stay (a b c p : Vector3) :
    ∀ k, (triStage a b c p k).1 = false →
      (triStage a b c p k).2 = a ∧ ∀ j, 1 ≤ j → j ≤ k → triMask a b c p j = false
  | 0, _ => ⟨rfl, fun j h1 h2 => absurd h1 (by omega)⟩
  | 1, he => ⟨rfl, fun j h1 h2 => by
      have : j = 1 := by omega
      subst this
      exact he⟩
  | k + 2, he => by
    simp only [triStage, Bool.or_eq_false_iff] at he ⊢
    obtain ⟨ih1, ih2⟩ := triStage_stay a b c p (k + 1) he.1
    rw [he.2, Vector3.select_false]
    refine ⟨ih1, fun j h1 h2 => ?_⟩
    by_cases hj : j = k + 2
    · subst hj; exact he.2
    · exact ih2 j h1 (by omega)

theorem triMask_high (a b c p : Vector3) : ∀ k, 7 ≤ k → triMask a b c p k = false
  | 0, h => absurd h (by decide)
  | 1, h => absurd h (by decide)
  | 2, h => absurd h (by decide)
  | 3, h => absurd h (by decide)
  | 4, h => absurd h (by decide)
  | 5, h => absurd h (by decide)
  | 6, h => absurd h (by decide)
  | k + 7, _ => by simp [triMask]

/-- What the kernel returns in a lane when it runs to its end is a nearest point. -/
theorem triResult_closest (tri : Triangle) (p : Vector3) (hnd : NonDegenerate tri) :
    IsClosest tri p (triResult tri.a tri.b tri.c p) := by
  unfold triResult
  by_cases he : (triStage tri.a tri.b tri.c p 6).1 = true
  · rw [he]
    simp only [Bool.not_true, Bool.false_and, Vector3.select_false]
    exact triStage_closest tri p hnd 6 (by decide) he
  · have he2 : (triStage tri.a tri.b tri.c p 6).1 = false := by simpa using he
    obtain ⟨ho, hno⟩ := triStage_stay tri.a tri.b tri.c p 6 he2
    have hface := triFace_closest tri p hnd (fun k => by
      by_cases h1 : 1 ≤ k
      · by_cases h2 : k ≤ 6
        · exact hno k h1 h2
        · exact triMask_high _ _ _ _ k (by omega)
      · have : k = 0 := by omega
        subst this
        simp [triMask])
    rw [he2, ho]
    simp only [Bool.not_false, Bool.true_and]
    by_cases hlt : Vector3.dist2 (triAnswer tri.a tri.b tri.c p 7) p < Vector3.dist2 tri.a p
    · rw [decide_eq_true hlt, Vector3.select_true]
      exact hface
    · rw [decide_eq_false hlt, Vector3.select_false]
      refine ⟨⟨0, 0, le_refl _, le_refl _, by norm_num, point_a tri⟩, fun z hz => ?_⟩
      exact le_trans (not_lt.mp hlt) (hface.2 z hz)

/-- In a lane below `W` that holds a non-degenerate triangle, the kernel `simdTriPoint2` returns
a point of the triangle nearest to the query point, with its squared distance. -/
theorem simdTriPoint2_closest (W : Nat) (iTri : Fin 3 → SimdVec3) (iPoint : SimdVec3) (j : Nat)
    (hj : j < W) (tri : Triangle) (p : Vector3) (h0 : (iTri 0).lane j = tri.a)
    (h1 : (iTri 1).lane j = tri.b) (h2 : (iTri 2).lane j = tri.c) (hp : iPoint.lane j = p)
    (hnd : NonDegenerate tri) :
    IsClosest tri p ((simdTriPoint2 W iTri iPoint).2.lane j)
      ∧ (simdTriPoint2 W iTri iPoint).1 j
          = Vector3.dist2 ((simdTriPoint2 W iTri iPoint).2.lane j) p := by
  obtain ⟨hcase, hdist⟩ := simdTriPoint2_lane W iTri iPoint j hj
  rw [h0, h1, h2, hp] at hcase
  rw [hp] at hdist
  refine ⟨?_, hdist⟩
  rcases hcase with ⟨k, hk1, _, he, hpt⟩ | hpt
  · rw [hpt]
    exact triStage_closest tri p hnd k hk1 he
  · rw [hpt]
    exact triResult_closest tri p hnd

/-! ### The best lane of a wide leaf -/

theorem getBestLoop_min (pi : ParallelInteraction) (W n : Nat) (hn : n ≤ W)
    (hvalid : ∀ x, x < n → pi.indices x ≠ -1)
    (hpad : ∀ x, n ≤ x → x < W → pi.indices x = -1) :
    ∀ (r i m0 : Nat), i + r = W → i ≤ n → m0 < i →
      (∀ x, x < i → pi.distances m0 ≤ pi.distances x) →
      ∃ m, m < n
        ∧ getBestLoop pi r i (pi.distances m0, pi.points.lane m0, pi.indices m0)
            = (pi.distances m, pi.points.lane m, pi.indices m)
        ∧ ∀ x, x < n → pi.distances m ≤ pi.distances x := by
  intro r
  induction r with
  | zero =>
    intro i m0 hir hin hm0 hmin
    have : i = n := by omega
    subst this
    exact ⟨m0, hm0, rfl, hmin⟩
  | succ r ih =>
    intro i m0 hir hin hm0 hmin
    unfold getBestLoop
    by_cases hi : pi.indices i ≠ -1
    · have hilt : i < n := by
        by_contra hc
        exact hi (hpad i (by omega) (by omega))
      rw [if_pos hi]
      by_cases hgt : pi.distances m0 > pi.distances i
      · rw [if_pos hgt]
        refine ih (i + 1) i (by omega) (by omega) (by omega) ?_
        intro x hx
        by_cases hxi : x = i
        · subst hxi; exact le_refl _
        · exact le_trans (le_of_lt hgt) (hmin x (by omega))
      · rw [if_neg hgt]
        refine ih (i + 1) m0 (by omega) (by omega) (by omega) ?_
        intro x hx
        by_cases hxi : x = i
        · subst hxi; exact not_lt.mp hgt
        · exact hmin x (by omega)
    · rw [if_neg hi]
      have : i = n := by
        by_contra hc
        exact hi (hvalid i (by omega))
      subst this
      exact ⟨m0, hm0, rfl, hmin⟩

/-- With the first `n ≥ 1` lanes valid and the others padding, `getBest` returns a lane with
the least distance among the valid lanes. -/
theorem getBest_min (W : Nat) (pi : ParallelInteraction) (n : Nat) (h1 : 1 ≤ n) (hn : n ≤ W)
    (hvalid : ∀ x, x < n → pi.indices x ≠ -1)
    (hpad : ∀ x, n ≤ x → x < W → pi.indices x = -1) :
    ∃ m, m < n ∧ getBest W pi = (pi.distances m, pi.points.lane m, pi.indices m)
      ∧ ∀ x, x < n → pi.distances m ≤ pi.distances x := by
  unfold getBest
  refine getBestLoop_min pi W n hn hvalid hpad (W - 1) 1 0 (by omega) h1 (by omega) ?_
  intro x hx
  have : x = 0 := by omega
  subst this
  exact le_refl _

theorem getI?_nonneg {α : Type} {xs : List α} {i : Int} {a : α} (h : getI? xs i = some a) :
    0 ≤ i := by
  by_contra hc
  rw [getI?_neg xs i (by omega)] at h
  cases h

/-- What `processLeafNode` does on the wide leaf packed from a binary leaf with between one and
`W` references to non-degenerate triangles: with `y` a point of the leaf's primitives nearest
to the centre, it stores `y`, its squared distance and its primitive when that distance is
below the squared radius, and changes nothing otherwise. -/
theorem processLeafNode_spec (sqrtF : ℚ → ℚ) (W : Nat) (node : BvhSimdFlatNode)
    (leaves : List BvhSimdLeafNode) (sbs : SimdBoundingSphere) (s : BoundingSphere)
    (i : Interaction) (refs : List ReferenceWrapper) (prims : List Triangle) (index m : Nat)
    (leaf : BvhSimdLeafNode) (cur : BvhFlatNode) (c : Vector3)
    (hidx : node.indices index = (m : Int)) (hleaf : leaves[m]? = some leaf)
    (hpacked : ∀ x, x < W → LanePacked refs prims cur leaf x)
    (h1 : 1 ≤ cur.nPrimitives) (hn : cur.nPrimitives ≤ (W : Int))
    (hc : sbs.c = SimdVec3.broadcast c)
    (hnd : ∀ p tri, LeafPrim refs prims cur p tri → NonDegenerate tri) :
    ∃ p tri y, LeafPrim refs prims cur p tri ∧ OnTriangle tri y
      ∧ (∀ p1 tri1 z, LeafPrim refs prims cur p1 tri1 → OnTriangle tri1 z →
          Vector3.dist2 y c ≤ Vector3.dist2 z c)
      ∧ processLeafNode sqrtF W node leaves sbs s i prims index
          = .ok (if Vector3.dist2 y c < s.r2 then
              ({ s with r2 := Vector3.dist2 y c },
               { p := y, n := Vector3.zero, d := sqrtF (Vector3.dist2 y c), primitive := some p })
            else (s, i)) := by
  -- the lanes of the leaf
  have hlane : ∀ x : Nat, (x : Int) < cur.nPrimitives →
      ∃ ref prim, getI? refs (cur.start + x) = some ref ∧ getI? prims ref.index = some prim
        ∧ leaf.indices x = ref.index
        ∧ IsClosest prim c ((simdTriPoint2 W leaf.triangles sbs.c).2.lane x)
        ∧ (simdTriPoint2 W leaf.triangles sbs.c).1 x
            = Vector3.dist2 ((simdTriPoint2 W leaf.triangles sbs.c).2.lane x) c := by
    intro x hx
    have hxW : x < W := by omega
    obtain ⟨ref, prim, e1, e2, e3, e4⟩ := (hpacked x hxW).1 hx
    have hk := simdTriPoint2_closest W leaf.triangles sbs.c x hxW prim c (e4 0) (e4 1) (e4 2)
      (by rw [hc]; rfl) (hnd ref.index prim ⟨x, hx, ref, e1, rfl, e2⟩)
    exact ⟨ref, prim, e1, e2, e3, hk.1, hk.2⟩
  obtain ⟨n, hncast⟩ := Int.eq_ofNat_of_zero_le (le_trans (by decide) h1)
  obtain ⟨mb, hmb, hbest, hmin⟩ := getBest_min W
    (parallelTriangleClosestPoint W leaf sbs
      { distances := fun _ => 0, points := SimdVec3.zero, indices := leaf.indices }) n
    (by omega) (by omega)
    (by
      intro x hx
      obtain ⟨ref, prim, _, e2, e3, _⟩ := hlane x (by omega)
      have := getI?_nonneg e2
      simp only [parallelTriangleClosestPoint]
      omega)
    (by
      intro x hx hxW
      exact ((hpacked x hxW).2 (by omega)).1)
  simp only [parallelTriangleClosestPoint] at hbest hmin
  obtain ⟨ref, prim, e1, e2, e3, hclose, hdist⟩ := hlane mb (by omega)
  refine ⟨ref.index, prim, (simdTriPoint2 W leaf.triangles sbs.c).2.lane mb,
    ⟨mb, by omega, ref, e1, rfl, e2⟩, hclose.1, ?_, ?_⟩
  · rintro p1 tri1 z ⟨x, hx, ref1, f1, f2, f3⟩ hz
    obtain ⟨ref2, prim2, g1, g2, _, hclose2, hdist2⟩ := hlane x hx
    rw [f1] at g1
    cases g1
    rw [f2, f3] at g2
    cases g2
    rw [← hdist]
    exact le_trans (hmin x (by omega)) (by rw [hdist2]; exact hclose2.2 z hz)
  · unfold processLeafNode
    simp only [hidx, readI, getI?_natCast, hleaf, parallelTriangleClosestPoint, hbest, e3, e2,
      hdist]
    have hne : ref.index ≠ -1 := by
      have := getI?_nonneg e2
      omega
    by_cases hlt : Vector3.dist2 ((simdTriPoint2 W leaf.triangles sbs.c).2.lane mb) c < s.r2
    · simp [hne, hlt]
    · simp [hlt]

/-! ### Points in boxes -/

theorem axis_near (lo hi p y : ℚ) (h1 : lo ≤ y) (h2 : y ≤ hi) :
    max (max (lo - p) (p - hi)) 0 * max (max (lo - p) (p - hi)) 0 ≤ (y - p) * (y - p) := by
  have hm : max (max (lo - p) (p - hi)) 0 ≤ |y - p| := by
    refine max_le (max_le ?_ ?_) (abs_nonneg _)
    · have := le_abs_self (y - p)
      linarith
    · have := neg_le_abs (y - p)
      linarith
  have := mul_self_le_mul_self (le_max_right _ _) hm
  rwa [abs_mul_abs_self] at this

theorem axis_far (lo hi p y : ℚ) (h1 : lo ≤ y) (h2 : y ≤ hi) :
    (y - p) * (y - p) ≤ max (p - lo) (hi - p) * max (p - lo) (hi - p) := by
  have hm : |y - p| ≤ max (p - lo) (hi - p) := by
    rw [abs_le]
    constructor
    · have := le_max_left (p - lo) (hi - p)
      linarith
    · have := le_max_right (p - lo) (hi - p)
      linarith
  have := mul_self_le_mul_self (abs_nonneg _) hm
  rwa [abs_mul_abs_self] at this

/-- A point in a box is at least as far from `p` as the nearest point of the box. -/
theorem inBox_near (b : BoundingBox) (p y : Vector3) (h : InBox b y) :
    boxNear2 b p ≤ Vector3.dist2 y p := by
  obtain ⟨h1, h2, h3, h4, h5, h6⟩ := h
  have hx := axis_near b.pMin.x b.pMax.x p.x y.x h1 h2
  have hy := axis_near b.pMin.y b.pMax.y p.y y.y h3 h4
  have hz := axis_near b.pMin.z b.pMax.z p.z y.z h5 h6
  simp only [boxNear2, Vector3.dist2]
  linarith

/-- A point in a box is at most as far from `p` as the farthest corner of the box. -/
theorem inBox_far (b : BoundingBox) (p y : Vector3) (h : InBox b y) :
    Vector3.dist2 y p ≤ boxFar2 b p := by
  obtain ⟨h1, h2, h3, h4, h5, h6⟩ := h
  have hx := axis_far b.pMin.x b.pMax.x p.x y.x h1 h2
  have hy := axis_far b.pMin.y b.pMax.y p.y y.y h3 h4
  have hz := axis_far b.pMin.z b.pMax.z p.z y.z h5 h6
  simp only [boxFar2, Vector3.dist2]
  linarith

theorem axis_convex (lo hi a b c u w : ℚ) (hu : 0 ≤ u) (hw : 0 ≤ w) (huw : u + w ≤ 1)
    (ha : lo ≤ a ∧ a ≤ hi) (hb : lo ≤ b ∧ b ≤ hi) (hc : lo ≤ c ∧ c ≤ hi) :
    lo ≤ a + u * (b - a) + w * (c - a) ∧ a + u * (b - a) + w * (c - a) ≤ hi := by
  have h1 := mul_nonneg (sub_nonneg.mpr huw) (sub_nonneg.mpr ha.1)
  have h2 := mul_nonneg hu (sub_nonneg.mpr hb.1)
  have h3 := mul_nonneg hw (sub_nonneg.mpr hc.1)
  have h4 := mul_nonneg (sub_nonneg.mpr huw) (sub_nonneg.mpr ha.2)
  have h5 := mul_nonneg hu (sub_nonneg.mpr hb.2)
  have h6 := mul_nonneg hw (sub_nonneg.mpr hc.2)
  constructor <;> nlinarith

/-- A box that holds the three vertices of a triangle holds every point of the triangle. -/
theorem onTriangle_inBox (b : BoundingBox) (tri : Triangle) (y : Vector3)
    (hy : OnTriangle tri y) (ha : InBox b tri.a) (hb : InBox b tri.b) (hc : InBox b tri.c) :
    InBox b y := by
  obtain ⟨u, w, hu, hw, huw, rfl⟩ := hy
  obtain ⟨a1, a2, a3, a4, a5, a6⟩ := ha
  obtain ⟨b1, b2, b3, b4, b5, b6⟩ := hb
  obtain ⟨c1, c2, c3, c4, c5, c6⟩ := hc
  have hx := axis_convex b.pMin.x b.pMax.x tri.a.x tri.b.x tri.c.x u w hu hw huw ⟨a1, a2⟩
    ⟨b1, b2⟩ ⟨c1, c2⟩
  have hy := axis_convex b.pMin.y b.pMax.y tri.a.y tri.b.y tri.c.y u w hu hw huw ⟨a3, a4⟩
    ⟨b3, b4⟩ ⟨c3, c4⟩
  have hz := axis_convex b.pMin.z b.pMax.z tri.a.z tri.b.z tri.c.z u w hu hw huw ⟨a5, a6⟩
    ⟨b5, b6⟩ ⟨c5, c6⟩
  simp only [InBox, Triangle.point, Vector3.add, Vector3.smul, Vector3.sub]
  exact ⟨hx.1, hx.2, hy.1, hy.2, hz.1, hz.2⟩

/-- A non-degenerate triangle in a box has a point strictly nearer to `p` than the farthest
corner of the box: the midpoint of its edge `ab`. -/
theorem nearer_than_far (b : BoundingBox) (tri : Triangle) (p : Vector3)
    (hnd : NonDegenerate tri) (ha : InBox b tri.a) (hb : InBox b tri.b) :
    ∃ z, OnTriangle tri z ∧ Vector3.dist2 z p < boxFar2 b p := by
  refine ⟨tri.point (1 / 2) 0, ⟨1 / 2, 0, by norm_num, le_refl _, by norm_num, rfl⟩, ?_⟩
  have h1 := inBox_far b p tri.a ha
  have h2 := inBox_far b p tri.b hb
  have hE := (gram_pos tri hnd).1
  rw [point_b tri, dist2_point] at h2
  rw [dist2_point]
  simp only [triQ] at h2 ⊢
  linarith

/-! ### The primitives below the nodes of a tree -/

theorem descend_leafNodes (t : BTree) :
    ∀ (i : Nat) (p : List Bool) (c : Nat × BTree), descend i t p = some c →
      ∀ cur ∈ c.2.leafNodes, cur ∈ t.leafNodes := by
  induction t with
  | leaf b s n =>
    intro i p c h cur hcur
    cases p with
    | nil =>
      simp only [descend, Option.some.injEq] at h
      subst h
      exact hcur
    | cons a p => simp [descend] at h
  | node b s n l r ihl ihr =>
    intro i p c h cur hcur
    cases p with
    | nil =>
      simp only [descend, Option.some.injEq] at h
      subst h
      exact hcur
    | cons a p =>
      cases a with
      | false =>
        simp only [descend] at h
        simp only [BTree.leafNodes, List.mem_append]
        exact Or.inl (ihl _ p c h cur hcur)
      | true =>
        simp only [descend] at h
        simp only [BTree.leafNodes, List.mem_append]
        exact Or.inr (ihr _ p c h cur hcur)

theorem InTree.primUnder {root : BTree} {i : Nat} {t : BTree} (h : InTree root i t)
    (refs : List ReferenceWrapper) (prims : List Triangle) (p : Int) (tri : Triangle)
    (hp : PrimUnder refs prims t p tri) : PrimUnder refs prims root p tri := by
  obtain ⟨path, hpath⟩ := h
  obtain ⟨cur, hcur, hleaf⟩ := hp
  exact ⟨cur, descend_leafNodes root 0 path _ hpath cur hcur, hleaf⟩

theorem frontier_leafNodes (t : BTree) :
    ∀ (d i : Nat) (cur : BvhFlatNode), cur ∈ t.leafNodes →
      ∃ c ∈ frontier d i t, cur ∈ c.2.leafNodes := by
  induction t with
  | leaf b s n =>
    intro d i cur hcur
    exact ⟨(i, .leaf b s n), by simp [frontier], hcur⟩
  | node b s n l r ihl ihr =>
    intro d i cur hcur
    cases d with
    | zero => exact ⟨(i, .node b s n l r), by simp [frontier], hcur⟩
    | succ d =>
      simp only [BTree.leafNodes, List.mem_append] at hcur
      simp only [frontier, List.mem_append]
      rcases hcur with h | h
      · obtain ⟨c, hc, hm⟩ := ihl d (i + 1) cur h
        exact ⟨c, Or.inl hc, hm⟩
      · obtain ⟨c, hc, hm⟩ := ihr d (i + 1 + l.size) cur h
        exact ⟨c, Or.inr hc, hm⟩

/-- A point on a primitive below a node lies below one of the frontier nodes of that node. -/
theorem pointUnder_frontier (refs : List ReferenceWrapper) (prims : List Triangle) (t : BTree)
    (d i : Nat) (y : Vector3) (h : PointUnder refs prims t y) :
    ∃ (x : Nat) (c : Nat × BTree), (frontier d i t)[x]? = some c
      ∧ PointUnder refs prims c.2 y := by
  obtain ⟨p, tri, ⟨cur, hcur, hleaf⟩, hy⟩ := h
  obtain ⟨c, hc, hm⟩ := frontier_leafNodes t d i cur hcur
  obtain ⟨x, hx, hxc⟩ := List.getElem_of_mem hc
  refine ⟨x, c, ?_, p, tri, ⟨cur, hm, hleaf⟩, hy⟩
  rw [List.getElem?_eq_getElem hx, hxc]

theorem descend_encloses (refs : List ReferenceWrapper) (prims : List Triangle) (t : BTree) :
    ∀ (i : Nat) (p : List Bool) (c : Nat × BTree), Encloses refs prims t →
      descend i t p = some c → Encloses refs prims c.2 := by
  induction t with
  | leaf b s n =>
    intro i p c henc h
    cases p with
    | nil =>
      simp only [descend, Option.some.injEq] at h
      subst h
      exact henc
    | cons a p => simp [descend] at h
  | node b s n l r ihl ihr =>
    intro i p c henc h
    cases p with
    | nil =>
      simp only [descend, Option.some.injEq] at h
      subst h
      exact henc
    | cons a p =>
      cases a with
      | false =>
        simp only [descend] at h
        exact ihl _ p c henc.2.1 h
      | true =>
        simp only [descend] at h
        exact ihr _ p c henc.2.2 h

/-- In a tree whose boxes enclose their primitives, a point on a primitive below a node lies
in the box of the node. -/
theorem InTree.pointUnder_inBox {root : BTree} {i : Nat} {t : BTree} (h : InTree root i t)
    (refs : List ReferenceWrapper) (prims : List Triangle) (henc : Encloses refs prims root)
    (y : Vector3) (hy : PointUnder refs prims t y) : InBox t.bbox y := by
  obtain ⟨path, hpath⟩ := h
  have ht := descend_encloses refs prims root 0 path _ henc hpath
  obtain ⟨p, tri, hp, hon⟩ := hy
  have hbox : InBox t.bbox tri.a ∧ InBox t.bbox tri.b ∧ InBox t.bbox tri.c := by
    cases t with
    | leaf b s n => exact ht p tri hp
    | node b s n l r => exact ht.1 p tri hp
  exact onTriangle_inBox _ tri y hon hbox.1 hbox.2.1 hbox.2.2

theorem BTree.leafNodes_ne_nil (t : BTree) : ∃ cur, cur ∈ t.leafNodes := by
  induction t with
  | leaf b s n => exact ⟨_, List.mem_singleton.mpr rfl⟩
  | node b s n l r ihl _ =>
    obtain ⟨cur, hcur⟩ := ihl
    exact ⟨cur, by simp only [BTree.leafNodes, List.mem_append]; exact Or.inl hcur⟩

/-- Below every node of a tree whose leaves hold at least one reference there is a primitive. -/
theorem InTree.exists_prim {root : BTree} {i : Nat} {t : BTree} (h : InTree root i t)
    (W : Nat) (hW : 0 < W) (refs : List ReferenceWrapper) (prims : List Triangle)
    (hv : RefsValid W refs prims root) (hsize : LeafSized W root) :
    ∃ p tri, PrimUnder refs prims t p tri := by
  obtain ⟨path, hpath⟩ := h
  obtain ⟨cur, hcur⟩ := t.leafNodes_ne_nil
  have hmem := descend_leafNodes root 0 path _ hpath cur hcur
  have hpos : ((0 : Nat) : Int) < cur.nPrimitives := by
    have := (hsize cur hmem).1
    simp only [Nat.cast_zero]
    omega
  obtain ⟨ref, prim, h1, h2⟩ := hv cur hmem 0 hW hpos
  exact ⟨ref.index, prim, cur, hcur, 0, hpos, ref, h1, rfl, h2⟩

/-- In a tree whose boxes enclose non-degenerate primitives, below every node there is a point
strictly nearer to `p` than the farthest corner of the node's box. -/
theorem InTree.exists_nearer {root : BTree} {i : Nat} {t : BTree} (h : InTree root i t)
    (W : Nat) (hW : 0 < W) (refs : List ReferenceWrapper) (prims : List Triangle)
    (hv : RefsValid W refs prims root) (hsize : LeafSized W root)
    (henc : Encloses refs prims root)
    (hnd : ∀ p tri, PrimUnder refs prims root p tri → NonDegenerate tri) (p : Vector3) :
    ∃ y, PointUnder refs prims t y ∧ Vector3.dist2 y p < boxFar2 t.bbox p := by
  obtain ⟨q, tri, hq⟩ := h.exists_prim W hW refs prims hv hsize
  have ha := h.pointUnder_inBox refs prims henc tri.a
    ⟨q, tri, hq, 0, 0, le_refl _, le_refl _, by norm_num, point_a tri⟩
  have hb := h.pointUnder_inBox refs prims henc tri.b
    ⟨q, tri, hq, 1, 0, by norm_num, le_refl _, by norm_num, point_b tri⟩
  obtain ⟨z, hz, hlt⟩ := nearer_than_far t.bbox tri p (hnd q tri (h.primUnder refs prims q tri hq))
    ha hb
  exact ⟨z, ⟨q, tri, hq, hz⟩, hlt⟩

/-- The primitives below a binary leaf are the ones the leaf references. -/
theorem primUnder_leaf (refs : List ReferenceWrapper) (prims : List Triangle) (t : BTree)
    (hl : t.isLeaf = true) (p : Int) (tri : Triangle) :
    PrimUnder refs prims t p tri ↔ LeafPrim refs prims t.rootNode p tri := by
  cases t with
  | leaf b s n =>
    simp only [PrimUnder, BTree.leafNodes, List.mem_singleton, BTree.rootNode]
    constructor
    · rintro ⟨cur, rfl, h⟩
      exact h
    · intro h
      exact ⟨_, rfl, h⟩
  | node b s n l r => cases hl

/-! ### The query finds the nearest point -/

/-- The lower bound of a lane is at most the squared distance to any point below the lane. -/
theorem lane_near {W md : Nat} {root : BTree} {refs : List ReferenceWrapper}
    {prims : List Triangle} {ns : List BvhSimdFlatNode} {lv : List BvhSimdLeafNode}
    {k i : Nat} {t : BTree} (hwide : IsWideNodeFor W md root refs prims ns lv k i t)
    (node : BvhSimdFlatNode) (hnode : ns[k]? = some node) (j : Nat) (c0 : Nat × BTree)
    (hc0 : (frontier md i t)[j]? = some c0) (sbs : SimdBoundingSphere) (c : Vector3)
    (hc : sbs.c = SimdVec3.broadcast c) (henc : Encloses refs prims root) (y : Vector3)
    (hy : PointUnder refs prims c0.2 y) :
    (parallelOverlap node sbs).d2Min j ≤ Vector3.dist2 y c := by
  obtain ⟨_, _, hsub, _⟩ := hwide.node_exists
  have hin := hsub.frontier_mem md c0 (List.getElem?_mem hc0)
  rw [(parallelOverlap_lane node sbs c hc j).1, (hwide.lane_box node hnode j c0 hc0).1]
  exact inBox_near _ c y (hin.pointUnder_inBox refs prims henc y hy)

/-- Below every lane there is a point strictly nearer than the upper bound of the lane. -/
theorem lane_far {W md : Nat} {root : BTree} {refs : List ReferenceWrapper}
    {prims : List Triangle} {ns : List BvhSimdFlatNode} {lv : List BvhSimdLeafNode}
    {k i : Nat} {t : BTree} (hwide : IsWideNodeFor W md root refs prims ns lv k i t)
    (node : BvhSimdFlatNode) (hnode : ns[k]? = some node) (j : Nat) (c0 : Nat × BTree)
    (hc0 : (frontier md i t)[j]? = some c0) (sbs : SimdBoundingSphere) (c : Vector3)
    (hc : sbs.c = SimdVec3.broadcast c) (hW : 0 < W) (hv : RefsValid W refs prims root)
    (hsize : LeafSized W root) (henc : Encloses refs prims root)
    (hnd : ∀ p tri, PrimUnder refs prims root p tri → NonDegenerate tri) :
    ∃ y, PointUnder refs prims root y ∧ Vector3.dist2 y c < (parallelOverlap node sbs).d2Max j := by
  obtain ⟨_, _, hsub, _⟩ := hwide.node_exists
  have hin := hsub.frontier_mem md c0 (List.getElem?_mem hc0)
  obtain ⟨y, ⟨p, tri, hp, hon⟩, hlt⟩ := hin.exists_nearer W hW refs prims hv hsize henc hnd c
  rw [(parallelOverlap_lane node sbs c hc j).2, (hwide.lane_box node hnode j c0 hc0).1]
  exact ⟨y, ⟨p, tri, hin.primUnder refs prims p tri hp, hon⟩, hlt⟩

/-- The shrink of `parseOverlap` keeps the answer on its way. -/
theorem shrink_good {W md : Nat} {root : BTree} {refs : List ReferenceWrapper}
    {prims : List Triangle} {ns : List BvhSimdFlatNode} {lv : List BvhSimdLeafNode}
    {k i : Nat} {t : BTree} (hwide : IsWideNodeFor W md root refs prims ns lv k i t)
    (node : BvhSimdFlatNode) (hnode : ns[k]? = some node) (j : Nat) (c0 : Nat × BTree)
    (hc0 : (frontier md i t)[j]? = some c0) (sbs : SimdBoundingSphere) (c : Vector3)
    (hc : sbs.c = SimdVec3.broadcast c) (hW : 0 < W) (hv : RefsValid W refs prims root)
    (hsize : LeafSized W root) (henc : Encloses refs prims root)
    (hnd : ∀ p tri, PrimUnder refs prims root p tri → NonDegenerate tri)
    (sqrtF : ℚ → ℚ) (s : BoundingSphere) (it : Interaction)
    (hgood : QueryGood sqrtF refs prims root c s it) :
    QueryGood sqrtF refs prims root c (parseOverlap (parallelOverlap node sbs) j s).2.2 it := by
  by_cases h : s.r2 > (parallelOverlap node sbs).d2Max j
  · have e : (parseOverlap (parallelOverlap node sbs) j s).2.2
        = { s with r2 := (parallelOverlap node sbs).d2Max j } := by
      simp only [parseOverlap, h, if_true]
    rw [e]
    exact Or.inl (lane_far hwide node hnode j c0 hc0 sbs c hc hW hv hsize henc hnd)
  · have e : (parseOverlap (parallelOverlap node sbs) j s).2.2 = s := by
      simp only [parseOverlap, h, if_false]
    rw [e]
    exact hgood

/-- On the wide tree of a well-formed binary tree whose boxes enclose its non-degenerate
primitives and whose leaves hold between one and `W` references, a query whose sphere strictly
reaches a primitive runs to its end, with the interaction on a point of the primitive it names,
at squared distance `r2`, and with no point of any primitive nearer than that. -/
theorem traverse_closest (sqrtF : ℚ → ℚ) (W md : Nat) (hmd : 1 ≤ md) (hW : 0 < W)
    (root : BTree) (refs : List ReferenceWrapper) (prims : List Triangle)
    (ns : List BvhSimdFlatNode) (lv : List BvhSimdLeafNode) (sbs : SimdBoundingSphere)
    (hv : RefsValid W refs prims root)
    (hroot : IsWideNodeFor W md root refs prims ns lv 0 0 root)
    (c : Vector3) (hc : sbs.c = SimdVec3.broadcast c)
    (hsize : LeafSized W root) (henc : Encloses refs prims root)
    (hnd : ∀ p tri, PrimUnder refs prims root p tri → NonDegenerate tri)
    (s : BoundingSphere) (i : Interaction)
    (hreach : ∃ y, PointUnder refs prims root y ∧ Vector3.dist2 y c < s.r2) (extra : Nat) :
    ∃ q1, traverse sqrtF W ns lv prims sbs (wideWeight md (0, root) + extra)
        { todo := [⟨0, minFloat⟩], s := s, i := i } = .ok q1
      ∧ (∃ p tri, q1.i.primitive = some p ∧ PrimUnder refs prims root p tri
          ∧ OnTriangle tri q1.i.p ∧ Vector3.dist2 q1.i.p c = q1.s.r2
          ∧ q1.i.d = sqrtF q1.s.r2)
      ∧ ∀ y, PointUnder refs prims root y → q1.s.r2 ≤ Vector3.dist2 y c := by
  have h := traverse_framework sqrtF W md hmd hW root refs prims ns lv sbs hv
    (fun todo gs s1 i1 => todo.length = gs.length ∧ QueryGood sqrtF refs prims root c s1 i1
      ∧ ∀ y, PointUnder refs prims root y → Vector3.dist2 y c < s1.r2 →
          QueueCovers refs prims c todo gs y)
    (fun g j todo gs s1 i1 => todo.length = gs.length ∧ QueryGood sqrtF refs prims root c s1 i1
      ∧ ∀ y, PointUnder refs prims root y → Vector3.dist2 y c < s1.r2 →
          QueueCovers refs prims c todo gs y
            ∨ ∃ (x : Nat) (c1 : Nat × BTree), j ≤ x ∧ (frontier md g.1 g.2)[x]? = some c1
                ∧ PointUnder refs prims c1.2 y)
    ?_ ?_ ?_ ?_ ?_ ?_ (wideWeight md (0, root) + extra)
    { todo := [⟨0, minFloat⟩], s := s, i := i } [(0, root)]
    (List.Forall₂.cons ⟨0, rfl, hroot⟩ List.Forall₂.nil)
    ⟨rfl, Or.inl hreach, fun y hy _ => ⟨(⟨0, minFloat⟩, (0, root)), by simp, hy, by
      have h0 : 0 ≤ Vector3.dist2 y c :=
        add_nonneg (add_nonneg (mul_self_nonneg _) (mul_self_nonneg _)) (mul_self_nonneg _)
      have h1 : minFloat ≤ 0 := by norm_num [minFloat]
      exact le_trans h1 h0⟩⟩
    (by simp [totalWeight])
  · obtain ⟨q1, h1, _, _, hgood, hcov⟩ := h
    have hmin : ∀ y, PointUnder refs prims root y → q1.s.r2 ≤ Vector3.dist2 y c := by
      intro y hy
      by_contra hlt
      obtain ⟨eg, hmem, _⟩ := hcov y hy (not_le.mp hlt)
      simp at hmem
    refine ⟨q1, h1, ?_, hmin⟩
    rcases hgood with ⟨y, hy, hlt⟩ | hex
    · exact absurd (hmin y hy) (not_le.mpr hlt)
    · exact hex
  · -- a skipped work item
    intro e rest g gs s1 i1 _ hinv hskip
    obtain ⟨hlen, hgood, hcov⟩ := hinv
    refine ⟨by simpa using hlen, hgood, ?_⟩
    intro y hy hlt
    obtain ⟨eg, hmem, hpu, hle⟩ := hcov y hy hlt
    simp only [List.zip_cons_cons, List.mem_cons] at hmem
    rcases hmem with rfl | hmem
    · exact absurd (lt_of_le_of_lt hle hlt) (not_lt.mpr (le_of_lt hskip))
    · exact ⟨eg, hmem, hpu, hle⟩
  · -- entering the lane loop
    intro e rest g gs s1 i1 _ hinv _
    obtain ⟨hlen, hgood, hcov⟩ := hinv
    refine ⟨by simpa using hlen, hgood, ?_⟩
    intro y hy hlt
    obtain ⟨eg, hmem, hpu, hle⟩ := hcov y hy hlt
    simp only [List.zip_cons_cons, List.mem_cons] at hmem
    rcases hmem with rfl | hmem
    · obtain ⟨x, c1, hx, hpu1⟩ := pointUnder_frontier refs prims g.2 md g.1 y hpu
      exact Or.inr ⟨x, c1, Nat.zero_le _, hx, hpu1⟩
    · exact Or.inl ⟨eg, hmem, hpu, hle⟩
  · -- a lane out of bounds
    intro k g node j c0 todo gs s1 i1 hwide hnode hc0 hinv hnot
    obtain ⟨hlen, hgood, hcov⟩ := hinv
    refine ⟨hlen, shrink_good hwide node hnode j c0 hc0 sbs c hc hW hv hsize henc hnd sqrtF s1 i1
      hgood, ?_⟩
    intro y hy hlt
    rcases hcov y hy (lt_of_lt_of_le hlt (parseOverlap_r2_le _ _ _)) with hq | ⟨x, c1, hjx, hx, hpu⟩
    · exact Or.inl hq
    · by_cases hxj : x = j
      · subst hxj
        rw [hc0] at hx
        cases hx
        have := lane_near hwide node hnode x c0 hc0 sbs c hc henc y hpu
        exact absurd (lt_of_le_of_lt this hlt) hnot
      · exact Or.inr ⟨x, c1, by omega, hx, hpu⟩
  · -- an interior lane
    intro k g node j c0 todo gs s1 i1 k1 hwide hnode hc0 _ _ _ hinv _
    obtain ⟨hlen, hgood, hcov⟩ := hinv
    refine ⟨by simp [hlen], shrink_good hwide node hnode j c0 hc0 sbs c hc hW hv hsize henc hnd
      sqrtF s1 i1 hgood, ?_⟩
    intro y hy hlt
    rcases hcov y hy (lt_of_lt_of_le hlt (parseOverlap_r2_le _ _ _)) with hq | ⟨x, c1, hjx, hx, hpu⟩
    · obtain ⟨eg, hmem, hpu, hle⟩ := hq
      refine Or.inl ⟨eg, ?_, hpu, hle⟩
      rw [List.zip_append hlen]
      exact List.mem_append.mpr (Or.inl hmem)
    · by_cases hxj : x = j
      · subst hxj
        rw [hc0] at hx
        cases hx
        refine Or.inl ⟨(⟨(k1 : Int), (parallelOverlap node sbs).d2Min x⟩, c0), ?_, hpu,
          lane_near hwide node hnode x c0 hc0 sbs c hc henc y hpu⟩
        rw [List.zip_append hlen]
        exact List.mem_append.mpr (Or.inr (by simp))
      · exact Or.inr ⟨x, c1, by omega, hx, hpu⟩
  · -- a leaf lane
    intro k g node j c0 todo gs s1 i1 s2 i2 hwide hnode hc0 hcl hinv _ hproc
    obtain ⟨hlen, hgood, hcov⟩ := hinv
    have hgood1 := shrink_good hwide node hnode j c0 hc0 sbs c hc hW hv hsize henc hnd sqrtF s1 i1
      hgood
    obtain ⟨_, _, hsub, _⟩ := hwide.node_exists
    have hin := hsub.frontier_mem md c0 (List.getElem?_mem hc0)
    have hmem := hin.leaf_mem hcl
    obtain ⟨m, hm, hlvm⟩ := hwide.leaf node hnode j c0 hc0 hcl
    obtain ⟨p, tri, y0, hprim, hon, hleast, hres⟩ := processLeafNode_spec sqrtF W node lv sbs
      (parseOverlap (parallelOverlap node sbs) j s1).2.2 i1 refs prims j m _ c0.2.rootNode c hm
      hlvm (packLeafD_spec W refs prims root hv _ hmem).2 (hsize _ hmem).1 (hsize _ hmem).2 hc
      (fun p1 tri1 h1 => hnd p1 tri1 ⟨_, hmem, h1⟩)
    rw [hproc] at hres
    have hres2 := Except.ok.inj hres
    -- the points below this lane are not nearer than the best point of the leaf
    have hthis : ∀ y, PointUnder refs prims c0.2 y → Vector3.dist2 y0 c ≤ Vector3.dist2 y c := by
      rintro y ⟨p1, tri1, hp1, hon1⟩
      exact hleast p1 tri1 y ((primUnder_leaf refs prims c0.2 hcl p1 tri1).mp hp1) hon1
    by_cases hlt0 : Vector3.dist2 y0 c < (parseOverlap (parallelOverlap node sbs) j s1).2.2.r2
    · rw [if_pos hlt0] at hres2
      have e1 : s2.r2 = Vector3.dist2 y0 c := by rw [(Prod.mk.inj hres2).1]
      have e2 : i2 = ⟨y0, Vector3.zero, sqrtF (Vector3.dist2 y0 c), some p⟩ :=
        (Prod.mk.inj hres2).2
      refine ⟨hlen, Or.inr ⟨p, tri, by rw [e2], ⟨_, hmem, hprim⟩, by rw [e2]; exact hon,
        by rw [e2, e1], by rw [e2, e1]⟩, ?_⟩
      intro y hy hlt
      rw [e1] at hlt
      rcases hcov y hy (lt_of_lt_of_le (lt_trans hlt hlt0) (parseOverlap_r2_le _ _ _)) with
        hq | ⟨x, c1, hjx, hx, hpu⟩
      · exact Or.inl hq
      · by_cases hxj : x = j
        · subst hxj
          rw [hc0] at hx
          cases hx
          exact absurd (hthis y hpu) (not_le.mpr hlt)
        · exact Or.inr ⟨x, c1, by omega, hx, hpu⟩
    · rw [if_neg hlt0] at hres2
      have e1 : s2 = (parseOverlap (parallelOverlap node sbs) j s1).2.2 := (Prod.mk.inj hres2).1
      have e2 : i2 = i1 := (Prod.mk.inj hres2).2
      rw [e1, e2]
      refine ⟨hlen, hgood1, ?_⟩
      intro y hy hlt
      rcases hcov y hy (lt_of_lt_of_le hlt (parseOverlap_r2_le _ _ _)) with
        hq | ⟨x, c1, hjx, hx, hpu⟩
      · exact Or.inl hq
      · by_cases hxj : x = j
        · subst hxj
          rw [hc0] at hx
          cases hx
          exact absurd (lt_of_le_of_lt (hthis y hpu) hlt) hlt0
        · exact Or.inr ⟨x, c1, by omega, hx, hpu⟩
  · -- leaving the lane loop
    intro k g todo gs s1 i1 _ hinv
    obtain ⟨hlen, hgood, hcov⟩ := hinv
    refine ⟨hlen, hgood, ?_⟩
    intro y hy hlt
    rcases hcov y hy hlt with hq | ⟨x, c1, hjx, hx, _⟩
    · exact hq
    · have := lt_length_of_getElem? hx
      omega

/-- A query whose sphere reaches no primitive strictly leaves the sphere and the interaction as
they are. -/
theorem traverse_unchanged (sqrtF : ℚ → ℚ) (W md : Nat) (hmd : 1 ≤ md) (hW : 0 < W)
    (root : BTree) (refs : List ReferenceWrapper) (prims : List Triangle)
    (ns : List BvhSimdFlatNode) (lv : List BvhSimdLeafNode) (sbs : SimdBoundingSphere)
    (hv : RefsValid W refs prims root)
    (hroot : IsWideNodeFor W md root refs prims ns lv 0 0 root)
    (c : Vector3) (hc : sbs.c = SimdVec3.broadcast c)
    (hsize : LeafSized W root) (henc : Encloses refs prims root)
    (hnd : ∀ p tri, PrimUnder refs prims root p tri → NonDegenerate tri)
    (s : BoundingSphere) (i : Interaction)
    (hno : ∀ y, PointUnder refs prims root y → s.r2 ≤ Vector3.dist2 y c) (extra : Nat) :
    ∃ q1, traverse sqrtF W ns lv prims sbs (wideWeight md (0, root) + extra)
        { todo := [⟨0, minFloat⟩], s := s, i := i } = .ok q1
      ∧ q1.s = s ∧ q1.i = i := by
  have hkeep : ∀ (k : Nat) (g : Nat × BTree) (node : BvhSimdFlatNode) (j : Nat)
      (c0 : Nat × BTree), IsWideNodeFor W md root refs prims ns lv k g.1 g.2 →
      ns[k]? = some node → (frontier md g.1 g.2)[j]? = some c0 →
      (parseOverlap (parallelOverlap node sbs) j s).2.2 = s := by
    intro k g node j c0 hwide hnode hc0
    obtain ⟨y, hy, hlt⟩ := lane_far hwide node hnode j c0 hc0 sbs c hc hW hv hsize henc hnd
    have : ¬ s.r2 > (parallelOverlap node sbs).d2Max j :=
      not_lt.mpr (le_of_lt (lt_of_le_of_lt (hno y hy) hlt))
    simp only [parseOverlap, this, if_false]
  have h := traverse_framework sqrtF W md hmd hW root refs prims ns lv sbs hv
    (fun _ _ s1 i1 => s1 = s ∧ i1 = i) (fun _ _ _ _ s1 i1 => s1 = s ∧ i1 = i)
    ?_ ?_ ?_ ?_ ?_ ?_ (wideWeight md (0, root) + extra)
    { todo := [⟨0, minFloat⟩], s := s, i := i } [(0, root)]
    (List.Forall₂.cons ⟨0, rfl, hroot⟩ List.Forall₂.nil) ⟨rfl, rfl⟩ (by simp [totalWeight])
  · obtain ⟨q1, h1, _, h2, h3⟩ := h
    exact ⟨q1, h1, h2, h3⟩
  · intro e rest g gs s1 i1 _ hinv _
    exact hinv
  · intro e rest g gs s1 i1 _ hinv _
    exact hinv
  · intro k g node j c0 todo gs s1 i1 hwide hnode hc0 hinv _
    obtain ⟨rfl, rfl⟩ := hinv
    exact ⟨hkeep k g node j c0 hwide hnode hc0, rfl⟩
  · intro k g node j c0 todo gs s1 i1 k1 hwide hnode hc0 _ _ _ hinv _
    obtain ⟨rfl, rfl⟩ := hinv
    exact ⟨hkeep k g node j c0 hwide hnode hc0, rfl⟩
  · intro k g node j c0 todo gs s1 i1 s2 i2 hwide hnode hc0 hcl hinv _ hproc
    obtain ⟨rfl, rfl⟩ := hinv
    rw [hkeep k g node j c0 hwide hnode hc0] at hproc
    obtain ⟨_, _, hsub, _⟩ := hwide.node_exists
    have hin := hsub.frontier_mem md c0 (List.getElem?_mem hc0)
    have hmem := hin.leaf_mem hcl
    obtain ⟨m, hm, hlvm⟩ := hwide.leaf node hnode j c0 hc0 hcl
    obtain ⟨p, tri, y0, hprim, hon, _, hres⟩ := processLeafNode_spec sqrtF W node lv sbs
      s1 i1 refs prims j m _ c0.2.rootNode c hm
      hlvm (packLeafD_spec W refs prims root hv _ hmem).2 (hsize _ hmem).1 (hsize _ hmem).2 hc
      (fun p1 tri1 h1 => hnd p1 tri1 ⟨_, hmem, h1⟩)
    rw [hproc] at hres
    have hres2 := Except.ok.inj hres
    rw [if_neg (not_lt.mpr (hno y0 ⟨p, tri, ⟨_, hmem, hprim⟩, hon⟩))] at hres2
    exact ⟨(Prod.mk.inj hres2).1, (Prod.mk.inj hres2).2⟩
  · intro k g todo gs s1 i1 _ hinv
    exact hinv

/-! ### The linear scan -/

/-- The linear scan over non-degenerate triangles ends with a squared radius that no point of a
scanned triangle undercuts; it changes nothing, or it ends with the squared distance of a point
of a scanned triangle, and with `d` its square root. -/
theorem linearScanFrom_spec (sqrtF : ℚ → ℚ) (keepLater : Bool) :
    ∀ (rest : List Triangle) (k : Nat) (acc : BoundingSphere × Interaction),
      (∀ tri ∈ rest, NonDegenerate tri) →
      (linearScanFrom sqrtF keepLater k rest acc).1.c = acc.1.c
        ∧ (linearScanFrom sqrtF keepLater k rest acc).1.r2 ≤ acc.1.r2
        ∧ (∀ tri ∈ rest, ∀ y, OnTriangle tri y →
            (linearScanFrom sqrtF keepLater k rest acc).1.r2 ≤ Vector3.dist2 y acc.1.c)
        ∧ (linearScanFrom sqrtF keepLater k rest acc = acc
            ∨ ((linearScanFrom sqrtF keepLater k rest acc).2.d
                  = sqrtF (linearScanFrom sqrtF keepLater k rest acc).1.r2
                ∧ ∃ tri ∈ rest, ∃ y, OnTriangle tri y
                    ∧ Vector3.dist2 y acc.1.c
                        = (linearScanFrom sqrtF keepLater k rest acc).1.r2)) := by
  intro rest
  induction rest with
  | nil =>
    intro k acc _
    exact ⟨rfl, le_refl _, fun tri h => absurd h (List.not_mem_nil _), Or.inl rfl⟩
  | cons tri rest ih =>
    intro k acc hnd
    have hclose := triResult_closest tri acc.1.c (hnd tri (List.mem_cons_self _ _))
    have hstep : (scanStep sqrtF keepLater acc k tri).1.c = acc.1.c
        ∧ (scanStep sqrtF keepLater acc k tri).1.r2 ≤ acc.1.r2
        ∧ (scanStep sqrtF keepLater acc k tri).1.r2
            ≤ Vector3.dist2 (triResult tri.a tri.b tri.c acc.1.c) acc.1.c
        ∧ (scanStep sqrtF keepLater acc k tri = acc
            ∨ ((scanStep sqrtF keepLater acc k tri).2.d
                  = sqrtF (scanStep sqrtF keepLater acc k tri).1.r2
                ∧ Vector3.dist2 (triResult tri.a tri.b tri.c acc.1.c) acc.1.c
                    = (scanStep sqrtF keepLater acc k tri).1.r2)) := by
      unfold scanStep
      by_cases hcond : Vector3.dist2 (triResult tri.a tri.b tri.c acc.1.c) acc.1.c < acc.1.r2
          ∨ (keepLater = true
            ∧ Vector3.dist2 (triResult tri.a tri.b tri.c acc.1.c) acc.1.c = acc.1.r2)
      · simp only [hcond, if_true]
        refine ⟨trivial, ?_, le_refl _, Or.inr ⟨trivial, trivial⟩⟩
        rcases hcond with h | h
        · exact le_of_lt h
        · exact le_of_eq h.2
      · simp only [hcond, if_false]
        refine ⟨trivial, le_refl _, ?_, Or.inl trivial⟩
        by_contra hc
        exact hcond (Or.inl (not_le.mp hc))
    obtain ⟨s1, s2, s3, s4⟩ := hstep
    obtain ⟨r1, r2, r3, r4⟩ := ih (k + 1) (scanStep sqrtF keepLater acc k tri)
      (fun t ht => hnd t (List.mem_cons_of_mem _ ht))
    simp only [linearScanFrom]
    rw [s1] at r1 r3 r4
    refine ⟨r1, le_trans r2 s2, ?_, ?_⟩
    · intro t ht y hy
      rcases List.mem_cons.mp ht with rfl | ht
      · exact le_trans r2 (le_trans s3 (hclose.2 y hy))
      · exact r3 t ht y hy
    · rcases r4 with r4 | ⟨r4, t, ht, y, hy, hd⟩
      · rw [r4]
        rcases s4 with s4 | ⟨s4, s5⟩
        · exact Or.inl s4
        · exact Or.inr ⟨s4, tri, List.mem_cons_self _ _, _, hclose.1, s5⟩
      · exact Or.inr ⟨r4, t, List.mem_cons_of_mem _ ht, y, hy, hd⟩

/-! ### Trees whose boxes enclose their primitives -/

theorem inBox_within (inner outer : BoundingBox) (y : Vector3) (hw : BoxWithin inner outer)
    (h : InBox inner y) : InBox outer y := by
  obtain ⟨w1, w2, w3, w4, w5, w6⟩ := hw
  obtain ⟨h1, h2, h3, h4, h5, h6⟩ := h
  exact ⟨le_trans w1 h1, le_trans h2 w4, le_trans w2 h3, le_trans h4 w5, le_trans w3 h5,
    le_trans h6 w6⟩

theorem Encloses.rootBox {refs : List ReferenceWrapper} {prims : List Triangle} {t : BTree}
    (h : Encloses refs prims t) (p : Int) (tri : Triangle) (hp : PrimUnder refs prims t p tri) :
    InBox t.bbox tri.a ∧ InBox t.bbox tri.b ∧ InBox t.bbox tri.c := by
  cases t with
  | leaf b s n => exact h p tri hp
  | node b s n l r => exact h.1 p tri hp

/-- A tree in which every child's box lies within its parent's box and every leaf's box holds
the vertices of the triangles the leaf references has boxes that enclose their primitives. -/
theorem encloses_of_leaves (refs : List ReferenceWrapper) (prims : List Triangle) :
    ∀ t : BTree, Contained t →
      (∀ cur ∈ t.leafNodes, ∀ p tri, LeafPrim refs prims cur p tri →
        InBox cur.bbox tri.a ∧ InBox cur.bbox tri.b ∧ InBox cur.bbox tri.c) →
      Encloses refs prims t := by
  intro t
  induction t with
  | leaf b s n =>
    intro _ hleaves p tri hp
    obtain ⟨cur, hcur, hleaf⟩ := hp
    have := hleaves cur hcur p tri hleaf
    simp only [BTree.leafNodes, List.mem_singleton] at hcur
    subst hcur
    exact this
  | node b s n l r ihl ihr =>
    intro hcont hleaves
    obtain ⟨hl, hr, hcl, hcr⟩ := hcont
    have el := ihl hcl (fun cur hcur => hleaves cur (by
      simp only [BTree.leafNodes, List.mem_append]; exact Or.inl hcur))
    have er := ihr hcr (fun cur hcur => hleaves cur (by
      simp only [BTree.leafNodes, List.mem_append]; exact Or.inr hcur))
    refine ⟨?_, el, er⟩
    rintro p tri ⟨cur, hcur, hleaf⟩
    simp only [BTree.leafNodes, List.mem_append] at hcur
    rcases hcur with hcur | hcur
    · obtain ⟨h1, h2, h3⟩ := el.rootBox p tri ⟨cur, hcur, hleaf⟩
      exact ⟨inBox_within _ _ _ hl h1, inBox_within _ _ _ hl h2, inBox_within _ _ _ hl h3⟩
    · obtain ⟨h1, h2, h3⟩ := er.rootBox p tri ⟨cur, hcur, hleaf⟩
      exact ⟨inBox_within _ _ _ hr h1, inBox_within _ _ _ hr h2, inBox_within _ _ _ hr h3⟩

theorem getI?_mem {α : Type} {xs : List α} {i : Int} {a : α} (h : getI? xs i = some a) :
    a ∈ xs := by
  unfold getI? at h
  by_cases hi : 0 ≤ i
  · rw [if_pos hi] at h
    exact List.getElem?_mem h
  · rw [if_neg hi] at h
    cases h

theorem PrimUnder.mem {refs : List ReferenceWrapper} {prims : List Triangle} {t : BTree}
    {p : Int} {tri : Triangle} (h : PrimUnder refs prims t p tri) : tri ∈ prims := by
  obtain ⟨_, _, _, _, _, _, _, h3⟩ := h
  exact getI?_mem h3

/-! ### The example tree -/

/-- The primitives the leaves of the example tree reference. -/
theorem exTree_leafPrim (cur : BvhFlatNode) (hcur : cur ∈ exTree.leafNodes) (p : Int)
    (tri : Triangle) (h : LeafPrim exRefs exPrims cur p tri) :
    (cur.bbox = ⟨⟨0, 0, 0⟩, ⟨1, 1, 0⟩⟩ ∧ p = 0 ∧ tri = exTri0)
      ∨ (cur.bbox = ⟨⟨100, 0, 0⟩, ⟨101, 1, 0⟩⟩ ∧ p = 1 ∧ tri = exTri1)
      ∨ (cur.bbox = ⟨⟨100, 2, 0⟩, ⟨101, 3, 0⟩⟩ ∧ p = 2 ∧ tri = exTri2) := by
  simp only [exTree, BTree.leafNodes, List.cons_append, List.nil_append, List.mem_cons,
    List.mem_singleton, List.not_mem_nil, or_false] at hcur
  obtain ⟨x, hx, ref, h1, h2, h3⟩ := h
  rcases hcur with rfl | rfl | rfl
  all_goals
    have hx0 : x = 0 := by simp only at hx; omega
    subst hx0
  · have e1 : getI? exRefs ((0 : Int) + ((0 : Nat) : Int)) = some ⟨0⟩ := rfl
    rw [e1] at h1
    cases h1
    cases h2
    have e3 : getI? exPrims 0 = some exTri0 := rfl
    rw [e3] at h3
    cases h3
    exact Or.inl ⟨rfl, rfl, rfl⟩
  · have e1 : getI? exRefs ((1 : Int) + ((0 : Nat) : Int)) = some ⟨1⟩ := rfl
    rw [e1] at h1
    cases h1
    cases h2
    have e3 : getI? exPrims 1 = some exTri1 := rfl
    rw [e3] at h3
    cases h3
    exact Or.inr (Or.inl ⟨rfl, rfl, rfl⟩)
  · have e1 : getI? exRefs ((2 : Int) + ((0 : Nat) : Int)) = some ⟨2⟩ := rfl
    rw [e1] at h1
    cases h1
    cases h2
    have e3 : getI? exPrims 2 = some exTri2 := rfl
    rw [e3] at h3
    cases h3
    exact Or.inr (Or.inr ⟨rfl, rfl, rfl⟩)

theorem exTree_leafSized : LeafSized 4 exTree := by
  intro cur hcur
  simp only [exTree, BTree.leafNodes, List.cons_append, List.nil_append, List.mem_cons,
    List.mem_singleton, List.not_mem_nil, or_false] at hcur
  rcases hcur with rfl | rfl | rfl <;> decide

theorem exTree_encloses : Encloses exRefs exPrims exTree := by
  refine encloses_of_leaves exRefs exPrims exTree exTree_contained ?_
  intro cur hcur p tri h
  rcases exTree_leafPrim cur hcur p tri h with ⟨hb, _, rfl⟩ | ⟨hb, _, rfl⟩ | ⟨hb, _, rfl⟩
  all_goals
    rw [hb]
    simp only [InBox, exTri0, exTri1, exTri2]
    norm_num

theorem exTree_nonDegenerate (p : Int) (tri : Triangle)
    (h : PrimUnder exRefs exPrims exTree p tri) : NonDegenerate tri := by
  obtain ⟨cur, hcur, hleaf⟩ := h
  rcases exTree_leafPrim cur hcur p tri hleaf with ⟨_, _, rfl⟩ | ⟨_, _, rfl⟩ | ⟨_, _, rfl⟩
  all_goals
    simp only [NonDegenerate, exTri0, exTri1, exTri2, Vector3.dot, Vector3.sub]
    norm_num

/-- The leaves of the example tree reference the three triangles of the example. -/
theorem exTree_primUnder :
    PrimUnder exRefs exPrims exTree 0 exTri0 ∧ PrimUnder exRefs exPrims exTree 1 exTri1
      ∧ PrimUnder exRefs exPrims exTree 2 exTri2 := by
  refine ⟨⟨⟨⟨⟨0, 0, 0⟩, ⟨1, 1, 0⟩⟩, 0, 1, 0⟩, ?_, 0, by decide, ⟨0⟩, rfl, rfl, rfl⟩,
    ⟨⟨⟨⟨100, 0, 0⟩, ⟨101, 1, 0⟩⟩, 1, 1, 0⟩, ?_, 0, by decide, ⟨1⟩, rfl, rfl, rfl⟩,
    ⟨⟨⟨⟨100, 2, 0⟩, ⟨101, 3, 0⟩⟩, 2, 1, 0⟩, ?_, 0, by decide, ⟨2⟩, rfl, rfl, rfl⟩⟩
  all_goals simp [exTree, BTree.leafNodes]

/-! ### The trees with equally near primitives and with a point triangle -/

theorem tieTree_refsValid : RefsValid 4 tieRefs tiePrims tieTree := by
  intro cur hcur i _ hlt
  simp only [tieTree, BTree.leafNodes, List.mem_singleton] at hcur
  subst hcur
  have hi : i = 0 ∨ i = 1 ∨ i = 2 := by simp only at hlt; omega
  rcases hi with rfl | rfl | rfl
  · exact ⟨⟨1⟩, _, rfl, rfl⟩
  · exact ⟨⟨0⟩, _, rfl, rfl⟩
  · exact ⟨⟨2⟩, _, rfl, rfl⟩

theorem tieBvh_eq_build :
    build 4 (tieTree.size + 1 + 0) tieTree.flatten tieRefs tiePrims = .ok tieBvh :=
  build_eq 4 (Or.inl rfl) tieRefs tiePrims tieTree tieTree_refsValid 0

theorem tieTree_encloses : Encloses tieRefs tiePrims tieTree := by
  refine encloses_of_leaves tieRefs tiePrims tieTree trivial ?_
  intro cur hcur p tri h
  simp only [tieTree, BTree.leafNodes, List.mem_singleton] at hcur
  subst hcur
  obtain ⟨x, hx, ref, h1, h2, h3⟩ := h
  have hi : x = 0 ∨ x = 1 ∨ x = 2 := by simp only at hx; omega
  rcases hi with rfl | rfl | rfl
  · have e1 : getI? tieRefs ((0 : Int) + ((0 : Nat) : Int)) = some ⟨1⟩ := rfl
    rw [e1] at h1
    cases h1
    cases h2
    have e3 : getI? tiePrims 1 = some ⟨⟨0, 0, 0⟩, ⟨-1, 0, 0⟩, ⟨0, 1, 0⟩⟩ := rfl
    rw [e3] at h3
    cases h3
    simp only [InBox]
    norm_num
  · have e1 : getI? tieRefs ((0 : Int) + ((1 : Nat) : Int)) = some ⟨0⟩ := rfl
    rw [e1] at h1
    cases h1
    cases h2
    have e3 : getI? tiePrims 0 = some ⟨⟨0, 0, 0⟩, ⟨1, 0, 0⟩, ⟨0, 1, 0⟩⟩ := rfl
    rw [e3] at h3
    cases h3
    simp only [InBox]
    norm_num
  · have e1 : getI? tieRefs ((0 : Int) + ((2 : Nat) : Int)) = some ⟨2⟩ := rfl
    rw [e1] at h1
    cases h1
    cases h2
    have e3 : getI? tiePrims 2 = some ⟨⟨0, 0, 0⟩, ⟨-1, 0, 0⟩, ⟨0, -1, 0⟩⟩ := rfl
    rw [e3] at h3
    cases h3
    simp only [InBox]
    norm_num

theorem pointTree_refsValid : RefsValid 4 [⟨0⟩] [pointTri] pointTree := by
  intro cur hcur i _ hlt
  simp only [pointTree, BTree.leafNodes, List.mem_singleton] at hcur
  subst hcur
  have hi0 : i = 0 := by simp only at hlt; omega
  subst hi0
  exact ⟨⟨0⟩, pointTri, rfl, rfl⟩

theorem pointBvh_eq_build :
    build 4 (pointTree.size + 1 + 0) pointTree.flatten [⟨0⟩] [pointTri] = .ok pointBvh :=
  build_eq 4 (Or.inl rfl) [⟨0⟩] [pointTri] pointTree pointTree_refsValid 0

theorem pointTree_encloses : Encloses [⟨0⟩] [pointTri] pointTree := by
  refine encloses_of_leaves [⟨0⟩] [pointTri] pointTree trivial ?_
  intro cur hcur p tri h
  simp only [pointTree, BTree.leafNodes, List.mem_singleton] at hcur
  subst hcur
  obtain ⟨x, hx, ref, h1, h2, h3⟩ := h
  have hi : x = 0 := by simp only at hx; omega
  subst hi
  have e1 : getI? [(⟨0⟩ : ReferenceWrapper)] ((0 : Int) + ((0 : Nat) : Int)) = some ⟨0⟩ := rfl
  rw [e1] at h1
  cases h1
  cases h2
  have e3 : getI? [pointTri] 0 = some pointTri := rfl
  rw [e3] at h3
  cases h3
  simp only [InBox, pointTri]
  norm_num

/-! ### The faults of `build` -/

theorem readI_error {α : Type} {xs : List α} {i : Int} {e : Fault} (h : readI xs i = .error e) :
    e = .outOfBounds := by
  unfold readI at h
  split at h
  · cases h
  · cases h
    rfl

theorem slotSearch_error (indices : Nat → Int) :
    ∀ (r tempCounter : Nat) (e : Fault), slotSearch indices r tempCounter = .error e →
      e = .tempCounterOutOfBounds := by
  intro r
  induction r with
  | zero =>
    intro tempCounter e h
    simp only [slotSearch] at h
    split at h
    · cases h
      rfl
    · cases h
  | succ r ih =>
    intro tempCounter e h
    simp only [slotSearch] at h
    split at h
    · exact ih _ e h
    · cases h

theorem packLane_error (curNode : BvhFlatNode) (references : List ReferenceWrapper)
    (primitives : List Triangle) (i : Nat) (acc : LeafFill) (e : Fault)
    (h : packLane curNode references primitives i acc = .error e) : e = .outOfBounds := by
  unfold packLane at h
  split at h
  · cases h
  · split at h
    · rename_i e1 h1
      cases h
      exact readI_error h1
    · split at h
      · rename_i e1 h1
        cases h
        exact readI_error h1
      · cases h

theorem packLanes_error (curNode : BvhFlatNode) (references : List ReferenceWrapper)
    (primitives : List Triangle) :
    ∀ (r i : Nat) (acc : LeafFill) (e : Fault),
      packLanes curNode references primitives r i acc = .error e → e = .outOfBounds := by
  intro r
  induction r with
  | zero =>
    intro i acc e h
    simp only [packLanes] at h
    cases h
  | succ r ih =>
    intro i acc e h
    simp only [packLanes] at h
    split at h
    · rename_i e1 h1
      cases h
      exact packLane_error _ _ _ _ _ _ h1
    · exact ih _ _ e h

theorem packLeaf_error (W : Nat) (curNode : BvhFlatNode) (references : List ReferenceWrapper)
    (primitives : List Triangle) (e : Fault)
    (h : packLeaf W curNode references primitives = .error e) : e = .outOfBounds := by
  unfold packLeaf at h
  split at h
  · rename_i e1 h1
    cases h
    exact packLanes_error _ _ _ _ _ _ _ h1
  · cases h

theorem expand_error (maxDepth : Int) (nodes : List BvhFlatNode)
    (simdTreeIndex toBuildDepth : Int) :
    ∀ (fuel : Nat) (ws : List BvhTraversalDepth) (todo : List BvhSimdBuildNode) (e : Fault),
      expand maxDepth nodes simdTreeIndex toBuildDepth fuel ws todo = .error e →
      e = .outOfBounds ∨ e = .outOfFuel := by
  intro fuel
  induction fuel with
  | zero =>
    intro ws todo e h
    cases ws with
    | nil => simp only [expand] at h; cases h
    | cons a ws => simp only [expand] at h; cases h; exact Or.inr rfl
  | succ fuel ih =>
    intro ws todo e h
    cases ws with
    | nil => simp only [expand] at h; cases h
    | cons a ws =>
      simp only [expand] at h
      split at h
      · split at h
        · rename_i e1 h1
          cases h
          exact Or.inl (readI_error h1)
        · split at h
          · exact ih _ _ e h
          · exact ih _ _ e h
      · exact ih _ _ e h

theorem processJob_error (W : Nat) (nodes : List BvhFlatNode)
    (references : List ReferenceWrapper) (primitives : List Triangle)
    (toBuild : BvhSimdBuildNode) (st : BuildState) (e : Fault)
    (h : processJob W nodes references primitives toBuild st = .error e) :
    e = .outOfBounds ∨ e = .tempCounterOutOfBounds := by
  unfold processJob at h
  simp only at h
  split at h
  · rename_i e1 h1
    cases h
    exact Or.inl (readI_error h1)
  · split at h
    · split at h
      · rename_i e1 h1
        cases h
        exact Or.inl (readI_error h1)
      · split at h
        · rename_i e1 h1
          cases h
          exact Or.inr (slotSearch_error _ _ _ _ h1)
        · split at h
          · split at h
            · rename_i e1 h1
              cases h
              exact Or.inl (packLeaf_error _ _ _ _ _ h1)
            · cases h
          · cases h
    · cases h

/-- The outer loop of `build` never ends with the fault of an invalid width. -/
theorem buildLoop_error (W : Nat) (maxDepth : Int) (nodes : List BvhFlatNode)
    (references : List ReferenceWrapper) (primitives : List Triangle) :
    ∀ (fuel : Nat) (todo : List BvhSimdBuildNode) (st : BuildState) (e : Fault),
      buildLoop W maxDepth nodes references primitives fuel todo st = .error e →
      e ≠ .invalidWidth := by
  intro fuel
  induction fuel with
  | zero =>
    intro todo st e h
    cases todo with
    | nil => simp only [buildLoop] at h; cases h
    | cons a todo => simp only [buildLoop] at h; cases h; intro hc; cases hc
  | succ fuel ih =>
    intro todo st e h
    cases todo with
    | nil => simp only [buildLoop] at h; cases h
    | cons a todo =>
      simp only [buildLoop] at h
      split at h
      · rename_i e1 h1
        cases h
        unfold buildStep at h1
        split at h1
        · rename_i e2 h2
          cases h1
          rcases processJob_error _ _ _ _ _ _ _ h2 with rfl | rfl <;> (intro hc; cases hc)
        · cases h1
        · split at h1
          · rename_i e2 h2
            cases h1
            rcases expand_error _ _ _ _ _ _ _ _ h2 with rfl | rfl <;> (intro hc; cases hc)
          · cases h1
      · exact ih _ _ e h

/-! ### The box kernel, axis by axis -/

theorem axis_near_eq (lo hi p : ℚ) (h : lo ≤ hi) :
    max (max (lo - p) (p - hi)) 0 = axisGap lo hi p := by
  unfold axisGap
  by_cases h1 : p < lo
  · rw [if_pos h1]
    rw [max_eq_left (by linarith : p - hi ≤ lo - p), max_eq_left (by linarith)]
  · rw [if_neg h1]
    by_cases h2 : hi < p
    · rw [if_pos h2]
      rw [max_eq_right (by linarith : lo - p ≤ p - hi), max_eq_left (by linarith)]
    · rw [if_neg h2]
      exact max_eq_right (max_le (by linarith) (by linarith))

theorem axisGap_nonneg (lo hi p : ℚ) : 0 ≤ axisGap lo hi p := by
  unfold axisGap
  split
  · linarith
  · split
    · linarith
    · exact le_refl _

theorem axisGap_eq_zero (lo hi p : ℚ) : axisGap lo hi p = 0 ↔ lo ≤ p ∧ p ≤ hi := by
  unfold axisGap
  by_cases h1 : p < lo
  · rw [if_pos h1]
    constructor
    · intro h0; linarith
    · intro h0; linarith [h0.1]
  · rw [if_neg h1]
    by_cases h2 : hi < p
    · rw [if_pos h2]
      constructor
      · intro h0; linarith
      · intro h0; linarith [h0.2]
    · rw [if_neg h2]
      exact ⟨fun _ => ⟨not_lt.mp h1, not_lt.mp h2⟩, fun _ => rfl⟩

/-- The nearest coordinate of the span `[lo, hi]` to `p` is at the distance of the gap. -/
theorem axis_clamp (lo hi p : ℚ) (h : lo ≤ hi) :
    ∃ x, lo ≤ x ∧ x ≤ hi ∧ (x - p) * (x - p) = axisGap lo hi p * axisGap lo hi p := by
  unfold axisGap
  by_cases h1 : p < lo
  · rw [if_pos h1]
    exact ⟨lo, le_refl _, h, rfl⟩
  · rw [if_neg h1]
    by_cases h2 : hi < p
    · rw [if_pos h2]
      exact ⟨hi, h, le_refl _, by ring⟩
    · rw [if_neg h2]
      exact ⟨p, not_lt.mp h1, not_lt.mp h2, by ring⟩

/-- The farthest coordinate of the span `[lo, hi]` from `p` is one of its ends. -/
theorem axis_corner (lo hi p : ℚ) :
    ∃ x, (x = lo ∨ x = hi)
      ∧ (x - p) * (x - p) = max (p - lo) (hi - p) * max (p - lo) (hi - p) := by
  by_cases h1 : hi - p ≤ p - lo
  · rw [max_eq_left h1]
    exact ⟨lo, Or.inl rfl, by ring⟩
  · rw [max_eq_right (le_of_lt (not_le.mp h1))]
    exact ⟨hi, Or.inr rfl, rfl⟩

theorem simdBoxOverlap_lane (iPoint : SimdVec3) (iBoxes : Fin 2 → SimdVec3) (j : Nat) :
    (simdBoxOverlap iPoint iBoxes).1 j
        = boxNear2 ⟨(iBoxes 0).lane j, (iBoxes 1).lane j⟩ (iPoint.lane j)
      ∧ (simdBoxOverlap iPoint iBoxes).2 j
        = boxFar2 ⟨(iBoxes 0).lane j, (iBoxes 1).lane j⟩ (iPoint.lane j) := by
  simp [simdBoxOverlap, SimdVec3.length2, SimdVec3.dot, SimdVec3.max, SimdVec3.sub,
    SimdVec3.zero, boxNear2, boxFar2, SimdVec3.lane]

theorem boxNear2_eq (b : BoundingBox) (p : Vector3) (h : BoxOrdered b) :
    boxNear2 b p
      = axisGap b.pMin.x b.pMax.x p.x * axisGap b.pMin.x b.pMax.x p.x
        + axisGap b.pMin.y b.pMax.y p.y * axisGap b.pMin.y b.pMax.y p.y
        + axisGap b.pMin.z b.pMax.z p.z * axisGap b.pMin.z b.pMax.z p.z := by
  unfold boxNear2
  rw [axis_near_eq _ _ _ h.1, axis_near_eq _ _ _ h.2.1, axis_near_eq _ _ _ h.2.2]

theorem boxNear2_eq_zero (b : BoundingBox) (p : Vector3) (h : BoxOrdered b) :
    boxNear2 b p = 0 ↔ InBox b p := by
  rw [boxNear2_eq b p h]
  have hx := axisGap_nonneg b.pMin.x b.pMax.x p.x
  have hy := axisGap_nonneg b.pMin.y b.pMax.y p.y
  have hz := axisGap_nonneg b.pMin.z b.pMax.z p.z
  have ex := axisGap_eq_zero b.pMin.x b.pMax.x p.x
  have ey := axisGap_eq_zero b.pMin.y b.pMax.y p.y
  have ez := axisGap_eq_zero b.pMin.z b.pMax.z p.z
  constructor
  · intro h0
    have h1 : axisGap b.pMin.x b.pMax.x p.x = 0 := by
      by_contra hc
      have := mul_pos (lt_of_le_of_ne hx (Ne.symm hc)) (lt_of_le_of_ne hx (Ne.symm hc))
      nlinarith [mul_nonneg hy hy, mul_nonneg hz hz]
    have h2 : axisGap b.pMin.y b.pMax.y p.y = 0 := by
      by_contra hc
      have := mul_pos (lt_of_le_of_ne hy (Ne.symm hc)) (lt_of_le_of_ne hy (Ne.symm hc))
      nlinarith [mul_nonneg hx hx, mul_nonneg hz hz]
    have h3 : axisGap b.pMin.z b.pMax.z p.z = 0 := by
      by_contra hc
      have := mul_pos (lt_of_le_of_ne hz (Ne.symm hc)) (lt_of_le_of_ne hz (Ne.symm hc))
      nlinarith [mul_nonneg hx hx, mul_nonneg hy hy]
    exact ⟨(ex.mp h1).1, (ex.mp h1).2, (ey.mp h2).1, (ey.mp h2).2, (ez.mp h3).1, (ez.mp h3).2⟩
  · rintro ⟨h1, h2, h3, h4, h5, h6⟩
    rw [ex.mpr ⟨h1, h2⟩, ey.mpr ⟨h3, h4⟩, ez.mpr ⟨h5, h6⟩]
    ring

theorem boxNear2_attained (b : BoundingBox) (p : Vector3) (h : BoxOrdered b) :
    ∃ x, InBox b x ∧ Vector3.dist2 x p = boxNear2 b p := by
  obtain ⟨x, x1, x2, x3⟩ := axis_clamp b.pMin.x b.pMax.x p.x h.1
  obtain ⟨y, y1, y2, y3⟩ := axis_clamp b.pMin.y b.pMax.y p.y h.2.1
  obtain ⟨z, z1, z2, z3⟩ := axis_clamp b.pMin.z b.pMax.z p.z h.2.2
  refine ⟨⟨x, y, z⟩, ⟨x1, x2, y1, y2, z1, z2⟩, ?_⟩
  rw [boxNear2_eq b p h]
  simp only [Vector3.dist2]
  rw [x3, y3, z3]

theorem boxFar2_attained (b : BoundingBox) (p : Vector3) :
    ∃ x, IsCorner b x ∧ Vector3.dist2 x p = boxFar2 b p := by
  obtain ⟨x, x1, x2⟩ := axis_corner b.pMin.x b.pMax.x p.x
  obtain ⟨y, y1, y2⟩ := axis_corner b.pMin.y b.pMax.y p.y
  obtain ⟨z, z1, z2⟩ := axis_corner b.pMin.z b.pMax.z p.z
  refine ⟨⟨x, y, z⟩, ⟨x1, y1, z1⟩, ?_⟩
  simp only [Vector3.dist2, boxFar2]
  rw [x2, y2, z2]

/-! ### The first best lane -/

theorem getBestLoop_first (pi : ParallelInteraction) (W n : Nat) (hn : n ≤ W)
    (hvalid : ∀ x, x < n → pi.indices x ≠ -1)
    (hpad : ∀ x, n ≤ x → x < W → pi.indices x = -1) :
    ∀ (r i m0 : Nat), i + r = W → i ≤ n → m0 < i →
      (∀ x, x < i → pi.distances m0 ≤ pi.distances x) →
      (∀ x, x < m0 → pi.distances m0 < pi.distances x) →
      ∃ m, m < n
        ∧ getBestLoop pi r i (pi.distances m0, pi.points.lane m0, pi.indices m0)
            = (pi.distances m, pi.points.lane m, pi.indices m)
        ∧ (∀ x, x < n → pi.distances m ≤ pi.distances x)
        ∧ ∀ x, x < m → pi.distances m < pi.distances x := by
  intro r
  induction r with
  | zero =>
    intro i m0 hir hin hm0 hmin hfirst
    have : i = n := by omega
    subst this
    exact ⟨m0, hm0, rfl, hmin, hfirst⟩
  | succ r ih =>
    intro i m0 hir hin hm0 hmin hfirst
    unfold getBestLoop
    by_cases hi : pi.indices i ≠ -1
    · have hilt : i < n := by
        by_contra hc
        exact hi (hpad i (by omega) (by omega))
      rw [if_pos hi]
      by_cases hgt : pi.distances m0 > pi.distances i
      · rw [if_pos hgt]
        refine ih (i + 1) i (by omega) (by omega) (by omega) ?_ ?_
        · intro x hx
          by_cases hxi : x = i
          · subst hxi; exact le_refl _
          · exact le_trans (le_of_lt hgt) (hmin x (by omega))
        · intro x hx
          exact lt_of_lt_of_le hgt (hmin x hx)
      · rw [if_neg hgt]
        refine ih (i + 1) m0 (by omega) (by omega) (by omega) ?_ hfirst
        intro x hx
        by_cases hxi : x = i
        · subst hxi; exact not_lt.mp hgt
        · exact hmin x (by omega)
    · rw [if_neg hi]
      have : i = n := by
        by_contra hc
        exact hi (hvalid i (by omega))
      subst this
      exact ⟨m0, hm0, rfl, hmin, hfirst⟩

/-! ### Trees over one triangle, and the tree of the five triangles -/

theorem fiveTree_refsValid : RefsValid 4 fiveRefs fivePrims fiveTree := by
  intro cur hcur i hi _
  simp only [fiveTree, BTree.leafNodes, List.mem_singleton] at hcur
  subst hcur
  have : i = 0 ∨ i = 1 ∨ i = 2 ∨ i = 3 := by omega
  rcases this with rfl | rfl | rfl | rfl
  · exact ⟨⟨0⟩, _, rfl, rfl⟩
  · exact ⟨⟨1⟩, _, rfl, rfl⟩
  · exact ⟨⟨2⟩, _, rfl, rfl⟩
  · exact ⟨⟨3⟩, _, rfl, rfl⟩

theorem fiveBvh_eq_build :
    build 4 (fiveTree.size + 1 + 0) fiveTree.flatten fiveRefs fivePrims = .ok fiveBvh :=
  build_eq 4 (Or.inl rfl) fiveRefs fivePrims fiveTree fiveTree_refsValid 0

/-- The only primitive below a leaf with the single reference `0` to the single triangle. -/
theorem single_primUnder (b : BoundingBox) (tri : Triangle) (p : Int) (t : Triangle) :
    PrimUnder [⟨0⟩] [tri] (.leaf b 0 1) p t ↔ p = 0 ∧ t = tri := by
  constructor
  · rintro ⟨cur, hcur, x, hx, ref, h1, h2, h3⟩
    simp only [BTree.leafNodes, List.mem_singleton] at hcur
    subst hcur
    have hx0 : x = 0 := by simp only at hx; omega
    subst hx0
    have e1 : getI? [(⟨0⟩ : ReferenceWrapper)] ((0 : Int) + ((0 : Nat) : Int)) = some ⟨0⟩ := rfl
    rw [e1] at h1
    cases h1
    cases h2
    have e3 : getI? [tri] 0 = some tri := rfl
    rw [e3] at h3
    cases h3
    exact ⟨rfl, rfl⟩
  · rintro ⟨rfl, rfl⟩
    exact ⟨_, List.mem_singleton.mpr rfl, 0, by norm_num, ⟨0⟩, rfl, rfl, rfl⟩

theorem single_refsValid (W : Nat) (b : BoundingBox) (tri : Triangle) :
    RefsValid W [⟨0⟩] [tri] (.leaf b 0 1) := by
  intro cur hcur i _ hlt
  simp only [BTree.leafNodes, List.mem_singleton] at hcur
  subst hcur
  have hi0 : i = 0 := by simp only at hlt; omega
  subst hi0
  exact ⟨⟨0⟩, tri, rfl, rfl⟩

theorem single_leafSized (W : Nat) (hW : 0 < W) (b : BoundingBox) :
    LeafSized W (.leaf b 0 1) := by
  intro cur hcur
  simp only [BTree.leafNodes, List.mem_singleton] at hcur
  subst hcur
  simp only
  omega

theorem single_encloses (b : BoundingBox) (tri : Triangle)
    (hbox : InBox b tri.a ∧ InBox b tri.b ∧ InBox b tri.c) :
    Encloses [⟨0⟩] [tri] (.leaf b 0 1) := by
  intro p t hp
  obtain ⟨_, rfl⟩ := (single_primUnder b tri p t).mp hp
  exact hbox

theorem coincidentTree_refsValid : RefsValid 4 coincidentRefs coincidentPrims coincidentTree := by
  intro cur hcur i _ hlt
  simp only [coincidentTree, BTree.leafNodes, List.mem_singleton] at hcur
  subst hcur
  have : i = 0 ∨ i = 1 := by simp only at hlt; omega
  rcases this with rfl | rfl
  · exact ⟨⟨0⟩, _, rfl, rfl⟩
  · exact ⟨⟨1⟩, _, rfl, rfl⟩

theorem coincidentBvh_eq_build :
    build 4 (coincidentTree.size + 1 + 0) coincidentTree.flatten coincidentRefs coincidentPrims
      = .ok coincidentBvh :=
  build_eq 4 (Or.inl rfl) coincidentRefs coincidentPrims coincidentTree coincidentTree_refsValid 0

theorem exTri0_nonDegenerate : NonDegenerate exTri0 := by
  simp only [NonDegenerate, exTri0, Vector3.dot, Vector3.sub]
  norm_num

/-! ### The kernel returns a point of the triangle, whatever the triangle -/

/-- The Gram determinant of two edges is not negative. -/
theorem gram_nonneg (tri : Triangle) :
    0 ≤ (tri.b.sub tri.a).dot (tri.b.sub tri.a) * (tri.c.sub tri.a).dot (tri.c.sub tri.a)
        - (tri.b.sub tri.a).dot (tri.c.sub tri.a) * (tri.b.sub tri.a).dot (tri.c.sub tri.a) := by
  have e : (tri.b.sub tri.a).dot (tri.b.sub tri.a) * (tri.c.sub tri.a).dot (tri.c.sub tri.a)
      - (tri.b.sub tri.a).dot (tri.c.sub tri.a) * (tri.b.sub tri.a).dot (tri.c.sub tri.a)
      = ((tri.b.y - tri.a.y) * (tri.c.z - tri.a.z) - (tri.b.z - tri.a.z) * (tri.c.y - tri.a.y))
          * ((tri.b.y - tri.a.y) * (tri.c.z - tri.a.z) - (tri.b.z - tri.a.z) * (tri.c.y - tri.a.y))
        + ((tri.b.z - tri.a.z) * (tri.c.x - tri.a.x) - (tri.b.x - tri.a.x) * (tri.c.z - tri.a.z))
          * ((tri.b.z - tri.a.z) * (tri.c.x - tri.a.x) - (tri.b.x - tri.a.x) * (tri.c.z - tri.a.z))
        + ((tri.b.x - tri.a.x) * (tri.c.y - tri.a.y) - (tri.b.y - tri.a.y) * (tri.c.x - tri.a.x))
          * ((tri.b.x - tri.a.x) * (tri.c.y - tri.a.y)
            - (tri.b.y - tri.a.y) * (tri.c.x - tri.a.x)) := by
    simp only [Vector3.dot, Vector3.sub]
    ring
  rw [e]
  exact add_nonneg (add_nonneg (mul_self_nonneg _) (mul_self_nonneg _)) (mul_self_nonneg _)

/-- A lane in which a region test holds stores a point of its triangle. -/
theorem triMask_on (tri : Triangle) (p : Vector3) :
    ∀ k, triMask tri.a tri.b tri.c p k = true →
      OnTriangle tri (if k = 1 then tri.a else triAnswer tri.a tri.b tri.c p k)
  | 0, hk => by simp [triMask] at hk
  | 1, _ => by
    rw [if_pos rfl]
    exact ⟨0, 0, le_refl _, le_refl _, by norm_num, point_a tri⟩
  | 2, _ => by
    rw [if_neg (by decide)]
    exact ⟨1, 0, by norm_num, le_refl _, by norm_num, point_b tri⟩
  | 3, _ => by
    rw [if_neg (by decide)]
    exact ⟨0, 1, le_refl _, by norm_num, by norm_num, point_c tri⟩
  | 4, hk => by
    rw [(triMask_spec tri.a tri.b tri.c p).2.2.2.1] at hk
    rw [if_neg (by decide)]
    simp only [triAnswer, dot_d3 tri.a tri.b p, sub_sub_cancel]
    have hE : 0 ≤ (tri.b.sub tri.a).dot (tri.b.sub tri.a) := by linarith [hk.2.1, hk.2.2]
    exact ⟨_, 0, div_nonneg hk.2.1 hE, le_refl _,
      by rw [add_zero]; exact div_le_one_of_le₀ (by linarith [hk.2.2]) hE, (point_ab tri _)⟩
  | 5, hk => by
    rw [(triMask_spec tri.a tri.b tri.c p).2.2.2.2.1] at hk
    rw [if_neg (by decide)]
    simp only [triAnswer, dot_d6 tri.a tri.c p, sub_sub_cancel]
    have hG : 0 ≤ (tri.c.sub tri.a).dot (tri.c.sub tri.a) := by linarith [hk.2.1, hk.2.2]
    exact ⟨0, _, le_refl _, div_nonneg hk.2.1 hG,
      by rw [zero_add]; exact div_le_one_of_le₀ (by linarith [hk.2.2]) hG, (point_ac tri _)⟩
  | 6, hk => by
    rw [(triMask_spec tri.a tri.b tri.c p).2.2.2.2.2] at hk
    rw [if_neg (by decide)]
    simp only [triAnswer, dot_d3 tri.a tri.b p, dot_d4 tri.a tri.b tri.c p,
      dot_d5 tri.a tri.b tri.c p, dot_d6 tri.a tri.c p]
    have hsum : 0 ≤ (tri.c.sub tri.a).dot (p.sub tri.a) - (tri.b.sub tri.a).dot (tri.c.sub tri.a)
        - ((tri.b.sub tri.a).dot (p.sub tri.a) - (tri.b.sub tri.a).dot (tri.b.sub tri.a))
        + ((tri.b.sub tri.a).dot (p.sub tri.a) - (tri.b.sub tri.a).dot (tri.c.sub tri.a)
          - ((tri.c.sub tri.a).dot (p.sub tri.a) - (tri.c.sub tri.a).dot (tri.c.sub tri.a))) := by
      linarith [hk.2.1, hk.2.2]
    have ht0 := div_nonneg hk.2.1 hsum
    have ht1 := div_le_one_of_le₀ (le_add_of_nonneg_right hk.2.2) hsum
    exact ⟨_, _, by linarith, ht0, by linarith, (point_bc tri _)⟩
  | k + 7, hk => by simp [triMask] at hk

/-- At every stage a lane holds a point of its triangle. -/
theorem triStage_on (tri : Triangle) (p : Vector3) :
    ∀ k, OnTriangle tri (triStage tri.a tri.b tri.c p k).2
  | 0 => ⟨0, 0, le_refl _, le_refl _, by norm_num, point_a tri⟩
  | 1 => ⟨0, 0, le_refl _, le_refl _, by norm_num, point_a tri⟩
  | k + 2 => by
    simp only [triStage]
    by_cases hm : triMask tri.a tri.b tri.c p (k + 2) = true
    · rw [hm, Vector3.select_true]
      have := triMask_on tri p (k + 2) hm
      rwa [if_neg (by omega)] at this
    · have hm2 : triMask tri.a tri.b tri.c p (k + 2) = false := by simpa using hm
      rw [hm2, Vector3.select_false]
      exact triStage_on tri p (k + 1)

/-- The face point of a degenerate triangle is the vertex `a`: the division by the Gram
determinant, which is zero, gives zero. -/
theorem triAnswer_degenerate (tri : Triangle) (p : Vector3)
    (hD : (tri.b.sub tri.a).dot (tri.b.sub tri.a) * (tri.c.sub tri.a).dot (tri.c.sub tri.a)
        - (tri.b.sub tri.a).dot (tri.c.sub tri.a) * (tri.b.sub tri.a).dot (tri.c.sub tri.a) = 0) :
    triAnswer tri.a tri.b tri.c p 7 = tri.a := by
  simp only [triAnswer, dot_d3 tri.a tri.b p, dot_d4 tri.a tri.b tri.c p,
    dot_d5 tri.a tri.b tri.c p, dot_d6 tri.a tri.c p]
  have hS : ((tri.b.sub tri.a).dot (p.sub tri.a) - (tri.b.sub tri.a).dot (tri.b.sub tri.a))
        * ((tri.c.sub tri.a).dot (p.sub tri.a) - (tri.c.sub tri.a).dot (tri.c.sub tri.a))
      - ((tri.b.sub tri.a).dot (p.sub tri.a) - (tri.b.sub tri.a).dot (tri.c.sub tri.a))
        * ((tri.c.sub tri.a).dot (p.sub tri.a) - (tri.b.sub tri.a).dot (tri.c.sub tri.a))
      + (((tri.b.sub tri.a).dot (p.sub tri.a) - (tri.b.sub tri.a).dot (tri.c.sub tri.a))
          * (tri.c.sub tri.a).dot (p.sub tri.a)
        - (tri.b.sub tri.a).dot (p.sub tri.a)
          * ((tri.c.sub tri.a).dot (p.sub tri.a) - (tri.c.sub tri.a).dot (tri.c.sub tri.a)))
      + ((tri.b.sub tri.a).dot (p.sub tri.a)
          * ((tri.c.sub tri.a).dot (p.sub tri.a) - (tri.b.sub tri.a).dot (tri.c.sub tri.a))
        - ((tri.b.sub tri.a).dot (p.sub tri.a) - (tri.b.sub tri.a).dot (tri.b.sub tri.a))
          * (tri.c.sub tri.a).dot (p.sub tri.a)) = 0 := by
    linear_combination hD
  rw [hS]
  simp [Vector3.add, Vector3.smul]

/-- What the kernel returns in a lane when it runs to its end is a point of the triangle. -/
theorem triResult_on (tri : Triangle) (p : Vector3) :
    OnTriangle tri (triResult tri.a tri.b tri.c p) := by
  unfold triResult
  by_cases hm : (!(triStage tri.a tri.b tri.c p 6).1
      && decide (Vector3.dist2 (triAnswer tri.a tri.b tri.c p 7) p
          < Vector3.dist2 (triStage tri.a tri.b tri.c p 6).2 p)) = true
  · rw [hm, Vector3.select_true]
    simp only [Bool.and_eq_true, Bool.not_eq_true', decide_eq_true_eq] at hm
    obtain ⟨_, hno⟩ := triStage_stay tri.a tri.b tri.c p 6 hm.1
    rcases eq_or_lt_of_le (gram_nonneg tri) with hD | hD
    · rw [triAnswer_degenerate tri p hD.symm]
      exact ⟨0, 0, le_refl _, le_refl _, by norm_num, point_a tri⟩
    · exact (triFace_closest tri p hD (fun k => by
        by_cases h1 : 1 ≤ k
        · by_cases h2 : k ≤ 6
          · exact hno k h1 h2
          · exact triMask_high _ _ _ _ k (by omega)
        · have : k = 0 := by omega
          subst this
          simp [triMask])).1
  · have hm2 : (!(triStage tri.a tri.b tri.c p 6).1
        && decide (Vector3.dist2 (triAnswer tri.a tri.b tri.c p 7) p
            < Vector3.dist2 (triStage tri.a tri.b tri.c p 6).2 p)) = false := by
      simpa using hm
    rw [hm2, Vector3.select_false]
    exact triStage_on tri p 6

/-- In a lane below `W` the kernel `simdTriPoint2` returns a point of the triangle of the lane,
with its squared distance to the query point. -/
theorem simdTriPoint2_on (W : Nat) (iTri : Fin 3 → SimdVec3) (iPoint : SimdVec3) (j : Nat)
    (hj : j < W) (tri : Triangle) (p : Vector3) (h0 : (iTri 0).lane j = tri.a)
    (h1 : (iTri 1).lane j = tri.b) (h2 : (iTri 2).lane j = tri.c) (hp : iPoint.lane j = p) :
    OnTriangle tri ((simdTriPoint2 W iTri iPoint).2.lane j)
      ∧ (simdTriPoint2 W iTri iPoint).1 j
          = Vector3.dist2 ((simdTriPoint2 W iTri iPoint).2.lane j) p := by
  obtain ⟨hcase, hdist⟩ := simdTriPoint2_lane W iTri iPoint j hj
  rw [h0, h1, h2, hp] at hcase
  rw [hp] at hdist
  refine ⟨?_, hdist⟩
  rcases hcase with ⟨k, _, _, _, hpt⟩ | hpt
  · rw [hpt]
    exact triStage_on tri p k
  · rw [hpt]
    exact triResult_on tri p

/-! ### Every change of the squared radius is to the distance of a point of a primitive -/

theorem getBestLoop_lane (pi : ParallelInteraction) (W : Nat) :
    ∀ (r i m0 : Nat), i + r = W → m0 < W → (m0 = 0 ∨ pi.indices m0 ≠ -1) →
      ∃ m, m < W ∧ (m = 0 ∨ pi.indices m ≠ -1)
        ∧ getBestLoop pi r i (pi.distances m0, pi.points.lane m0, pi.indices m0)
            = (pi.distances m, pi.points.lane m, pi.indices m) := by
  intro r
  induction r with
  | zero =>
    intro i m0 _ hm0 hv
    exact ⟨m0, hm0, hv, rfl⟩
  | succ r ih =>
    intro i m0 hir hm0 hv
    rw [getBestLoop]
    by_cases h1 : pi.indices i ≠ -1
    · rw [if_pos h1]
      by_cases h2 : pi.distances m0 > pi.distances i
      · rw [if_pos h2]
        exact ih (i + 1) i (by omega) (by omega) (Or.inr h1)
      · rw [if_neg h2]
        exact ih (i + 1) m0 (by omega) hm0 hv
    · rw [if_neg h1]
      exact ⟨m0, hm0, hv, rfl⟩

/-- The result of `getBest` is the distance, the point and the index of one lane below `W`. -/
theorem getBest_lane (W : Nat) (hW : 0 < W) (pi : ParallelInteraction) :
    ∃ m, m < W
      ∧ getBest W pi = (pi.distances m, pi.points.lane m, pi.indices m) := by
  unfold getBest
  obtain ⟨m, hm, _, h⟩ := getBestLoop_lane pi W (W - 1) 1 0 (by omega) hW (Or.inl rfl)
  exact ⟨m, hm, h⟩

/-- When `processLeafNode` changes the sphere, the new squared radius is the squared distance
from the centre to a point of a triangle that the leaf references, whatever the triangles. -/
theorem processLeafNode_sound (sqrtF : ℚ → ℚ) (W : Nat) (hW : 0 < W) (node : BvhSimdFlatNode)
    (leaves : List BvhSimdLeafNode) (sbs : SimdBoundingSphere) (s : BoundingSphere)
    (i : Interaction) (refs : List ReferenceWrapper) (prims : List Triangle) (index m : Nat)
    (leaf : BvhSimdLeafNode) (cur : BvhFlatNode) (c : Vector3)
    (hidx : node.indices index = (m : Int)) (hleaf : leaves[m]? = some leaf)
    (hpacked : ∀ x, x < W → LanePacked refs prims cur leaf x)
    (hc : sbs.c = SimdVec3.broadcast c) (s2 : BoundingSphere) (i2 : Interaction)
    (hproc : processLeafNode sqrtF W node leaves sbs s i prims index = .ok (s2, i2)) :
    (s2 = s ∧ i2 = i)
      ∨ ∃ p tri y, LeafPrim refs prims cur p tri ∧ OnTriangle tri y
          ∧ s2.r2 = Vector3.dist2 y c := by
  obtain ⟨mb, hmb, hbest⟩ := getBest_lane W hW (parallelTriangleClosestPoint W leaf sbs
    { distances := fun _ => 0, points := SimdVec3.zero, indices := leaf.indices })
  unfold processLeafNode at hproc
  simp only [hidx, readI, getI?_natCast, hleaf, hbest] at hproc
  simp only [parallelTriangleClosestPoint] at hproc
  split at hproc
  · rename_i hcond
    obtain ⟨h1, h2⟩ := hpacked mb hmb
    by_cases hlt : (mb : Int) < cur.nPrimitives
    · obtain ⟨ref, prim, e1, e2, e3, e4⟩ := h1 hlt
      obtain ⟨hon, hdist⟩ := simdTriPoint2_on W leaf.triangles sbs.c mb hmb prim c (e4 0) (e4 1)
        (e4 2) (by rw [hc]; rfl)
      simp only [e3, e2] at hproc
      have := Except.ok.inj hproc
      refine Or.inr ⟨ref.index, prim, _, ⟨mb, hlt, ref, e1, rfl, e2⟩, hon, ?_⟩
      rw [← (Prod.mk.inj this).1]
      exact hdist
    · exact absurd (h2 (by omega)).1 hcond.1
  · have := Except.ok.inj hproc
    exact Or.inl ⟨(Prod.mk.inj this).1.symm, (Prod.mk.inj this).2.symm⟩

/-- Below every node of a tree whose leaves hold at least one reference there is a primitive. -/
theorem InTree.exists_prim_nonempty {root : BTree} {i : Nat} {t : BTree} (h : InTree root i t)
    (W : Nat) (hW : 0 < W) (refs : List ReferenceWrapper) (prims : List Triangle)
    (hv : RefsValid W refs prims root) (hne : LeafNonEmpty root) :
    ∃ p tri, PrimUnder refs prims t p tri := by
  obtain ⟨path, hpath⟩ := h
  obtain ⟨cur, hcur⟩ := t.leafNodes_ne_nil
  have hmem := descend_leafNodes root 0 path _ hpath cur hcur
  have hpos : ((0 : Nat) : Int) < cur.nPrimitives := by
    have := hne cur hmem
    simp only [Nat.cast_zero]
    omega
  obtain ⟨ref, prim, h1, h2⟩ := hv cur hmem 0 hW hpos
  exact ⟨ref.index, prim, cur, hcur, 0, hpos, ref, h1, rfl, h2⟩

/-- The shrink of `parseOverlap` to the farthest distance of the box of a node of the tree
leaves the squared radius as it is or at least the squared distance of a point of a
primitive. -/
theorem parseOverlap_sound (W : Nat) (hW : 0 < W) (refs : List ReferenceWrapper)
    (prims : List Triangle) (root : BTree) (hv : RefsValid W refs prims root)
    (hne : LeafNonEmpty root) (henc : Encloses refs prims root) (c : Vector3)
    (overlap : ParallelOverlapResult) (j i0 : Nat) (t0 : BTree) (s0 : BoundingSphere)
    (hin : InTree root i0 t0) (hfar : overlap.d2Max j = boxFar2 t0.bbox c) :
    (parseOverlap overlap j s0).2.2.r2 = s0.r2
      ∨ ∃ y, PointUnder refs prims root y
          ∧ Vector3.dist2 y c ≤ (parseOverlap overlap j s0).2.2.r2 := by
  by_cases h : s0.r2 > overlap.d2Max j
  · have e : (parseOverlap overlap j s0).2.2 = { s0 with r2 := overlap.d2Max j } := by
      simp only [parseOverlap, h, if_true]
    rw [e]
    obtain ⟨p, tri, hp⟩ := hin.exists_prim_nonempty W hW refs prims hv hne
    have hon : OnTriangle tri tri.a := ⟨0, 0, le_refl _, le_refl _, by norm_num, point_a tri⟩
    have hpt : PointUnder refs prims t0 tri.a := ⟨p, tri, hp, hon⟩
    refine Or.inr ⟨tri.a, ⟨p, tri, hin.primUnder refs prims p tri hp, hon⟩, ?_⟩
    simp only
    rw [hfar]
    exact inBox_far _ c _ (hin.pointUnder_inBox refs prims henc tri.a hpt)
  · have e : (parseOverlap overlap j s0).2.2 = s0 := by
      simp only [parseOverlap, h, if_false]
    rw [e]
    exact Or.inl rfl

/-! ### The squared radius stays sound all along a query -/

/-- The shrink of `parseOverlap` in a lane of a wide node keeps the squared radius sound. -/
theorem shrink_sound {W md : Nat} {root : BTree} {refs : List ReferenceWrapper}
    {prims : List Triangle} {ns : List BvhSimdFlatNode} {lv : List BvhSimdLeafNode}
    {k i : Nat} {t : BTree} (hwide : IsWideNodeFor W md root refs prims ns lv k i t)
    (node : BvhSimdFlatNode) (hnode : ns[k]? = some node) (j : Nat) (c0 : Nat × BTree)
    (hc0 : (frontier md i t)[j]? = some c0) (sbs : SimdBoundingSphere) (s : BoundingSphere)
    (hc : sbs.c = SimdVec3.broadcast s.c) (hW : 0 < W) (hv : RefsValid W refs prims root)
    (hne : LeafNonEmpty root) (henc : Encloses refs prims root) (s0 : BoundingSphere)
    (hgood : RadiusSound refs prims root s s0) :
    RadiusSound refs prims root s (parseOverlap (parallelOverlap node sbs) j s0).2.2 := by
  obtain ⟨_, _, hsub, _⟩ := hwide.node_exists
  have hin := hsub.frontier_mem md c0 (List.getElem?_mem hc0)
  have hfar : (parallelOverlap node sbs).d2Max j = boxFar2 c0.2.bbox s.c := by
    rw [(parallelOverlap_lane node sbs s.c hc j).2, (hwide.lane_box node hnode j c0 hc0).1]
  rcases parseOverlap_sound W hW refs prims root hv hne henc s.c (parallelOverlap node sbs) j
    c0.1 c0.2 s0 hin hfar with h | h
  · rcases hgood with h0 | ⟨y, hy, hle⟩
    · exact Or.inl (h.trans h0)
    · exact Or.inr ⟨y, hy, by rw [h]; exact hle⟩
  · exact Or.inr h

/-- The three outcomes of a lane keep the squared radius sound. -/
theorem radiusSound_rules (sqrtF : ℚ → ℚ) (W md : Nat) (hW : 0 < W) (root : BTree)
    (refs : List ReferenceWrapper) (prims : List Triangle) (ns : List BvhSimdFlatNode)
    (lv : List BvhSimdLeafNode) (sbs : SimdBoundingSphere) (s : BoundingSphere)
    (hc : sbs.c = SimdVec3.broadcast s.c) (hv : RefsValid W refs prims root)
    (hne : LeafNonEmpty root) (henc : Encloses refs prims root) :
    LaneRules sqrtF W md root refs prims ns lv sbs
      (fun _ _ _ _ s1 _ => RadiusSound refs prims root s s1) := by
  refine ⟨?_, ?_, ?_⟩
  · intro k g node j c0 _ _ s1 _ hwide hnode hc0 hinv _
    exact shrink_sound hwide node hnode j c0 hc0 sbs s hc hW hv hne henc s1 hinv
  · intro k g node j c0 _ _ s1 _ _ hwide hnode hc0 _ _ _ hinv _
    exact shrink_sound hwide node hnode j c0 hc0 sbs s hc hW hv hne henc s1 hinv
  · intro k g node j c0 _ _ s1 i1 s2 i2 hwide hnode hc0 hcl hinv _ hproc
    have hgood := shrink_sound hwide node hnode j c0 hc0 sbs s hc hW hv hne henc s1 hinv
    obtain ⟨_, _, hsub, _⟩ := hwide.node_exists
    have hmem := (hsub.frontier_mem md c0 (List.getElem?_mem hc0)).leaf_mem hcl
    obtain ⟨m, hm, hlvm⟩ := hwide.leaf node hnode j c0 hc0 hcl
    rcases processLeafNode_sound sqrtF W hW node lv sbs _ i1 refs prims j m _ c0.2.rootNode s.c
      hm hlvm (packLeafD_spec W refs prims root hv _ hmem).2 hc s2 i2 hproc with
      ⟨h1, _⟩ | ⟨p, tri, y, hprim, hon, hr2⟩
    · rw [h1]
      exact hgood
    · exact Or.inr ⟨y, ⟨p, tri, ⟨_, hmem, hprim⟩, hon⟩, le_of_eq hr2.symm⟩

/-- The squared radius is sound at every point of the traversal of the wide tree of a binary
tree whose boxes enclose the primitives and whose leaves are not empty: at the head of the
outer loop after any number of passes, in the pass that follows after any number of lanes, and
in the lane that follows right after the shrink of `parseOverlap`. None of these runs faults. -/
theorem traverse_sound (sqrtF : ℚ → ℚ) (W md : Nat) (hmd : 1 ≤ md) (hW : 0 < W)
    (root : BTree) (refs : List ReferenceWrapper) (prims : List Triangle)
    (ns : List BvhSimdFlatNode) (lv : List BvhSimdLeafNode) (sbs : SimdBoundingSphere)
    (hv : RefsValid W refs prims root)
    (hroot : IsWideNodeFor W md root refs prims ns lv 0 0 root)
    (s : BoundingSphere) (hc : sbs.c = SimdVec3.broadcast s.c)
    (hne : LeafNonEmpty root) (henc : Encloses refs prims root) (i : Interaction) :
    (∀ extra, ∃ q1, traverse sqrtF W ns lv prims sbs (wideWeight md (0, root) + extra)
        { todo := [⟨0, minFloat⟩], s := s, i := i } = .ok q1
      ∧ RadiusSound refs prims root s q1.s)
    ∧ ∀ n, ∃ q1, traversePrefix sqrtF W ns lv prims sbs n
          { todo := [⟨0, minFloat⟩], s := s, i := i } = .ok q1
        ∧ RadiusSound refs prims root s q1.s
        ∧ ∀ e rest node r, q1.todo = e :: rest → readI ns e.i = .ok node → ¬ e.d > q1.s.r2 →
            ∃ q2, laneLoop sqrtF W node lv prims sbs (parallelOverlap node sbs) r 0
                ⟨rest, q1.s, q1.i⟩ = .ok q2
              ∧ RadiusSound refs prims root s q2.s
              ∧ (r < W → node.indices r ≠ -1 →
                  RadiusSound refs prims root s
                    (parseOverlap (parallelOverlap node sbs) r q2.s).2.2) := by
  have hrules := radiusSound_rules sqrtF W md hW root refs prims ns lv sbs s hc hv hne henc
  have hstart : List.Forall₂ (EntryFor W md root refs prims ns lv) [⟨0, minFloat⟩]
      [(0, root)] := List.Forall₂.cons ⟨0, rfl, hroot⟩ List.Forall₂.nil
  constructor
  · intro extra
    obtain ⟨q1, h1, _, h2⟩ := traverse_framework sqrtF W md hmd hW root refs prims ns lv sbs hv
      (fun _ _ s1 _ => RadiusSound refs prims root s s1)
      (fun _ _ _ _ s1 _ => RadiusSound refs prims root s s1)
      (fun _ _ _ _ _ _ _ h _ => h) (fun _ _ _ _ _ _ _ h _ => h) hrules.1 hrules.2.1 hrules.2.2
      (fun _ _ _ _ _ _ _ h => h) (wideWeight md (0, root) + extra)
      { todo := [⟨0, minFloat⟩], s := s, i := i } [(0, root)] hstart (Or.inl rfl)
      (by simp [totalWeight])
    exact ⟨q1, h1, h2⟩
  · intro n
    obtain ⟨q1, gs1, h1, h2, h3⟩ := traversePrefix_framework sqrtF W md hmd hW root refs prims
      ns lv sbs hv (fun _ _ s1 _ => RadiusSound refs prims root s s1)
      (fun _ _ _ _ s1 _ => RadiusSound refs prims root s s1)
      (fun _ _ _ _ _ _ _ h _ => h) (fun _ _ _ _ _ _ _ h _ => h) hrules
      (fun _ _ _ _ _ _ _ h => h) n { todo := [⟨0, minFloat⟩], s := s, i := i } [(0, root)]
      hstart (Or.inl rfl)
    refine ⟨q1, h1, h3, ?_⟩
    intro e rest node r htodo hread _
    rw [htodo] at h2
    cases h2 with
    | cons he hrest =>
      rename_i g gs2
      obtain ⟨k, hk, hwide⟩ := he
      obtain ⟨node1, hnode1, hsub, hlen⟩ := hwide.node_exists
      have hnode : ns[k]? = some node := by
        have := readI_natCast ns k node1 hnode1
        rw [hk, this] at hread
        rw [hnode1, Except.ok.inj hread]
      obtain ⟨q2, h4, gs3, _, h5, _⟩ := lanes_framework sqrtF W md hmd hW root refs prims ns lv
        sbs hv (fun _ _ _ _ s1 _ => RadiusSound refs prims root s s1) hrules k g node hwide hnode
        gs2 r ⟨rest, q1.s, q1.i⟩ ⟨[], by simpa using hrest, h3, by simp [totalWeight]⟩
      refine ⟨q2, h4, h5, ?_⟩
      intro _ hidx
      have hr := hwide.lane_lt node hnode r hidx
      exact shrink_sound hwide node hnode r _ (List.getElem?_eq_getElem hr) sbs s hc hW hv hne
        henc q2.s h5

/-! ### The statistics of the built structure -/

theorem sumPrimitives_eq (t : BTree) :
    t.sumPrimitives = (t.leafNodes.map fun cur => (cur.nPrimitives : ℚ)).sum := by
  induction t with
  | leaf b s n => simp [BTree.sumPrimitives, BTree.leafNodes]
  | node b s n l r ihl ihr =>
    simp only [BTree.sumPrimitives, BTree.leafNodes, List.map_append, List.sum_append, ihl, ihr]

theorem BTree.leafNodes_length_pos (t : BTree) : 0 < t.leafNodes.length := by
  have := t.leafNodes_ne_nil
  obtain ⟨cur, hcur⟩ := this
  exact List.length_pos_of_mem hcur

/-! ### More fuel does not change a run of the outer loop of `build` -/

theorem buildLoop_fuel (W : Nat) (maxDepth : Int) (nodes : List BvhFlatNode)
    (refs : List ReferenceWrapper) (prims : List Triangle) :
    ∀ (f : Nat) (todo : List BvhSimdBuildNode) (st : BuildState) (r : Except Fault BuildState),
      buildLoop W maxDepth nodes refs prims f todo st = r → r ≠ .error .outOfFuel →
      ∀ k, buildLoop W maxDepth nodes refs prims (f + k) todo st = r := by
  intro f
  induction f with
  | zero =>
    intro todo st r h hne k
    cases todo with
    | nil =>
      rw [buildLoop] at h
      rw [buildLoop]
      exact h
    | cons tb rest =>
      rw [buildLoop] at h
      exact absurd h.symm hne
  | succ f ih =>
    intro todo st r h hne k
    cases todo with
    | nil =>
      rw [buildLoop] at h
      rw [buildLoop]
      exact h
    | cons tb rest =>
      have e : f + 1 + k = (f + k) + 1 := by omega
      rw [e, buildLoop]
      rw [buildLoop] at h
      cases hstep : buildStep W maxDepth nodes refs prims tb rest st with
      | error e1 =>
        rw [hstep] at h
        exact h
      | ok p =>
        rw [hstep] at h
        exact ih p.1 p.2 r h hne k

/-- No run of `build` on a well-formed tree, whatever its fuel, ends in the fatal branch of the
free-slot search. -/
theorem build_no_tempCounter (W : Nat) (hW : W = 4 ∨ W = 8 ∨ W = 16)
    (refs : List ReferenceWrapper) (prims : List Triangle) (t : BTree)
    (hv : RefsValid W refs prims t) (fuel : Nat) :
    build W fuel t.flatten refs prims ≠ .error .tempCounterOutOfBounds := by
  intro h
  have hb := build_eq W hW refs prims t hv fuel
  obtain ⟨_, _, _, h4⟩ := maxDepthOf_cases W hW
  simp only [build, h4, if_false] at h hb
  cases hl : buildLoop W (maxDepthOf W) t.flatten refs prims fuel [⟨0, -1, 0⟩]
      { buildNodes := [], buildLeaves := [], nNodes := 0, nLeaves := 0, depth := 0,
        averageLeafSize := 0 } with
  | ok st => rw [hl] at h; cases h
  | error e =>
    rw [hl] at h
    have he : e = .tempCounterOutOfBounds := by cases h; rfl
    subst he
    have := buildLoop_fuel W (maxDepthOf W) t.flatten refs prims fuel _ _ _ hl (by simp)
      (t.size + 1)
    have e2 : t.size + 1 + fuel = fuel + (t.size + 1) := by omega
    rw [e2, this] at hb
    cases hb

/-! ### The inner worklist, pass by pass -/

/-- The inner worklist loop runs `expandStep` on the popped item and goes on with what it
leaves. -/
theorem expand_step (maxDepth : Int) (nodes : List BvhFlatNode) (k dep : Int) (fuel : Nat)
    (traversal : BvhTraversalDepth) (ws : List BvhTraversalDepth)
    (todo : List BvhSimdBuildNode) :
    expand maxDepth nodes k dep (fuel + 1) (traversal :: ws) todo
      = match expandStep maxDepth nodes k dep traversal ws todo with
        | .error e => .error e
        | .ok r => expand maxDepth nodes k dep fuel r.1 r.2 := by
  rw [expand]
  unfold expandStep
  by_cases hd : traversal.depth < maxDepth
  · simp only [hd, if_true]
    cases readI nodes traversal.i with
    | error e => rfl
    | ok n =>
      by_cases hr : n.rightOffset ≠ 0
      · simp only [hr, if_true, ne_eq, not_false_eq_true]
      · simp only [hr, if_false]
  · simp only [hd, if_false]

/-! ### Trees with full lanes -/

theorem quadLeafTree_refsValid : RefsValid 4 quadRefs quadPrims quadLeafTree := by
  intro cur hcur i hi _
  simp only [quadLeafTree, BTree.leafNodes, List.mem_singleton] at hcur
  subst hcur
  have : i = 0 ∨ i = 1 ∨ i = 2 ∨ i = 3 := by omega
  rcases this with rfl | rfl | rfl | rfl
  · exact ⟨⟨0⟩, _, rfl, rfl⟩
  · exact ⟨⟨1⟩, _, rfl, rfl⟩
  · exact ⟨⟨2⟩, _, rfl, rfl⟩
  · exact ⟨⟨3⟩, _, rfl, rfl⟩

theorem quadLeafBvh_eq_build :
    build 4 (quadLeafTree.size + 1 + 0) quadLeafTree.flatten quadRefs quadPrims
      = .ok quadLeafBvh :=
  build_eq 4 (Or.inl rfl) quadRefs quadPrims quadLeafTree quadLeafTree_refsValid 0

theorem quadTree_refsValid : RefsValid 4 quadRefs quadPrims quadTree := by
  intro cur hcur i _ hlt
  simp only [quadTree, BTree.leafNodes, List.cons_append, List.nil_append, List.mem_cons,
    List.mem_singleton, List.not_mem_nil, or_false] at hcur
  rcases hcur with rfl | rfl | rfl | rfl
  all_goals
    have hi0 : i = 0 := by simp only at hlt; omega
    subst hi0
  · exact ⟨⟨0⟩, _, rfl, rfl⟩
  · exact ⟨⟨1⟩, _, rfl, rfl⟩
  · exact ⟨⟨2⟩, _, rfl, rfl⟩
  · exact ⟨⟨3⟩, _, rfl, rfl⟩

theorem quadBvh_eq_build :
    build 4 (quadTree.size + 1 + 0) quadTree.flatten quadRefs quadPrims = .ok quadBvh :=
  build_eq 4 (Or.inl rfl) quadRefs quadPrims quadTree quadTree_refsValid 0

theorem staleTree_refsValid : RefsValid 4 staleRefs stalePrims staleTree := by
  intro cur hcur i _ hlt
  simp only [staleTree, BTree.leafNodes, List.cons_append, List.nil_append, List.mem_cons,
    List.mem_singleton, List.not_mem_nil, or_false] at hcur
  rcases hcur with rfl | rfl
  all_goals
    have hi0 : i = 0 := by simp only at hlt; omega
    subst hi0
  · exact ⟨⟨0⟩, _, rfl, rfl⟩
  · exact ⟨⟨1⟩, _, rfl, rfl⟩

theorem staleBvh_eq_build :
    build 4 (staleTree.size + 1 + 0) staleTree.flatten staleRefs stalePrims = .ok staleBvh :=
  build_eq 4 (Or.inl rfl) staleRefs stalePrims staleTree staleTree_refsValid 0

theorem staleTree_encloses : Encloses staleRefs stalePrims staleTree := by
  refine encloses_of_leaves staleRefs stalePrims staleTree ?_ ?_
  · simp only [staleTree, Contained, BoxWithin, BTree.bbox]
    norm_num
  · intro cur hcur p tri h
    simp only [staleTree, BTree.leafNodes, List.cons_append, List.nil_append, List.mem_cons,
      List.mem_singleton, List.not_mem_nil, or_false] at hcur
    obtain ⟨x, hx, ref, h1, h2, h3⟩ := h
    rcases hcur with rfl | rfl
    · have hi : x = 0 := by simp only at hx; omega
      subst hi
      have e1 : getI? staleRefs ((0 : Int) + ((0 : Nat) : Int)) = some ⟨0⟩ := rfl
      rw [e1] at h1
      cases h1
      cases h2
      have e3 : getI? stalePrims 0 = some ⟨⟨1, 0, 0⟩, ⟨2, 0, 0⟩, ⟨1, 1, 0⟩⟩ := rfl
      rw [e3] at h3
      cases h3
      simp only [InBox]
      norm_num
    · have hi : x = 0 := by simp only at hx; omega
      subst hi
      have e1 : getI? staleRefs ((1 : Int) + ((0 : Nat) : Int)) = some ⟨1⟩ := rfl
      rw [e1] at h1
      cases h1
      cases h2
      have e3 : getI? stalePrims 1
          = some ⟨⟨1 / 2, 0, 0⟩, ⟨1 / 2, 0, 0⟩, ⟨1 / 2, 0, 0⟩⟩ := rfl
      rw [e3] at h3
      cases h3
      simp only [InBox]
      norm_num

/-! ### The nearest point of a triangle is unique -/

/-- The midpoint of two points of a triangle is a point of the triangle. -/
theorem onTriangle_mid (tri : Triangle) (y z : Vector3) (hy : OnTriangle tri y)
    (hz : OnTriangle tri z) :
    OnTriangle tri ⟨(y.x + z.x) / 2, (y.y + z.y) / 2, (y.z + z.z) / 2⟩ := by
  obtain ⟨u, w, hu, hw, huw, rfl⟩ := hy
  obtain ⟨u1, w1, hu1, hw1, huw1, rfl⟩ := hz
  refine ⟨(u + u1) / 2, (w + w1) / 2, by linarith, by linarith, by linarith, ?_⟩
  simp only [Triangle.point, Vector3.add, Vector3.smul, Vector3.sub, Vector3.mk.injEq]
  refine ⟨?_, ?_, ?_⟩ <;> ring

/-- Two nearest points of a triangle to the same point coincide. -/
theorem isClosest_unique (tri : Triangle) (p y z : Vector3) (hy : IsClosest tri p y)
    (hz : IsClosest tri p z) : y = z := by
  have hm := onTriangle_mid tri y z hy.1 hz.1
  have h1 := hy.2 _ hm
  have h2 := hz.2 _ hm
  simp only [Vector3.dist2] at h1 h2
  have hx : (y.x - z.x) * (y.x - z.x) + (y.y - z.y) * (y.y - z.y)
      + (y.z - z.z) * (y.z - z.z) ≤ 0 := by nlinarith [h1, h2]
  have hx0 := mul_self_nonneg (y.x - z.x)
  have hy0 := mul_self_nonneg (y.y - z.y)
  have hz0 := mul_self_nonneg (y.z - z.z)
  have ex : y.x - z.x = 0 := mul_self_eq_zero.mp (by linarith)
  have ey : y.y - z.y = 0 := mul_self_eq_zero.mp (by linarith)
  have ez : y.z - z.z = 0 := mul_self_eq_zero.mp (by linarith)
  cases y
  cases z
  simp only [Vector3.mk.injEq]
  simp only at ex ey ez
  exact ⟨by linarith, by linarith, by linarith⟩

/-! ### The lanes of the nodes of the built tree -/

/-- The targets of a node whose lanes were filled one by one are the targets of the fills. -/
theorem laneTargets_fillLanes (W : Nat) (leafFlag : Bool) (cur : BvhFlatNode)
    (lanes : List LaneSpec) (hlen : lanes.length ≤ W) (hne : ∀ l ∈ lanes, l.index ≠ -1) :
    laneTargets W leafFlag (fillLanes (newNodeFor cur) 0 lanes)
      = (lanes.filter fun l => l.isLeaf == leafFlag).map fun l => l.index := by
  have hA : (List.range W).map (fun x => ((fillLanes (newNodeFor cur) 0 lanes).indices x,
        (fillLanes (newNodeFor cur) 0 lanes).isLeaf x))
      = lanes.map (fun l => (l.index, l.isLeaf))
          ++ List.replicate (W - lanes.length) ((-1 : Int), false) := by
    apply List.ext_getElem?
    intro x
    by_cases hx : x < lanes.length
    · have hin := fillLanes_inside lanes (newNodeFor cur) 0 x lanes[x]
        (List.getElem?_eq_getElem hx)
      rw [Nat.zero_add] at hin
      rw [List.getElem?_append_left (by simpa using hx)]
      simp only [List.getElem?_map, List.getElem?_range (lt_of_lt_of_le hx hlen),
        List.getElem?_eq_getElem hx, Option.map_some', hin.1, hin.2.1]
    · have hout := fillLanes_outside lanes (newNodeFor cur) 0 x (Or.inr (by omega))
      rw [List.getElem?_append_right (by simpa using hx)]
      by_cases hxW : x < W
      · simp only [List.getElem?_map, List.getElem?_range hxW, Option.map_some', hout.1,
          hout.2.1, List.length_map]
        rw [List.getElem?_replicate, if_pos (by omega)]
        rfl
      · rw [List.getElem?_eq_none (by simpa using hxW),
          List.getElem?_eq_none (by simp only [List.length_replicate, List.length_map]; omega)]
  have hB : laneTargets W leafFlag (fillLanes (newNodeFor cur) 0 lanes)
      = ((((List.range W).map (fun x => ((fillLanes (newNodeFor cur) 0 lanes).indices x,
            (fillLanes (newNodeFor cur) 0 lanes).isLeaf x))).filter
          fun p => decide (p.1 ≠ -1) && (p.2 == leafFlag)).map Prod.fst) := by
    simp only [laneTargets, List.filter_map, List.map_map]
    rfl
  rw [hB, hA, List.filter_append, List.map_append]
  have hrep : (List.replicate (W - lanes.length) ((-1 : Int), false)).filter
      (fun p => decide (p.1 ≠ -1) && (p.2 == leafFlag)) = [] := by
    rw [List.filter_eq_nil_iff]
    intro p hp
    rw [List.eq_of_mem_replicate hp]
    simp
  rw [hrep, List.map_nil, List.append_nil, List.filter_map, List.map_map]
  have hf : lanes.filter ((fun p : Int × Bool => decide (p.1 ≠ -1) && (p.2 == leafFlag))
        ∘ fun l => (l.index, l.isLeaf))
      = lanes.filter fun l => l.isLeaf == leafFlag := by
    apply List.filter_congr
    intro l hl
    simp [hne l hl]
  rw [hf]
  rfl

theorem count_range_cast (s n : Nat) (q : Int) :
    ((List.range' s n).map fun x : Nat => (x : Int)).count q
      = if (s : Int) ≤ q ∧ q < (s : Int) + n then 1 else 0 := by
  induction n generalizing s with
  | zero =>
    simp only [List.range'_zero, List.map_nil, List.count_nil]
    rw [if_neg]
    push_cast
    omega
  | succ n ih =>
    rw [List.range'_succ, List.map_cons, List.count_cons, ih (s + 1)]
    by_cases h : (s : Int) = q
    · subst h
      simp only [beq_self_eq_true, if_true]
      rw [if_neg (by push_cast; omega), if_pos (by push_cast; omega)]
    · have hb : ((s : Int) == q) = false := by simpa using h
      simp only [hb, Bool.false_eq_true, if_false, Nat.add_zero]
      by_cases h2 : (s : Int) ≤ q ∧ q < (s : Int) + ((n + 1 : Nat) : Int)
      · rw [if_pos h2, if_pos (by push_cast at h2 ⊢; omega)]
      · rw [if_neg h2, if_neg (by push_cast at h2 ⊢; omega)]

theorem allLaneTargets_append (W : Nat) (leafFlag : Bool) (a b : List BvhSimdFlatNode) :
    allLaneTargets W leafFlag (a ++ b)
      = allLaneTargets W leafFlag a ++ allLaneTargets W leafFlag b := by
  simp [allLaneTargets]

theorem allLaneTargets_cons (W : Nat) (leafFlag : Bool) (a : BvhSimdFlatNode)
    (b : List BvhSimdFlatNode) :
    allLaneTargets W leafFlag (a :: b) = laneTargets W leafFlag a ++ allLaneTargets W leafFlag b := by
  simp [allLaneTargets]

/-- Every wide node allocated for the nodes of a frontier and below is the target of exactly one
interior lane, of the parent or of one of these nodes, and nothing else is a target. -/
theorem nodeTargets_count (W md : Nat) (hmd : 1 ≤ md) (hW : 2 ^ md ≤ W) (q : Int) :
    ∀ (t : BTree) (d N L : Nat),
      (((lanesOf md d t N L).filter fun l => l.isLeaf == false).map fun l => l.index).count q
          + (allLaneTargets W false (nodesOf md d t N L)).count q
        = if (N : Int) ≤ q ∧ q < (N : Int) + numNodes md d t then 1 else 0 := by
  intro t
  induction t with
  | leaf b s n =>
    intro d N L
    simp only [lanesOf, nodesOf, numNodes, allLaneTargets, List.map_nil, List.flatten_nil,
      List.count_nil]
    rw [if_neg (by push_cast; omega)]
    rfl
  | node b s n l r ihl ihr =>
    intro d N L
    cases d with
    | zero =>
      obtain ⟨m, rfl⟩ : ∃ m, md = m + 1 := ⟨md - 1, by omega⟩
      have hlenl := length_frontier_le l m 0
      have hlenr := length_frontier_le r m 0
      have hlen : (lanesOf (m + 1) m l (N + 1) L
          ++ lanesOf (m + 1) m r (N + 1 + numNodes (m + 1) m l) (L + l.leafNodes.length)).length
            ≤ W := by
        rw [List.length_append, length_lanesOf (m + 1) l m 0, length_lanesOf (m + 1) r m 0]
        have : 2 ^ (m + 1) = 2 ^ m + 2 ^ m := by rw [pow_succ]; omega
        omega
      have hne : ∀ x ∈ lanesOf (m + 1) m l (N + 1) L
          ++ lanesOf (m + 1) m r (N + 1 + numNodes (m + 1) m l) (L + l.leafNodes.length),
          x.index ≠ -1 := by
        intro x hx
        rcases List.mem_append.mp hx with h | h
        · exact lanesOf_index_ne (m + 1) l m _ _ x h
        · exact lanesOf_index_ne (m + 1) r m _ _ x h
      have h1 := ihl m (N + 1) L
      have h2 := ihr m (N + 1 + numNodes (m + 1) m l) (L + l.leafNodes.length)
      simp only [lanesOf, nodesOf, numNodes, Nat.add_sub_cancel, allLaneTargets_cons,
        allLaneTargets_append, laneTargets_fillLanes W false _ _ hlen hne, List.filter_append,
        List.map_append, List.count_append, List.filter_cons, List.filter_nil, List.map_cons,
        List.map_nil, List.count_cons, List.count_nil, beq_self_eq_true, if_true]
      simp only [beq_iff_eq]
      split_ifs at h1 h2 ⊢ <;> push_cast at * <;> omega
    | succ d =>
      have h1 := ihl d N L
      have h2 := ihr d (N + numNodes md d l) (L + l.leafNodes.length)
      simp only [lanesOf, nodesOf, numNodes, allLaneTargets_append, List.filter_append,
        List.map_append, List.count_append]
      split_ifs at h1 h2 ⊢ <;> push_cast at * <;> omega

/-- Every wide leaf packed for the leaves of a subtree is the target of exactly one leaf lane,
of the parent or of one of the wide nodes allocated for the subtree, and nothing else is a
target of a leaf lane. -/
theorem leafTargets_count (W md : Nat) (hmd : 1 ≤ md) (hW : 2 ^ md ≤ W) (q : Int) :
    ∀ (t : BTree) (d N L : Nat),
      (((lanesOf md d t N L).filter fun l => l.isLeaf == true).map fun l => l.index).count q
          + (allLaneTargets W true (nodesOf md d t N L)).count q
        = if (L : Int) ≤ q ∧ q < (L : Int) + t.leafNodes.length then 1 else 0 := by
  intro t
  induction t with
  | leaf b s n =>
    intro d N L
    simp only [lanesOf, nodesOf, allLaneTargets, List.map_nil, List.flatten_nil,
      List.count_nil, List.filter_cons, List.filter_nil, beq_self_eq_true, if_true,
      List.map_cons, List.count_cons, BTree.leafNodes, List.length_singleton, beq_iff_eq]
    split_ifs <;> push_cast at * <;> omega
  | node b s n l r ihl ihr =>
    intro d N L
    cases d with
    | zero =>
      obtain ⟨m, rfl⟩ : ∃ m, md = m + 1 := ⟨md - 1, by omega⟩
      have hlenl := length_frontier_le l m 0
      have hlenr := length_frontier_le r m 0
      have hlen : (lanesOf (m + 1) m l (N + 1) L
          ++ lanesOf (m + 1) m r (N + 1 + numNodes (m + 1) m l) (L + l.leafNodes.length)).length
            ≤ W := by
        rw [List.length_append, length_lanesOf (m + 1) l m 0, length_lanesOf (m + 1) r m 0]
        have : 2 ^ (m + 1) = 2 ^ m + 2 ^ m := by rw [pow_succ]; omega
        omega
      have hne : ∀ x ∈ lanesOf (m + 1) m l (N + 1) L
          ++ lanesOf (m + 1) m r (N + 1 + numNodes (m + 1) m l) (L + l.leafNodes.length),
          x.index ≠ -1 := by
        intro x hx
        rcases List.mem_append.mp hx with h | h
        · exact lanesOf_index_ne (m + 1) l m _ _ x h
        · exact lanesOf_index_ne (m + 1) r m _ _ x h
      have h1 := ihl m (N + 1) L
      have h2 := ihr m (N + 1 + numNodes (m + 1) m l) (L + l.leafNodes.length)
      have hfalse : ((false : Bool) == true) = false := rfl
      simp only [lanesOf, nodesOf, Nat.add_sub_cancel, allLaneTargets_cons,
        allLaneTargets_append, laneTargets_fillLanes W true _ _ hlen hne, List.filter_append,
        List.map_append, List.count_append, List.filter_cons, List.filter_nil, List.map_nil,
        List.count_nil, hfalse, Bool.false_eq_true, if_false, BTree.leafNodes,
        List.length_append]
      split_ifs at h1 h2 ⊢ <;> push_cast at * <;> omega
    | succ d =>
      have h1 := ihl d N L
      have h2 := ihr d (N + numNodes md d l) (L + l.leafNodes.length)
      simp only [lanesOf, nodesOf, allLaneTargets_append, List.filter_append,
        List.map_append, List.count_append, BTree.leafNodes, List.length_append]
      split_ifs at h1 h2 ⊢ <;> push_cast at * <;> omega

/-- The depth-first walks from the interior lanes of a frontier, one after the other, meet the
wide nodes allocated for the frontier and below in the order of their indices. -/
theorem preorderFrom_lanes (W md : Nat) (hmd : 1 ≤ md) (hW : 2 ^ md ≤ W)
    (ns : List BvhSimdFlatNode) :
    ∀ (t : BTree) (d N L fuel : Nat), HasSeg ns N (nodesOf md d t N L) →
      numNodes md d t ≤ fuel →
      ((((lanesOf md d t N L).filter fun l => l.isLeaf == false).map fun l => l.index).map
          fun q => preorderFrom W ns fuel q).flatten
        = (List.range' N (numNodes md d t)).map fun x : Nat => (x : Int) := by
  intro t
  induction t with
  | leaf b s n =>
    intro d N L fuel _ _
    simp only [lanesOf, numNodes, List.range'_zero, List.map_nil]
    rfl
  | node b s n l r ihl ihr =>
    intro d N L fuel hns hfuel
    cases d with
    | zero =>
      obtain ⟨m, rfl⟩ : ∃ m, md = m + 1 := ⟨md - 1, by omega⟩
      simp only [nodesOf, Nat.add_sub_cancel] at hns
      simp only [numNodes, Nat.add_sub_cancel] at hfuel
      obtain ⟨f, rfl⟩ : ∃ f, fuel = f + 1 := ⟨fuel - 1, by omega⟩
      have hnsl : HasSeg ns (N + 1) (nodesOf (m + 1) m l (N + 1) L) := hns.tail.append_left
      have hnsr : HasSeg ns (N + 1 + numNodes (m + 1) m l)
          (nodesOf (m + 1) m r (N + 1 + numNodes (m + 1) m l) (L + l.leafNodes.length)) := by
        have := hns.tail.append_right
        rwa [length_nodesOf] at this
      have hlenl := length_frontier_le l m 0
      have hlenr := length_frontier_le r m 0
      have hlen : (lanesOf (m + 1) m l (N + 1) L
          ++ lanesOf (m + 1) m r (N + 1 + numNodes (m + 1) m l) (L + l.leafNodes.length)).length
            ≤ W := by
        rw [List.length_append, length_lanesOf (m + 1) l m 0, length_lanesOf (m + 1) r m 0]
        have : 2 ^ (m + 1) = 2 ^ m + 2 ^ m := by rw [pow_succ]; omega
        omega
      have hne : ∀ x ∈ lanesOf (m + 1) m l (N + 1) L
          ++ lanesOf (m + 1) m r (N + 1 + numNodes (m + 1) m l) (L + l.leafNodes.length),
          x.index ≠ -1 := by
        intro x hx
        rcases List.mem_append.mp hx with h | h
        · exact lanesOf_index_ne (m + 1) l m _ _ x h
        · exact lanesOf_index_ne (m + 1) r m _ _ x h
      have h1 := ihl m (N + 1) L f hnsl (by omega)
      have h2 := ihr m (N + 1 + numNodes (m + 1) m l) (L + l.leafNodes.length) f hnsr (by omega)
      have hread : getI? ns (N : Int) = some (fillLanes
          (newNodeFor (BTree.node b s n l r).rootNode) 0
          (lanesOf (m + 1) m l (N + 1) L
            ++ lanesOf (m + 1) m r (N + 1 + numNodes (m + 1) m l) (L + l.leafNodes.length))) := by
        rw [getI?_natCast]
        exact hns.head
      simp only [lanesOf, numNodes, Nat.add_sub_cancel, List.filter_cons, List.filter_nil,
        beq_self_eq_true, if_true, List.map_cons, List.map_nil, List.flatten_cons,
        List.flatten_nil, List.append_nil, preorderFrom, hread,
        laneTargets_fillLanes W false _ _ hlen hne, List.filter_append, List.map_append,
        List.flatten_append, h1, h2]
      rw [show 1 + numNodes (m + 1) m l + numNodes (m + 1) m r
          = (numNodes (m + 1) m r + numNodes (m + 1) m l) + 1 by omega, List.range'_succ,
        List.map_cons, ← List.range'_append_1, List.map_append]
    | succ d =>
      simp only [nodesOf] at hns
      simp only [numNodes] at hfuel
      have hnsl : HasSeg ns N (nodesOf md d l N L) := hns.append_left
      have hnsr : HasSeg ns (N + numNodes md d l)
          (nodesOf md d r (N + numNodes md d l) (L + l.leafNodes.length)) := by
        have := hns.append_right
        rwa [length_nodesOf] at this
      have h1 := ihl d N L fuel hnsl (by omega)
      have h2 := ihr d (N + numNodes md d l) (L + l.leafNodes.length) fuel hnsr (by omega)
      simp only [lanesOf, numNodes, List.filter_append, List.map_append, List.flatten_append,
        h1, h2]
      rw [Nat.add_comm (numNodes md d l), ← List.range'_append_1, List.map_append]

/-- The structure `build` returns is a tree laid out in pre-order: the depth-first walk from
node `0` meets the wide nodes in the order of their indices, node `0` is no target, every other
wide node is the target of one interior lane and every wide leaf of one leaf lane. -/
theorem wideTreeOf_tree (W md : Nat) (hmd : 1 ≤ md) (hW : 2 ^ md ≤ W)
    (refs : List ReferenceWrapper) (prims : List Triangle) (t : BTree) :
    preorderFrom W (wideTreeOf W md refs prims t).flatTree
        (wideTreeOf W md refs prims t).flatTree.length 0
      = (List.range (wideTreeOf W md refs prims t).flatTree.length).map (fun x : Nat => (x : Int))
    ∧ (∀ q : Int, (allLaneTargets W false (wideTreeOf W md refs prims t).flatTree).count q
        = if 1 ≤ q ∧ q < (wideTreeOf W md refs prims t).flatTree.length then 1 else 0)
    ∧ ∀ q : Int, (allLaneTargets W true (wideTreeOf W md refs prims t).flatTree).count q
        = if 0 ≤ q ∧ q < (wideTreeOf W md refs prims t).leaves.length then 1 else 0 := by
  have hlen : (lanesOf md md t 1 0).length ≤ W := by
    rw [length_lanesOf md t md 0]
    exact le_trans (length_frontier_le t md 0) hW
  have hne : ∀ x ∈ lanesOf md md t 1 0, x.index ≠ -1 := lanesOf_index_ne md t md 1 0
  have hseg : HasSeg (wideTreeOf W md refs prims t).flatTree 1 (nodesOf md md t 1 0) := by
    have := (HasSeg.segSelf (wideTreeOf W md refs prims t).flatTree).tail
    simpa [wideTreeOf] using this
  have hL : (wideTreeOf W md refs prims t).flatTree.length = numNodes md md t + 1 := by
    simp only [wideTreeOf, List.length_cons, length_nodesOf]
  refine ⟨?_, ?_, ?_⟩
  · have h := preorderFrom_lanes W md hmd hW (wideTreeOf W md refs prims t).flatTree t md 1 0
      (numNodes md md t) hseg (le_refl _)
    have hread : getI? (wideTreeOf W md refs prims t).flatTree 0
        = some (fillLanes (newNodeFor t.rootNode) 0 (lanesOf md md t 1 0)) := by
      have := getI?_natCast (wideTreeOf W md refs prims t).flatTree 0
      simp only [Nat.cast_zero] at this
      rw [this]
      simp only [wideTreeOf, List.getElem?_cons_zero]
    rw [hL, preorderFrom, hread]
    simp only [laneTargets_fillLanes W false _ _ hlen hne, h]
    rw [List.range_eq_range', List.range'_succ, List.map_cons]
    rfl
  · intro q
    have h := nodeTargets_count W md hmd hW q t md 1 0
    rw [hL]
    simp only [wideTreeOf, allLaneTargets_cons, laneTargets_fillLanes W false _ _ hlen hne,
      List.count_append, h]
    push_cast
    split_ifs <;> omega
  · intro q
    have h := leafTargets_count W md hmd hW q t md 1 0
    simp only [wideTreeOf, allLaneTargets_cons, laneTargets_fillLanes W true _ _ hlen hne,
      List.count_append, h, List.length_map]
    push_cast
    split_ifs <;> omega

/-! ### Every wide node is enqueued at most once -/

/-- A lane leaves the queue as it is or enqueues the target of the lane, which is interior. -/
theorem laneStep_todo (sqrtF : ℚ → ℚ) (W : Nat) (node : BvhSimdFlatNode)
    (leaves : List BvhSimdLeafNode) (prims : List Triangle) (sbs : SimdBoundingSphere)
    (overlap : ParallelOverlapResult) (j : Nat) (q q1 : QueryState)
    (h : laneStep sqrtF W node leaves prims sbs overlap j q = .ok q1) :
    q1.todo = q.todo
      ∨ (node.isLeaf j = false ∧ ∃ d, q1.todo = q.todo ++ [⟨node.indices j, d⟩]) := by
  unfold laneStep at h
  simp only at h
  split at h
  · split at h
    · rename_i hl
      cases h
      exact Or.inr ⟨by simpa using hl, _, rfl⟩
    · split at h
      · cases h
      · cases h
        exact Or.inl rfl
  · cases h
    exact Or.inl rfl

/-- The lane loop appends to the queue targets of interior lanes of the node, in lane order,
each lane at most once. -/
theorem laneLoop_todo (sqrtF : ℚ → ℚ) (W : Nat) (node : BvhSimdFlatNode)
    (leaves : List BvhSimdLeafNode) (prims : List Triangle) (sbs : SimdBoundingSphere)
    (overlap : ParallelOverlapResult) :
    ∀ (r j : Nat) (q q1 : QueryState),
      laneLoop sqrtF W node leaves prims sbs overlap r j q = .ok q1 →
      ∃ P : List BvhTraversal, q1.todo = q.todo ++ P
        ∧ (P.map fun e => e.i).Sublist
            (((List.range' j r).filter fun x =>
              decide (node.indices x ≠ -1) && (node.isLeaf x == false)).map node.indices) := by
  intro r
  induction r with
  | zero =>
    intro j q q1 h
    rw [laneLoop] at h
    cases h
    exact ⟨[], by simp, by simp⟩
  | succ r ih =>
    intro j q q1 h
    rw [laneLoop] at h
    by_cases hidx : node.indices j ≠ -1
    · rw [if_pos hidx] at h
      cases hstep : laneStep sqrtF W node leaves prims sbs overlap j q with
      | error e => rw [hstep] at h; cases h
      | ok q2 =>
        rw [hstep] at h
        obtain ⟨P, hP, hsub⟩ := ih (j + 1) q2 q1 h
        rw [List.range'_succ, List.filter_cons]
        rcases laneStep_todo sqrtF W node leaves prims sbs overlap j q q2 hstep with
          h2 | ⟨hl, d, h2⟩
        · refine ⟨P, by rw [hP, h2], ?_⟩
          split
          · rw [List.map_cons]
            exact List.Sublist.cons _ hsub
          · exact hsub
        · refine ⟨⟨node.indices j, d⟩ :: P, by rw [hP, h2]; simp, ?_⟩
          have hc : (decide (node.indices j ≠ -1) && (node.isLeaf j == false)) = true := by
            simp [hidx, hl]
          rw [if_pos hc, List.map_cons, List.map_cons]
          exact List.Sublist.cons₂ _ hsub
    · rw [if_neg hidx] at h
      cases h
      exact ⟨[], by simp, by simp⟩

/-- One pass of the outer loop appends to the queue nothing, or targets of interior lanes of the
popped node, each lane at most once. -/
theorem nodeStep_todo (sqrtF : ℚ → ℚ) (W : Nat) (ns : List BvhSimdFlatNode)
    (leaves : List BvhSimdLeafNode) (prims : List Triangle) (sbs : SimdBoundingSphere)
    (e : BvhTraversal) (q q1 : QueryState)
    (h : nodeStep sqrtF W ns leaves prims sbs e q = .ok q1) :
    ∃ node, getI? ns e.i = some node
      ∧ ∃ P : List BvhTraversal, q1.todo = q.todo ++ P
          ∧ (P.map fun x => x.i).Sublist (laneTargets W false node) := by
  unfold nodeStep at h
  simp only [readI] at h
  cases hg : getI? ns e.i with
  | none => rw [hg] at h; cases h
  | some node =>
    rw [hg] at h
    simp only at h
    refine ⟨node, rfl, ?_⟩
    split at h
    · cases h
      exact ⟨[], by simp, by simp⟩
    · obtain ⟨P, hP, hsub⟩ := laneLoop_todo sqrtF W node leaves prims sbs _ W 0 q q1 h
      refine ⟨P, hP, ?_⟩
      rw [← List.range_eq_range'] at hsub
      exact hsub

/-- In a list of nodes no two of whose lanes share a target, the targets of two different nodes
are disjoint. -/
theorem laneTargets_disjoint (W : Nat) (leafFlag : Bool) (ns : List BvhSimdFlatNode)
    (hnd : (allLaneTargets W leafFlag ns).Nodup) (a b : Nat) (na nb : BvhSimdFlatNode)
    (ha : ns[a]? = some na) (hb : ns[b]? = some nb) (hab : a ≠ b) (q : Int)
    (hqa : q ∈ laneTargets W leafFlag na) : q ∉ laneTargets W leafFlag nb := by
  have hp := (List.nodup_flatten.mp hnd).2
  rw [List.pairwise_iff_getElem] at hp
  have hal := lt_length_of_getElem? ha
  have hbl := lt_length_of_getElem? hb
  rw [List.getElem?_eq_getElem hal] at ha
  rw [List.getElem?_eq_getElem hbl] at hb
  cases ha
  cases hb
  intro hqb
  rcases Nat.lt_or_gt_of_ne hab with hlt | hgt
  · have := hp a b (by simpa using hal) (by simpa using hbl) hlt
    simp only [List.getElem_map] at this
    exact this hqa hqb
  · have := hp b a (by simpa using hbl) (by simpa using hal) hgt
    simp only [List.getElem_map] at this
    exact this hqb hqa

theorem laneTargets_mem_all (W : Nat) (leafFlag : Bool) (ns : List BvhSimdFlatNode) (a : Nat)
    (na : BvhSimdFlatNode) (ha : ns[a]? = some na) (q : Int)
    (hq : q ∈ laneTargets W leafFlag na) : q ∈ allLaneTargets W leafFlag ns := by
  simp only [allLaneTargets, List.mem_flatten, List.mem_map]
  exact ⟨_, ⟨na, List.getElem?_mem ha, rfl⟩, hq⟩

/-- One pass of the outer loop keeps the ghost invariant of the queue, in a tree of wide nodes
in which no two interior lanes share a target and node `0` is no target. -/
theorem nodeStep_once (sqrtF : ℚ → ℚ) (W : Nat) (ns : List BvhSimdFlatNode)
    (leaves : List BvhSimdLeafNode) (prims : List Triangle) (sbs : SimdBoundingSphere)
    (hnd : (allLaneTargets W false ns).Nodup) (h0 : (0 : Int) ∉ allLaneTargets W false ns)
    (done : List BvhTraversal) (e : BvhTraversal) (rest : List BvhTraversal)
    (s : BoundingSphere) (i : Interaction) (q1 : QueryState)
    (hinv : QueueOnce W ns done (e :: rest))
    (h : nodeStep sqrtF W ns leaves prims sbs e ⟨rest, s, i⟩ = .ok q1) :
    QueueOnce W ns (done ++ [e]) q1.todo := by
  obtain ⟨node, hnode, P, hP, hsub⟩ := nodeStep_todo sqrtF W ns leaves prims sbs e _ q1 h
  simp only at hP
  obtain ⟨hnodup, hsrc⟩ := hinv
  obtain ⟨ke, hke⟩ : ∃ ke : Nat, e.i = (ke : Int) ∧ ns[ke]? = some node := by
    unfold getI? at hnode
    split at hnode
    · rename_i hpos
      exact ⟨e.i.toNat, (Int.toNat_of_nonneg hpos).symm, hnode⟩
    · cases hnode
  have hlt : (laneTargets W false node).Nodup := by
    have := (List.nodup_flatten.mp hnd).1 (laneTargets W false node)
      (List.mem_map.mpr ⟨node, List.getElem?_mem hke.2, rfl⟩)
    exact this
  have hPnd : (P.map fun x => x.i).Nodup := hsub.nodup hlt
  have hnew : ∀ p ∈ P, ∀ x ∈ done ++ e :: rest, p.i ≠ x.i := by
    intro p hp x hx heq
    have hpt : p.i ∈ laneTargets W false node := hsub.subset (List.mem_map.mpr ⟨p, hp, rfl⟩)
    rcases hsrc x hx with hx0 | ⟨d, hd, nd, hnd1, hxt⟩
    · rw [heq, hx0] at hpt
      exact h0 (laneTargets_mem_all W false ns ke node hke.2 0 hpt)
    · obtain ⟨kd, hkd⟩ : ∃ kd : Nat, d.i = (kd : Int) ∧ ns[kd]? = some nd := by
        unfold getI? at hnd1
        split at hnd1
        · rename_i hpos
          exact ⟨d.i.toNat, (Int.toNat_of_nonneg hpos).symm, hnd1⟩
        · cases hnd1
      have hne : kd ≠ ke := by
        intro hk
        have hdi : d.i = e.i := by rw [hkd.1, hke.1, hk]
        rw [List.map_append, List.nodup_append] at hnodup
        exact hnodup.2.2 (List.mem_map.mpr ⟨d, hd, rfl⟩)
          (List.mem_map.mpr ⟨e, List.mem_cons_self _ _, hdi.symm⟩)
      rw [← heq] at hxt
      exact laneTargets_disjoint W false ns hnd kd ke nd node hkd.2 hke.2 hne p.i hxt hpt
  constructor
  · rw [hP]
    have e1 : (done ++ [e] ++ (rest ++ P)) = (done ++ e :: rest) ++ P := by simp
    rw [e1, List.map_append, List.nodup_append]
    refine ⟨hnodup, hPnd, ?_⟩
    intro a ha1 ha2
    obtain ⟨x, hx, rfl⟩ := List.mem_map.mp ha1
    obtain ⟨p, hp, hpx⟩ := List.mem_map.mp ha2
    exact hnew p hp x hx hpx
  · intro x hx
    rw [hP] at hx
    have e1 : (done ++ [e] ++ (rest ++ P)) = (done ++ e :: rest) ++ P := by simp
    rw [e1] at hx
    rcases List.mem_append.mp hx with hx | hx
    · rcases hsrc x hx with hx0 | ⟨d, hd, nd, hnd1, hxt⟩
      · exact Or.inl hx0
      · exact Or.inr ⟨d, List.mem_append.mpr (Or.inl hd), nd, hnd1, hxt⟩
    · exact Or.inr ⟨e, by simp, node, hnode,
        hsub.subset (List.mem_map.mpr ⟨x, hx, rfl⟩)⟩

/-- The ghost invariant of the queue holds after any number of passes. -/
theorem traversePrefix_once (sqrtF : ℚ → ℚ) (W : Nat) (ns : List BvhSimdFlatNode)
    (leaves : List BvhSimdLeafNode) (prims : List Triangle) (sbs : SimdBoundingSphere)
    (hnd : (allLaneTargets W false ns).Nodup) (h0 : (0 : Int) ∉ allLaneTargets W false ns) :
    ∀ (n : Nat) (q q1 : QueryState) (done : List BvhTraversal),
      QueueOnce W ns done q.todo →
      traversePrefix sqrtF W ns leaves prims sbs n q = .ok q1 →
      QueueOnce W ns (done ++ dequeued sqrtF W ns leaves prims sbs n q) q1.todo := by
  intro n
  induction n with
  | zero =>
    intro q q1 done hinv h
    rw [traversePrefix] at h
    cases h
    simpa [dequeued] using hinv
  | succ n ih =>
    intro q q1 done hinv h
    obtain ⟨todo, s, i⟩ := q
    cases todo with
    | nil =>
      rw [traversePrefix] at h
      cases h
      simpa [dequeued] using hinv
    | cons e rest =>
      rw [traversePrefix] at h
      simp only at h
      cases hstep : nodeStep sqrtF W ns leaves prims sbs e ⟨rest, s, i⟩ with
      | error err => rw [hstep] at h; cases h
      | ok q2 =>
        rw [hstep] at h
        have hinv2 := nodeStep_once sqrtF W ns leaves prims sbs hnd h0 done e rest s i q2 hinv
          hstep
        have := ih q2 q1 (done ++ [e]) hinv2 h
        simp only [dequeued, hstep]
        simpa using this

/-- On the wide tree of a well-formed binary tree every query runs to its end, and after any
number of passes the loop has not faulted. -/
theorem traverse_returns (sqrtF : ℚ → ℚ) (W md : Nat) (hmd : 1 ≤ md) (hW : 0 < W)
    (root : BTree) (refs : List ReferenceWrapper) (prims : List Triangle)
    (ns : List BvhSimdFlatNode) (lv : List BvhSimdLeafNode) (sbs : SimdBoundingSphere)
    (hv : RefsValid W refs prims root)
    (hroot : IsWideNodeFor W md root refs prims ns lv 0 0 root)
    (s : BoundingSphere) (i : Interaction) :
    (∀ extra, ∃ q1, traverse sqrtF W ns lv prims sbs (wideWeight md (0, root) + extra)
        { todo := [⟨0, minFloat⟩], s := s, i := i } = .ok q1 ∧ q1.todo = [])
      ∧ ∀ n, ∃ q1, traversePrefix sqrtF W ns lv prims sbs n
          { todo := [⟨0, minFloat⟩], s := s, i := i } = .ok q1 := by
  have hstart : List.Forall₂ (EntryFor W md root refs prims ns lv) [⟨0, minFloat⟩]
      [(0, root)] := List.Forall₂.cons ⟨0, rfl, hroot⟩ List.Forall₂.nil
  constructor
  · intro extra
    obtain ⟨q1, h1, h2, _⟩ := traverse_framework sqrtF W md hmd hW root refs prims ns lv sbs hv
      (fun _ _ _ _ => True) (fun _ _ _ _ _ _ => True)
      (fun _ _ _ _ _ _ _ _ _ => trivial) (fun _ _ _ _ _ _ _ _ _ => trivial)
      (fun _ _ _ _ _ _ _ _ _ _ _ _ _ _ => trivial)
      (fun _ _ _ _ _ _ _ _ _ _ _ _ _ _ _ _ _ _ => trivial)
      (fun _ _ _ _ _ _ _ _ _ _ _ _ _ _ _ _ _ _ => trivial)
      (fun _ _ _ _ _ _ _ _ => trivial) (wideWeight md (0, root) + extra)
      { todo := [⟨0, minFloat⟩], s := s, i := i } [(0, root)] hstart trivial
      (by simp [totalWeight])
    exact ⟨q1, h1, h2⟩
  · intro n
    obtain ⟨q1, _, h1, _⟩ := traversePrefix_framework sqrtF W md hmd hW root refs prims ns lv
      sbs hv (fun _ _ _ _ => True) (fun _ _ _ _ _ _ => True)
      (fun _ _ _ _ _ _ _ _ _ => trivial) (fun _ _ _ _ _ _ _ _ _ => trivial)
      ⟨fun _ _ _ _ _ _ _ _ _ _ _ _ _ _ => trivial,
        fun _ _ _ _ _ _ _ _ _ _ _ _ _ _ _ _ _ _ => trivial,
        fun _ _ _ _ _ _ _ _ _ _ _ _ _ _ _ _ _ _ => trivial⟩
      (fun _ _ _ _ _ _ _ _ => trivial) n
      { todo := [⟨0, minFloat⟩], s := s, i := i } [(0, root)] hstart trivial
    exact ⟨q1, h1⟩

/-- A list of pairwise different integers from `0` up to `n - 1` has at most `n` entries. -/
theorem length_le_of_nodup_range (xs : List Int) (n : Nat) (hnd : xs.Nodup)
    (hr : ∀ x ∈ xs, 0 ≤ x ∧ x < (n : Int)) : xs.length ≤ n := by
  have hsub : xs ⊆ (List.range n).map fun k : Nat => (k : Int) := by
    intro x hx
    obtain ⟨h0, h1⟩ := hr x hx
    refine List.mem_map.mpr ⟨x.toNat, List.mem_range.mpr (by omega), by omega⟩
  have := (List.subperm_of_subset hnd hsub).length_le
  simpa using this

/-! ### The jobs the build pops -/

theorem buildJobs_nil (W : Nat) (maxDepth : Int) (nodes : List BvhFlatNode)
    (refs : List ReferenceWrapper) (prims : List Triangle) (fuel : Nat) (st : BuildState) :
    buildJobs W maxDepth nodes refs prims fuel [] st = [] := by
  cases fuel <;> simp [buildJobs]

/-- The jobs popped for a frontier and below are the jobs of `jobNodes`, followed by what is
popped for the rest of the stack. -/
theorem buildJobs_lay (W md : Nat) (hmd : 1 ≤ md) (nodes : List BvhFlatNode)
    (refs : List ReferenceWrapper) (prims : List Triangle) :
    ∀ (t : BTree) (d i : Nat) (k dep : Int) (rest : List BvhSimdBuildNode)
      (st st1 : BuildState) (n : Nat), k ≠ -1 → HasSubtree nodes i t →
      lay W md nodes refs prims k dep d i t st = .ok st1 →
      (buildJobs W (md : Int) nodes refs prims (n + jobCount md d t)
          (jobsOf k dep (frontier d i t) ++ rest) st).map (fun j => j.nodeIndex)
        = (jobNodes md d i t).map (fun x : Nat => (x : Int))
            ++ (buildJobs W (md : Int) nodes refs prims n rest st1).map
                (fun j => j.nodeIndex) := by
  intro t
  induction t with
  | leaf b s n0 =>
    intro d i k dep rest st st1 n hk hsub hlay
    have hroot := hsub.root
    simp only [frontier, jobsOf, List.map_cons, List.map_nil, List.singleton_append, jobCount,
      jobNodes]
    simp only [lay] at hlay
    rw [buildJobs, buildStep]
    cases hp : processJob W nodes refs prims ⟨i, k, dep⟩ st with
    | error e => rw [hp] at hlay; cases hlay
    | ok r =>
      obtain ⟨st2, o⟩ := r
      rw [hp] at hlay
      simp only at hlay
      cases hlay
      have hnone := processJob_leaf_none W nodes refs prims i k dep st _ hroot rfl hk _ hp
      simp only at hnone
      subst hnone
      simp only [List.map_cons, List.singleton_append]
  | node b s n0 l r ihl ihr =>
    intro d i k dep rest st st1 n hk hsub hlay
    have hroot := hsub.root
    cases d with
    | zero =>
      simp only [frontier, jobsOf, List.map_cons, List.map_nil, List.singleton_append, jobCount,
        jobNodes]
      simp only [lay] at hlay
      rw [show n + (1 + jobCount md (md - 1) l + jobCount md (md - 1) r)
        = (n + jobCount md (md - 1) r + jobCount md (md - 1) l) + 1 by omega, buildJobs,
        buildStep]
      cases hp : processJob W nodes refs prims ⟨i, k, dep⟩ st with
      | error e => rw [hp] at hlay; cases hlay
      | ok res =>
        obtain ⟨st2, o⟩ := res
        obtain ⟨k1, ho, hk1⟩ := processJob_node_some W nodes refs prims i k dep st _ hroot
          (by simp only [BTree.rootNode]; omega) _ hp
        simp only at ho
        subst ho
        rw [hp] at hlay
        simp only at hlay ⊢
        rw [expand_root md nodes k1 dep i _ rest hsub]
        simp only
        obtain ⟨m, rfl⟩ : ∃ m, md = m + 1 := ⟨md - 1, by omega⟩
        simp only [Nat.add_sub_cancel] at hlay ⊢
        cases hl : lay W (m + 1) nodes refs prims k1 (dep + 1) m (i + 1) l st2 with
        | error e => rw [hl] at hlay; cases hlay
        | ok st3 =>
          rw [hl] at hlay
          simp only at hlay
          simp only [frontier, jobsOf_append, List.append_assoc, List.map_cons,
            List.cons_append, List.map_append]
          rw [ihl m (i + 1) k1 (dep + 1) _ st2 st3 _ hk1 hsub.left hl,
            ihr m (i + 1 + l.size) k1 (dep + 1) _ st3 st1 _ hk1 hsub.right hlay]
    | succ d =>
      simp only [lay] at hlay
      cases hl : lay W md nodes refs prims k dep d (i + 1) l st with
      | error e => rw [hl] at hlay; cases hlay
      | ok st3 =>
        rw [hl] at hlay
        simp only at hlay
        simp only [frontier, jobsOf_append, List.append_assoc, jobCount, jobNodes,
          List.map_append]
        rw [show n + (jobCount md d l + jobCount md d r)
          = (n + jobCount md d r) + jobCount md d l by omega,
          ihl d (i + 1) k dep _ st st3 _ hk hsub.left hl,
          ihr d (i + 1 + l.size) k dep _ st3 st1 _ hk hsub.right hlay]

/-- The binary nodes of the jobs of a subtree lie in the subtree and come in increasing
order. -/
theorem jobNodes_sorted (md : Nat) (t : BTree) :
    ∀ (d i : Nat), (∀ x ∈ jobNodes md d i t, i ≤ x ∧ x < i + t.size)
      ∧ (jobNodes md d i t).Pairwise (fun a b => a < b) := by
  induction t with
  | leaf b s n =>
    intro d i
    simp [jobNodes, BTree.size]
  | node b s n l r ihl ihr =>
    intro d i
    cases d with
    | zero =>
      obtain ⟨hl1, hl2⟩ := ihl (md - 1) (i + 1)
      obtain ⟨hr1, hr2⟩ := ihr (md - 1) (i + 1 + l.size)
      simp only [jobNodes, BTree.size, List.mem_cons, List.mem_append, List.pairwise_cons,
        List.pairwise_append]
      refine ⟨?_, ?_, hl2, hr2, ?_⟩
      · rintro x (rfl | h | h)
        · omega
        · have := hl1 x h; omega
        · have := hr1 x h; omega
      · rintro x (h | h)
        · have := hl1 x h; omega
        · have := hr1 x h; omega
      · intro a ha c hc
        have := hl1 a ha
        have := hr1 c hc
        omega
    | succ d =>
      obtain ⟨hl1, hl2⟩ := ihl d (i + 1)
      obtain ⟨hr1, hr2⟩ := ihr d (i + 1 + l.size)
      simp only [jobNodes, BTree.size, List.mem_append, List.pairwise_append]
      refine ⟨?_, hl2, hr2, ?_⟩
      · rintro x (h | h)
        · have := hl1 x h; omega
        · have := hr1 x h; omega
      · intro a ha c hc
        have := hl1 a ha
        have := hr1 c hc
        omega

/-- The jobs `build` pops on a well-formed tree: the root job, then the jobs of `jobNodes`. -/
theorem buildJobs_root (W md : Nat) (hmd : 1 ≤ md) (hW : 2 ^ md ≤ W)
    (refs : List ReferenceWrapper) (prims : List Triangle) (t : BTree)
    (hv : RefsValid W refs prims t) (extra : Nat) :
    (buildJobs W (md : Int) t.flatten refs prims (t.size + 1 + extra) [⟨0, -1, 0⟩]
        { buildNodes := [], buildLeaves := [], nNodes := 0, nLeaves := 0, depth := 0,
          averageLeafSize := 0 }).map (fun j => j.nodeIndex)
      = 0 :: (jobNodes md md 0 t).map (fun x : Nat => (x : Int)) := by
  have hsub := HasSubtree.self t
  have hroot := hsub.root
  have hjc := jobCount_le_size md t md
  rw [show t.size + 1 + extra = ((t.size - jobCount md md t + extra) + jobCount md md t) + 1 by
    omega, buildJobs, buildStep]
  have hp := processJob_root W t.flatten refs prims 0 0
    { buildNodes := [], buildLeaves := [], nNodes := 0, nLeaves := 0, depth := 0,
      averageLeafSize := 0 } _ hroot
  simp only [Nat.cast_zero] at hp
  rw [hp]
  simp only
  have he := expand_root md t.flatten ((0 : Nat) : Int) 0 0 t [] hsub
  simp only [Nat.cast_zero, List.length_nil] at he ⊢
  rw [he]
  simp only
  have hq := lay_eq W md hmd hW t.flatten refs prims t md 0 0 (0 + 1)
    { buildNodes := [newNodeFor t.rootNode], buildLeaves := [], nNodes := 0 + 1, nLeaves := 0,
      depth := 0, averageLeafSize := 0 } (newNodeFor t.rootNode) 0 hsub
    (fun cur hcur => (packLeafD_spec W refs prims t hv cur hcur).1) rfl (newNodeFor_filled _)
    (by have := length_frontier_le t md 0; omega)
  have hl := buildJobs_lay W md hmd t.flatten refs prims t md 0 ((0 : Nat) : Int) (0 + 1) []
    { buildNodes := [newNodeFor t.rootNode], buildLeaves := [], nNodes := 0 + 1, nLeaves := 0,
      depth := 0, averageLeafSize := 0 } _ (t.size - jobCount md md t + extra) (by simp) hsub hq
  simp only [Nat.cast_zero, lt_self_iff_false, if_false, List.nil_append, List.append_nil,
    List.map_cons] at hl ⊢
  rw [hl, buildJobs_nil]
  simp

/-! ## Claims about the nearest primitive -/

/-- C1 (counterexample): a leaf references three triangles that share the vertex nearest to the
query centre, in the order 1, 0, 2. The boxes enclose the primitives and the query ends with the
minimum distance, but it names primitive `1`, where a linear scan names primitive `0`, or
primitive `2` when it keeps the later of equally near primitives. And on the tree of a triangle
whose vertices coincide, the query ends with the squared radius `1` and leaves the interaction
at its initial value, where the linear scan names primitive `0` at distance `1`. -/
theorem findClosestPoint_differs_from_linear_scan :
    (∃ bvh, build 4 (tieTree.size + 1 + 0) tieTree.flatten tieRefs tiePrims = .ok bvh
        ∧ Encloses tieRefs tiePrims tieTree
        ∧ findClosestPoint id 4 1 bvh tiePrims ⟨⟨0, 0, 1⟩, maxFloat⟩ initInteraction
            = .ok (true, ⟨⟨0, 0, 1⟩, 1⟩, ⟨⟨0, 0, 0⟩, Vector3.zero, 1, some 1⟩)
        ∧ linearScan id false tiePrims ⟨⟨0, 0, 1⟩, maxFloat⟩ initInteraction
            = (⟨⟨0, 0, 1⟩, 1⟩, ⟨⟨0, 0, 0⟩, Vector3.zero, 1, some 0⟩)
        ∧ linearScan id true tiePrims ⟨⟨0, 0, 1⟩, maxFloat⟩ initInteraction
            = (⟨⟨0, 0, 1⟩, 1⟩, ⟨⟨0, 0, 0⟩, Vector3.zero, 1, some 2⟩))
      ∧ (∃ bvh, build 4 (pointTree.size + 1 + 0) pointTree.flatten [⟨0⟩] [pointTri] = .ok bvh
        ∧ Encloses [⟨0⟩] [pointTri] pointTree
        ∧ findClosestPoint id 4 1 bvh [pointTri] ⟨⟨0, 0, 0⟩, maxFloat⟩ initInteraction
            = .ok (true, ⟨⟨0, 0, 0⟩, 1⟩, initInteraction)
        ∧ ∀ keepLater, linearScan id keepLater [pointTri] ⟨⟨0, 0, 0⟩, maxFloat⟩ initInteraction
            = (⟨⟨0, 0, 0⟩, 1⟩, ⟨⟨1, 0, 0⟩, Vector3.zero, 1, some 0⟩)) :=
  ⟨⟨tieBvh, tieBvh_eq_build, tieTree_encloses, by decide!, by decide!, by decide!⟩,
   ⟨pointBvh, pointBvh_eq_build, pointTree_encloses, by decide!, by decide!⟩⟩

/-- C1 (amended): on the wide tree `build` makes from a well-formed binary tree whose node boxes
enclose their primitives, whose leaves hold between one and `W` references and whose triangles
are not degenerate, `findClosestPoint` returns for every query sphere. When a point of a
primitive lies strictly inside the sphere, it ends with `r2` the least squared distance from the
centre to the primitives, with the interaction on a point at that distance of the primitive it
names and `d` the square root of `r2`; when the tree references every primitive, a linear scan
ends with the same `r2` and `d`, whichever of equally near primitives it keeps. When no point
of a primitive lies strictly inside the sphere, sphere and interaction are left as given. -/
theorem findClosestPoint_nearest (sqrtF : ℚ → ℚ) (W : Nat) (hW : W = 4 ∨ W = 8 ∨ W = 16)
    (refs : List ReferenceWrapper) (prims : List Triangle) (t : BTree)
    (hv : RefsValid W refs prims t) (hsize : LeafSized W t) (henc : Encloses refs prims t)
    (hnd : ∀ p tri, PrimUnder refs prims t p tri → NonDegenerate tri)
    (s : BoundingSphere) (i : Interaction) (extra : Nat) :
    ∃ bvh b s1 i1, build W (t.size + 1 + extra) t.flatten refs prims = .ok bvh
      ∧ findClosestPoint sqrtF W (bvh.flatTree.length + extra) bvh prims s i = .ok (b, s1, i1)
      ∧ ((∃ y, PointUnder refs prims t y ∧ Vector3.dist2 y s.c < s.r2) →
          (∃ p tri, i1.primitive = some p ∧ PrimUnder refs prims t p tri ∧ OnTriangle tri i1.p
              ∧ Vector3.dist2 i1.p s.c = s1.r2 ∧ i1.d = sqrtF s1.r2)
            ∧ (∀ y, PointUnder refs prims t y → s1.r2 ≤ Vector3.dist2 y s.c)
            ∧ ((∀ tri ∈ prims, ∃ p, PrimUnder refs prims t p tri) → ∀ keepLater,
                (linearScan sqrtF keepLater prims s i).1.r2 = s1.r2
                  ∧ (linearScan sqrtF keepLater prims s i).2.d = i1.d))
      ∧ ((∀ y, PointUnder refs prims t y → s.r2 ≤ Vector3.dist2 y s.c) → s1 = s ∧ i1 = i) := by
  obtain ⟨_, h2, h3, _⟩ := maxDepthOf_cases W hW
  have hWpos : 0 < W := by rcases hW with rfl | rfl | rfl <;> decide
  have hroot := (wideTreeOf_isWideNodeFor W _ h2 (le_of_eq h3) refs prims t).1
  by_cases hreach : ∃ y, PointUnder refs prims t y ∧ Vector3.dist2 y s.c < s.r2
  · obtain ⟨q1, hq1, hex, hmin⟩ := traverse_closest sqrtF W _ h2 hWpos t refs prims _ _
      (SimdBoundingSphere.ofSphere s) hv hroot s.c rfl hsize henc hnd s i hreach extra
    refine ⟨_, decide (q1.s.r2 ≠ maxFloat), q1.s, q1.i, build_eq W hW refs prims t hv extra, ?_,
      ?_, ?_⟩
    · rw [length_wideTreeOf]
      simp only [findClosestPoint, hq1]
    · intro _
      refine ⟨hex, hmin, ?_⟩
      intro hall keepLater
      obtain ⟨_, _, r3, r4⟩ := linearScanFrom_spec sqrtF keepLater prims 0 (s, i)
        (fun tri htri => by
          obtain ⟨p, hp⟩ := hall tri htri
          exact hnd p tri hp)
      obtain ⟨p1, tri1, _, hpu1, hon1, hd1, hdd1⟩ := hex
      unfold linearScan
      have le1 : (linearScanFrom sqrtF keepLater 0 prims (s, i)).1.r2 ≤ q1.s.r2 := by
        rw [← hd1]
        exact r3 tri1 hpu1.mem _ hon1
      rcases r4 with r4 | ⟨r4, tri2, ht2, y2, hy2, hd2⟩
      · exfalso
        obtain ⟨y, ⟨p, tri, hp, hon⟩, hlt⟩ := hreach
        have := r3 tri hp.mem y hon
        rw [r4] at this
        exact absurd this (not_le.mpr hlt)
      · have ge1 : q1.s.r2 ≤ (linearScanFrom sqrtF keepLater 0 prims (s, i)).1.r2 := by
          rw [← hd2]
          obtain ⟨p2, hp2⟩ := hall tri2 ht2
          exact hmin y2 ⟨p2, tri2, hp2, hy2⟩
        exact ⟨le_antisymm le1 ge1, by rw [r4, hdd1, le_antisymm le1 ge1]⟩
    · intro hno
      obtain ⟨y, hy, hlt⟩ := hreach
      exact absurd (hno y hy) (not_le.mpr hlt)
  · have hno : ∀ y, PointUnder refs prims t y → s.r2 ≤ Vector3.dist2 y s.c := by
      intro y hy
      by_contra hc
      exact hreach ⟨y, hy, not_le.mp hc⟩
    obtain ⟨q1, hq1, hs, hi⟩ := traverse_unchanged sqrtF W _ h2 hWpos t refs prims _ _
      (SimdBoundingSphere.ofSphere s) hv hroot s.c rfl hsize henc hnd s i hno extra
    refine ⟨_, decide (q1.s.r2 ≠ maxFloat), q1.s, q1.i, build_eq W hW refs prims t hv extra, ?_,
      ?_, ?_⟩
    · rw [length_wideTreeOf]
      simp only [findClosestPoint, hq1]
    · intro hr
      exact absurd hr hreach
    · intro _
      exact ⟨hs, hi⟩

/-- Witness of the amended C1 on the example tree, queried from `(1/4, 1/4, 1)` with the sentinel
radius: the origin, a point of triangle `0`, lies strictly inside the sphere, and the tree
references all three triangles. -/
theorem findClosestPoint_nearest_witness :
    ∃ bvh b s1 i1, build 4 (exTree.size + 1 + 0) exTree.flatten exRefs exPrims = .ok bvh
      ∧ findClosestPoint id 4 (bvh.flatTree.length + 0) bvh exPrims
          ⟨⟨1 / 4, 1 / 4, 1⟩, maxFloat⟩ initInteraction = .ok (b, s1, i1)
      ∧ (∃ p tri, i1.primitive = some p ∧ PrimUnder exRefs exPrims exTree p tri
          ∧ OnTriangle tri i1.p ∧ Vector3.dist2 i1.p ⟨1 / 4, 1 / 4, 1⟩ = s1.r2
          ∧ i1.d = id s1.r2)
      ∧ (∀ y, PointUnder exRefs exPrims exTree y → s1.r2 ≤ Vector3.dist2 y ⟨1 / 4, 1 / 4, 1⟩)
      ∧ ∀ keepLater,
          (linearScan id keepLater exPrims ⟨⟨1 / 4, 1 / 4, 1⟩, maxFloat⟩ initInteraction).1.r2
              = s1.r2
            ∧ (linearScan id keepLater exPrims ⟨⟨1 / 4, 1 / 4, 1⟩, maxFloat⟩ initInteraction).2.d
              = i1.d := by
  obtain ⟨bvh, b, s1, i1, h1, h2, h3, _⟩ := findClosestPoint_nearest id 4 (Or.inl rfl) exRefs
    exPrims exTree exTree_refsValid exTree_leafSized exTree_encloses exTree_nonDegenerate
    ⟨⟨1 / 4, 1 / 4, 1⟩, maxFloat⟩ initInteraction 0
  obtain ⟨h4, h5, h6⟩ := h3 ⟨⟨0, 0, 0⟩,
    ⟨0, exTri0, exTree_primUnder.1, 0, 0, le_refl _, le_refl _, by norm_num, point_a exTri0⟩,
    by norm_num [Vector3.dist2, maxFloat]⟩
  refine ⟨bvh, b, s1, i1, h1, h2, h4, h5, h6 ?_⟩
  intro tri htri
  simp only [exPrims, List.mem_cons, List.mem_singleton, List.not_mem_nil, or_false] at htri
  rcases htri with rfl | rfl | rfl
  · exact ⟨0, exTree_primUnder.1⟩
  · exact ⟨1, exTree_primUnder.2.1⟩
  · exact ⟨2, exTree_primUnder.2.2⟩

/-! ## Claims about the builder -/

/-- C5: for `W` in `{4, 8, 16}`, where `2 ^ maxDepth = W`, and every well-formed binary tree
whose leaf references are in range, `build` returns a wide tree in which node `0` is the wide
node of the root and every interior frontier node has a wide node of its own, and the children
of the wide node created for a binary node are exactly the frontier of that node's subtree cut
`maxDepth` levels below it, at most `W` of them. The frontier consists of the leaves at relative
depth at most `maxDepth` and the interior nodes at relative depth exactly `maxDepth`. -/
theorem build_children_are_frontier (W : Nat) (hW : W = 4 ∨ W = 8 ∨ W = 16)
    (refs : List ReferenceWrapper) (prims : List Triangle) (t : BTree)
    (hv : RefsValid W refs prims t) (extra : Nat) :
    2 ^ (maxDepthOf W).toNat = W
      ∧ (∃ bvh, build W (t.size + 1 + extra) t.flatten refs prims = .ok bvh
          ∧ IsWideNodeFor W (maxDepthOf W).toNat t refs prims
              bvh.flatTree bvh.leaves 0 0 t)
      ∧ (∀ (s : BTree) (d i : Nat), (frontier d i s).length ≤ 2 ^ d)
      ∧ (∀ (s : BTree) (d i : Nat) (c : Nat × BTree), c ∈ frontier d i s ↔
          ∃ p, descend i s p = some c
            ∧ ((c.2.isLeaf = true ∧ p.length ≤ d) ∨ (c.2.isLeaf = false ∧ p.length = d))) := by
  obtain ⟨_, h2, h3, _⟩ := maxDepthOf_cases W hW
  refine ⟨h3, ⟨_, build_eq W hW refs prims t hv extra, ?_⟩, fun s d i => length_frontier_le s d i,
    fun s d i c => mem_frontier_iff s d i c⟩
  exact (wideTreeOf_isWideNodeFor W _ h2 (le_of_eq h3) refs prims t).1

/-- Witness of C5 on the example tree with `W = 4`. -/
theorem build_children_are_frontier_witness :
    2 ^ (maxDepthOf 4).toNat = 4
      ∧ (∃ bvh, build 4 (exTree.size + 1 + 0) exTree.flatten exRefs exPrims = .ok bvh
          ∧ IsWideNodeFor 4 (maxDepthOf 4).toNat exTree exRefs exPrims
              bvh.flatTree bvh.leaves 0 0 exTree)
      ∧ (∀ (s : BTree) (d i : Nat), (frontier d i s).length ≤ 2 ^ d)
      ∧ (∀ (s : BTree) (d i : Nat) (c : Nat × BTree), c ∈ frontier d i s ↔
          ∃ p, descend i s p = some c
            ∧ ((c.2.isLeaf = true ∧ p.length ≤ d) ∨ (c.2.isLeaf = false ∧ p.length = d))) :=
  build_children_are_frontier 4 (Or.inl rfl) exRefs exPrims exTree exTree_refsValid 0

/-- C6: for every well-formed binary tree, every wide node `k` of the tree `build` returns is
the node created for some binary node `i`, its lanes `0, 1, 2, ...` hold the frontier nodes of
`i` in list order, and along that order the binary-node indices strictly increase. -/
theorem build_lanes_in_tree_order (W : Nat) (hW : W = 4 ∨ W = 8 ∨ W = 16)
    (refs : List ReferenceWrapper) (prims : List Triangle) (t : BTree)
    (hv : RefsValid W refs prims t) (extra : Nat) :
    ∃ bvh, build W (t.size + 1 + extra) t.flatten refs prims = .ok bvh
      ∧ ∀ k, k < bvh.flatTree.length →
          ∃ i s, IsWideNodeFor W (maxDepthOf W).toNat t refs prims
              bvh.flatTree bvh.leaves k i s
            ∧ ∀ (x y : Nat) (cx cy : Nat × BTree), x < y →
                (frontier (maxDepthOf W).toNat i s)[x]? = some cx →
                (frontier (maxDepthOf W).toNat i s)[y]? = some cy → cx.1 < cy.1 := by
  obtain ⟨_, h2, h3, _⟩ := maxDepthOf_cases W hW
  refine ⟨_, build_eq W hW refs prims t hv extra, ?_⟩
  intro k hk
  obtain ⟨i, s, hw⟩ := (wideTreeOf_isWideNodeFor W _ h2 (le_of_eq h3) refs prims t).2 k hk
  exact ⟨i, s, hw, fun x y cx cy hxy hx hy => frontier_increasing s _ i x y cx cy hxy hx hy⟩

/-- Witness of C6 on the example tree with `W = 4`. -/
theorem build_lanes_in_tree_order_witness :
    ∃ bvh, build 4 (exTree.size + 1 + 0) exTree.flatten exRefs exPrims = .ok bvh
      ∧ ∀ k, k < bvh.flatTree.length →
          ∃ i s, IsWideNodeFor 4 (maxDepthOf 4).toNat exTree exRefs exPrims
              bvh.flatTree bvh.leaves k i s
            ∧ ∀ (x y : Nat) (cx cy : Nat × BTree), x < y →
                (frontier (maxDepthOf 4).toNat i s)[x]? = some cx →
                (frontier (maxDepthOf 4).toNat i s)[y]? = some cy → cx.1 < cy.1 :=
  build_lanes_in_tree_order 4 (Or.inl rfl) exRefs exPrims exTree exTree_refsValid 0

/-- C7: `build` emits one wide leaf per binary leaf, in order; the wide leaf of a binary leaf
with start `s` and count `n` has in each lane `x < n` the index `references[s + x].index` and
the three vertices of that triangle, and in each lane `x ≥ n` the index `-1` and zero
coordinates. -/
theorem build_leaf_packing (W : Nat) (hW : W = 4 ∨ W = 8 ∨ W = 16)
    (refs : List ReferenceWrapper) (prims : List Triangle) (t : BTree)
    (hv : RefsValid W refs prims t) (extra : Nat) :
    ∃ bvh, build W (t.size + 1 + extra) t.flatten refs prims = .ok bvh
      ∧ bvh.leaves.length = t.leafNodes.length
      ∧ ∀ (m : Nat) (cur : BvhFlatNode), t.leafNodes[m]? = some cur →
          ∃ leaf, bvh.leaves[m]? = some leaf
            ∧ ∀ x : Nat, x < W →
              ((x : Int) < cur.nPrimitives →
                  ∃ ref prim, getI? refs (cur.start + x) = some ref
                    ∧ getI? prims ref.index = some prim
                    ∧ leaf.indices x = ref.index
                    ∧ (leaf.triangles 0).lane x = prim.a
                    ∧ (leaf.triangles 1).lane x = prim.b
                    ∧ (leaf.triangles 2).lane x = prim.c)
              ∧ (cur.nPrimitives ≤ (x : Int) →
                  leaf.indices x = -1
                    ∧ (leaf.triangles 0).lane x = Vector3.zero
                    ∧ (leaf.triangles 1).lane x = Vector3.zero
                    ∧ (leaf.triangles 2).lane x = Vector3.zero) := by
  refine ⟨_, build_eq W hW refs prims t hv extra, by simp [wideTreeOf], ?_⟩
  intro m cur hcur
  have hmem : cur ∈ t.leafNodes := List.getElem?_mem hcur
  refine ⟨packLeafD W refs prims cur, by simp [wideTreeOf, hcur], ?_⟩
  intro x hx
  obtain ⟨h1, h2⟩ := (packLeafD_spec W refs prims t hv cur hmem).2 x hx
  constructor
  · intro hlt
    obtain ⟨ref, prim, e1, e2, e3, e4⟩ := h1 hlt
    exact ⟨ref, prim, e1, e2, e3, e4 0, e4 1, e4 2⟩
  · intro hge
    obtain ⟨e3, e4⟩ := h2 hge
    exact ⟨e3, e4 0, e4 1, e4 2⟩

/-- Witness of C7 on the example tree with `W = 4`. -/
theorem build_leaf_packing_witness :
    ∃ bvh, build 4 (exTree.size + 1 + 0) exTree.flatten exRefs exPrims = .ok bvh
      ∧ bvh.leaves.length = exTree.leafNodes.length
      ∧ ∀ (m : Nat) (cur : BvhFlatNode), exTree.leafNodes[m]? = some cur →
          ∃ leaf, bvh.leaves[m]? = some leaf
            ∧ ∀ x : Nat, x < 4 →
              ((x : Int) < cur.nPrimitives →
                  ∃ ref prim, getI? exRefs (cur.start + x) = some ref
                    ∧ getI? exPrims ref.index = some prim
                    ∧ leaf.indices x = ref.index
                    ∧ (leaf.triangles 0).lane x = prim.a
                    ∧ (leaf.triangles 1).lane x = prim.b
                    ∧ (leaf.triangles 2).lane x = prim.c)
              ∧ (cur.nPrimitives ≤ (x : Int) →
                  leaf.indices x = -1
                    ∧ (leaf.triangles 0).lane x = Vector3.zero
                    ∧ (leaf.triangles 1).lane x = Vector3.zero
                    ∧ (leaf.triangles 2).lane x = Vector3.zero) :=
  build_leaf_packing 4 (Or.inl rfl) exRefs exPrims exTree exTree_refsValid 0

/-- C8: a freshly constructed wide node satisfies the lane invariant, a slot fill at the lane
found by the free-slot search preserves it, and every wide node of the tree `build` returns
satisfies it: the lanes with `indices != -1` are the first `k` of the `W` lanes, each of them
holds a leaf index below the number of wide leaves or a node index below the number of wide
nodes according to `isLeaf`, and every other lane has `indices = -1` and `isLeaf = false`. -/
theorem build_lane_invariant (W : Nat) (hW : W = 4 ∨ W = 8 ∨ W = 16)
    (refs : List ReferenceWrapper) (prims : List Triangle) (t : BTree)
    (hv : RefsValid W refs prims t) (extra : Nat) :
    (∀ nNodes nLeaves, LaneInvariant W nNodes nLeaves BvhSimdFlatNode.new)
      ∧ (∀ (nNodes nLeaves : Nat) (node : BvhSimdFlatNode) (j : Nat) (l : LaneSpec),
          LaneInvariant W nNodes nLeaves node →
          slotSearch node.indices (W - 1) 0 = .ok j → 0 ≤ l.index →
          (l.isLeaf = true → l.index < (nLeaves : Int)) →
          (l.isLeaf = false → l.index < (nNodes : Int)) →
          LaneInvariant W nNodes nLeaves (fillLane node j l))
      ∧ ∃ bvh, build W (t.size + 1 + extra) t.flatten refs prims = .ok bvh
          ∧ ∀ node ∈ bvh.flatTree,
              LaneInvariant W bvh.flatTree.length bvh.leaves.length node := by
  obtain ⟨_, h2, h3, _⟩ := maxDepthOf_cases W hW
  have hWpos : 0 < W := by rcases hW with rfl | rfl | rfl <;> decide
  refine ⟨fun nN nL => (laneInvariant_new W nN nL ⟨⟨Vector3.zero, Vector3.zero⟩, 0, 0, 0⟩).1,
    fun nN nL node j l hinv hslot h0 h1 h2 =>
      laneInvariant_fillLane W nN nL hWpos node j l hinv hslot h0 h1 h2,
    _, build_eq W hW refs prims t hv extra, ?_⟩
  intro node hnode
  obtain ⟨k, hk, hget⟩ := List.getElem_of_mem hnode
  obtain ⟨i, s, hw⟩ := (wideTreeOf_isWideNodeFor W _ h2 (le_of_eq h3) refs prims t).2 k hk
  exact hw.laneInvariant node (by rw [List.getElem?_eq_getElem hk, hget])

/-- Witness of C8 on the example tree with `W = 4`. -/
theorem build_lane_invariant_witness :
    (∀ nNodes nLeaves, LaneInvariant 4 nNodes nLeaves BvhSimdFlatNode.new)
      ∧ (∀ (nNodes nLeaves : Nat) (node : BvhSimdFlatNode) (j : Nat) (l : LaneSpec),
          LaneInvariant 4 nNodes nLeaves node →
          slotSearch node.indices (4 - 1) 0 = .ok j → 0 ≤ l.index →
          (l.isLeaf = true → l.index < (nLeaves : Int)) →
          (l.isLeaf = false → l.index < (nNodes : Int)) →
          LaneInvariant 4 nNodes nLeaves (fillLane node j l))
      ∧ ∃ bvh, build 4 (exTree.size + 1 + 0) exTree.flatten exRefs exPrims = .ok bvh
          ∧ ∀ node ∈ bvh.flatTree,
              LaneInvariant 4 bvh.flatTree.length bvh.leaves.length node :=
  build_lane_invariant 4 (Or.inl rfl) exRefs exPrims exTree exTree_refsValid 0

/-- C10: if in the binary tree every child's box lies within its parent's box, then in the wide
tree `build` returns every valid lane stores exactly the box of the frontier node it was created
from, and for every interior lane, with stored box `B` and target `M`, the stored box of every
valid lane of `M` lies within `B`. -/
theorem build_boxes_contained (W : Nat) (hW : W = 4 ∨ W = 8 ∨ W = 16)
    (refs : List ReferenceWrapper) (prims : List Triangle) (t : BTree)
    (hv : RefsValid W refs prims t) (hcont : Contained t) (extra : Nat) :
    ∃ bvh, build W (t.size + 1 + extra) t.flatten refs prims = .ok bvh
      ∧ ∀ (k : Nat) (node : BvhSimdFlatNode), bvh.flatTree[k]? = some node →
          ∀ x, x < W → node.indices x ≠ -1 →
            (∃ i s c, IsWideNodeFor W (maxDepthOf W).toNat t refs prims
                  bvh.flatTree bvh.leaves k i s
                ∧ (frontier (maxDepthOf W).toNat i s)[x]? = some c
                ∧ laneBox node x = c.2.bbox)
            ∧ (node.isLeaf x = false →
                ∃ M, getI? bvh.flatTree (node.indices x) = some M
                  ∧ ∀ y, y < W → M.indices y ≠ -1 → BoxWithin (laneBox M y) (laneBox node x)) := by
  obtain ⟨_, h2, h3, _⟩ := maxDepthOf_cases W hW
  refine ⟨_, build_eq W hW refs prims t hv extra, ?_⟩
  intro k node hnode x _ hvalid
  have hk := lt_length_of_getElem? hnode
  obtain ⟨i, s, hw⟩ := (wideTreeOf_isWideNodeFor W _ h2 (le_of_eq h3) refs prims t).2 k hk
  have hx := hw.lane_lt node hnode x hvalid
  have hc : (frontier (maxDepthOf W).toNat i s)[x]?
      = some (frontier (maxDepthOf W).toNat i s)[x] := List.getElem?_eq_getElem hx
  obtain ⟨hbox, hleaf, _⟩ := hw.lane_box node hnode x _ hc
  refine ⟨⟨i, s, _, hw, hc, hbox⟩, ?_⟩
  intro hint
  obtain ⟨m, hm, _, hwm⟩ := hw.child node hnode x _ hc (by rw [← hleaf]; exact hint)
  obtain ⟨M, hM, hsubM, _⟩ := hwm.node_exists
  refine ⟨M, by rw [hm, getI?_natCast]; exact hM, ?_⟩
  intro y _ hyvalid
  have hy := hwm.lane_lt M hM y hyvalid
  have hcy := List.getElem?_eq_getElem hy
  obtain ⟨hboxy, _, _⟩ := hwm.lane_box M hM y _ hcy
  rw [hboxy, hbox]
  exact (frontier_within _ _ _ _ (hsubM.contained hcont) (List.getElem?_mem hcy)).1

/-- Witness of C10 on the example tree with `W = 4`. -/
theorem build_boxes_contained_witness :
    ∃ bvh, build 4 (exTree.size + 1 + 0) exTree.flatten exRefs exPrims = .ok bvh
      ∧ ∀ (k : Nat) (node : BvhSimdFlatNode), bvh.flatTree[k]? = some node →
          ∀ x, x < 4 → node.indices x ≠ -1 →
            (∃ i s c, IsWideNodeFor 4 (maxDepthOf 4).toNat exTree exRefs exPrims
                  bvh.flatTree bvh.leaves k i s
                ∧ (frontier (maxDepthOf 4).toNat i s)[x]? = some c
                ∧ laneBox node x = c.2.bbox)
            ∧ (node.isLeaf x = false →
                ∃ M, getI? bvh.flatTree (node.indices x) = some M
                  ∧ ∀ y, y < 4 → M.indices y ≠ -1 → BoxWithin (laneBox M y) (laneBox node x)) :=
  build_boxes_contained 4 (Or.inl rfl) exRefs exPrims exTree exTree_refsValid exTree_contained 0

/-- C9 (failing input): with `W = 4`, a binary tree that is one leaf holding the five references
`0 .. 4` is turned into a wide tree none of whose leaf lanes holds primitive index `4`, although
the leaf references it: the packing loop stops at lane `W - 1`. -/
theorem build_drops_reference_beyond_width :
    getI? fiveRefs (0 + 4) = some ⟨4⟩
      ∧ ∃ bvh, build 4 2 fiveTree.flatten fiveRefs fivePrims = .ok bvh
          ∧ bvh.leaves.length = 1
          ∧ ∀ leaf ∈ bvh.leaves, ∀ x, x < 4 → leaf.indices x ≠ 4 := by
  refine ⟨rfl, ?_⟩
  have hall : (match build 4 2 fiveTree.flatten fiveRefs fivePrims with
      | .ok bvh => decide (bvh.leaves.length = 1)
          && bvh.leaves.all (fun leaf => (List.range 4).all (fun x => leaf.indices x != 4))
      | .error _ => false) = true := by decide!
  cases h : build 4 2 fiveTree.flatten fiveRefs fivePrims with
  | error e => rw [h] at hall; cases hall
  | ok bvh =>
    rw [h] at hall
    simp only [Bool.and_eq_true, decide_eq_true_eq, List.all_eq_true, List.mem_range, bne_iff_ne,
      ne_eq] at hall
    exact ⟨bvh, rfl, hall.1, hall.2⟩

/-! ## Claims about the width check and the two kernels -/

/-- C15: `build` ends with the fault of an invalid width exactly when `W` is none of 4, 8
and 16, and then it does so whatever the inputs are, before any node is read or made; for
`W = 4, 8, 16` the depth `maxDepth` is `2, 3, 4`, so that `2 ^ maxDepth = W`. -/
theorem build_invalid_width_iff (W fuel : Nat) (nodes : List BvhFlatNode)
    (references : List ReferenceWrapper) (primitives : List Triangle) :
    (build W fuel nodes references primitives = .error .invalidWidth
        ↔ ¬ (W = 4 ∨ W = 8 ∨ W = 16))
      ∧ (W = 4 → maxDepthOf W = 2) ∧ (W = 8 → maxDepthOf W = 3) ∧ (W = 16 → maxDepthOf W = 4)
      ∧ ((W = 4 ∨ W = 8 ∨ W = 16) → (2 : Int) ^ (maxDepthOf W).toNat = (W : Int)) := by
  refine ⟨⟨?_, ?_⟩, ?_, ?_, ?_, ?_⟩
  · intro h hW
    have hmd : maxDepthOf W ≠ 0 := by
      rcases hW with rfl | rfl | rfl <;> decide
    unfold build at h
    simp only [hmd, if_false] at h
    split at h
    · rename_i e he
      cases h
      exact buildLoop_error _ _ _ _ _ _ _ _ _ he rfl
    · cases h
  · intro hW
    have hmd : maxDepthOf W = 0 := by
      unfold maxDepthOf
      rw [if_neg (fun h => hW (Or.inl h)), if_neg (fun h => hW (Or.inr (Or.inl h))),
        if_neg (fun h => hW (Or.inr (Or.inr h)))]
    unfold build
    simp only [hmd, if_true]
  · rintro rfl; rfl
  · rintro rfl; rfl
  · rintro rfl; rfl
  · rintro (rfl | rfl | rfl) <;> rfl

/-- C17: for a box with `min ≤ max` on every axis, the value `d2Min` that `simdBoxOverlap`
computes in a lane is the sum over the axes of the squared gap between the point and the span
of the box, an axis on which the point lies within the span giving zero; it is the squared
distance from the point to the nearest point of the box, at most the squared distance to every
point of the box, and zero exactly when the point is in the box. -/
theorem simdBoxOverlap_d2Min (iPoint : SimdVec3) (iBoxes : Fin 2 → SimdVec3) (j : Nat)
    (hbox : BoxOrdered ⟨(iBoxes 0).lane j, (iBoxes 1).lane j⟩) :
    (simdBoxOverlap iPoint iBoxes).1 j
        = axisGap ((iBoxes 0).lane j).x ((iBoxes 1).lane j).x (iPoint.lane j).x
            * axisGap ((iBoxes 0).lane j).x ((iBoxes 1).lane j).x (iPoint.lane j).x
          + axisGap ((iBoxes 0).lane j).y ((iBoxes 1).lane j).y (iPoint.lane j).y
            * axisGap ((iBoxes 0).lane j).y ((iBoxes 1).lane j).y (iPoint.lane j).y
          + axisGap ((iBoxes 0).lane j).z ((iBoxes 1).lane j).z (iPoint.lane j).z
            * axisGap ((iBoxes 0).lane j).z ((iBoxes 1).lane j).z (iPoint.lane j).z
      ∧ (∃ x, InBox ⟨(iBoxes 0).lane j, (iBoxes 1).lane j⟩ x
          ∧ Vector3.dist2 x (iPoint.lane j) = (simdBoxOverlap iPoint iBoxes).1 j)
      ∧ (∀ x, InBox ⟨(iBoxes 0).lane j, (iBoxes 1).lane j⟩ x →
          (simdBoxOverlap iPoint iBoxes).1 j ≤ Vector3.dist2 x (iPoint.lane j))
      ∧ ((simdBoxOverlap iPoint iBoxes).1 j = 0
          ↔ InBox ⟨(iBoxes 0).lane j, (iBoxes 1).lane j⟩ (iPoint.lane j)) := by
  rw [(simdBoxOverlap_lane iPoint iBoxes j).1]
  exact ⟨boxNear2_eq _ _ hbox, boxNear2_attained _ _ hbox, fun x hx => inBox_near _ _ x hx,
    boxNear2_eq_zero _ _ hbox⟩

/-- Witness of C17: the box from `(0, 0, 0)` to `(1, 2, 3)` and the point `(2, 1, -1)`. -/
theorem simdBoxOverlap_d2Min_witness :
    (simdBoxOverlap exPoint exBoxes).1 0
        = axisGap ((exBoxes 0).lane 0).x ((exBoxes 1).lane 0).x (exPoint.lane 0).x
            * axisGap ((exBoxes 0).lane 0).x ((exBoxes 1).lane 0).x (exPoint.lane 0).x
          + axisGap ((exBoxes 0).lane 0).y ((exBoxes 1).lane 0).y (exPoint.lane 0).y
            * axisGap ((exBoxes 0).lane 0).y ((exBoxes 1).lane 0).y (exPoint.lane 0).y
          + axisGap ((exBoxes 0).lane 0).z ((exBoxes 1).lane 0).z (exPoint.lane 0).z
            * axisGap ((exBoxes 0).lane 0).z ((exBoxes 1).lane 0).z (exPoint.lane 0).z
      ∧ (∃ x, InBox ⟨(exBoxes 0).lane 0, (exBoxes 1).lane 0⟩ x
          ∧ Vector3.dist2 x (exPoint.lane 0) = (simdBoxOverlap exPoint exBoxes).1 0)
      ∧ (∀ x, InBox ⟨(exBoxes 0).lane 0, (exBoxes 1).lane 0⟩ x →
          (simdBoxOverlap exPoint exBoxes).1 0 ≤ Vector3.dist2 x (exPoint.lane 0))
      ∧ ((simdBoxOverlap exPoint exBoxes).1 0 = 0
          ↔ InBox ⟨(exBoxes 0).lane 0, (exBoxes 1).lane 0⟩ (exPoint.lane 0)) :=
  simdBoxOverlap_d2Min exPoint exBoxes 0 ⟨by decide!, by decide!, by decide!⟩

/-- C18: for a box with `min ≤ max` on every axis, the value `d2Max` that `simdBoxOverlap`
computes in a lane is the squared distance from the point to the farthest point of the box: no
point of the box is farther, a corner of the box is at that distance, and `d2Min ≤ d2Max`. -/
theorem simdBoxOverlap_d2Max (iPoint : SimdVec3) (iBoxes : Fin 2 → SimdVec3) (j : Nat)
    (hbox : BoxOrdered ⟨(iBoxes 0).lane j, (iBoxes 1).lane j⟩) :
    (∀ x, InBox ⟨(iBoxes 0).lane j, (iBoxes 1).lane j⟩ x →
        Vector3.dist2 x (iPoint.lane j) ≤ (simdBoxOverlap iPoint iBoxes).2 j)
      ∧ (∃ x, IsCorner ⟨(iBoxes 0).lane j, (iBoxes 1).lane j⟩ x
          ∧ InBox ⟨(iBoxes 0).lane j, (iBoxes 1).lane j⟩ x
          ∧ Vector3.dist2 x (iPoint.lane j) = (simdBoxOverlap iPoint iBoxes).2 j)
      ∧ (simdBoxOverlap iPoint iBoxes).1 j ≤ (simdBoxOverlap iPoint iBoxes).2 j := by
  rw [(simdBoxOverlap_lane iPoint iBoxes j).1, (simdBoxOverlap_lane iPoint iBoxes j).2]
  obtain ⟨x, hx, hd⟩ := boxFar2_attained ⟨(iBoxes 0).lane j, (iBoxes 1).lane j⟩ (iPoint.lane j)
  have hin : InBox ⟨(iBoxes 0).lane j, (iBoxes 1).lane j⟩ x := by
    obtain ⟨h1, h2, h3⟩ := hbox
    obtain ⟨c1, c2, c3⟩ := hx
    simp only [InBox]
    simp only at h1 h2 h3 c1 c2 c3
    have ax : ((iBoxes 0).lane j).x ≤ x.x ∧ x.x ≤ ((iBoxes 1).lane j).x := by
      rcases c1 with c | c
      · rw [c]; exact ⟨le_refl _, h1⟩
      · rw [c]; exact ⟨h1, le_refl _⟩
    have ay : ((iBoxes 0).lane j).y ≤ x.y ∧ x.y ≤ ((iBoxes 1).lane j).y := by
      rcases c2 with c | c
      · rw [c]; exact ⟨le_refl _, h2⟩
      · rw [c]; exact ⟨h2, le_refl _⟩
    have az : ((iBoxes 0).lane j).z ≤ x.z ∧ x.z ≤ ((iBoxes 1).lane j).z := by
      rcases c3 with c | c
      · rw [c]; exact ⟨le_refl _, h3⟩
      · rw [c]; exact ⟨h3, le_refl _⟩
    exact ⟨ax.1, ax.2, ay.1, ay.2, az.1, az.2⟩
  refine ⟨fun y hy => inBox_far _ _ y hy, ⟨x, hx, hin, hd⟩, ?_⟩
  exact le_trans (inBox_near _ _ x hin) (inBox_far _ _ x hin)

/-- Witness of C18: the box from `(0, 0, 0)` to `(1, 2, 3)` and the point `(2, 1, -1)`. -/
theorem simdBoxOverlap_d2Max_witness :
    (∀ x, InBox ⟨(exBoxes 0).lane 0, (exBoxes 1).lane 0⟩ x →
        Vector3.dist2 x (exPoint.lane 0) ≤ (simdBoxOverlap exPoint exBoxes).2 0)
      ∧ (∃ x, IsCorner ⟨(exBoxes 0).lane 0, (exBoxes 1).lane 0⟩ x
          ∧ InBox ⟨(exBoxes 0).lane 0, (exBoxes 1).lane 0⟩ x
          ∧ Vector3.dist2 x (exPoint.lane 0) = (simdBoxOverlap exPoint exBoxes).2 0)
      ∧ (simdBoxOverlap exPoint exBoxes).1 0 ≤ (simdBoxOverlap exPoint exBoxes).2 0 :=
  simdBoxOverlap_d2Max exPoint exBoxes 0 ⟨by decide!, by decide!, by decide!⟩

/-- C19: when the valid lanes of a wide leaf, those with `indices != -1`, are the first `n ≥ 1`
lanes, `getBest` returns the distance, the point and the index of a valid lane whose distance
is at most that of every valid lane and strictly below that of every lower lane; the index it
returns is not `-1`, whatever distances the padding lanes carry. -/
theorem getBest_first_minimum (W : Nat) (pi : ParallelInteraction) (n : Nat) (h1 : 1 ≤ n)
    (hn : n ≤ W) (hvalid : ∀ x, x < n → pi.indices x ≠ -1)
    (hpad : ∀ x, n ≤ x → x < W → pi.indices x = -1) :
    ∃ m, m < n ∧ getBest W pi = (pi.distances m, pi.points.lane m, pi.indices m)
      ∧ (∀ x, x < n → pi.distances m ≤ pi.distances x)
      ∧ (∀ x, x < m → pi.distances m < pi.distances x)
      ∧ (getBest W pi).2.2 ≠ -1 := by
  unfold getBest
  obtain ⟨m, hm, hbest, hmin, hfirst⟩ := getBestLoop_first pi W n hn hvalid hpad (W - 1) 1 0
    (by omega) h1 (by omega)
    (by
      intro x hx
      have : x = 0 := by omega
      subst this
      exact le_refl _)
    (by
      intro x hx
      omega)
  exact ⟨m, hm, hbest, hmin, hfirst, by rw [hbest]; exact hvalid m hm⟩

/-- Witness of C19: four lanes with distances `5, 3, 0, 0`, of which the last two are padding;
`getBest` returns lane `1`. -/
theorem getBest_first_minimum_witness :
    ∃ m, m < 2
      ∧ getBest 4 exInteraction
          = (exInteraction.distances m, exInteraction.points.lane m, exInteraction.indices m)
      ∧ (∀ x, x < 2 → exInteraction.distances m ≤ exInteraction.distances x)
      ∧ (∀ x, x < m → exInteraction.distances m < exInteraction.distances x)
      ∧ (getBest 4 exInteraction).2.2 ≠ -1 :=
  getBest_first_minimum 4 exInteraction 2 (by decide) (by decide)
    (by
      intro x hx
      have : x = 0 ∨ x = 1 := by omega
      rcases this with rfl | rfl <;> decide)
    (by
      intro x h2 h4
      have : x = 2 ∨ x = 3 := by omega
      rcases this with rfl | rfl <;> decide)

/-! ## Claims about single primitives, empty structures and the triangle kernel -/

/-- C11 (counterexample): on a structure with no nodes a query does not return `false`: it
faults at its first read of the node array. -/
theorem findClosestPoint_faults_on_empty :
    emptyBvh.flatTree = []
      ∧ findClosestPoint id 4 1 emptyBvh [] ⟨⟨0, 0, 0⟩, maxFloat⟩ initInteraction
          = .error .outOfBounds :=
  ⟨rfl, by decide!⟩

/-- C11 (amended): on a structure with no nodes `findClosestPoint` faults at the read of
`flatTree[0]`, outside the node array, for every sphere and interaction. No such structure is
made: the constructor and `build` fault on an empty binary tree at their read of `nodes[0]`,
and the structure that `build` returns for a well-formed binary tree has at least one node. -/
theorem findClosestPoint_empty_structure (sqrtF : ℚ → ℚ) (W fuel : Nat) (bvh : BvhSimd)
    (prims : List Triangle) (s : BoundingSphere) (i : Interaction) (hempty : bvh.flatTree = []) :
    findClosestPoint sqrtF W (fuel + 1) bvh prims s i = .error .outOfBounds
      ∧ (∀ refs : List ReferenceWrapper, BvhSimd.new W fuel [] refs prims = .error .outOfBounds)
      ∧ (∀ refs : List ReferenceWrapper, W = 4 ∨ W = 8 ∨ W = 16 →
          build W (fuel + 1) [] refs prims = .error .outOfBounds)
      ∧ (∀ (refs : List ReferenceWrapper) (t : BTree), W = 4 ∨ W = 8 ∨ W = 16 →
          RefsValid W refs prims t →
          ∃ built, build W (t.size + 1 + fuel) t.flatten refs prims = .ok built
            ∧ built.flatTree ≠ []) := by
  refine ⟨?_, ?_, ?_, ?_⟩
  · unfold findClosestPoint
    rw [hempty]
    rfl
  · intro refs
    rfl
  · intro refs hW
    have hmd : maxDepthOf W ≠ 0 := by
      rcases hW with rfl | rfl | rfl <;> decide
    unfold build
    simp only [hmd, if_false]
    rfl
  · intro refs t hW hv
    refine ⟨_, build_eq W hW refs prims t hv fuel, ?_⟩
    simp [wideTreeOf]

/-- Witness of the amended C11 on the structure with no nodes. -/
theorem findClosestPoint_empty_structure_witness :
    findClosestPoint id 4 (0 + 1) emptyBvh exPrims ⟨⟨0, 0, 0⟩, maxFloat⟩ initInteraction
        = .error .outOfBounds
      ∧ (∀ refs : List ReferenceWrapper, BvhSimd.new 4 0 [] refs exPrims = .error .outOfBounds)
      ∧ (∀ refs : List ReferenceWrapper, 4 = 4 ∨ 4 = 8 ∨ 4 = 16 →
          build 4 (0 + 1) [] refs exPrims = .error .outOfBounds)
      ∧ (∀ (refs : List ReferenceWrapper) (t : BTree), 4 = 4 ∨ 4 = 8 ∨ 4 = 16 →
          RefsValid 4 refs exPrims t →
          ∃ built, build 4 (t.size + 1 + 0) t.flatten refs exPrims = .ok built
            ∧ built.flatTree ≠ []) :=
  findClosestPoint_empty_structure id 4 0 emptyBvh exPrims ⟨⟨0, 0, 0⟩, maxFloat⟩ initInteraction
    rfl

/-- C12 (counterexample): a structure built over the one far triangle returns `false` for a
query from the origin with the sentinel radius, and a structure built over the one triangle
whose vertices coincide returns `true` and leaves the interaction without a primitive. -/
theorem findClosestPoint_single_not_found :
    (∃ bvh, build 4 (farTree.size + 1 + 0) farTree.flatten [⟨0⟩] [farTri] = .ok bvh
        ∧ findClosestPoint id 4 1 bvh [farTri] ⟨⟨0, 0, 0⟩, maxFloat⟩ initInteraction
            = .ok (false, ⟨⟨0, 0, 0⟩, maxFloat⟩, initInteraction))
      ∧ (∃ bvh, build 4 (pointTree.size + 1 + 0) pointTree.flatten [⟨0⟩] [pointTri] = .ok bvh
        ∧ findClosestPoint id 4 1 bvh [pointTri] ⟨⟨0, 0, 0⟩, maxFloat⟩ initInteraction
            = .ok (true, ⟨⟨0, 0, 0⟩, 1⟩, initInteraction)
        ∧ initInteraction.primitive = none) :=
  ⟨⟨farBvh, farBvh_eq_build, by decide!⟩, ⟨pointBvh, pointBvh_eq_build, by decide!, rfl⟩⟩

/-- C12 (amended): on the structure built over one non-degenerate triangle that lies in the box
of its leaf, a query with the sentinel as initial squared radius, from a centre with a point of
the triangle at squared distance below `maxFloat`, returns `true`, names that primitive, ends
on a point of the triangle nearest to the centre, with `r2` its squared distance and `d` the
square root of it. -/
theorem findClosestPoint_single (sqrtF : ℚ → ℚ) (W : Nat) (hW : W = 4 ∨ W = 8 ∨ W = 16)
    (b : BoundingBox) (tri : Triangle)
    (hbox : InBox b tri.a ∧ InBox b tri.b ∧ InBox b tri.c) (hnd : NonDegenerate tri)
    (c : Vector3) (hnear : ∃ y, OnTriangle tri y ∧ Vector3.dist2 y c < maxFloat)
    (i : Interaction) (extra : Nat) :
    ∃ bvh s1 i1,
      build W ((BTree.leaf b 0 1).size + 1 + extra) (BTree.leaf b 0 1).flatten [⟨0⟩] [tri]
          = .ok bvh
        ∧ findClosestPoint sqrtF W (bvh.flatTree.length + extra) bvh [tri] ⟨c, maxFloat⟩ i
            = .ok (true, s1, i1)
        ∧ i1.primitive = some 0 ∧ IsClosest tri c i1.p
        ∧ s1.r2 = Vector3.dist2 i1.p c ∧ i1.d = sqrtF (Vector3.dist2 i1.p c) := by
  obtain ⟨_, h2, h3, _⟩ := maxDepthOf_cases W hW
  have hWpos : 0 < W := by rcases hW with rfl | rfl | rfl <;> decide
  have hv := single_refsValid W b tri
  have hroot := (wideTreeOf_isWideNodeFor W _ h2 (le_of_eq h3) [⟨0⟩] [tri] (.leaf b 0 1)).1
  obtain ⟨y, hy, hlt⟩ := hnear
  have hunder : ∀ z, OnTriangle tri z → PointUnder [⟨0⟩] [tri] (.leaf b 0 1) z :=
    fun z hz => ⟨0, tri, (single_primUnder b tri 0 tri).mpr ⟨rfl, rfl⟩, hz⟩
  obtain ⟨q1, hq1, hex, hmin⟩ := traverse_closest sqrtF W _ h2 hWpos (.leaf b 0 1) [⟨0⟩] [tri]
    _ _ (SimdBoundingSphere.ofSphere ⟨c, maxFloat⟩) hv hroot c rfl (single_leafSized W hWpos b)
    (single_encloses b tri hbox)
    (fun p t hp => by
      obtain ⟨_, rfl⟩ := (single_primUnder b tri p t).mp hp
      exact hnd)
    ⟨c, maxFloat⟩ i ⟨y, hunder y hy, hlt⟩ extra
  obtain ⟨p, t, hp, hpu, hon, hd, hdd⟩ := hex
  obtain ⟨rfl, rfl⟩ := (single_primUnder b tri p t).mp hpu
  have hne : q1.s.r2 ≠ maxFloat := ne_of_lt (lt_of_le_of_lt (hmin y (hunder y hy)) hlt)
  refine ⟨_, q1.s, q1.i, build_eq W hW [⟨0⟩] [t] (.leaf b 0 1) hv extra, ?_, hp,
    ⟨hon, fun z hz => by rw [hd]; exact hmin z (hunder z hz)⟩, hd.symm, by rw [hdd, hd]⟩
  rw [length_wideTreeOf]
  simp only [findClosestPoint, hq1]
  simp [hne]

/-- Witness of the amended C12: the unit triangle at the origin in the box from `(0, 0, 0)` to
`(1, 1, 0)`, queried from `(1/4, 1/4, 1)`. -/
theorem findClosestPoint_single_witness :
    ∃ bvh s1 i1,
      build 4 ((BTree.leaf ⟨⟨0, 0, 0⟩, ⟨1, 1, 0⟩⟩ 0 1).size + 1 + 0)
          (BTree.leaf ⟨⟨0, 0, 0⟩, ⟨1, 1, 0⟩⟩ 0 1).flatten [⟨0⟩] [exTri0] = .ok bvh
        ∧ findClosestPoint id 4 (bvh.flatTree.length + 0) bvh [exTri0]
            ⟨⟨1 / 4, 1 / 4, 1⟩, maxFloat⟩ initInteraction = .ok (true, s1, i1)
        ∧ i1.primitive = some 0 ∧ IsClosest exTri0 ⟨1 / 4, 1 / 4, 1⟩ i1.p
        ∧ s1.r2 = Vector3.dist2 i1.p ⟨1 / 4, 1 / 4, 1⟩
        ∧ i1.d = id (Vector3.dist2 i1.p ⟨1 / 4, 1 / 4, 1⟩) :=
  findClosestPoint_single id 4 (Or.inl rfl) ⟨⟨0, 0, 0⟩, ⟨1, 1, 0⟩⟩ exTri0
    (by simp only [InBox, exTri0]; norm_num) exTri0_nonDegenerate ⟨1 / 4, 1 / 4, 1⟩
    ⟨⟨0, 0, 0⟩, ⟨0, 0, le_refl _, le_refl _, by norm_num, point_a exTri0⟩,
      by norm_num [Vector3.dist2, maxFloat]⟩
    initInteraction 0

/-- C13 (failing input): two triangles with all their vertices at `P = (1, 0, 0)`, in a leaf
whose box is the point `P`, queried from `P` with the sentinel radius: the query returns `true`
with the squared radius `0`, and leaves the interaction as it was, with the point `(0, 0, 0)`,
the distance `maxFloat` and no primitive. -/
theorem findClosestPoint_coincident_not_reported :
    ∃ bvh, build 4 (coincidentTree.size + 1 + 0) coincidentTree.flatten coincidentRefs
          coincidentPrims = .ok bvh
      ∧ findClosestPoint id 4 1 bvh coincidentPrims ⟨⟨1, 0, 0⟩, maxFloat⟩ initInteraction
          = .ok (true, ⟨⟨1, 0, 0⟩, 0⟩, initInteraction)
      ∧ initInteraction.p ≠ ⟨1, 0, 0⟩ ∧ initInteraction.d ≠ 0
      ∧ initInteraction.primitive = none :=
  ⟨coincidentBvh, coincidentBvh_eq_build, by decide!, by decide!, by decide!, rfl⟩

/-- C14 (failing input): with `W = 4`, a leaf holds references to five triangles and the query
is centred at the vertex `(8, 0, 0)` of primitive `4`, with the sentinel radius: the query
returns primitive `3` with the point `(7, 0, 0)` at distance `1`. -/
theorem findClosestPoint_farther_primitive :
    ∃ bvh, build 4 (fiveTree.size + 1 + 0) fiveTree.flatten fiveRefs fivePrims = .ok bvh
      ∧ getI? fiveRefs (0 + 4) = some ⟨4⟩
      ∧ getI? fivePrims 4 = some ⟨⟨8, 0, 0⟩, ⟨9, 0, 0⟩, ⟨8, 1, 0⟩⟩
      ∧ findClosestPoint id 4 1 bvh fivePrims ⟨⟨8, 0, 0⟩, maxFloat⟩ initInteraction
          = .ok (true, ⟨⟨8, 0, 0⟩, 1⟩, ⟨⟨7, 0, 0⟩, Vector3.zero, 1, some 3⟩) :=
  ⟨fiveBvh, fiveBvh_eq_build, rfl, rfl, by decide!⟩

/-- C16: in a lane below `W` that holds a non-degenerate triangle `(a, b, c)`, with the query
point `p`, the point that `simdTriPoint2` returns is a convex combination of `a`, `b` and `c`,
the value it returns is the squared distance from that point to `p`, and no point of the
triangle is nearer to `p`. -/
theorem simdTriPoint2_exact (W : Nat) (iTri : Fin 3 → SimdVec3) (iPoint : SimdVec3) (j : Nat)
    (hj : j < W) (tri : Triangle) (p : Vector3) (h0 : (iTri 0).lane j = tri.a)
    (h1 : (iTri 1).lane j = tri.b) (h2 : (iTri 2).lane j = tri.c) (hp : iPoint.lane j = p)
    (hnd : NonDegenerate tri) :
    OnTriangle tri ((simdTriPoint2 W iTri iPoint).2.lane j)
      ∧ (simdTriPoint2 W iTri iPoint).1 j
          = Vector3.dist2 ((simdTriPoint2 W iTri iPoint).2.lane j) p
      ∧ ∀ z, OnTriangle tri z → (simdTriPoint2 W iTri iPoint).1 j ≤ Vector3.dist2 z p := by
  obtain ⟨hclose, hdist⟩ := simdTriPoint2_closest W iTri iPoint j hj tri p h0 h1 h2 hp hnd
  exact ⟨hclose.1, hdist, fun z hz => by rw [hdist]; exact hclose.2 z hz⟩

/-- Witness of C16: the unit triangle at the origin and the point `(2, 1, -1)`, in lane `0` of
four. -/
theorem simdTriPoint2_exact_witness :
    OnTriangle exTri0 ((simdTriPoint2 4 exTriangles exPoint).2.lane 0)
      ∧ (simdTriPoint2 4 exTriangles exPoint).1 0
          = Vector3.dist2 ((simdTriPoint2 4 exTriangles exPoint).2.lane 0) ⟨2, 1, -1⟩
      ∧ ∀ z, OnTriangle exTri0 z →
          (simdTriPoint2 4 exTriangles exPoint).1 0 ≤ Vector3.dist2 z ⟨2, 1, -1⟩ :=
  simdTriPoint2_exact 4 exTriangles exPoint 0 (by decide) exTri0 ⟨2, 1, -1⟩ rfl rfl rfl rfl
    exTri0_nonDegenerate

/-! ## Claims about the soundness of the shrink -/

/-- C20: on the wide tree `build` makes from a well-formed binary tree whose node boxes enclose
the primitives beneath them and whose leaves each reference at least one primitive, shrinking
the squared radius to a lane's `d2Max` is sound. `findClosestPoint` returns, and at its end, at
the head of the outer loop after any number `n` of passes, in the pass that follows after any
number `r` of lanes, and in the lane that follows right after the shrink of `parseOverlap`, the
squared radius is still the one the query started with, or a point of a primitive of the tree
lies within it of the query centre: `r2` never drops below the least squared distance. -/
theorem findClosestPoint_shrink_sound (sqrtF : ℚ → ℚ) (W : Nat) (hW : W = 4 ∨ W = 8 ∨ W = 16)
    (refs : List ReferenceWrapper) (prims : List Triangle) (t : BTree)
    (hv : RefsValid W refs prims t) (hne : LeafNonEmpty t) (henc : Encloses refs prims t)
    (s : BoundingSphere) (i : Interaction) (extra : Nat) :
    ∃ bvh b s1 i1, build W (t.size + 1 + extra) t.flatten refs prims = .ok bvh
      ∧ findClosestPoint sqrtF W (bvh.flatTree.length + extra) bvh prims s i = .ok (b, s1, i1)
      ∧ (s1.r2 = s.r2 ∨ ∃ y, PointUnder refs prims t y ∧ Vector3.dist2 y s.c ≤ s1.r2)
      ∧ ∀ n, ∃ q1, traversePrefix sqrtF W bvh.flatTree bvh.leaves prims
            (SimdBoundingSphere.ofSphere s) n { todo := [⟨0, minFloat⟩], s := s, i := i }
              = .ok q1
          ∧ RadiusSound refs prims t s q1.s
          ∧ ∀ e rest node r, q1.todo = e :: rest → readI bvh.flatTree e.i = .ok node →
              ¬ e.d > q1.s.r2 →
              ∃ q2, laneLoop sqrtF W node bvh.leaves prims (SimdBoundingSphere.ofSphere s)
                  (parallelOverlap node (SimdBoundingSphere.ofSphere s)) r 0
                  ⟨rest, q1.s, q1.i⟩ = .ok q2
                ∧ RadiusSound refs prims t s q2.s
                ∧ (r < W → node.indices r ≠ -1 →
                    RadiusSound refs prims t s
                      (parseOverlap (parallelOverlap node (SimdBoundingSphere.ofSphere s)) r
                        q2.s).2.2) := by
  obtain ⟨_, h2, h3, _⟩ := maxDepthOf_cases W hW
  have hWpos : 0 < W := by rcases hW with rfl | rfl | rfl <;> decide
  have hroot := (wideTreeOf_isWideNodeFor W _ h2 (le_of_eq h3) refs prims t).1
  obtain ⟨hend, hall⟩ := traverse_sound sqrtF W _ h2 hWpos t refs prims _ _
    (SimdBoundingSphere.ofSphere s) hv hroot s rfl hne henc i
  obtain ⟨q1, hq1, hs1⟩ := hend extra
  refine ⟨_, decide (q1.s.r2 ≠ maxFloat), q1.s, q1.i, build_eq W hW refs prims t hv extra, ?_,
    hs1, hall⟩
  rw [length_wideTreeOf]
  simp only [findClosestPoint, hq1]

/-- Witness of C20 on the example tree, queried from `(1/4, 1/4, 1)` with the sentinel radius. -/
theorem findClosestPoint_shrink_sound_witness :
    ∃ bvh b s1 i1, build 4 (exTree.size + 1 + 0) exTree.flatten exRefs exPrims = .ok bvh
      ∧ findClosestPoint id 4 (bvh.flatTree.length + 0) bvh exPrims
          ⟨⟨1 / 4, 1 / 4, 1⟩, maxFloat⟩ initInteraction = .ok (b, s1, i1)
      ∧ (s1.r2 = maxFloat
          ∨ ∃ y, PointUnder exRefs exPrims exTree y
              ∧ Vector3.dist2 y ⟨1 / 4, 1 / 4, 1⟩ ≤ s1.r2)
      ∧ ∀ n, ∃ q1, traversePrefix id 4 bvh.flatTree bvh.leaves exPrims
            (SimdBoundingSphere.ofSphere ⟨⟨1 / 4, 1 / 4, 1⟩, maxFloat⟩) n
            { todo := [⟨0, minFloat⟩], s := ⟨⟨1 / 4, 1 / 4, 1⟩, maxFloat⟩, i := initInteraction }
              = .ok q1
          ∧ RadiusSound exRefs exPrims exTree ⟨⟨1 / 4, 1 / 4, 1⟩, maxFloat⟩ q1.s
          ∧ ∀ e rest node r, q1.todo = e :: rest → readI bvh.flatTree e.i = .ok node →
              ¬ e.d > q1.s.r2 →
              ∃ q2, laneLoop id 4 node bvh.leaves exPrims
                  (SimdBoundingSphere.ofSphere ⟨⟨1 / 4, 1 / 4, 1⟩, maxFloat⟩)
                  (parallelOverlap node
                    (SimdBoundingSphere.ofSphere ⟨⟨1 / 4, 1 / 4, 1⟩, maxFloat⟩)) r 0
                  ⟨rest, q1.s, q1.i⟩ = .ok q2
                ∧ RadiusSound exRefs exPrims exTree ⟨⟨1 / 4, 1 / 4, 1⟩, maxFloat⟩ q2.s
                ∧ (r < 4 → node.indices r ≠ -1 →
                    RadiusSound exRefs exPrims exTree ⟨⟨1 / 4, 1 / 4, 1⟩, maxFloat⟩
                      (parseOverlap (parallelOverlap node
                        (SimdBoundingSphere.ofSphere ⟨⟨1 / 4, 1 / 4, 1⟩, maxFloat⟩)) r
                        q2.s).2.2) :=
  findClosestPoint_shrink_sound id 4 (Or.inl rfl) exRefs exPrims exTree exTree_refsValid
    (fun cur h => (exTree_leafSized cur h).1) exTree_encloses ⟨⟨1 / 4, 1 / 4, 1⟩, maxFloat⟩
    initInteraction 0

/-! ## Claims about the statistics of the build -/

/-- C29: the statistics equal the structure. For a well-formed binary tree the constructor
returns; `nNodes` is the number of wide nodes stored, `nLeaves` is the number of wide leaves
stored and the number of leaves of the binary tree, the wide leaves being the packed binary
leaves one for one and in order, and `averageLeafSize` is the sum of the reference counts of
the binary leaves divided by `nLeaves`, which is positive. Before the division of the
constructor, `build` leaves the sum itself in `averageLeafSize`. -/
theorem build_statistics (W : Nat) (hW : W = 4 ∨ W = 8 ∨ W = 16)
    (refs : List ReferenceWrapper) (prims : List Triangle) (t : BTree)
    (hv : RefsValid W refs prims t) (extra : Nat) :
    ∃ built box bvh, build W (t.size + 1 + extra) t.flatten refs prims = .ok built
      ∧ BvhSimd.new W (t.size + 1 + extra) t.flatten refs prims = .ok (box, bvh)
      ∧ bvh.flatTree = built.flatTree ∧ bvh.leaves = built.leaves
      ∧ bvh.nNodes = (bvh.flatTree.length : Int)
      ∧ bvh.nLeaves = (bvh.leaves.length : Int)
      ∧ bvh.leaves = t.leafNodes.map (fun cur => packLeafD W refs prims cur)
      ∧ bvh.nLeaves = (t.leafNodes.length : Int) ∧ 0 < bvh.nLeaves
      ∧ built.averageLeafSize = (t.leafNodes.map fun cur => (cur.nPrimitives : ℚ)).sum
      ∧ bvh.averageLeafSize
          = (t.leafNodes.map fun cur => (cur.nPrimitives : ℚ)).sum / (bvh.nLeaves : ℚ) := by
  have hb := build_eq W hW refs prims t hv extra
  have hroot : readI t.flatten 0 = .ok t.rootNode := by
    have := (HasSubtree.self t).root
    exact readI_natCast t.flatten 0 t.rootNode this
  refine ⟨_, t.rootNode.bbox,
    { wideTreeOf W (maxDepthOf W).toNat refs prims t with
      averageLeafSize := (wideTreeOf W (maxDepthOf W).toNat refs prims t).averageLeafSize
        / ((wideTreeOf W (maxDepthOf W).toNat refs prims t).nLeaves : ℚ) },
    hb, ?_, rfl, rfl, ?_, ?_, rfl, rfl, ?_, ?_, ?_⟩
  · simp only [BvhSimd.new, hroot, hb]
  · simp only [wideTreeOf, List.length_cons, length_nodesOf]
    push_cast
    ring
  · simp only [wideTreeOf, List.length_map]
  · simp only [wideTreeOf]
    exact_mod_cast t.leafNodes_length_pos
  · simp only [wideTreeOf]
    exact sumPrimitives_eq t
  · simp only [wideTreeOf, sumPrimitives_eq]

/-- Witness of C29 on the example tree. -/
theorem build_statistics_witness :
    ∃ built box bvh, build 4 (exTree.size + 1 + 0) exTree.flatten exRefs exPrims = .ok built
      ∧ BvhSimd.new 4 (exTree.size + 1 + 0) exTree.flatten exRefs exPrims = .ok (box, bvh)
      ∧ bvh.flatTree = built.flatTree ∧ bvh.leaves = built.leaves
      ∧ bvh.nNodes = (bvh.flatTree.length : Int)
      ∧ bvh.nLeaves = (bvh.leaves.length : Int)
      ∧ bvh.leaves = exTree.leafNodes.map (fun cur => packLeafD 4 exRefs exPrims cur)
      ∧ bvh.nLeaves = (exTree.leafNodes.length : Int) ∧ 0 < bvh.nLeaves
      ∧ built.averageLeafSize = (exTree.leafNodes.map fun cur => (cur.nPrimitives : ℚ)).sum
      ∧ bvh.averageLeafSize
          = (exTree.leafNodes.map fun cur => (cur.nPrimitives : ℚ)).sum / (bvh.nLeaves : ℚ) :=
  build_statistics 4 (Or.inl rfl) exRefs exPrims exTree exTree_refsValid 0

/-! ## Claims about the free-slot search -/

/-- C24: for `W` in `{4, 8, 16}` a free-slot search either returns a lane below `W` whose index
is `-1` or takes the fatal branch `Tempcounter out of bounds`, and for a well-formed binary tree
no run of `build`, whatever its length, takes the fatal branch, and `build` returns: every slot
search has found a free lane below `W`. In the tree it returns every wide node holds its
children in the first `k` lanes, `k ≤ W`, and every other lane is padding; a slot search on such
a node with `k < W` finds lane `k`. -/
theorem build_slot_search (W : Nat) (hW : W = 4 ∨ W = 8 ∨ W = 16)
    (refs : List ReferenceWrapper) (prims : List Triangle) (t : BTree)
    (hv : RefsValid W refs prims t) (extra : Nat) :
    (∀ (indices : Nat → Int) (tc : Nat), slotSearch indices (W - 1) 0 = .ok tc →
        tc < W ∧ indices tc = -1)
      ∧ (∀ (indices : Nat → Int) (e : Fault), slotSearch indices (W - 1) 0 = .error e →
          e = .tempCounterOutOfBounds)
      ∧ (∀ fuel, build W fuel t.flatten refs prims ≠ .error .tempCounterOutOfBounds)
      ∧ ∃ bvh, build W (t.size + 1 + extra) t.flatten refs prims = .ok bvh
          ∧ ∀ node ∈ bvh.flatTree, ∃ k, k ≤ W
              ∧ (∀ x, x < k → node.indices x ≠ -1) ∧ (∀ x, k ≤ x → node.indices x = -1)
              ∧ (k < W → slotSearch node.indices (W - 1) 0 = .ok k) := by
  obtain ⟨_, h2, h3, _⟩ := maxDepthOf_cases W hW
  have hWpos : 0 < W := by rcases hW with rfl | rfl | rfl <;> decide
  refine ⟨?_, fun indices e h => slotSearch_error indices (W - 1) 0 e h,
    fun fuel => build_no_tempCounter W hW refs prims t hv fuel, _,
    build_eq W hW refs prims t hv extra, ?_⟩
  · intro indices tc h
    obtain ⟨_, h1, h2, _⟩ := slotSearch_ok indices (W - 1) 0 tc h
    exact ⟨by omega, h2⟩
  intro node hnode
  obtain ⟨k, hk, hget⟩ := List.getElem_of_mem hnode
  obtain ⟨i, s, hw⟩ := (wideTreeOf_isWideNodeFor W _ h2 (le_of_eq h3) refs prims t).2 k hk
  have hn : (wideTreeOf W (maxDepthOf W).toNat refs prims t).flatTree[k]? = some node := by
    rw [List.getElem?_eq_getElem hk, hget]
  obtain ⟨_, _, _, hlen⟩ := hw.node_exists
  have hvalid : ∀ x, x < (frontier (maxDepthOf W).toNat i s).length → node.indices x ≠ -1 :=
    fun x hx => (hw.lane_box node hn x _ (List.getElem?_eq_getElem hx)).2.2
  have hpad : ∀ x, (frontier (maxDepthOf W).toNat i s).length ≤ x → node.indices x = -1 :=
    fun x hx => hw.pad node hn x hx
  exact ⟨_, hlen, hvalid, hpad, fun hlt => slotSearch_of_filled W node _ ⟨hvalid, hpad⟩ hlt⟩

/-- Witness of C24 on the example tree with `W = 4`. -/
theorem build_slot_search_witness :
    (∀ (indices : Nat → Int) (tc : Nat), slotSearch indices (4 - 1) 0 = .ok tc →
        tc < 4 ∧ indices tc = -1)
      ∧ (∀ (indices : Nat → Int) (e : Fault), slotSearch indices (4 - 1) 0 = .error e →
          e = .tempCounterOutOfBounds)
      ∧ (∀ fuel, build 4 fuel exTree.flatten exRefs exPrims ≠ .error .tempCounterOutOfBounds)
      ∧ ∃ bvh, build 4 (exTree.size + 1 + 0) exTree.flatten exRefs exPrims = .ok bvh
          ∧ ∀ node ∈ bvh.flatTree, ∃ k, k ≤ 4
              ∧ (∀ x, x < k → node.indices x ≠ -1) ∧ (∀ x, k ≤ x → node.indices x = -1)
              ∧ (k < 4 → slotSearch node.indices (4 - 1) 0 = .ok k) :=
  build_slot_search 4 (Or.inl rfl) exRefs exPrims exTree exTree_refsValid 0

/-! ## Claims about the inner worklist -/

/-- C28 (counterexample): on the example tree the pass of the inner worklist loop that expands
the root, whose left child is node `1` and whose right child is node `2`, leaves the right child
on top of the inner worklist and the left child below it, so the next pass pops the right child,
before its left sibling. -/
theorem expandStep_right_child_on_top :
    readI exTree.flatten 0 = .ok ⟨⟨⟨0, 0, 0⟩, ⟨101, 3, 0⟩⟩, 0, 3, 2⟩
      ∧ expandStep 2 exTree.flatten 0 0 ⟨0, 0⟩ [] [] = .ok ([⟨2, 1⟩, ⟨1, 1⟩], [])
      ∧ ∀ fuel,
          expand 2 exTree.flatten 0 0 (fuel + 2) [⟨0, 0⟩] []
            = match expandStep 2 exTree.flatten 0 0 ⟨2, 1⟩ [⟨1, 1⟩] [] with
              | .error e => .error e
              | .ok r => expand 2 exTree.flatten 0 0 fuel r.1 r.2 := by
  refine ⟨rfl, by decide!, ?_⟩
  intro fuel
  rw [expand_step]
  have h : expandStep 2 exTree.flatten 0 0 ⟨0, 0⟩ [] [] = .ok ([⟨2, 1⟩, ⟨1, 1⟩], []) := by
    decide!
  rw [h]
  exact expand_step 2 exTree.flatten 0 0 fuel ⟨2, 1⟩ [⟨1, 1⟩] []

/-- C28 (amended): a pass of the inner worklist loop that expands an interior binary node pushes
the left child `ni + 1` first and the right child `ni + rightOffset` after it, so the right child
is on top of the inner worklist and is popped before its left sibling. Every node the inner
worklist pops without expanding is pushed on `todo`, which reverses the order again: after the
inner loop the jobs of the frontier of the expanded node lie on `todo` from left to right with
the leftmost on top, so the outer loop pops the children from left to right. -/
theorem expand_child_order (md : Nat) (nodes : List BvhFlatNode) (k dep : Int) (i : Nat)
    (t : BTree) (hsub : HasSubtree nodes i t) :
    (∀ (ni d : Int) (n : BvhFlatNode) (ws : List BvhTraversalDepth)
        (todo : List BvhSimdBuildNode), d < (md : Int) → readI nodes ni = .ok n →
        n.rightOffset ≠ 0 →
        expandStep (md : Int) nodes k dep ⟨ni, d⟩ ws todo
          = .ok (⟨ni + n.rightOffset, d + 1⟩ :: ⟨ni + 1, d + 1⟩ :: ws, todo))
      ∧ (∀ (fuel : Nat) (traversal : BvhTraversalDepth) (ws : List BvhTraversalDepth)
          (todo : List BvhSimdBuildNode),
          expand (md : Int) nodes k dep (fuel + 1) (traversal :: ws) todo
            = match expandStep (md : Int) nodes k dep traversal ws todo with
              | .error e => .error e
              | .ok r => expand (md : Int) nodes k dep fuel r.1 r.2)
      ∧ ∀ todo, expand (md : Int) nodes k dep (expandFuel (md : Int)) [⟨(i : Int), 0⟩] todo
          = .ok ((frontier md i t).map (fun c => ⟨(c.1 : Int), k, dep + 1⟩) ++ todo) := by
  refine ⟨?_, fun fuel traversal ws todo => expand_step (md : Int) nodes k dep fuel traversal ws
    todo, ?_⟩
  · intro ni d n ws todo hd hread hr
    simp only [expandStep, hd, if_true, hread, hr, ne_eq, not_false_eq_true]
  · intro todo
    exact expand_root md nodes k dep i t todo hsub

/-- Witness of the amended C28 on the example tree: the jobs of the frontier of the root lie on
`todo` with the left child `1` on top. -/
theorem expand_child_order_witness :
    (∀ (ni d : Int) (n : BvhFlatNode) (ws : List BvhTraversalDepth)
        (todo : List BvhSimdBuildNode), d < ((2 : Nat) : Int) →
        readI exTree.flatten ni = .ok n → n.rightOffset ≠ 0 →
        expandStep ((2 : Nat) : Int) exTree.flatten 0 0 ⟨ni, d⟩ ws todo
          = .ok (⟨ni + n.rightOffset, d + 1⟩ :: ⟨ni + 1, d + 1⟩ :: ws, todo))
      ∧ (∀ (fuel : Nat) (traversal : BvhTraversalDepth) (ws : List BvhTraversalDepth)
          (todo : List BvhSimdBuildNode),
          expand ((2 : Nat) : Int) exTree.flatten 0 0 (fuel + 1) (traversal :: ws) todo
            = match expandStep ((2 : Nat) : Int) exTree.flatten 0 0 traversal ws todo with
              | .error e => .error e
              | .ok r => expand ((2 : Nat) : Int) exTree.flatten 0 0 fuel r.1 r.2)
      ∧ ∀ todo, expand ((2 : Nat) : Int) exTree.flatten 0 0 (expandFuel ((2 : Nat) : Int))
            [⟨((0 : Nat) : Int), 0⟩] todo
          = .ok ((frontier 2 0 exTree).map (fun c => ⟨(c.1 : Int), 0, 0 + 1⟩) ++ todo) :=
  expand_child_order 2 exTree.flatten 0 0 0 exTree (HasSubtree.self exTree)

/-! ## Claims about the lane arrays -/

/-- C23 (failing input): with `W = 4`, the wide root of the complete binary tree over four
triangles has four valid lanes, and the guard of the lane loop of `findClosestPoint` reads
`node.indices` at the positions `0, 1, 2, 3, 4`; the wide leaf of a binary leaf with four
references has four valid lanes, and `getBest` reads `indices` at the positions
`0, 1, 2, 3, 4`. Position `4` is not below `W`. -/
theorem lane_guard_reads_beyond_width :
    (∃ bvh node, build 4 (quadTree.size + 1 + 0) quadTree.flatten quadRefs quadPrims = .ok bvh
        ∧ readI bvh.flatTree 0 = .ok node
        ∧ (∀ x, x < 4 → node.indices x ≠ -1)
        ∧ laneLoopReads id 4 node bvh.leaves quadPrims
            (SimdBoundingSphere.ofSphere ⟨⟨0, 0, 1⟩, maxFloat⟩)
            (parallelOverlap node (SimdBoundingSphere.ofSphere ⟨⟨0, 0, 1⟩, maxFloat⟩)) 4 0
            ⟨[], ⟨⟨0, 0, 1⟩, maxFloat⟩, initInteraction⟩ = [0, 1, 2, 3, 4])
      ∧ ∃ bvh leaf, build 4 (quadLeafTree.size + 1 + 0) quadLeafTree.flatten quadRefs quadPrims
            = .ok bvh
          ∧ readI bvh.leaves 0 = .ok leaf
          ∧ (∀ x, x < 4 → leaf.indices x ≠ -1)
          ∧ getBestReads 4 (parallelTriangleClosestPoint 4 leaf
              (SimdBoundingSphere.ofSphere ⟨⟨0, 0, 1⟩, maxFloat⟩)
              { distances := fun _ => 0, points := SimdVec3.zero, indices := leaf.indices })
              = [0, 1, 2, 3, 4] := by
  refine ⟨⟨quadBvh, _, quadBvh_eq_build, rfl, ?_, by decide!⟩,
    ⟨quadLeafBvh, _, quadLeafBvh_eq_build, rfl, ?_, by decide!⟩⟩
  · intro x hx
    have : x = 0 ∨ x = 1 ∨ x = 2 ∨ x = 3 := by omega
    rcases this with rfl | rfl | rfl | rfl <;> decide!
  · intro x hx
    have : x = 0 ∨ x = 1 ∨ x = 2 ∨ x = 3 := by omega
    rcases this with rfl | rfl | rfl | rfl <;> decide!

/-! ## Claims about the lanes of the triangle kernel -/

/-- C21: the result of `simdTriPoint2` in a lane below the width that holds a non-degenerate
triangle depends on that lane alone. Two runs of the kernel, of any widths and with any contents
of the other lanes, return the same point and the same squared distance in two lanes that hold
the same triangle and the same query point; this is the point `triResult` of the straight-line
evaluation of the one lane, in which no early exit is taken, with its squared distance. -/
theorem simdTriPoint2_lane_independent (W W1 : Nat) (iTri iTri1 : Fin 3 → SimdVec3)
    (iPoint iPoint1 : SimdVec3) (j j1 : Nat) (hj : j < W) (hj1 : j1 < W1) (tri : Triangle)
    (p : Vector3) (hnd : NonDegenerate tri)
    (h0 : (iTri 0).lane j = tri.a) (h1 : (iTri 1).lane j = tri.b)
    (h2 : (iTri 2).lane j = tri.c) (hp : iPoint.lane j = p)
    (g0 : (iTri1 0).lane j1 = tri.a) (g1 : (iTri1 1).lane j1 = tri.b)
    (g2 : (iTri1 2).lane j1 = tri.c) (gp : iPoint1.lane j1 = p) :
    (simdTriPoint2 W iTri iPoint).2.lane j = (simdTriPoint2 W1 iTri1 iPoint1).2.lane j1
      ∧ (simdTriPoint2 W iTri iPoint).1 j = (simdTriPoint2 W1 iTri1 iPoint1).1 j1
      ∧ (simdTriPoint2 W iTri iPoint).2.lane j = triResult tri.a tri.b tri.c p
      ∧ (simdTriPoint2 W iTri iPoint).1 j
          = Vector3.dist2 (triResult tri.a tri.b tri.c p) p := by
  obtain ⟨hc, hd⟩ := simdTriPoint2_closest W iTri iPoint j hj tri p h0 h1 h2 hp hnd
  obtain ⟨hc1, hd1⟩ := simdTriPoint2_closest W1 iTri1 iPoint1 j1 hj1 tri p g0 g1 g2 gp hnd
  have e1 := isClosest_unique tri p _ _ hc hc1
  have e2 := isClosest_unique tri p _ _ hc (triResult_closest tri p hnd)
  refine ⟨e1, ?_, e2, ?_⟩
  · rw [hd, hd1, e1]
  · rw [hd, e2]

/-- Witness of C21: the unit triangle at the origin and the point `(2, 1, -1)` in lane `0` of
four lanes that all hold this triangle, and in lane `2` of eight lanes of which the others are
zero-filled padding. -/
theorem simdTriPoint2_lane_independent_witness :
    (simdTriPoint2 4 exTriangles exPoint).2.lane 0
        = (simdTriPoint2 8
            (fun k => (SimdVec3.zero).setLane 2 (exTri0.getVertices k)) exPoint).2.lane 2
      ∧ (simdTriPoint2 4 exTriangles exPoint).1 0
          = (simdTriPoint2 8
              (fun k => (SimdVec3.zero).setLane 2 (exTri0.getVertices k)) exPoint).1 2
      ∧ (simdTriPoint2 4 exTriangles exPoint).2.lane 0
          = triResult exTri0.a exTri0.b exTri0.c ⟨2, 1, -1⟩
      ∧ (simdTriPoint2 4 exTriangles exPoint).1 0
          = Vector3.dist2 (triResult exTri0.a exTri0.b exTri0.c ⟨2, 1, -1⟩) ⟨2, 1, -1⟩ :=
  simdTriPoint2_lane_independent 4 8 exTriangles
    (fun k => (SimdVec3.zero).setLane 2 (exTri0.getVertices k)) exPoint exPoint 0 2 (by decide)
    (by decide) exTri0 ⟨2, 1, -1⟩ exTri0_nonDegenerate rfl rfl rfl rfl (by decide!) (by decide!)
    (by decide!) rfl

/-! ## Claims about the presorted order -/

/-- C30 (failing input): with `W = 4`, the wide root of the example tree has the identity order
and three valid children, lanes `0, 1, 2`, with box midpoints `1/2, 201/2, 201/2` on the first
axis. Called with zeros in the local array `midpoints`, `setSortOrder` returns, and the order on
the first axis is `3, 0, 1, 2`: its first three entries are not the valid lanes, the padding
lane `3` comes first. -/
theorem setSortOrder_padding_lane_first :
    ∃ bvh node, build 4 (exTree.size + 1 + 0) exTree.flatten exRefs exPrims = .ok bvh
      ∧ readI bvh.flatTree 0 = .ok node
      ∧ (List.range 4).map node.indices = [0, 1, 2, -1]
      ∧ (List.range 4).map node.isLeaf = [true, true, true, false]
      ∧ (∀ a, (List.range 4).map (node.getOrdering a) = [0, 1, 2, 3])
      ∧ (List.range 4).map
          (fun j => (((node.boxes 0).lane j).get 0 + ((node.boxes 1).lane j).get 0) * (1 / 2))
          = [1 / 2, 201 / 2, 201 / 2, 0]
      ∧ (node.setSortOrder 4 4 (fun _ => 0)).map
          (fun n => (List.range 4).map (n.getOrdering 0)) = .ok [3, 0, 1, 2] := by
  refine ⟨exBvh, _, exBvh_eq_build, rfl, by decide!, by decide!, ?_, by decide!, by decide!⟩
  intro a
  fin_cases a <;> decide!

/-! ## Claims about the consistency of the result -/

/-- C22 (failing input): with `W = 4`, a root with two leaves, the unit triangle at `(1, 0, 0)`
and a triangle all of whose vertices are `(1/2, 0, 0)`, with boxes that enclose them, is queried
from the origin with the sentinel radius. The query replaces the interaction by the point
`(1, 0, 0)` of primitive `0`, at distance `1`, and returns with the squared radius `1/4`: the
squared distance from the centre to the point of the interaction is `1`, and so is the square of
the interaction's distance. -/
theorem findClosestPoint_stale_interaction :
    ∃ bvh, build 4 (staleTree.size + 1 + 0) staleTree.flatten staleRefs stalePrims = .ok bvh
      ∧ Encloses staleRefs stalePrims staleTree
      ∧ findClosestPoint id 4 1 bvh stalePrims ⟨⟨0, 0, 0⟩, maxFloat⟩ initInteraction
          = .ok (true, ⟨⟨0, 0, 0⟩, 1 / 4⟩, ⟨⟨1, 0, 0⟩, Vector3.zero, 1, some 0⟩)
      ∧ Vector3.dist2 ⟨1, 0, 0⟩ ⟨0, 0, 0⟩ = 1 ∧ (1 : ℚ) * 1 ≠ 1 / 4
      ∧ id (1 : ℚ) * id (1 : ℚ) = 1 :=
  ⟨staleBvh, staleBvh_eq_build, staleTree_encloses, by decide!, by decide!, by decide!,
    by decide!⟩

/-! ## Claims about the layout of the wide tree -/

/-- C25: the wide tree `build` returns for a well-formed binary tree is a tree laid out in
depth-first pre-order. The depth-first walk from node `0`, which follows the interior lanes of
each node in lane order, meets the wide nodes in the order of their indices, each once; the
target of every interior lane is greater than the index of the node that holds the lane and is
the index of a wide node; node `0` is the target of no lane, every other wide node is the target
of exactly one interior lane, and every wide leaf is the target of exactly one leaf lane, all
lanes of all wide nodes counted. -/
theorem build_preorder_tree (W : Nat) (hW : W = 4 ∨ W = 8 ∨ W = 16)
    (refs : List ReferenceWrapper) (prims : List Triangle) (t : BTree)
    (hv : RefsValid W refs prims t) (extra : Nat) :
    ∃ bvh, build W (t.size + 1 + extra) t.flatten refs prims = .ok bvh
      ∧ preorderFrom W bvh.flatTree bvh.flatTree.length 0
          = (List.range bvh.flatTree.length).map (fun x : Nat => (x : Int))
      ∧ (∀ (k : Nat) (node : BvhSimdFlatNode) (x : Nat), bvh.flatTree[k]? = some node → x < W →
          node.indices x ≠ -1 → node.isLeaf x = false →
          (k : Int) < node.indices x ∧ node.indices x < (bvh.flatTree.length : Int))
      ∧ (allLaneTargets W false bvh.flatTree).count 0 = 0
      ∧ (∀ q : Nat, 1 ≤ q → q < bvh.flatTree.length →
          (allLaneTargets W false bvh.flatTree).count (q : Int) = 1)
      ∧ (∀ q : Nat, q < bvh.leaves.length →
          (allLaneTargets W true bvh.flatTree).count (q : Int) = 1) := by
  obtain ⟨_, h2, h3, _⟩ := maxDepthOf_cases W hW
  obtain ⟨hpre, hnodes, hleaves⟩ := wideTreeOf_tree W _ h2 (le_of_eq h3) refs prims t
  refine ⟨_, build_eq W hW refs prims t hv extra, hpre, ?_, ?_, ?_, ?_⟩
  · intro k node x hnode hx hidx hleaf
    have hk := lt_length_of_getElem? hnode
    obtain ⟨i, s, hw⟩ := (wideTreeOf_isWideNodeFor W _ h2 (le_of_eq h3) refs prims t).2 k hk
    have hxl := hw.lane_lt node hnode x hidx
    have hc := List.getElem?_eq_getElem hxl
    have hcl := (hw.lane_box node hnode x _ hc).2.1
    obtain ⟨m, hm, hkm, hwm⟩ := hw.child node hnode x _ hc (by rw [← hcl]; exact hleaf)
    obtain ⟨_, hnm, _, _⟩ := hwm.node_exists
    have := lt_length_of_getElem? hnm
    rw [hm]
    exact ⟨by exact_mod_cast hkm, by exact_mod_cast this⟩
  · rw [hnodes 0, if_neg (by omega)]
  · intro q h1 hq
    rw [hnodes q, if_pos ⟨by exact_mod_cast h1, by exact_mod_cast hq⟩]
  · intro q hq
    rw [hleaves q, if_pos ⟨by omega, by exact_mod_cast hq⟩]

/-- Witness of C25 on the example tree with `W = 4`. -/
theorem build_preorder_tree_witness :
    ∃ bvh, build 4 (exTree.size + 1 + 0) exTree.flatten exRefs exPrims = .ok bvh
      ∧ preorderFrom 4 bvh.flatTree bvh.flatTree.length 0
          = (List.range bvh.flatTree.length).map (fun x : Nat => (x : Int))
      ∧ (∀ (k : Nat) (node : BvhSimdFlatNode) (x : Nat), bvh.flatTree[k]? = some node → x < 4 →
          node.indices x ≠ -1 → node.isLeaf x = false →
          (k : Int) < node.indices x ∧ node.indices x < (bvh.flatTree.length : Int))
      ∧ (allLaneTargets 4 false bvh.flatTree).count 0 = 0
      ∧ (∀ q : Nat, 1 ≤ q → q < bvh.flatTree.length →
          (allLaneTargets 4 false bvh.flatTree).count (q : Int) = 1)
      ∧ (∀ q : Nat, q < bvh.leaves.length →
          (allLaneTargets 4 true bvh.flatTree).count (q : Int) = 1) :=
  build_preorder_tree 4 (Or.inl rfl) exRefs exPrims exTree exTree_refsValid 0

/-! ## Claims about the termination of the query -/

/-- C26: on the wide tree `build` returns for a well-formed binary tree, `findClosestPoint`
terminates for every query sphere and interaction: with one unit of fuel per wide node the
loop `while(!todo.empty())` ends with the queue empty and the query returns. After any number
`n` of passes the loop has not faulted, and the work items popped so far, together with those in
the queue, which are all the items enqueued so far, name pairwise different wide nodes of the
tree: every wide node is enqueued and dequeued at most once, and at most as many items are
popped as there are wide nodes. -/
theorem findClosestPoint_terminates (sqrtF : ℚ → ℚ) (W : Nat) (hW : W = 4 ∨ W = 8 ∨ W = 16)
    (refs : List ReferenceWrapper) (prims : List Triangle) (t : BTree)
    (hv : RefsValid W refs prims t) (s : BoundingSphere) (i : Interaction) (extra : Nat) :
    ∃ bvh, build W (t.size + 1 + extra) t.flatten refs prims = .ok bvh
      ∧ (∃ q1, traverse sqrtF W bvh.flatTree bvh.leaves prims (SimdBoundingSphere.ofSphere s)
            (bvh.flatTree.length + extra) { todo := [⟨0, minFloat⟩], s := s, i := i } = .ok q1
          ∧ q1.todo = [])
      ∧ (∃ b s1 i1, findClosestPoint sqrtF W (bvh.flatTree.length + extra) bvh prims s i
          = .ok (b, s1, i1))
      ∧ ∀ n, ∃ q1, traversePrefix sqrtF W bvh.flatTree bvh.leaves prims
            (SimdBoundingSphere.ofSphere s) n { todo := [⟨0, minFloat⟩], s := s, i := i }
              = .ok q1
          ∧ ((dequeued sqrtF W bvh.flatTree bvh.leaves prims (SimdBoundingSphere.ofSphere s) n
                { todo := [⟨0, minFloat⟩], s := s, i := i } ++ q1.todo).map fun e => e.i).Nodup
          ∧ (∀ e ∈ dequeued sqrtF W bvh.flatTree bvh.leaves prims
                (SimdBoundingSphere.ofSphere s) n { todo := [⟨0, minFloat⟩], s := s, i := i }
                ++ q1.todo, 0 ≤ e.i ∧ e.i < (bvh.flatTree.length : Int))
          ∧ (dequeued sqrtF W bvh.flatTree bvh.leaves prims (SimdBoundingSphere.ofSphere s) n
                { todo := [⟨0, minFloat⟩], s := s, i := i }).length ≤ bvh.flatTree.length := by
  obtain ⟨_, h2, h3, _⟩ := maxDepthOf_cases W hW
  have hWpos : 0 < W := by rcases hW with rfl | rfl | rfl <;> decide
  have hroot := (wideTreeOf_isWideNodeFor W _ h2 (le_of_eq h3) refs prims t).1
  obtain ⟨_, hnodes, _⟩ := wideTreeOf_tree W _ h2 (le_of_eq h3) refs prims t
  obtain ⟨hend, hall⟩ := traverse_returns sqrtF W _ h2 hWpos t refs prims _ _
    (SimdBoundingSphere.ofSphere s) hv hroot s i
  have hnd : (allLaneTargets W false
      (wideTreeOf W (maxDepthOf W).toNat refs prims t).flatTree).Nodup := by
    rw [List.nodup_iff_count_le_one]
    intro q
    rw [hnodes q]
    split_ifs <;> omega
  have h0 : (0 : Int) ∉ allLaneTargets W false
      (wideTreeOf W (maxDepthOf W).toNat refs prims t).flatTree := by
    rw [← List.count_eq_zero, hnodes 0, if_neg (by omega)]
  have hpos : 0 < (wideTreeOf W (maxDepthOf W).toNat refs prims t).flatTree.length := by
    rw [length_wideTreeOf]
    simp [wideWeight]
  obtain ⟨q1, hq1, hempty⟩ := hend extra
  refine ⟨_, build_eq W hW refs prims t hv extra, ⟨q1, ?_, hempty⟩,
    ⟨decide (q1.s.r2 ≠ maxFloat), q1.s, q1.i, ?_⟩, ?_⟩
  · rw [length_wideTreeOf]
    exact hq1
  · rw [length_wideTreeOf]
    simp only [findClosestPoint, hq1]
  · intro n
    obtain ⟨q2, hq2⟩ := hall n
    have hinv := traversePrefix_once sqrtF W _ _ prims (SimdBoundingSphere.ofSphere s) hnd h0 n
      { todo := [⟨0, minFloat⟩], s := s, i := i } q2 []
      ⟨by simp, fun e he => Or.inl (by
        simp only [List.nil_append, List.mem_singleton] at he
        rw [he])⟩ hq2
    simp only [List.nil_append] at hinv
    have hrange : ∀ e ∈ dequeued sqrtF W
        (wideTreeOf W (maxDepthOf W).toNat refs prims t).flatTree
        (wideTreeOf W (maxDepthOf W).toNat refs prims t).leaves prims
        (SimdBoundingSphere.ofSphere s) n { todo := [⟨0, minFloat⟩], s := s, i := i }
        ++ q2.todo,
        0 ≤ e.i ∧ e.i < ((wideTreeOf W (maxDepthOf W).toNat refs prims t).flatTree.length : Int)
        := by
      intro e he
      rcases hinv.2 e he with he0 | ⟨d, _, node, hnode, hmem⟩
      · rw [he0]
        exact ⟨le_refl _, by exact_mod_cast hpos⟩
      · obtain ⟨kd, hkd⟩ : ∃ kd : Nat, d.i = (kd : Int)
            ∧ (wideTreeOf W (maxDepthOf W).toNat refs prims t).flatTree[kd]? = some node := by
          unfold getI? at hnode
          split at hnode
          · rename_i hp
            exact ⟨d.i.toNat, (Int.toNat_of_nonneg hp).symm, hnode⟩
          · cases hnode
        have hin := laneTargets_mem_all W false _ kd node hkd.2 e.i hmem
        have hc : (allLaneTargets W false
            (wideTreeOf W (maxDepthOf W).toNat refs prims t).flatTree).count e.i ≠ 0 := by
          rw [Ne, List.count_eq_zero]
          exact fun hn => hn hin
        rw [hnodes e.i] at hc
        split_ifs at hc with hcond
        · exact ⟨by omega, hcond.2⟩
        · exact absurd rfl hc
    refine ⟨q2, hq2, hinv.1, hrange, ?_⟩
    have hnd2 : ((dequeued sqrtF W (wideTreeOf W (maxDepthOf W).toNat refs prims t).flatTree
        (wideTreeOf W (maxDepthOf W).toNat refs prims t).leaves prims
        (SimdBoundingSphere.ofSphere s) n
        { todo := [⟨0, minFloat⟩], s := s, i := i }).map fun e => e.i).Nodup := by
      have := hinv.1
      rw [List.map_append, List.nodup_append] at this
      exact this.1
    have := length_le_of_nodup_range _ _ hnd2 (by
      intro x hx
      obtain ⟨e, he, rfl⟩ := List.mem_map.mp hx
      exact hrange e (List.mem_append.mpr (Or.inl he)))
    simpa using this

/-- Witness of C26 on the example tree, queried from `(1/4, 1/4, 1)` with the sentinel radius. -/
theorem findClosestPoint_terminates_witness :
    ∃ bvh, build 4 (exTree.size + 1 + 0) exTree.flatten exRefs exPrims = .ok bvh
      ∧ (∃ q1, traverse id 4 bvh.flatTree bvh.leaves exPrims
            (SimdBoundingSphere.ofSphere ⟨⟨1 / 4, 1 / 4, 1⟩, maxFloat⟩)
            (bvh.flatTree.length + 0)
            { todo := [⟨0, minFloat⟩], s := ⟨⟨1 / 4, 1 / 4, 1⟩, maxFloat⟩, i := initInteraction }
              = .ok q1
          ∧ q1.todo = [])
      ∧ (∃ b s1 i1, findClosestPoint id 4 (bvh.flatTree.length + 0) bvh exPrims
          ⟨⟨1 / 4, 1 / 4, 1⟩, maxFloat⟩ initInteraction = .ok (b, s1, i1))
      ∧ ∀ n, ∃ q1, traversePrefix id 4 bvh.flatTree bvh.leaves exPrims
            (SimdBoundingSphere.ofSphere ⟨⟨1 / 4, 1 / 4, 1⟩, maxFloat⟩) n
            { todo := [⟨0, minFloat⟩], s := ⟨⟨1 / 4, 1 / 4, 1⟩, maxFloat⟩, i := initInteraction }
              = .ok q1
          ∧ ((dequeued id 4 bvh.flatTree bvh.leaves exPrims
                (SimdBoundingSphere.ofSphere ⟨⟨1 / 4, 1 / 4, 1⟩, maxFloat⟩) n
                { todo := [⟨0, minFloat⟩], s := ⟨⟨1 / 4, 1 / 4, 1⟩, maxFloat⟩,
                  i := initInteraction } ++ q1.todo).map fun e => e.i).Nodup
          ∧ (∀ e ∈ dequeued id 4 bvh.flatTree bvh.leaves exPrims
                (SimdBoundingSphere.ofSphere ⟨⟨1 / 4, 1 / 4, 1⟩, maxFloat⟩) n
                { todo := [⟨0, minFloat⟩], s := ⟨⟨1 / 4, 1 / 4, 1⟩, maxFloat⟩,
                  i := initInteraction } ++ q1.todo,
              0 ≤ e.i ∧ e.i < (bvh.flatTree.length : Int))
          ∧ (dequeued id 4 bvh.flatTree bvh.leaves exPrims
                (SimdBoundingSphere.ofSphere ⟨⟨1 / 4, 1 / 4, 1⟩, maxFloat⟩) n
                { todo := [⟨0, minFloat⟩], s := ⟨⟨1 / 4, 1 / 4, 1⟩, maxFloat⟩,
                  i := initInteraction }).length ≤ bvh.flatTree.length :=
  findClosestPoint_terminates id 4 (Or.inl rfl) exRefs exPrims exTree exTree_refsValid
    ⟨⟨1 / 4, 1 / 4, 1⟩, maxFloat⟩ initInteraction 0

/-! ## Claims about the termination of the build -/

/-- C27 (counterexample): with `W = 4`, for the binary tree that is a single leaf `build` returns
and its outer loop pops two jobs, the root job and the job of the leaf lane of the wide root:
both are jobs of the binary node `0`, which is pushed twice. -/
theorem build_root_leaf_pushed_twice :
    (∃ bvh, build 4 (quadLeafTree.size + 1 + 0) quadLeafTree.flatten quadRefs quadPrims
        = .ok bvh)
      ∧ buildJobs 4 (maxDepthOf 4) quadLeafTree.flatten quadRefs quadPrims
          (quadLeafTree.size + 1 + 0) [⟨0, -1, 0⟩]
          { buildNodes := [], buildLeaves := [], nNodes := 0, nLeaves := 0, depth := 0,
            averageLeafSize := 0 } = [⟨0, -1, 0⟩, ⟨0, 0, 1⟩] :=
  ⟨⟨quadLeafBvh, quadLeafBvh_eq_build⟩, by decide!⟩

/-- C27 (amended): for `W` in `{4, 8, 16}` and a well-formed binary tree over triangles, `build`
terminates: with one unit of fuel per binary node and one more, the outer loop ends with its
stack empty, no inner loop having run out of its fuel, and `build` returns. The jobs it pops,
which are the jobs pushed, are the root job of node `0` followed by jobs of binary nodes of the
tree in increasing order of their indices. So every binary node is pushed as a job at most once
when the root is interior, and when the tree is a single leaf its only node is pushed twice, as
the root job and as the job of the leaf. -/
theorem build_terminates (W : Nat) (hW : W = 4 ∨ W = 8 ∨ W = 16)
    (refs : List ReferenceWrapper) (prims : List Triangle) (t : BTree)
    (hv : RefsValid W refs prims t) (extra : Nat) :
    ∃ bvh, build W (t.size + 1 + extra) t.flatten refs prims = .ok bvh
      ∧ (buildJobs W (maxDepthOf W) t.flatten refs prims (t.size + 1 + extra) [⟨0, -1, 0⟩]
            { buildNodes := [], buildLeaves := [], nNodes := 0, nLeaves := 0, depth := 0,
              averageLeafSize := 0 }).map (fun j => j.nodeIndex)
          = 0 :: (jobNodes (maxDepthOf W).toNat (maxDepthOf W).toNat 0 t).map
              (fun x : Nat => (x : Int))
      ∧ (jobNodes (maxDepthOf W).toNat (maxDepthOf W).toNat 0 t).Pairwise (fun a b => a < b)
      ∧ (∀ x ∈ jobNodes (maxDepthOf W).toNat (maxDepthOf W).toNat 0 t, x < t.size)
      ∧ (t.isLeaf = false →
          ((buildJobs W (maxDepthOf W) t.flatten refs prims (t.size + 1 + extra) [⟨0, -1, 0⟩]
            { buildNodes := [], buildLeaves := [], nNodes := 0, nLeaves := 0, depth := 0,
              averageLeafSize := 0 }).map (fun j => j.nodeIndex)).Nodup)
      ∧ (t.isLeaf = true →
          (buildJobs W (maxDepthOf W) t.flatten refs prims (t.size + 1 + extra) [⟨0, -1, 0⟩]
            { buildNodes := [], buildLeaves := [], nNodes := 0, nLeaves := 0, depth := 0,
              averageLeafSize := 0 }).map (fun j => j.nodeIndex) = [0, 0]) := by
  obtain ⟨h1, h2, h3, _⟩ := maxDepthOf_cases W hW
  have hjobs := buildJobs_root W (maxDepthOf W).toNat h2 (le_of_eq h3) refs prims t hv extra
  rw [← h1] at hjobs
  obtain ⟨hb, hs⟩ := jobNodes_sorted (maxDepthOf W).toNat t (maxDepthOf W).toNat 0
  refine ⟨_, build_eq W hW refs prims t hv extra, hjobs, hs, fun x hx => by
    have := hb x hx; omega, ?_, ?_⟩
  · intro hleaf
    rw [hjobs, List.nodup_cons]
    constructor
    · intro hmem
      obtain ⟨x, hx, hx0⟩ := List.mem_map.mp hmem
      have hx00 : x = 0 := by omega
      subst hx00
      cases t with
      | leaf b s n => simp [BTree.isLeaf] at hleaf
      | node b s n l r =>
        obtain ⟨m, hm⟩ : ∃ m, (maxDepthOf W).toNat = m + 1 :=
          ⟨(maxDepthOf W).toNat - 1, by omega⟩
        rw [hm] at hx
        simp only [jobNodes, List.mem_append] at hx
        rcases hx with hx | hx
        · have := (jobNodes_sorted (m + 1) l m (0 + 1)).1 0 hx
          omega
        · have := (jobNodes_sorted (m + 1) r m (0 + 1 + l.size)).1 0 hx
          omega
    · refine List.Nodup.map (fun a b hab => by exact_mod_cast hab) ?_
      exact hs.imp (fun h => Nat.ne_of_lt h)
  · intro hleaf
    rw [hjobs]
    cases t with
    | leaf b s n => simp [jobNodes]
    | node b s n l r => simp [BTree.isLeaf] at hleaf

/-- Witness of the amended C27 on the example tree with `W = 4`. -/
theorem build_terminates_witness :
    ∃ bvh, build 4 (exTree.size + 1 + 0) exTree.flatten exRefs exPrims = .ok bvh
      ∧ (buildJobs 4 (maxDepthOf 4) exTree.flatten exRefs exPrims (exTree.size + 1 + 0)
            [⟨0, -1, 0⟩]
            { buildNodes := [], buildLeaves := [], nNodes := 0, nLeaves := 0, depth := 0,
              averageLeafSize := 0 }).map (fun j => j.nodeIndex)
          = 0 :: (jobNodes (maxDepthOf 4).toNat (maxDepthOf 4).toNat 0 exTree).map
              (fun x : Nat => (x : Int))
      ∧ (jobNodes (maxDepthOf 4).toNat (maxDepthOf 4).toNat 0 exTree).Pairwise
          (fun a b => a < b)
      ∧ (∀ x ∈ jobNodes (maxDepthOf 4).toNat (maxDepthOf 4).toNat 0 exTree, x < exTree.size)
      ∧ (exTree.isLeaf = false →
          ((buildJobs 4 (maxDepthOf 4) exTree.flatten exRefs exPrims (exTree.size + 1 + 0)
            [⟨0, -1, 0⟩]
            { buildNodes := [], buildLeaves := [], nNodes := 0, nLeaves := 0, depth := 0,
              averageLeafSize := 0 }).map (fun j => j.nodeIndex)).Nodup)
      ∧ (exTree.isLeaf = true →
          (buildJobs 4 (maxDepthOf 4) exTree.flatten exRefs exPrims (exTree.size + 1 + 0)
            [⟨0, -1, 0⟩]
            { buildNodes := [], buildLeaves := [], nNodes := 0, nLeaves := 0, depth := 0,
              averageLeafSize := 0 }).map (fun j => j.nodeIndex) = [0, 0]) :=
  build_terminates 4 (Or.inl rfl) exRefs exPrims exTree exTree_refsValid 0

/-! ## Claims about the closest-point query -/

/-- C4: during one `findClosestPoint` call the squared radius never grows. The shrink in
`parseOverlap` and the update in `processLeafNode` each leave `r2` as it is or store a strictly
smaller value, and the `r2` a call returns is at most the `r2` it was given. -/
theorem findClosestPoint_r2_monotone (sqrtF : ℚ → ℚ) (W fuel : Nat) (bvh : BvhSimd)
    (prims : List Triangle) (s : BoundingSphere) (i : Interaction) (b : Bool)
    (s1 : BoundingSphere) (i1 : Interaction)
    (h : findClosestPoint sqrtF W fuel bvh prims s i = .ok (b, s1, i1)) :
    s1.r2 ≤ s.r2
      ∧ (∀ (overlap : ParallelOverlapResult) (index : Nat) (s0 : BoundingSphere),
          (parseOverlap overlap index s0).2.2.r2 = s0.r2
            ∨ (parseOverlap overlap index s0).2.2.r2 < s0.r2)
      ∧ (∀ (node : BvhSimdFlatNode) (sbs : SimdBoundingSphere) (s0 : BoundingSphere)
          (i0 : Interaction) (index : Nat) (s2 : BoundingSphere) (i2 : Interaction),
          processLeafNode sqrtF W node bvh.leaves sbs s0 i0 prims index = .ok (s2, i2) →
          s2.r2 = s0.r2 ∨ s2.r2 < s0.r2) :=
  ⟨(findClosestPoint_r2_le sqrtF W fuel bvh prims s i b s1 i1 h).1,
   fun overlap index s0 => (parseOverlap_r2 overlap index s0).1,
   fun node sbs s0 i0 index s2 i2 h2 =>
     (processLeafNode_r2 sqrtF W node bvh.leaves sbs s0 i0 prims index s2 i2 h2).1⟩

/-- Witness of C4: a query of the example tree from the sentinel radius ends with `r2 = 1`. -/
theorem findClosestPoint_r2_monotone_witness :
    (1 : ℚ) ≤ maxFloat
      ∧ (∀ (overlap : ParallelOverlapResult) (index : Nat) (s0 : BoundingSphere),
          (parseOverlap overlap index s0).2.2.r2 = s0.r2
            ∨ (parseOverlap overlap index s0).2.2.r2 < s0.r2)
      ∧ (∀ (node : BvhSimdFlatNode) (sbs : SimdBoundingSphere) (s0 : BoundingSphere)
          (i0 : Interaction) (index : Nat) (s2 : BoundingSphere) (i2 : Interaction),
          processLeafNode id 4 node exBvh.leaves sbs s0 i0 exPrims index = .ok (s2, i2) →
          s2.r2 = s0.r2 ∨ s2.r2 < s0.r2) :=
  findClosestPoint_r2_monotone id 4 3 exBvh exPrims ⟨⟨1 / 4, 1 / 4, 1⟩, maxFloat⟩ initInteraction
    true ⟨⟨1 / 4, 1 / 4, 1⟩, 1⟩ ⟨⟨1 / 4, 1 / 4, 0⟩, Vector3.zero, 1, some 0⟩ exBvh_query

/-- C2 (failing input): on the wide tree built from the example, a query centred at
`(10, 0, 0)` with the finite squared radius `1` reaches no primitive, leaves the sphere and the
interaction exactly as given, with a null primitive, and still returns `true`. -/
theorem findClosestPoint_true_without_result :
    ∃ bvh, build 4 (exTree.size + 1 + 0) exTree.flatten exRefs exPrims = .ok bvh
      ∧ findClosestPoint id 4 3 bvh exPrims ⟨⟨10, 0, 0⟩, 1⟩ initInteraction
          = .ok (true, ⟨⟨10, 0, 0⟩, 1⟩, initInteraction)
      ∧ initInteraction.primitive = none :=
  ⟨exBvh, exBvh_eq_build, by decide!, rfl⟩

/-- C3 (counterexample): the wide tree built from the far triangle holds primitive `0`, yet a
query from the origin with the sentinel radius returns `false`; and with an initial squared
radius above the sentinel the query returns `true` although the radius it ends with is not
below `maxFloat`. -/
theorem findClosestPoint_false_on_far_triangle :
    ∃ bvh, build 4 (farTree.size + 1 + 0) farTree.flatten [⟨0⟩] [farTri] = .ok bvh
      ∧ (∃ leaf, bvh.leaves[0]? = some leaf ∧ leaf.indices 0 = 0)
      ∧ findClosestPoint id 4 1 bvh [farTri] ⟨⟨0, 0, 0⟩, maxFloat⟩ initInteraction
          = .ok (false, ⟨⟨0, 0, 0⟩, maxFloat⟩, initInteraction)
      ∧ findClosestPoint id 4 1 bvh [farTri] ⟨⟨0, 0, 0⟩, maxFloat + 1⟩ initInteraction
          = .ok (true, ⟨⟨0, 0, 0⟩, maxFloat + 1⟩, initInteraction)
      ∧ ¬ (maxFloat + 1 < maxFloat) :=
  ⟨farBvh, farBvh_eq_build, ⟨_, rfl, by decide!⟩, by decide!, by decide!, by norm_num⟩

/-- C3 (amended): `findClosestPoint` returns `true` exactly when the squared radius it ends with
differs from `maxFloat`, which for an initial squared radius of at most `maxFloat` means
strictly below `maxFloat`. On the wide tree built from a well-formed binary tree all of whose
node boxes have their farthest corner at squared distance below `maxFloat` from the centre, a
query with the sentinel as initial squared radius returns `true`. -/
theorem findClosestPoint_return_value (sqrtF : ℚ → ℚ) (W : Nat) (hW : W = 4 ∨ W = 8 ∨ W = 16)
    (refs : List ReferenceWrapper) (prims : List Triangle) (t : BTree)
    (hv : RefsValid W refs prims t) (s : BoundingSphere) (i : Interaction) (extra : Nat)
    (hfar : ∀ nd ∈ t.flatten, boxFar2 nd.bbox s.c < maxFloat) (hs : s.r2 = maxFloat) :
    (∀ (fuel : Nat) (bvh : BvhSimd) (s0 : BoundingSphere) (i0 : Interaction) (b : Bool)
        (s1 : BoundingSphere) (i1 : Interaction),
        findClosestPoint sqrtF W fuel bvh prims s0 i0 = .ok (b, s1, i1) →
        (b = true ↔ s1.r2 ≠ maxFloat) ∧ (s0.r2 ≤ maxFloat → (b = true ↔ s1.r2 < maxFloat)))
      ∧ ∃ bvh s1 i1, build W (t.size + 1 + extra) t.flatten refs prims = .ok bvh
          ∧ findClosestPoint sqrtF W (bvh.flatTree.length + extra) bvh prims s i
              = .ok (true, s1, i1)
          ∧ s1.r2 < maxFloat := by
  constructor
  · intro fuel bvh s0 i0 b s1 i1 h
    obtain ⟨h1, _, h3⟩ := findClosestPoint_r2_le sqrtF W fuel bvh prims s0 i0 b s1 i1 h
    constructor
    · rw [h3]; simp
    · intro hle
      rw [h3]
      simp only [ne_eq, decide_eq_true_eq]
      constructor
      · intro hne
        exact lt_of_le_of_ne (le_trans h1 hle) hne
      · intro hlt
        exact ne_of_lt hlt
  · obtain ⟨s1, i1, h1, h2⟩ := findClosestPoint_total sqrtF W hW refs prims t hv s i extra hfar hs
    exact ⟨_, s1, i1, build_eq W hW refs prims t hv extra, h1, h2⟩

/-- Witness of the amended C3 on the example tree, queried from `(1/4, 1/4, 1)`. -/
theorem findClosestPoint_return_value_witness :
    (∀ (fuel : Nat) (bvh : BvhSimd) (s0 : BoundingSphere) (i0 : Interaction) (b : Bool)
        (s1 : BoundingSphere) (i1 : Interaction),
        findClosestPoint id 4 fuel bvh exPrims s0 i0 = .ok (b, s1, i1) →
        (b = true ↔ s1.r2 ≠ maxFloat) ∧ (s0.r2 ≤ maxFloat → (b = true ↔ s1.r2 < maxFloat)))
      ∧ ∃ bvh s1 i1, build 4 (exTree.size + 1 + 0) exTree.flatten exRefs exPrims = .ok bvh
          ∧ findClosestPoint id 4 (bvh.flatTree.length + 0) bvh exPrims
              ⟨⟨1 / 4, 1 / 4, 1⟩, maxFloat⟩ initInteraction = .ok (true, s1, i1)
          ∧ s1.r2 < maxFloat :=
  findClosestPoint_return_value id 4 (Or.inl rfl) exRefs exPrims exTree exTree_refsValid
    ⟨⟨1 / 4, 1 / 4, 1⟩, maxFloat⟩ initInteraction 0
    (by
      intro nd hnd
      simp only [exTree, BTree.flatten, List.cons_append, List.nil_append, List.mem_cons,
        List.mem_singleton, List.not_mem_nil, or_false] at hnd
      rcases hnd with rfl | rfl | rfl | rfl | rfl <;> norm_num [boxFar2, maxFloat])
    rfl

end Fcpw
